import Mathlib

/-! Sparse multivariate polynomials with integer coefficients: the arithmetic engine of
`poly.c` and the printer, validator and parser of `parser.c`, as Lean functions, with the
properties of the specification proved about them. -/

namespace IPP

open MvPolynomial

/-! ## Data model -/

mutual
/-- Modelled from the spec: `poly.h` (the declaration of `struct Poly`) is not among the
sources. A polynomial is either a coefficient (`arr == NULL`, the value in `coeff`) or a
sum of monomials (`arr != NULL`, `size` entries, here the length of the list). -/
inductive Poly where
  | coeff (c : Int) : Poly
  | sum (arr : List Mono) : Poly
/-- Modelled from the spec: `struct Mono` of `poly.h`, the monomial `p * x^exp`. -/
inductive Mono where
  | mk (p : Poly) (exp : Int) : Mono
end

/-- Field `p` of a monomial. -/
def Mono.p : Mono → Poly
  | .mk p _ => p

/-- Field `exp` of a monomial. -/
def Mono.exp : Mono → Int
  | .mk _ e => e

/-- Value of a `long` (`poly_coeff_t`) after an arithmetic operation: two's complement
wrap-around to 64 bits. -/
def wrapLong (x : Int) : Int := (x + 2 ^ 63) % 2 ^ 64 - 2 ^ 63

/-- Value of an `int` (`poly_exp_t`) after an arithmetic operation: wrap-around to 32 bits. -/
def wrapInt (x : Int) : Int := (x + 2 ^ 31) % 2 ^ 32 - 2 ^ 31

/-- Modelled from the spec: `PolyFromCoeff` of `poly.h`. -/
def PolyFromCoeff (c : Int) : Poly := .coeff c

/-- Modelled from the spec: `PolyZero` of `poly.h`, the coefficient `0`. -/
def PolyZero : Poly := PolyFromCoeff 0

/-- Modelled from the spec: `PolyIsCoeff` of `poly.h`, true iff the variant is a
coefficient. -/
def PolyIsCoeff : Poly → Bool
  | .coeff _ => true
  | .sum _ => false

/-- Modelled from the spec: `PolyIsZero` of `poly.h`, true iff the polynomial is the
coefficient `0`. -/
def PolyIsZero : Poly → Bool
  | .coeff c => c == 0
  | .sum _ => false

/-! ## Addition -/

/-- Source function `PolyAddCoeff(q, scalar)`. The source reads `q->arr[0]` without a size check; on the
empty sum (never built by the engine) the model takes the branch "no monomial of exponent 0". -/
def PolyAddCoeff : Poly → Int → Poly
  | .coeff c, scalar => PolyFromCoeff (wrapLong (scalar + c))
  | .sum [], scalar => .sum [.mk (PolyFromCoeff scalar) 0]
  | .sum (.mk p0 e0 :: rest), scalar =>
    if e0 == 0 then
      let coeff := PolyAddCoeff p0 scalar
      if PolyIsZero coeff then .sum rest
      else .sum (.mk coeff 0 :: rest)
    else .sum (.mk (PolyFromCoeff scalar) 0 :: .mk p0 e0 :: rest)

/-- The test `temp.arr != NULL && temp.size == 1 && PolyIsZero(&temp.arr[0].p)` of `PolyAdd`. -/
def singleZeroMono : Poly → Bool
  | .sum [m] => PolyIsZero m.p
  | _ => false

/-- The end of `PolyAdd`: the collected array becomes zero when empty, a coefficient when it
is one monomial of exponent 0 with a coefficient, a sum otherwise. -/
def PolyAddFinish : List Mono → Poly
  | [] => PolyZero
  | [.mk (.coeff c) e] => if e == 0 then PolyFromCoeff c else .sum [.mk (.coeff c) e]
  | arr => .sum arr

mutual
/-- Source function `PolyAdd` with a recursion budget. -/
def PolyAddFuel : Nat → Poly → Poly → Poly
  | 0, _, _ => PolyZero
  | fuel + 1, p, q =>
    if PolyIsZero p then q
    else if PolyIsZero q then p
    else
      match p, q with
      | .coeff a, .coeff b => PolyFromCoeff (wrapLong (a + b))
      | .coeff a, .sum qs => PolyAddCoeff (.sum qs) a
      | .sum ps, .coeff b => PolyAddCoeff (.sum ps) b
      | .sum ps, .sum qs => PolyAddFinish (PolyAddLoop fuel ps qs)
/-- The merge loops of `PolyAdd` over the monomials `p->arr[i..]` and `q->arr[j..]`. -/
def PolyAddLoop : Nat → List Mono → List Mono → List Mono
  | 0, _, _ => []
  | _ + 1, [], qs => qs
  | _ + 1, mp :: ps, [] => mp :: ps
  | fuel + 1, mp :: ps, mq :: qs =>
    if mp.exp < mq.exp then mp :: PolyAddLoop fuel ps (mq :: qs)
    else if mp.exp > mq.exp then mq :: PolyAddLoop fuel (mp :: ps) qs
    else
      let temp := PolyAddFuel fuel mp.p mq.p
      if PolyIsZero temp then PolyAddLoop fuel ps qs
      else if singleZeroMono temp then PolyAddLoop fuel ps qs
      else .mk temp mp.exp :: PolyAddLoop fuel ps qs
end

mutual
/-- Number of nodes of a polynomial, the recursion budget of the binary operations. -/
def Poly.size : Poly → Nat
  | .coeff _ => 1
  | .sum arr => 1 + Mono.sizeList arr
/-- Number of nodes of a list of monomials. -/
def Mono.sizeList : List Mono → Nat
  | [] => 0
  | .mk p _ :: ms => 1 + p.size + Mono.sizeList ms
end

/-- Source function `PolyAdd(p, q)`. -/
def PolyAdd (p q : Poly) : Poly := PolyAddFuel (p.size + q.size) p q

mutual
/-- Source function `PolyNeg(p)`. -/
def PolyNeg : Poly → Poly
  | .coeff c => .coeff (wrapLong (-c))
  | .sum arr => .sum (PolyNegMonos arr)
/-- The loop of `PolyNeg` over the monomials. -/
def PolyNegMonos : List Mono → List Mono
  | [] => []
  | .mk p e :: ms => .mk (PolyNeg p) e :: PolyNegMonos ms
end

/-- Source function `PolySub(p, q)`. -/
def PolySub (p q : Poly) : Poly := PolyAdd p (PolyNeg q)

mutual
/-- Source function `PolyIsEq(p, q)`. -/
def PolyIsEq : Poly → Poly → Bool
  | .coeff a, .coeff b => a == b
  | .coeff _, .sum _ => false
  | .sum _, .coeff _ => false
  | .sum ps, .sum qs => if ps.length != qs.length then false else PolyIsEqLoop ps qs
/-- The loop of `PolyIsEq` over two arrays of the same size. -/
def PolyIsEqLoop : List Mono → List Mono → Bool
  | [], _ => true
  | _ :: _, [] => true
  | .mk p e :: ps, .mk q f :: qs =>
    if e != f then false
    else if !PolyIsEq p q then false
    else PolyIsEqLoop ps qs
end

/-! ## Normalisation of monomial lists -/

/-- Source function `MonoCmp(a, b)`: the difference of the exponents, computed in `int`. -/
def MonoCmp (a b : Mono) : Int := wrapInt (a.exp - b.exp)

/-- The merging loop of `PolyAddMonos` over the sorted array, `cur` being `arr[i]`:
a monomial with the exponent of its successor is added to the successor and replaced by zero. -/
def mergeEqualExp (cur : Mono) : List Mono → List Mono
  | [] => [cur]
  | next :: rest =>
    if cur.exp == next.exp then
      .mk PolyZero cur.exp :: mergeEqualExp (.mk (PolyAdd next.p cur.p) next.exp) rest
    else cur :: mergeEqualExp next rest

/-- The part of `PolyAddMonos` after the call of `qsort`, on the sorted array: equal
exponents are merged, zero monomials are removed, a lone constant becomes a coefficient. -/
def PolyAddMonosSorted : List Mono → Poly
  | [] => PolyZero
  | first :: rest =>
    let arr := (mergeEqualExp first rest).filter (fun m => !PolyIsZero m.p)
    match arr with
    | [] => PolyZero
    | [.mk (.coeff c) e] => if e == 0 then PolyFromCoeff c else .sum arr
    | _ => .sum arr

/-- Source function `PolyAddMonos(count, monos)`. The library `qsort` is modelled by the stable insertion sort
under `MonoCmp`; `qsort` does not fix the order of monomials of equal exponent. -/
def PolyAddMonos (monos : List Mono) : Poly :=
  PolyAddMonosSorted (List.insertionSort (fun a b => MonoCmp a b ≤ 0) monos)

/-! ## Multiplication -/

mutual
/-- Source function `PolyMulScalar(p, scalar)`. -/
def PolyMulScalar : Poly → Int → Poly
  | .coeff c, scalar =>
    if scalar == 0 then PolyZero
    else if c == 0 then PolyZero
    else PolyFromCoeff (wrapLong (scalar * c))
  | .sum arr, scalar =>
    if scalar == 0 then PolyZero
    else PolyAddMonos (PolyMulScalarMonos arr scalar)
/-- The loop of `PolyMulScalar` over the monomials. -/
def PolyMulScalarMonos : List Mono → Int → List Mono
  | [], _ => []
  | .mk p e :: ms, scalar => .mk (PolyMulScalar p scalar) e :: PolyMulScalarMonos ms scalar
end

mutual
/-- Source function `PolyMul(p, q)`. -/
def PolyMul : Poly → Poly → Poly
  | .coeff a, .coeff b =>
    if a == 0 || b == 0 then PolyZero else PolyFromCoeff (wrapLong (a * b))
  | .coeff a, .sum qs => if a == 0 then PolyZero else PolyMulScalar (.sum qs) a
  | .sum ps, .coeff b => if b == 0 then PolyZero else PolyMulScalar (.sum ps) b
  | .sum ps, .sum qs => PolyAddMonos (PolyMulLoop ps qs)
/-- The double loop of `PolyMul`: for every `i`, for every `j`, the monomial
`(p->arr[i].exp + q->arr[j].exp, PolyMul(&p->arr[i].p, &q->arr[j].p))`. -/
def PolyMulLoop : List Mono → List Mono → List Mono
  | [], _ => []
  | .mk p e :: ps, qs =>
    qs.map (fun mq => .mk (PolyMul p mq.p) (wrapInt (e + mq.exp))) ++ PolyMulLoop ps qs
end

/-- Source function `PolyPower` with a recursion budget. -/
def PolyPowerFuel : Nat → Poly → Nat → Poly
  | 0, _, _ => PolyFromCoeff 1
  | fuel + 1, q, pow =>
    if pow == 1 then q
    else if pow == 0 then PolyFromCoeff 1
    else if pow % 2 == 0 then
      let temp := PolyPowerFuel fuel q (pow / 2)
      PolyMul temp temp
    else
      let temp := PolyPowerFuel fuel q ((pow - 1) / 2)
      let temp2 := PolyMul temp temp
      PolyMul q temp2

/-- Source function `PolyPower(q, pow)`. -/
def PolyPower (q : Poly) (pow : Nat) : Poly := PolyPowerFuel (pow + 1) q pow

mutual
/-- Source function `PolyCompose(p, k, q)`: the first `k` entries of the array `q` are the substitutions.
Reading `q[0]` of an array shorter than `k` is outside the contract; the model reads zero. -/
def PolyCompose : Poly → Nat → List Poly → Poly
  | .coeff c, _, _ => .coeff c
  | .sum arr, k, q =>
    let _q := if k == 0 then PolyZero else q.headD PolyZero
    let _k := if k == 0 then 0 else k - 1
    PolyComposeLoop arr _q _k q.tail PolyZero
/-- The loop of `PolyCompose` over the monomials, `res` being the sum so far and
`q1` the array `q + 1`; the exponent is converted to `size_t` for `PolyPower`. -/
def PolyComposeLoop : List Mono → Poly → Nat → List Poly → Poly → Poly
  | [], _, _, _, res => res
  | .mk p e :: ms, _q, _k, q1, res =>
    let temp := PolyPower _q (e % 2 ^ 64).toNat
    let temp2 := PolyCompose p _k q1
    let temp3 := PolyMul temp temp2
    PolyComposeLoop ms _q _k q1 (PolyAdd temp3 res)
end

/-! ## Evaluation -/

/-- The loop of `power` with a budget of iterations: `acc`, `a`, `n` are the variables of
the source. -/
def powerLoop : Nat → Int → Int → Int → Int
  | 0, acc, _, _ => acc
  | fuel + 1, acc, a, n =>
    if n > 0 then
      let acc1 := if n % 2 == 1 then wrapLong (acc * a) else acc
      powerLoop fuel acc1 (wrapLong (a * a)) (n / 2)
    else acc

/-- Source function `power(a, n)`: `n` is halved at each iteration, so `n` iterations are enough. -/
def power (a n : Int) : Int := powerLoop n.toNat 1 a n

/-- Source function `PolyAt(p, x)`. -/
def PolyAt : Poly → Int → Poly
  | .coeff c, _ => PolyFromCoeff c
  | .sum arr, x =>
    arr.foldl (fun temp m => PolyAdd temp (PolyMulScalar m.p (power x m.exp))) PolyZero

/-! ## Canonical form -/

/-- The largest exponent, `2^31 - 1`. -/
def maxExp : Int := 2 ^ 31 - 1

/-- Invariant 2 fails: the array is one monomial of exponent 0 with a coefficient. -/
def collapsible : List Mono → Bool
  | [.mk (.coeff _) e] => e == 0
  | _ => false

mutual
/-- Canonical form with all exponents at most `B`, at every nesting level: coefficients are
values of `long`; a sum is not empty (invariant 1), is not a lone constant (invariant 2),
has strictly increasing exponents (invariant 3) and no zero sub-polynomial (invariant 4). -/
def CanonB (B : Int) : Poly → Bool
  | .coeff c => decide (-2 ^ 63 ≤ c) && decide (c < 2 ^ 63)
  | .sum arr =>
    CanonMonosB B arr && !arr.isEmpty && !collapsible arr
      && decide ((arr.map Mono.exp).Pairwise (fun a b => a < b))
/-- Every monomial of the array has an exponent in `0..B` and a canonical sub-polynomial
that is not zero. -/
def CanonMonosB (B : Int) : List Mono → Bool
  | [] => true
  | .mk p e :: ms =>
    decide (0 ≤ e) && decide (e ≤ B) && CanonB B p && !PolyIsZero p && CanonMonosB B ms
end

/-- Canonical form of the data model: exponents in `0..2^31-1`. -/
def Canonical (p : Poly) : Bool := CanonB maxExp p

/-! ## Exponent sums within range -/

mutual
/-- Every exponent sum `p->arr[i].exp + q->arr[j].exp` that `PolyMul p q` computes, at every
level of its recursion, lies in `0..2^31-1`. -/
def PolyMulInRange : Poly → Poly → Bool
  | .coeff _, _ => true
  | .sum _, .coeff _ => true
  | .sum ps, .sum qs => PolyMulLoopInRange ps qs
/-- The exponent sums of the double loop of `PolyMul` and of its recursive calls. -/
def PolyMulLoopInRange : List Mono → List Mono → Bool
  | [], _ => true
  | .mk p e :: ps, qs =>
    qs.all (fun mq =>
      decide (0 ≤ e + mq.exp) && decide (e + mq.exp ≤ maxExp) && PolyMulInRange p mq.p)
      && PolyMulLoopInRange ps qs
end

/-- The exponent sums of the multiplications of `PolyPower`, with its recursion budget. -/
def PolyPowerInRangeFuel : Nat → Poly → Nat → Bool
  | 0, _, _ => true
  | fuel + 1, q, pow =>
    if pow == 1 then true
    else if pow == 0 then true
    else if pow % 2 == 0 then
      let temp := PolyPowerFuel fuel q (pow / 2)
      PolyPowerInRangeFuel fuel q (pow / 2) && PolyMulInRange temp temp
    else
      let temp := PolyPowerFuel fuel q ((pow - 1) / 2)
      let temp2 := PolyMul temp temp
      PolyPowerInRangeFuel fuel q ((pow - 1) / 2) && PolyMulInRange temp temp
        && PolyMulInRange q temp2

/-- Every exponent sum computed by the multiplications of `PolyPower q pow` lies in
`0..2^31-1`. -/
def PolyPowerInRange (q : Poly) (pow : Nat) : Bool := PolyPowerInRangeFuel (pow + 1) q pow

mutual
/-- Every exponent sum computed by the powers and products of `PolyCompose p k q` lies in
`0..2^31-1`. -/
def PolyComposeInRange : Poly → Nat → List Poly → Bool
  | .coeff _, _, _ => true
  | .sum arr, k, q =>
    let _q := if k == 0 then PolyZero else q.headD PolyZero
    let _k := if k == 0 then 0 else k - 1
    PolyComposeLoopInRange arr _q _k q.tail
/-- The exponent sums of the loop of `PolyCompose`. -/
def PolyComposeLoopInRange : List Mono → Poly → Nat → List Poly → Bool
  | [], _, _, _ => true
  | .mk p e :: ms, _q, _k, q1 =>
    PolyPowerInRange _q (e % 2 ^ 64).toNat && PolyComposeInRange p _k q1
      && PolyMulInRange (PolyPower _q (e % 2 ^ 64).toNat) (PolyCompose p _k q1)
      && PolyComposeLoopInRange ms _q _k q1
end

/-- A monomial handed to the normaliser: exponent in `0..B`, canonical sub-polynomial,
possibly zero. -/
def MonoOkB (B : Int) (m : Mono) : Bool :=
  decide (0 ≤ m.exp) && decide (m.exp ≤ B) && CanonB B m.p

/-- A monomial of a canonical sum: exponent in `0..B`, canonical non-zero sub-polynomial. -/
def MonoNZ (B : Int) (m : Mono) : Prop :=
  0 ≤ m.exp ∧ m.exp ≤ B ∧ CanonB B m.p = true ∧ PolyIsZero m.p = false

/-- A strictly increasing array of monomials of a canonical sum. -/
def MonosOk (B : Int) (arr : List Mono) : Prop :=
  (∀ m ∈ arr, MonoNZ B m) ∧ (arr.map Mono.exp).Pairwise (fun a b => a < b)

/-- The merge loops of `PolyAdd` run with the budget `PolyAdd` gives them. -/
def PolyAddMerge (ps qs : List Mono) : List Mono :=
  PolyAddLoop (Mono.sizeList ps + Mono.sizeList qs) ps qs

/-- The array of `PolyAddMonos` after merging equal exponents and removing zero monomials. -/
def mergedMonos : List Mono → List Mono
  | [] => []
  | first :: rest => (mergeEqualExp first rest).filter (fun m => !PolyIsZero m.p)

/-! ## The polynomial a value stands for -/

mutual
/-- Coefficient of `p` at the exponent vector `v` (`v[i]` the exponent of variable `i`,
missing entries being 0), in the range of `long`. -/
def coeffAt : Poly → List Nat → Int
  | .coeff c, v => if v.all (fun e => e == 0) then c else 0
  | .sum arr, v => wrapLong (coeffAtMonos arr v)
/-- Sum of the coefficients at `v` over the monomials whose exponent is `v[0]`. -/
def coeffAtMonos : List Mono → List Nat → Int
  | [], _ => 0
  | .mk p e :: ms, v =>
    (if e == ((v.headD 0 : Nat) : Int) then coeffAt p v.tail else 0) + coeffAtMonos ms v
end

/-- Sub-polynomial of `p` at the exponent `e` of the outermost variable, zero when absent. -/
def subAt : Poly → Int → Poly
  | .coeff c, e => if e == 0 then .coeff c else PolyZero
  | .sum arr, e =>
    match arr.find? (fun m => m.exp == e) with
    | some m => m.p
    | none => PolyZero

/-- The `PolyAdd`-sum of the sub-polynomials of the monomials of exponent `e`, in array order. -/
def sumAt (monos : List Mono) (e : Int) : Poly :=
  ((monos.filter (fun m => m.exp == e)).map Mono.p).foldl PolyAdd PolyZero

/-- The coefficient ring of the semantics: integers modulo `2^64`. -/
abbrev Coef : Type := ZMod (2 ^ 64)

mutual
/-- The multivariate polynomial over `Coef` that `p` stands for, variable `d` being the
outermost variable of `p`. A proof device, not part of the program. -/
noncomputable def den : Poly → Nat → MvPolynomial Nat Coef
  | .coeff c, _ => MvPolynomial.C (c : Coef)
  | .sum arr, d => denMonos arr d
/-- Sum of `x_d ^ exp * den p (d+1)` over the monomials. -/
noncomputable def denMonos : List Mono → Nat → MvPolynomial Nat Coef
  | [], _ => 0
  | .mk p e :: ms, d => MvPolynomial.X d ^ e.toNat * den p (d + 1) + denMonos ms d
end

/-- The exponent vector `v` as a monomial in the variables `d, d+1, ...`. -/
noncomputable def monoVec : Nat → List Nat → (Nat →₀ Nat)
  | _, [] => 0
  | d, e :: v => Finsupp.single d e + monoVec (d + 1) v

/-! ## Text of a polynomial -/

/-- The character that ends a C string. -/
def NUL : Char := Char.ofNat 0

/-- The character `s[i]` of a C string; past the end of the text it is the terminator. -/
def charAt (s : List Char) (i : Nat) : Char := s.getD i NUL

/-- The decimal digit `d` as a character. -/
def digitChar (d : Nat) : Char := Char.ofNat (48 + d)

/-- Decimal digits of `n`, most significant first, with a budget of digits. -/
def natDigitsFuel : Nat → Nat → List Char
  | 0, _ => []
  | fuel + 1, n =>
    if n < 10 then [digitChar n] else natDigitsFuel fuel (n / 10) ++ [digitChar (n % 10)]

/-- Decimal digits of `n`, as `printf` writes them. -/
def natDigits (n : Nat) : List Char := natDigitsFuel (n + 1) n

/-- The text `printf` writes for a signed integer under `%ld` and `%d`. -/
def printInt (x : Int) : List Char :=
  if x < 0 then '-' :: natDigits (-x).toNat else natDigits x.toNat

mutual
/-- Source function `PolyPrint(p)`: the text written to the standard output. -/
def PolyPrint : Poly → List Char
  | .coeff c => printInt c
  | .sum arr => PolyPrintMonos arr
/-- The loop of `PolyPrint` over the monomials from index `i` on. -/
def PolyPrintMonos : List Mono → List Char
  | [] => []
  | .mk p e :: ms =>
    ('(' :: PolyPrint p) ++ (',' :: printInt e) ++ (')' :: (if ms.isEmpty then []
      else '+' :: PolyPrintMonos ms))
end

/-! ## Reading numbers -/

/-- The C library `isspace` in the C locale. -/
def isSpaceC (c : Char) : Bool := c == ' ' || (decide (9 ≤ c.toNat) && decide (c.toNat ≤ 13))

/-- The digits read by `strtol`: value so far `acc`, result value and unread text. -/
def parseDigits : List Char → Nat → Nat × List Char
  | [], acc => (acc, [])
  | c :: cs, acc =>
    if c.isDigit then parseDigits cs (acc * 10 + (c.toNat - 48)) else (acc, c :: cs)

/-- The C library `strtol(word, &endPtr, 10)`: the value, the text at `endPtr`, and whether
`errno` is set to `ERANGE`. White space is skipped, a sign is optional; without a digit the
value is 0 and `endPtr` is `word`. -/
def strtol (word : List Char) : Int × List Char × Bool :=
  let s1 := word.dropWhile isSpaceC
  let neg := charAt s1 0 == '-'
  let s2 := if charAt s1 0 == '-' || charAt s1 0 == '+' then s1.drop 1 else s1
  if (charAt s2 0).isDigit then
    let r := parseDigits s2 0
    let x : Int := if neg then -(r.1 : Int) else (r.1 : Int)
    if x > 2 ^ 63 - 1 then (2 ^ 63 - 1, r.2, true)
    else if x < -2 ^ 63 then (-2 ^ 63, r.2, true)
    else (x, r.2, false)
  else (0, word, false)

/-! ## The parser -/

/-- The loop of `IsCorrect` from the character `c` on. The three counters `open`, `close`
and `coma` are of type `int`: an increment wraps around at `2^31`. -/
def IsCorrectLoop : List Char → Int → Int → Int → Bool
  | [], open_, close, _ => open_ == close
  | c :: rest, open_, close, coma =>
    if c == NUL then open_ == close
    else
      let z := charAt rest 0
      let ok1 := c == Char.ofNat 10 || c.isDigit
      let ok2 := c == '+' && z == '('
      let ok3 := c == '-' && z.isDigit
      let b4 := c == '(' && (z.isDigit || z == '-' || z == '(')
      let open1 := if b4 then wrapInt (open_ + 1) else open_
      let b5 := c == ')' && (z == '+' || z == Char.ofNat 10 || z == NUL || z == ')' || z == ',')
      let close1 := if b5 then wrapInt (close + 1) else close
      if b5 && z == '(' then false
      else
        let b6 := c == ',' && (z.isDigit || z == '-' || z == '+')
        let coma1 := if b6 then wrapInt (coma + 1) else coma
        if b6 && decide (coma1 > open1) then false
        else if !(ok1 || ok2 || ok3 || b4 || b5 || b6) || decide (open1 < close1) then false
        else IsCorrectLoop rest open1 close1 coma1

/-- Source function `IsCorrect(c)`. -/
def IsCorrect (c : List Char) : Bool := IsCorrectLoop c 0 0 0

/-- The loop of `IsCorrect` run with counters that cannot overflow. It is a reference for the
proofs only: `IsCorrectLoop` is the loop of the source, and the two agree on every text that
has fewer than `2^31 - 1` opening parentheses (`IsCorrectLoop_eq_unbounded`). -/
def IsCorrectLoopUnbounded : List Char → Nat → Nat → Nat → Bool
  | [], open_, close, _ => open_ == close
  | c :: rest, open_, close, coma =>
    if c == NUL then open_ == close
    else
      let z := charAt rest 0
      let ok1 := c == Char.ofNat 10 || c.isDigit
      let ok2 := c == '+' && z == '('
      let ok3 := c == '-' && z.isDigit
      let b4 := c == '(' && (z.isDigit || z == '-' || z == '(')
      let open1 := if b4 then open_ + 1 else open_
      let b5 := c == ')' && (z == '+' || z == Char.ofNat 10 || z == NUL || z == ')' || z == ',')
      let close1 := if b5 then close + 1 else close
      if b5 && z == '(' then false
      else
        let b6 := c == ',' && (z.isDigit || z == '-' || z == '+')
        let coma1 := if b6 then coma + 1 else coma
        if b6 && decide (coma1 > open1) then false
        else if !(ok1 || ok2 || ok3 || b4 || b5 || b6) || decide (open1 < close1) then false
        else IsCorrectLoopUnbounded rest open1 close1 coma1

/-- Source function `IsCoeff(word)`. -/
def IsCoeff (word : List Char) : Bool :=
  let r := strtol word
  let okEndPtr := charAt r.2.1 0 == ',' || charAt r.2.1 0 == Char.ofNat 10 || charAt r.2.1 0 == NUL
  let okFirstCharacter := (charAt word 0).isDigit || charAt word 0 == '-'
  !r.2.2 && okEndPtr && okFirstCharacter

/-- Source function `IsExp(word)`. -/
def IsExp (word : List Char) : Bool :=
  let r := strtol word
  let okRange := !(decide (r.1 > 2147483647) || decide (r.1 < 0))
  let okEndPtr := charAt r.2.1 0 == ')' || charAt r.2.1 0 == Char.ofNat 10 || charAt r.2.1 0 == NUL
  let okFirstCharacter := (charAt word 0).isDigit || charAt word 0 == '-'
  !r.2.2 && okRange && okEndPtr && okFirstCharacter

/-- Source function `WordToCoeff(word, endPtr)`: the coefficient and the text at `*endPtr`. -/
def WordToCoeff (word : List Char) : Poly × List Char :=
  (PolyFromCoeff (strtol word).1, (strtol word).2.1)

mutual
/-- Source function `ParsePoly(word, correct, endPtr)` with a recursion budget: `none` when
`*correct` becomes false, otherwise the polynomial and the text at `*endPtr`. -/
def ParsePolyFuel : Nat → List Char → Option (Poly × List Char)
  | 0, _ => none
  | fuel + 1, word =>
    if IsCoeff word then some (WordToCoeff word)
    else if charAt word 0 != '(' || charAt word 1 == ',' then none
    else ParseMonosFuel fuel word []
/-- The loop of `ParsePoly`: `word` is at the parenthesis that opens the next monomial,
`monos` holds the monomials read so far. -/
def ParseMonosFuel : Nat → List Char → List Mono → Option (Poly × List Char)
  | 0, _, _ => none
  | fuel + 1, word, monos =>
    match ParsePolyFuel fuel (word.drop 1) with
    | none => none
    | some (p, temp) =>
      if charAt temp 0 != ',' then none
      else if !IsExp (temp.drop 1) then none
      else
        let r := strtol (temp.drop 1)
        let monos1 := monos ++ [.mk p (wrapInt r.1)]
        if charAt r.2.1 0 != ')' then none
        else
          let endPtr := r.2.1.drop 1
          if charAt endPtr 0 == '+' then ParseMonosFuel fuel (endPtr.drop 1) monos1
          else if charAt endPtr 0 == Char.ofNat 10 || charAt endPtr 0 == NUL
              || charAt endPtr 0 == ',' then
            some (PolyAddMonos monos1, endPtr)
          else none
end

/-- Source function `ParsePoly` on a line: every call consumes a character, so twice the
length of the line is budget enough. -/
def ParsePoly (word : List Char) : Option (Poly × List Char) :=
  ParsePolyFuel (2 * word.length + 2) word

/-- The text `rest` starts with a character that may follow a polynomial: a comma, the end
of the line or the end of the text. -/
def isTerm (rest : List Char) : Bool :=
  charAt rest 0 == ',' || charAt rest 0 == Char.ofNat 10 || charAt rest 0 == NUL

mutual
/-- Number of monomials of a polynomial at all nesting levels: the number of its opening
parentheses in print. -/
def Poly.parens : Poly → Nat
  | .coeff _ => 0
  | .sum arr => Mono.parensList arr
/-- Number of monomials of an array at all nesting levels. -/
def Mono.parensList : List Mono → Nat
  | [] => 0
  | .mk p _ :: ms => 1 + p.parens + Mono.parensList ms
end

/-! ## Degrees -/

/-- Source function `max` of `poly.c`. -/
def intMax (a b : Int) : Int := if a > b then a else b

mutual
/-- Source function `PolyDegBy(p, var_idx)`. On the empty sum (never built by the engine)
the source reads before the array; the model reads the exponent 0. -/
def PolyDegBy : Poly → Nat → Int
  | .coeff c, _ => if c == 0 then -1 else 0
  | .sum arr, var_idx =>
    if var_idx == 0 then (arr.getLastD (.mk PolyZero 0)).exp
    else PolyDegByLoop arr (var_idx - 1) (-2)
/-- The loop of `PolyDegBy` over the monomials, `deg` being the maximum so far. -/
def PolyDegByLoop : List Mono → Nat → Int → Int
  | [], _, deg => deg
  | .mk p _ :: ms, idx, deg => PolyDegByLoop ms idx (intMax deg (PolyDegBy p idx))
end

mutual
/-- Source function `PolyDeg(p)`; the sum `exp + PolyDeg(sub)` is computed in `int`. -/
def PolyDeg : Poly → Int
  | .coeff c => if c == 0 then -1 else 0
  | .sum arr => PolyDegLoop arr (-2)
/-- The loop of `PolyDeg` over the monomials, `deg` being the maximum so far. -/
def PolyDegLoop : List Mono → Int → Int
  | [], deg => deg
  | .mk p e :: ms, deg => PolyDegLoop ms (intMax deg (wrapInt (e + PolyDeg p)))
end

mutual
/-- Every sum `exp + PolyDeg(sub)` that `PolyDeg p` computes, at every nesting level, lies
in the range of `int`. -/
def PolyDegInRange : Poly → Bool
  | .coeff _ => true
  | .sum arr => PolyDegLoopInRange arr
/-- The sums of the loop of `PolyDeg` and of its recursive calls. -/
def PolyDegLoopInRange : List Mono → Bool
  | [] => true
  | .mk p e :: ms =>
    PolyDegInRange p && decide (-2 ^ 31 ≤ e + PolyDeg p) && decide (e + PolyDeg p ≤ maxExp)
      && PolyDegLoopInRange ms
end

mutual
/-- The constant term of a polynomial, in the words of the specification: the leaf reached
by following the monomial of exponent 0 at every nesting level, 0 when a level has none. -/
def constTerm : Poly → Int
  | .coeff c => c
  | .sum arr => constTermMonos arr
/-- The constant term below the first monomial of exponent 0 of the array. -/
def constTermMonos : List Mono → Int
  | [] => 0
  | .mk p e :: ms => if e == 0 then constTerm p else constTermMonos ms
end

/-! ## Reading unsigned numbers and C strings -/

/-- The C library `strtoull(word, &endPtr, 10)`: the value, the text at `endPtr`, and
whether `errno` is set to `ERANGE`. A leading `-` negates modulo `2^64`. -/
def strtoull (word : List Char) : Nat × List Char × Bool :=
  let s1 := word.dropWhile isSpaceC
  let neg := charAt s1 0 == '-'
  let s2 := if charAt s1 0 == '-' || charAt s1 0 == '+' then s1.drop 1 else s1
  if (charAt s2 0).isDigit then
    let r := parseDigits s2 0
    if r.1 > 2 ^ 64 - 1 then (2 ^ 64 - 1, r.2, true)
    else if neg then ((2 ^ 64 - r.1) % 2 ^ 64, r.2, false)
    else (r.1, r.2, false)
  else (0, word, false)

/-- The C string held in a buffer: the characters before the first terminator. -/
def cstr (s : List Char) : List Char := s.takeWhile (fun c => c != NUL)

/-- The C library test `strcmp(s, lit) == 0`. -/
def strcmpEq (s lit : List Char) : Bool := cstr s == lit

/-- The C library test `strncmp(s, lit, n) == 0`, for a literal of `n` characters. -/
def strncmpEq (s lit : List Char) (n : Nat) : Bool := (cstr s).take n == lit.take n

/-- The test `strcmp(curr_line, kw) == 0 || strcmp(curr_line, kw "\n") == 0` of
`LineInterpreter`. -/
def isKeyword (curr_line : List Char) (kw : String) : Bool :=
  strcmpEq curr_line kw.toList || strcmpEq curr_line (kw.toList ++ [Char.ofNat 10])

/-! ## The stack machine -/

/-- What one line does: the stack after the line (top first), the text written to the
standard output and the text written to the diagnostic output. -/
structure Outcome where
  stack : List Poly
  out : List Char
  err : List Char

/-- The text of `fprintf(stderr, "ERROR %zu <reason>\n", line)`. -/
def errorText (line : Nat) (what : String) : List Char :=
  "ERROR ".toList ++ natDigits line ++ [' '] ++ what.toList ++ [Char.ofNat 10]

/-- An error is reported and the handler returns: the stack is `s`. -/
def reportError (s : List Poly) (line : Nat) (what : String) : Outcome :=
  ⟨s, [], errorText line what⟩

/-- The text of `printf("1\n")` or `printf("0\n")`. -/
def boolText (b : Bool) : List Char := [if b then '1' else '0', Char.ofNat 10]

/-- Source function `InstructionIsCoeff(s, line)`. -/
def InstructionIsCoeff (s : List Poly) (line : Nat) : Outcome :=
  match s with
  | [] => reportError s line "STACK UNDERFLOW"
  | p :: _ => ⟨s, boolText (PolyIsCoeff p), []⟩

/-- Source function `InstructionIsZero(s, line)`. -/
def InstructionIsZero (s : List Poly) (line : Nat) : Outcome :=
  match s with
  | [] => reportError s line "STACK UNDERFLOW"
  | p :: _ => ⟨s, boolText (PolyIsZero p), []⟩

/-- Source function `InstructionClone(s, line)`. -/
def InstructionClone (s : List Poly) (line : Nat) : Outcome :=
  match s with
  | [] => reportError s line "STACK UNDERFLOW"
  | p :: rest => ⟨p :: p :: rest, [], []⟩

/-- Source function `InstructionAdd(s, line)`: `p` is the top, `q` the polynomial beneath. -/
def InstructionAdd (s : List Poly) (line : Nat) : Outcome :=
  match s with
  | p :: q :: rest => ⟨PolyAdd p q :: rest, [], []⟩
  | _ => reportError s line "STACK UNDERFLOW"

/-- Source function `InstructionMul(s, line)`. -/
def InstructionMul (s : List Poly) (line : Nat) : Outcome :=
  match s with
  | p :: q :: rest => ⟨PolyMul p q :: rest, [], []⟩
  | _ => reportError s line "STACK UNDERFLOW"

/-- Source function `InstructionNeg(s, line)`. -/
def InstructionNeg (s : List Poly) (line : Nat) : Outcome :=
  match s with
  | [] => reportError s line "STACK UNDERFLOW"
  | p :: rest => ⟨PolyMul p (PolyFromCoeff (-1)) :: rest, [], []⟩

/-- Source function `InstructionSub(s, line)`. -/
def InstructionSub (s : List Poly) (line : Nat) : Outcome :=
  match s with
  | p :: q :: rest => ⟨PolySub p q :: rest, [], []⟩
  | _ => reportError s line "STACK UNDERFLOW"

/-- Source function `InstructionIsEq(s, line)`. -/
def InstructionIsEq (s : List Poly) (line : Nat) : Outcome :=
  match s with
  | p :: q :: _ => ⟨s, boolText (PolyIsEq p q), []⟩
  | _ => reportError s line "STACK UNDERFLOW"

/-- Source function `InstructionDeg(s, line)`. -/
def InstructionDeg (s : List Poly) (line : Nat) : Outcome :=
  match s with
  | [] => reportError s line "STACK UNDERFLOW"
  | p :: _ => ⟨s, printInt (PolyDeg p) ++ [Char.ofNat 10], []⟩

/-- Source function `InstructionPrint(s, line)`. -/
def InstructionPrint (s : List Poly) (line : Nat) : Outcome :=
  match s with
  | [] => reportError s line "STACK UNDERFLOW"
  | p :: _ => ⟨s, PolyPrint p ++ [Char.ofNat 10], []⟩

/-- Source function `InstructionPop(s, line)`. -/
def InstructionPop (s : List Poly) (line : Nat) : Outcome :=
  match s with
  | [] => reportError s line "STACK UNDERFLOW"
  | _ :: rest => ⟨rest, [], []⟩

/-- The test of the handlers with an argument that the number ends where the line ends:
true when an error is to be reported. -/
def badLineEnd (curr_line endPtr : List Char) : Bool :=
  if charAt curr_line (curr_line.length - 1) == Char.ofNat 10 then
    charAt endPtr 0 != Char.ofNat 10
  else charAt endPtr 0 != NUL

/-- Source function `InstructionDegBy(s, line, line_length, curr_line)`. -/
def InstructionDegBy (s : List Poly) (line : Nat) (curr_line : List Char) : Outcome :=
  if curr_line.length < 8 then reportError s line "DEG BY WRONG VARIABLE"
  else if !isSpaceC (charAt curr_line 6) then reportError s line "WRONG COMMAND"
  else if charAt curr_line 6 != ' ' || !(charAt curr_line 7).isDigit then
    reportError s line "DEG BY WRONG VARIABLE"
  else
    let r := strtoull (curr_line.drop 7)
    if r.2.2 then reportError s line "DEG BY WRONG VARIABLE"
    else if badLineEnd curr_line r.2.1 then reportError s line "DEG BY WRONG VARIABLE"
    else
      match s with
      | [] => reportError s line "STACK UNDERFLOW"
      | p :: _ => ⟨s, printInt (PolyDegBy p r.1) ++ [Char.ofNat 10], []⟩

/-- Source function `InstructionAt(s, line, line_length, curr_line)`. -/
def InstructionAt (s : List Poly) (line : Nat) (curr_line : List Char) : Outcome :=
  if curr_line.length < 4 then reportError s line "AT WRONG VALUE"
  else if !isSpaceC (charAt curr_line 2) then reportError s line "WRONG COMMAND"
  else if charAt curr_line 2 != ' '
      || (!(charAt curr_line 3).isDigit && charAt curr_line 3 != '-') then
    reportError s line "AT WRONG VALUE"
  else
    let r := strtol (curr_line.drop 3)
    if r.2.2 then reportError s line "AT WRONG VALUE"
    else if badLineEnd curr_line r.2.1 then reportError s line "AT WRONG VALUE"
    else
      match s with
      | [] => reportError s line "STACK UNDERFLOW"
      | p :: rest => ⟨PolyAt p r.1 :: rest, [], []⟩

/-- Source function `InstructionCompose(s, line, line_length, curr_line)`. The depth test
`s->size - 1 < at` is computed in `size_t`. After it the source reads the top of the stack
without a test: on the empty stack it reads before the array, which has no defined
behaviour, and the model gives `none`. The array `q` holds the `at` polynomials beneath the
top, the deepest first. -/
def InstructionCompose (s : List Poly) (line : Nat) (curr_line : List Char) :
    Option Outcome :=
  if curr_line.length < 9 then some (reportError s line "COMPOSE WRONG PARAMETER")
  else if !isSpaceC (charAt curr_line 7) then some (reportError s line "WRONG COMMAND")
  else if charAt curr_line 7 != ' ' || !(charAt curr_line 8).isDigit then
    some (reportError s line "COMPOSE WRONG PARAMETER")
  else
    let r := strtoull (curr_line.drop 8)
    if r.2.2 then some (reportError s line "COMPOSE WRONG PARAMETER")
    else if badLineEnd curr_line r.2.1 then
      some (reportError s line "COMPOSE WRONG PARAMETER")
    else if (s.length + 2 ^ 64 - 1) % 2 ^ 64 < r.1 then
      some (reportError s line "STACK UNDERFLOW")
    else
      match s with
      | [] => none
      | p :: rest =>
        some ⟨PolyCompose p r.1 ((rest.take r.1).reverse) :: rest.drop r.1, [], []⟩

/-- The last branch of `LineInterpreter`: the line is tried as a polynomial. -/
def InterpretPoly (curr_line : List Char) (line : Nat) (s : List Poly) : Outcome :=
  if !IsCorrect curr_line then reportError s line "WRONG POLY"
  else
    match ParsePoly curr_line with
    | none => reportError s line "WRONG POLY"
    | some (p, _) => ⟨p :: s, [], []⟩

/-- Source function `LineInterpreter(curr_line, line, line_length, s)`: `curr_line` holds the
`line_length` characters read, the stack `s` has its top first; `none` when the run leaves
the defined behaviour of C. -/
def LineInterpreter (curr_line : List Char) (line : Nat) (s : List Poly) : Option Outcome :=
  if charAt curr_line 0 == '#' || charAt curr_line 0 == Char.ofNat 10 then some ⟨s, [], []⟩
  else if (cstr curr_line).length != curr_line.length then
    if (charAt curr_line 0).isAlpha then
      if strncmpEq curr_line "AT".toList 2 && isSpaceC (charAt curr_line 2) then
        some (reportError s line "AT WRONG VALUE")
      else if strncmpEq curr_line "DEG_BY".toList 6 && isSpaceC (charAt curr_line 6) then
        some (reportError s line "DEG BY WRONG VARIABLE")
      else if strncmpEq curr_line "COMPOSE".toList 7 && isSpaceC (charAt curr_line 7) then
        some (reportError s line "COMPOSE WRONG PARAMETER")
      else some (reportError s line "WRONG COMMAND")
    else some (reportError s line "WRONG POLY")
  else if isKeyword curr_line "ZERO" then some ⟨PolyZero :: s, [], []⟩
  else if isKeyword curr_line "IS_COEFF" then some (InstructionIsCoeff s line)
  else if isKeyword curr_line "IS_ZERO" then some (InstructionIsZero s line)
  else if isKeyword curr_line "CLONE" then some (InstructionClone s line)
  else if isKeyword curr_line "ADD" then some (InstructionAdd s line)
  else if isKeyword curr_line "MUL" then some (InstructionMul s line)
  else if isKeyword curr_line "NEG" then some (InstructionNeg s line)
  else if isKeyword curr_line "SUB" then some (InstructionSub s line)
  else if isKeyword curr_line "IS_EQ" then some (InstructionIsEq s line)
  else if isKeyword curr_line "DEG" then some (InstructionDeg s line)
  else if isKeyword curr_line "PRINT" then some (InstructionPrint s line)
  else if isKeyword curr_line "POP" then some (InstructionPop s line)
  else if strncmpEq curr_line "DEG_BY".toList 6 then some (InstructionDegBy s line curr_line)
  else if strncmpEq curr_line "AT".toList 2 then some (InstructionAt s line curr_line)
  else if strncmpEq curr_line "COMPOSE".toList 7 then InstructionCompose s line curr_line
  else if (charAt curr_line 0).isAlpha then some (reportError s line "WRONG COMMAND")
  else some (InterpretPoly curr_line line s)

/-- The loop of `main` over the lines read; the outputs of the lines are concatenated. The
counter `line` of the last line interpreted is an `int`, incremented with wrap-around, and
is converted to `size_t` when it is passed to `LineInterpreter`. -/
def runLines : List (List Char) → Int → Outcome → Option Outcome
  | [], _, acc => some acc
  | curr_line :: rest, line, acc =>
    let line1 := wrapInt (line + 1)
    match LineInterpreter curr_line (line1 % 2 ^ 64).toNat acc.stack with
    | none => none
    | some o => runLines rest line1 ⟨o.stack, acc.out ++ o.out, acc.err ++ o.err⟩

/-- Source function `main` of `calc.c` on the lines that `getline` delivers: the stack
starts empty and the lines are numbered from 1. -/
def calcMain (lines : List (List Char)) : Option Outcome := runLines lines 0 ⟨[], [], []⟩

/-! ## The grammar of polynomial literals -/

mutual
/-- Modelled from the spec: a word of the grammar of polynomial literals, as its syntax
tree. `num neg digits` is `Coefficient := ["-"] Digit+`, `monos ms` is
`MonomialList := "(" Monomial ")" ( "+" "(" Monomial ")" )*`. -/
inductive Lit where
  | num (neg : Bool) (digits : List Char) : Lit
  | monos (ms : List LitMono) : Lit
/-- Modelled from the spec: `Monomial := Polynomial "," Exponent`, the exponent being
`digits`; `expNeg` marks a `-` written before the exponent, which the grammar of the
specification does not have. -/
inductive LitMono where
  | mk (p : Lit) (expNeg : Bool) (exp : List Char) : LitMono
end

/-- The number that a string of decimal digits denotes. -/
def digitsVal (ds : List Char) : Nat := ds.foldl (fun a c => a * 10 + (c.toNat - 48)) 0

/-- A non-empty string of decimal digits, `Digit+`. -/
def isDigits (ds : List Char) : Bool := !ds.isEmpty && ds.all Char.isDigit

mutual
/-- The text of a word. -/
def Lit.text : Lit → List Char
  | .num neg ds => (if neg then ['-'] else []) ++ ds
  | .monos ms => LitMono.textList ms
/-- The text of a list of monomials, joined by `+`. -/
def LitMono.textList : List LitMono → List Char
  | [] => []
  | .mk p expNeg ex :: ms =>
    ('(' :: p.text) ++ (',' :: ((if expNeg then ['-'] else []) ++ ex))
      ++ (')' :: (if ms.isEmpty then [] else '+' :: LitMono.textList ms))
end

mutual
/-- The side conditions of the grammar: a coefficient fits the signed 64-bit range, an
exponent lies in `0..2^31-1`, a list of monomials is not empty. With `minusZero` a `-` may
stand before an exponent of value 0; without it, as in the specification, no exponent has
a `-`. -/
def Lit.wf (minusZero : Bool) : Lit → Bool
  | .num neg ds =>
    isDigits ds && (if neg then decide (digitsVal ds ≤ 2 ^ 63)
      else decide (digitsVal ds ≤ 2 ^ 63 - 1))
  | .monos ms => !ms.isEmpty && LitMono.wfList minusZero ms
/-- The side conditions on every monomial of a list. -/
def LitMono.wfList (minusZero : Bool) : List LitMono → Bool
  | [] => true
  | .mk p expNeg ex :: ms =>
    Lit.wf minusZero p && isDigits ex && decide (digitsVal ex ≤ 2 ^ 31 - 1)
      && (!expNeg || (minusZero && digitsVal ex == 0)) && LitMono.wfList minusZero ms
end

mutual
/-- The polynomial a word denotes: a coefficient, or the normalised list of monomials. -/
def Lit.value : Lit → Poly
  | .num neg ds => .coeff (if neg then -(digitsVal ds : Int) else (digitsVal ds : Int))
  | .monos ms => PolyAddMonos (LitMono.valueList ms)
/-- The monomials a list of written monomials denotes. -/
def LitMono.valueList : List LitMono → List Mono
  | [] => []
  | .mk p _ ex :: ms => .mk p.value (digitsVal ex : Int) :: LitMono.valueList ms
end

mutual
/-- Number of nodes of a word, the recursion budget its parsing needs. -/
def Lit.size : Lit → Nat
  | .num _ _ => 1
  | .monos ms => 1 + LitMono.sizeList ms
/-- Number of nodes of a list of written monomials. -/
def LitMono.sizeList : List LitMono → Nat
  | [] => 0
  | .mk p _ _ :: ms => 1 + p.size + LitMono.sizeList ms
end

mutual
/-- Number of parentheses pairs of a word. -/
def Lit.parens : Lit → Nat
  | .num _ _ => 0
  | .monos ms => LitMono.parensList ms
/-- Number of parentheses pairs of a list of written monomials. -/
def LitMono.parensList : List LitMono → Nat
  | [] => 0
  | .mk p _ _ :: ms => 1 + p.parens + LitMono.parensList ms
end

/-- A line is a word of the grammar of the specification, up to a final newline. -/
def IsWordLine (line : List Char) : Prop :=
  ∃ l : Lit, l.wf false = true ∧ (line = l.text ∨ line = l.text ++ [Char.ofNat 10])

/-- A line is a word of the grammar in which `-` may stand before an exponent of value 0,
up to a final newline. -/
def IsLooseWordLine (line : List Char) : Prop :=
  ∃ l : Lit, l.wf true = true ∧ (line = l.text ∨ line = l.text ++ [Char.ofNat 10])

/-- Every comma of the text is followed by a digit. -/
def commaThenDigit : List Char → Bool
  | [] => true
  | c :: rest => (c != ',' || (charAt rest 0).isDigit) && commaThenDigit rest

/-- The parentheses of the text are unbalanced: the numbers of `(` and `)` differ, or some
prefix has more `)` than `(`. -/
def Unbalanced (line : List Char) : Prop :=
  line.count '(' ≠ line.count ')' ∨
    ∃ i, (line.take i).count '(' < (line.take i).count ')'

/-- The newline, if any, is the last character of the line, as `getline` delivers it. -/
def NewlineOnlyLast (line : List Char) : Prop :=
  ∀ i, i + 1 < line.length → charAt line i ≠ Char.ofNat 10

/-! ## Input lines -/

/-- A line of the input as `getline` hands it to `LineInterpreter`: the text and the newline
that ends it. -/
def textLine (s : String) : List Char := s.toList ++ [Char.ofNat 10]

/-- The line `COMPOSE k`, the argument written in decimal, without its final newline. -/
def composeLine (k : Nat) : List Char := "COMPOSE ".toList ++ natDigits k

/-- The six reasons of the diagnostic `ERROR <line> <reason>`. -/
def errorNames : List String :=
  ["WRONG POLY", "WRONG COMMAND", "STACK UNDERFLOW", "DEG BY WRONG VARIABLE", "AT WRONG VALUE",
    "COMPOSE WRONG PARAMETER"]

/-- What a line may do when it is given the stack `s`: either it reports no error, or it
reports one of the six errors, prints nothing and hands back the stack `s`. -/
def Atomic (s : List Poly) (line : Nat) (o : Outcome) : Prop :=
  o.err = [] ∨ ∃ what ∈ errorNames, o = reportError s line what

/-- Every `+` of the text is followed by an opening parenthesis. -/
def plusThenOpen : List Char → Bool
  | [] => true
  | c :: rest => (c != '+' || charAt rest 0 == '(') && plusThenOpen rest

/-! ## Evaluation, in the words of the specification -/

/-- Evaluation as the specification words it: a coefficient is returned unchanged, otherwise
the sum, accumulated with `PolyAdd` from zero, over the monomials of `p` of
`PolyMul(sub_i, PolyPower(Coefficient(x), exp_i))`. -/
def PolyAtSpec : Poly → Int → Poly
  | .coeff c, _ => .coeff c
  | .sum arr, x =>
    arr.foldl (fun acc m => PolyAdd acc (PolyMul m.p (PolyPower (.coeff x) m.exp.toNat)))
      PolyZero

/-! ## Shape and leaves of a polynomial -/

mutual
/-- The coefficients at the leaves of a polynomial, from left to right. -/
def Poly.leaves : Poly → List Int
  | .coeff c => [c]
  | .sum arr => Mono.leavesList arr
/-- The coefficients at the leaves of the monomials of an array. -/
def Mono.leavesList : List Mono → List Int
  | [] => []
  | .mk p _ :: ms => p.leaves ++ Mono.leavesList ms
end

mutual
/-- The tree of a polynomial with its exponents, every leaf replaced by 0. -/
def Poly.shape : Poly → Poly
  | .coeff _ => .coeff 0
  | .sum arr => .sum (Mono.shapeList arr)
/-- The trees of the monomials of an array. -/
def Mono.shapeList : List Mono → List Mono
  | [] => []
  | .mk p e :: ms => .mk p.shape e :: Mono.shapeList ms
end

/-! ## Numeric arguments, in the words of the specification -/

/-- The argument of `DEG_BY` and `COMPOSE` as the specification words it: one or more
digits whose value fits 64 bits unsigned, followed by nothing but an optional final
newline; the value when the text is so, `none` otherwise. -/
def unsignedArg (arg : List Char) : Option Nat :=
  let ds := arg.takeWhile Char.isDigit
  let rest := arg.dropWhile Char.isDigit
  if !ds.isEmpty && decide (digitsVal ds ≤ 2 ^ 64 - 1)
      && (rest == [] || rest == [Char.ofNat 10]) then some (digitsVal ds)
  else none

/-- The argument of `AT` as the specification words it: an optional single `-`, one or
more digits, a value that fits 64 bits signed, followed by nothing but an optional final
newline; the value when the text is so, `none` otherwise. -/
def signedArg (arg : List Char) : Option Int :=
  let neg := charAt arg 0 == '-'
  let body := if neg then arg.drop 1 else arg
  let ds := body.takeWhile Char.isDigit
  let rest := body.dropWhile Char.isDigit
  let v : Int := if neg then -(digitsVal ds : Int) else (digitsVal ds : Int)
  if !ds.isEmpty && decide (-2 ^ 63 ≤ v) && decide (v ≤ 2 ^ 63 - 1)
      && (rest == [] || rest == [Char.ofNat 10]) then some v
  else none

/-- The part of `InstructionDegBy` that follows the validation of the argument: the test of
the stack and the query. -/
def DegByChecked (s : List Poly) (line : Nat) (idx : Nat) : Outcome :=
  match s with
  | [] => reportError s line "STACK UNDERFLOW"
  | p :: _ => ⟨s, printInt (PolyDegBy p idx) ++ [Char.ofNat 10], []⟩

/-- The part of `InstructionAt` that follows the validation of the argument. -/
def AtChecked (s : List Poly) (line : Nat) (x : Int) : Outcome :=
  match s with
  | [] => reportError s line "STACK UNDERFLOW"
  | p :: rest => ⟨PolyAt p x :: rest, [], []⟩

/-- The part of `InstructionCompose` that follows the validation of the argument: the depth
test in `size_t` and the composition. -/
def ComposeChecked (s : List Poly) (line : Nat) (k : Nat) : Option Outcome :=
  if (s.length + 2 ^ 64 - 1) % 2 ^ 64 < k then some (reportError s line "STACK UNDERFLOW")
  else
    match s with
    | [] => none
    | p :: rest => some ⟨PolyCompose p k ((rest.take k).reverse) :: rest.drop k, [], []⟩

/-! ## Long words -/

/-- The word `(1,0)+(1,0)+...+(1,0)` of the grammar of literals, with `n` monomials. -/
def flatWord (n : Nat) : Lit := .monos (List.replicate n (.mk (.num false ['1']) false ['0']))

/-- The polynomial `1 + x + x^2 + ... + x^(n-1)` as a sum of `n` monomials with
coefficient 1. -/
def manyMonos (n : Nat) : Poly :=
  .sum ((List.range n).map (fun (i : Nat) => Mono.mk (.coeff 1) (i : Int)))

/-! ## Machine integers -/

theorem wrapLong_range (x : Int) : -2 ^ 63 ≤ wrapLong x ∧ wrapLong x < 2 ^ 63 := by
  unfold wrapLong
  constructor <;> omega

theorem wrapLong_of_range {x : Int} (h1 : -2 ^ 63 ≤ x) (h2 : x < 2 ^ 63) : wrapLong x = x := by
  unfold wrapLong
  omega

theorem wrapInt_of_range {x : Int} (h1 : -2 ^ 31 ≤ x) (h2 : x < 2 ^ 31) : wrapInt x = x := by
  unfold wrapInt
  omega

theorem wrapLong_cast (x : Int) : ((wrapLong x : Int) : Coef) = (x : Coef) := by
  rw [ZMod.intCast_eq_intCast_iff]
  unfold wrapLong
  have h : ((2 ^ 64 : Nat) : Int) = 2 ^ 64 := by norm_num
  rw [h]
  unfold Int.ModEq
  omega

theorem coef_cast_inj {a b : Int} (ha1 : -2 ^ 63 ≤ a) (ha2 : a < 2 ^ 63)
    (hb1 : -2 ^ 63 ≤ b) (hb2 : b < 2 ^ 63) (h : (a : Coef) = (b : Coef)) : a = b := by
  rw [ZMod.intCast_eq_intCast_iff] at h
  have h' : ((2 ^ 64 : Nat) : Int) = 2 ^ 64 := by norm_num
  rw [h'] at h
  unfold Int.ModEq at h
  omega

theorem wrapLong_eq_iff (x y : Int) : wrapLong x = wrapLong y ↔ (x : Coef) = (y : Coef) := by
  constructor
  · intro h
    rw [← wrapLong_cast x, ← wrapLong_cast y, h]
  · intro h
    rw [← wrapLong_cast x, ← wrapLong_cast y] at h
    exact coef_cast_inj (wrapLong_range x).1 (wrapLong_range x).2 (wrapLong_range y).1
      (wrapLong_range y).2 h

/-! ## Unfolding `PolyAdd` -/

theorem Poly.size_pos (p : Poly) : 1 ≤ p.size := by
  cases p <;> simp [Poly.size]

theorem PolyAddFuel_succ : ∀ n,
    (∀ p q, p.size + q.size ≤ n → PolyAddFuel (n + 1) p q = PolyAddFuel n p q) ∧
    (∀ ps qs, Mono.sizeList ps + Mono.sizeList qs ≤ n →
      PolyAddLoop (n + 1) ps qs = PolyAddLoop n ps qs) := by
  intro n
  induction n with
  | zero =>
    constructor
    · intro p q h
      have := p.size_pos
      have := q.size_pos
      omega
    · intro ps qs h
      cases ps with
      | nil =>
        cases qs with
        | nil => simp [PolyAddLoop]
        | cons mq qs => cases mq; simp [Mono.sizeList] at h
      | cons mp ps => cases mp; simp [Mono.sizeList] at h
  | succ n ih =>
    constructor
    · intro p q h
      cases p with
      | coeff a => cases q <;> simp only [PolyAddFuel]
      | sum ps =>
        cases q with
        | coeff b => simp only [PolyAddFuel]
        | sum qs =>
          simp only [Poly.size] at h
          simp only [PolyAddFuel]
          rw [ih.2 ps qs (by omega)]
    · intro ps qs h
      cases ps with
      | nil => simp [PolyAddLoop]
      | cons mp ps =>
        cases qs with
        | nil => simp [PolyAddLoop]
        | cons mq qs =>
          obtain ⟨p, e⟩ := mp
          obtain ⟨q, f⟩ := mq
          simp only [Mono.sizeList] at h
          have hp := p.size_pos
          have hq := q.size_pos
          simp only [PolyAddLoop, Mono.p, Mono.exp]
          rw [ih.2 ps (Mono.mk q f :: qs) (by simp only [Mono.sizeList]; omega),
            ih.2 (Mono.mk p e :: ps) qs (by simp only [Mono.sizeList]; omega),
            ih.2 ps qs (by omega), ih.1 p q (by omega)]

theorem PolyAddFuel_ge (n : Nat) : ∀ k, ∀ p q, p.size + q.size ≤ n →
    PolyAddFuel (n + k) p q = PolyAddFuel n p q := by
  intro k
  induction k with
  | zero => intros; rfl
  | succ k ih =>
    intro p q h
    rw [← Nat.add_assoc, (PolyAddFuel_succ (n + k)).1 p q (by omega), ih p q h]

theorem PolyAddLoop_ge (n : Nat) : ∀ k, ∀ ps qs, Mono.sizeList ps + Mono.sizeList qs ≤ n →
    PolyAddLoop (n + k) ps qs = PolyAddLoop n ps qs := by
  intro k
  induction k with
  | zero => intros; rfl
  | succ k ih =>
    intro p q h
    rw [← Nat.add_assoc, (PolyAddFuel_succ (n + k)).2 p q (by omega), ih p q h]

theorem PolyAddFuel_eq {n : Nat} {p q : Poly} (h : p.size + q.size ≤ n) :
    PolyAddFuel n p q = PolyAdd p q := by
  obtain ⟨k, rfl⟩ := Nat.exists_eq_add_of_le h
  exact PolyAddFuel_ge _ k p q (le_refl _)

theorem PolyAddLoop_eq {n : Nat} {ps qs : List Mono}
    (h : Mono.sizeList ps + Mono.sizeList qs ≤ n) :
    PolyAddLoop n ps qs = PolyAddMerge ps qs := by
  obtain ⟨k, rfl⟩ := Nat.exists_eq_add_of_le h
  exact PolyAddLoop_ge _ k ps qs (le_refl _)

theorem PolyAdd_coeff_coeff (a b : Int) :
    PolyAdd (.coeff a) (.coeff b) =
      if a = 0 then .coeff b else if b = 0 then .coeff a else .coeff (wrapLong (a + b)) := by
  simp [PolyAdd, Poly.size, PolyAddFuel, PolyIsZero, PolyFromCoeff]

theorem PolyAdd_coeff_sum (a : Int) (qs : List Mono) :
    PolyAdd (.coeff a) (.sum qs) = if a = 0 then .sum qs else PolyAddCoeff (.sum qs) a := by
  have h : (Poly.coeff a).size + (Poly.sum qs).size = (Mono.sizeList qs + 1) + 1 := by
    simp [Poly.size]; omega
  rw [PolyAdd, h, PolyAddFuel]
  simp [PolyIsZero]

theorem PolyAdd_sum_coeff (ps : List Mono) (b : Int) :
    PolyAdd (.sum ps) (.coeff b) = if b = 0 then .sum ps else PolyAddCoeff (.sum ps) b := by
  have h : (Poly.sum ps).size + (Poly.coeff b).size = (Mono.sizeList ps + 1) + 1 := by
    simp [Poly.size]; omega
  rw [PolyAdd, h, PolyAddFuel]
  simp [PolyIsZero]

theorem PolyAdd_sum_sum (ps qs : List Mono) :
    PolyAdd (.sum ps) (.sum qs) = PolyAddFinish (PolyAddMerge ps qs) := by
  have h : (Poly.sum ps).size + (Poly.sum qs).size =
      (Mono.sizeList ps + Mono.sizeList qs + 1) + 1 := by
    simp [Poly.size]; omega
  rw [PolyAdd, h, PolyAddFuel]
  simp only [PolyIsZero, Bool.false_eq_true, if_false]
  rw [PolyAddLoop_eq (by omega)]

theorem PolyAddMerge_nil_left (qs : List Mono) : PolyAddMerge [] qs = qs := by
  unfold PolyAddMerge
  cases qs with
  | nil => simp [Mono.sizeList, PolyAddLoop]
  | cons mq qs =>
    obtain ⟨q, f⟩ := mq
    have h : Mono.sizeList [] + Mono.sizeList (.mk q f :: qs) =
        (q.size + Mono.sizeList qs) + 1 := by simp only [Mono.sizeList]; omega
    rw [h, PolyAddLoop]

theorem PolyAddMerge_nil_right (ps : List Mono) : PolyAddMerge ps [] = ps := by
  unfold PolyAddMerge
  cases ps with
  | nil => simp [Mono.sizeList, PolyAddLoop]
  | cons mp ps =>
    obtain ⟨p, e⟩ := mp
    have h : Mono.sizeList (.mk p e :: ps) + Mono.sizeList [] =
        (p.size + Mono.sizeList ps) + 1 := by simp only [Mono.sizeList]; omega
    rw [h, PolyAddLoop]

theorem PolyAddMerge_cons (p : Poly) (e : Int) (ps : List Mono) (q : Poly) (f : Int)
    (qs : List Mono) :
    PolyAddMerge (.mk p e :: ps) (.mk q f :: qs) =
      if e < f then .mk p e :: PolyAddMerge ps (.mk q f :: qs)
      else if f < e then .mk q f :: PolyAddMerge (.mk p e :: ps) qs
      else if PolyIsZero (PolyAdd p q) then PolyAddMerge ps qs
      else if singleZeroMono (PolyAdd p q) then PolyAddMerge ps qs
      else .mk (PolyAdd p q) e :: PolyAddMerge ps qs := by
  have hp := p.size_pos
  have hq := q.size_pos
  have h : Mono.sizeList (.mk p e :: ps) + Mono.sizeList (.mk q f :: qs) =
      (Mono.sizeList ps + Mono.sizeList qs + p.size + q.size + 1) + 1 := by
    simp only [Mono.sizeList]; omega
  rw [PolyAddMerge, h]
  simp only [PolyAddLoop, Mono.p, Mono.exp]
  rw [PolyAddLoop_eq (by simp only [Mono.sizeList]; omega),
    PolyAddLoop_eq (by simp only [Mono.sizeList]; omega),
    PolyAddLoop_eq (by omega), PolyAddFuel_eq (by omega)]

/-! ## Induction on polynomials -/

theorem Poly.ind {P : Poly → Prop} (hc : ∀ c, P (.coeff c))
    (hs : ∀ arr, (∀ m ∈ arr, P m.p) → P (.sum arr)) : ∀ p, P p := by
  intro p
  refine @Poly.rec P (fun m => P m.p) (fun l => ∀ m ∈ l, P m.p) hc (fun arr h => hs arr h)
    (fun p e h => h) (by simp) (fun m l h1 h2 => ?_) p
  intro x hx
  rcases List.mem_cons.1 hx with rfl | hx
  · exact h1
  · exact h2 x hx

@[simp] theorem Mono.p_mk (p : Poly) (e : Int) : (Mono.mk p e).p = p := rfl

@[simp] theorem Mono.exp_mk (p : Poly) (e : Int) : (Mono.mk p e).exp = e := rfl

theorem Mono.eta (m : Mono) : Mono.mk m.p m.exp = m := by cases m; rfl

theorem Mono.size_mem {m : Mono} {l : List Mono} (h : m ∈ l) :
    m.p.size < Mono.sizeList l := by
  induction l with
  | nil => cases h
  | cons x l ih =>
    obtain ⟨p, e⟩ := x
    rcases List.mem_cons.1 h with rfl | h
    · simp only [Mono.sizeList, Mono.p]; omega
    · have := ih h
      simp only [Mono.sizeList]; omega

/-! ## Canonical form, unfolded -/

theorem CanonB_coeff (B c : Int) :
    CanonB B (.coeff c) = true ↔ -2 ^ 63 ≤ c ∧ c < 2 ^ 63 := by
  simp [CanonB]

theorem CanonMonosB_iff (B : Int) (arr : List Mono) :
    CanonMonosB B arr = true ↔ ∀ m ∈ arr, MonoNZ B m := by
  induction arr with
  | nil => simp [CanonMonosB]
  | cons m ms ih =>
    obtain ⟨p, e⟩ := m
    simp [CanonMonosB, ih, MonoNZ, Mono.p, Mono.exp, and_assoc]

theorem CanonB_sum (B : Int) (arr : List Mono) :
    CanonB B (.sum arr) = true ↔ MonosOk B arr ∧ arr ≠ [] ∧ collapsible arr = false := by
  simp only [CanonB, Bool.and_eq_true, CanonMonosB_iff, MonosOk, decide_eq_true_eq,
    Bool.not_eq_true', List.isEmpty_eq_false_iff_exists_mem]
  constructor
  · rintro ⟨⟨⟨h1, h2⟩, h3⟩, h4⟩
    refine ⟨⟨h1, h4⟩, ?_, h3⟩
    obtain ⟨x, hx⟩ := h2
    exact List.ne_nil_of_mem hx
  · rintro ⟨⟨h1, h4⟩, h2, h3⟩
    exact ⟨⟨⟨h1, List.exists_mem_of_ne_nil _ h2⟩, h3⟩, h4⟩

theorem MonosOk_nil (B : Int) : MonosOk B [] := by
  simp [MonosOk]

theorem MonosOk_cons {B : Int} {m : Mono} {ms : List Mono} :
    MonosOk B (m :: ms) ↔ MonoNZ B m ∧ (∀ x ∈ ms, m.exp < x.exp) ∧ MonosOk B ms := by
  simp only [MonosOk, List.mem_cons, forall_eq_or_imp, List.map_cons, List.pairwise_cons,
    List.mem_map, forall_exists_index, and_imp, forall_apply_eq_imp_iff₂]
  tauto

theorem PolyIsZero_iff (p : Poly) : PolyIsZero p = true ↔ p = PolyZero := by
  cases p <;> simp [PolyIsZero, PolyZero, PolyFromCoeff]

theorem CanonB_zero (B : Int) : CanonB B PolyZero = true := by
  simp [PolyZero, PolyFromCoeff, CanonB]

theorem CanonB_mono {B B' : Int} (h : B ≤ B') : ∀ p, CanonB B p = true → CanonB B' p = true := by
  intro p
  induction p using Poly.ind with
  | hc c => simp [CanonB]
  | hs arr ih =>
    rw [CanonB_sum, CanonB_sum]
    rintro ⟨⟨h1, h2⟩, h3⟩
    refine ⟨⟨fun m hm => ?_, h2⟩, h3⟩
    obtain ⟨a, b, c, d⟩ := h1 m hm
    exact ⟨a, le_trans b h, ih m hm c, d⟩

/-! ## Addition keeps the canonical form -/

theorem merge_induction {P : List Mono → List Mono → Prop} (h1 : ∀ qs, P [] qs)
    (h2 : ∀ mp ps, P (mp :: ps) [])
    (h3 : ∀ p e ps q f qs, P ps (.mk q f :: qs) → P (.mk p e :: ps) qs → P ps qs →
      P (.mk p e :: ps) (.mk q f :: qs)) : ∀ ps qs, P ps qs := by
  intro ps
  induction ps with
  | nil => exact h1
  | cons mp ps ihp =>
    intro qs
    induction qs with
    | nil => exact h2 mp ps
    | cons mq qs ihq =>
      obtain ⟨p, e⟩ := mp
      obtain ⟨q, f⟩ := mq
      exact h3 p e ps q f qs (ihp _) ihq (ihp _)

theorem PolyAddCoeff_sum_not_coeff (arr : List Mono) (a : Int) :
    PolyIsCoeff (PolyAddCoeff (.sum arr) a) = false := by
  cases arr with
  | nil => simp [PolyAddCoeff, PolyIsCoeff]
  | cons m ms =>
    obtain ⟨p, e⟩ := m
    simp only [PolyAddCoeff]
    split_ifs <;> simp [PolyIsCoeff]

theorem PolyIsZero_of_not_coeff {p : Poly} (h : PolyIsCoeff p = false) : PolyIsZero p = false := by
  cases p <;> simp_all [PolyIsCoeff, PolyIsZero]

theorem collapsible_cons_cons (a b : Mono) (l : List Mono) : collapsible (a :: b :: l) = false := by
  simp [collapsible]

theorem collapsible_single (p : Poly) (e : Int) :
    collapsible [.mk p e] = (PolyIsCoeff p && e == 0) := by
  cases p <;> simp [collapsible, PolyIsCoeff]

theorem PolyAddCoeff_canon (B : Int) (a : Int) (ha1 : -2 ^ 63 ≤ a) (ha2 : a < 2 ^ 63)
    (ha : a ≠ 0) : ∀ q, CanonB B q = true → CanonB B (PolyAddCoeff q a) = true := by
  intro q
  induction q using Poly.ind with
  | hc c =>
    intro _
    simp only [PolyAddCoeff, PolyFromCoeff, CanonB_coeff]
    exact wrapLong_range _
  | hs arr ih =>
    intro h
    rw [CanonB_sum] at h
    obtain ⟨hok, hne, hcol⟩ := h
    cases arr with
    | nil => exact absurd rfl hne
    | cons m ms =>
      obtain ⟨p, e⟩ := m
      rw [MonosOk_cons] at hok
      obtain ⟨⟨he0, heB, hp, hpz⟩, hlt, hms⟩ := hok
      simp only [Mono.exp_mk, Mono.p_mk] at he0 heB hp hpz hlt
      simp only [PolyAddCoeff]
      by_cases he : e = 0
      · subst he
        simp only [beq_self_eq_true, if_true]
        have ihp := ih (.mk p 0) (List.mem_cons_self _ _) hp
        simp only [Mono.p_mk] at ihp
        by_cases hz : PolyIsZero (PolyAddCoeff p a) = true
        · simp only [hz, if_true]
          have hpc : PolyIsCoeff p = true := by
            cases p with
            | coeff c => rfl
            | sum l =>
              have := PolyIsZero_of_not_coeff (PolyAddCoeff_sum_not_coeff l a)
              rw [this] at hz
              cases hz
          rw [CanonB_sum]
          cases ms with
          | nil =>
            rw [collapsible_single] at hcol
            simp [hpc] at hcol
          | cons m2 ms2 =>
            refine ⟨hms, by simp, ?_⟩
            cases ms2 with
            | nil =>
              obtain ⟨p2, e2⟩ := m2
              have := hlt (.mk p2 e2) (List.mem_cons_self _ _)
              simp only [Mono.exp_mk] at this
              rw [collapsible_single]
              have : ¬ e2 = 0 := by omega
              simp [this]
            | cons m3 ms3 => exact collapsible_cons_cons _ _ _
        · simp only [hz, if_false, Bool.false_eq_true]
          rw [CanonB_sum]
          refine ⟨?_, by simp, ?_⟩
          · rw [MonosOk_cons]
            refine ⟨⟨le_refl _, heB, ihp, ?_⟩, hlt, hms⟩
            simpa using hz
          · cases ms with
            | nil =>
              rw [collapsible_single] at hcol ⊢
              simp only [beq_self_eq_true, Bool.and_true] at hcol ⊢
              cases p with
              | coeff c => simp [PolyIsCoeff] at hcol
              | sum l => exact PolyAddCoeff_sum_not_coeff l a
            | cons m2 ms2 => exact collapsible_cons_cons _ _ _
      · have he' : (e == 0) = false := by simpa using he
        simp only [he', Bool.false_eq_true, if_false]
        rw [CanonB_sum]
        refine ⟨?_, by simp, collapsible_cons_cons _ _ _⟩
        rw [MonosOk_cons]
        refine ⟨⟨le_refl _, le_trans he0 heB, ?_, ?_⟩, ?_, ?_⟩
        · simp only [Mono.p_mk, PolyFromCoeff, CanonB_coeff]; exact ⟨ha1, ha2⟩
        · simpa [Mono.p_mk, PolyFromCoeff, PolyIsZero] using ha
        · intro x hx
          simp only [Mono.exp_mk]
          rcases List.mem_cons.1 hx with rfl | hx
          · simp only [Mono.exp_mk]; omega
          · have := hlt x hx; omega
        · rw [MonosOk_cons]
          exact ⟨⟨he0, heB, hp, hpz⟩, hlt, hms⟩

theorem PolyAddFinish_canon (B : Int) (arr : List Mono) (h : MonosOk B arr) :
    CanonB B (PolyAddFinish arr) = true := by
  cases arr with
  | nil => exact CanonB_zero B
  | cons m ms =>
    obtain ⟨p, e⟩ := m
    cases ms with
    | nil =>
      cases p with
      | coeff c =>
        simp only [PolyAddFinish]
        split_ifs with he
        · have := ((MonosOk_cons.1 h).1).2.2.1
          simpa [Mono.p_mk, PolyFromCoeff] using this
        · rw [CanonB_sum]
          refine ⟨h, by simp, ?_⟩
          simpa [collapsible] using he
      | sum l =>
        simp only [PolyAddFinish]
        rw [CanonB_sum]
        exact ⟨h, by simp, by simp [collapsible]⟩
    | cons m2 ms2 =>
      simp only [PolyAddFinish]
      rw [CanonB_sum]
      exact ⟨h, by simp, collapsible_cons_cons _ _ _⟩

theorem singleZeroMono_canon {B : Int} {p : Poly} (h : CanonB B p = true) :
    singleZeroMono p = false := by
  cases p with
  | coeff c => rfl
  | sum arr =>
    match arr with
    | [] => rfl
    | [m] =>
      rw [CanonB_sum] at h
      have := (h.1.1 m (List.mem_singleton_self m)).2.2.2
      simpa [singleZeroMono] using this
    | _ :: _ :: _ => rfl

theorem PolyAddMerge_ok (B : Int) : ∀ ps qs,
    (∀ x ∈ ps, ∀ y ∈ qs, CanonB B (PolyAdd x.p y.p) = true) →
    MonosOk B ps → MonosOk B qs →
    MonosOk B (PolyAddMerge ps qs) ∧
      ∀ x ∈ PolyAddMerge ps qs, (∃ y ∈ ps, y.exp = x.exp) ∨ (∃ y ∈ qs, y.exp = x.exp) := by
  intro ps qs
  induction ps, qs using merge_induction with
  | h1 qs =>
    intro _ _ h
    rw [PolyAddMerge_nil_left]
    exact ⟨h, fun x hx => Or.inr ⟨x, hx, rfl⟩⟩
  | h2 mp ps =>
    intro _ h _
    rw [PolyAddMerge_nil_right]
    exact ⟨h, fun x hx => Or.inl ⟨x, hx, rfl⟩⟩
  | h3 p e ps q f qs ih1 ih2 ih3 =>
    intro hadd hps hqs
    have hps' := MonosOk_cons.1 hps
    have hqs' := MonosOk_cons.1 hqs
    simp only [Mono.exp_mk] at hps' hqs'
    rw [PolyAddMerge_cons]
    have r1 := ih1 (fun x hx y hy => hadd x (List.mem_cons_of_mem _ hx) y hy) hps'.2.2 hqs
    have r2 := ih2 (fun x hx y hy => hadd x hx y (List.mem_cons_of_mem _ hy)) hps hqs'.2.2
    have r3 := ih3 (fun x hx y hy => hadd x (List.mem_cons_of_mem _ hx) y
      (List.mem_cons_of_mem _ hy)) hps'.2.2 hqs'.2.2
    have r3' : MonosOk B (PolyAddMerge ps qs) ∧ ∀ x ∈ PolyAddMerge ps qs,
        (∃ y ∈ Mono.mk p e :: ps, y.exp = x.exp) ∨ (∃ y ∈ Mono.mk q f :: qs, y.exp = x.exp) := by
      refine ⟨r3.1, fun x hx => ?_⟩
      rcases r3.2 x hx with ⟨y, hy, h⟩ | ⟨y, hy, h⟩
      · exact Or.inl ⟨y, List.mem_cons_of_mem _ hy, h⟩
      · exact Or.inr ⟨y, List.mem_cons_of_mem _ hy, h⟩
    by_cases hef : e < f
    · simp only [hef, if_true]
      constructor
      · rw [MonosOk_cons]
        refine ⟨hps'.1, fun x hx => ?_, r1.1⟩
        simp only [Mono.exp_mk]
        rcases r1.2 x hx with ⟨y, hy, h⟩ | ⟨y, hy, h⟩
        · rw [← h]; exact hps'.2.1 y hy
        · rw [← h]
          rcases List.mem_cons.1 hy with rfl | hy
          · exact hef
          · have := hqs'.2.1 y hy; omega
      · intro x hx
        rcases List.mem_cons.1 hx with rfl | hx
        · exact Or.inl ⟨_, List.mem_cons_self _ _, rfl⟩
        · rcases r1.2 x hx with ⟨y, hy, h⟩ | ⟨y, hy, h⟩
          · exact Or.inl ⟨y, List.mem_cons_of_mem _ hy, h⟩
          · exact Or.inr ⟨y, hy, h⟩
    · simp only [hef, if_false]
      by_cases hfe : f < e
      · simp only [hfe, if_true]
        constructor
        · rw [MonosOk_cons]
          refine ⟨hqs'.1, fun x hx => ?_, r2.1⟩
          simp only [Mono.exp_mk]
          rcases r2.2 x hx with ⟨y, hy, h⟩ | ⟨y, hy, h⟩
          · rw [← h]
            rcases List.mem_cons.1 hy with rfl | hy
            · exact hfe
            · have := hps'.2.1 y hy; omega
          · rw [← h]; exact hqs'.2.1 y hy
        · intro x hx
          rcases List.mem_cons.1 hx with rfl | hx
          · exact Or.inr ⟨_, List.mem_cons_self _ _, rfl⟩
          · rcases r2.2 x hx with ⟨y, hy, h⟩ | ⟨y, hy, h⟩
            · exact Or.inl ⟨y, hy, h⟩
            · exact Or.inr ⟨y, List.mem_cons_of_mem _ hy, h⟩
      · simp only [hfe, if_false]
        have hfe' : f = e := by omega
        subst hfe'
        have hc := hadd (.mk p f) (List.mem_cons_self _ _) (.mk q f) (List.mem_cons_self _ _)
        simp only [Mono.p_mk] at hc
        by_cases hz : PolyIsZero (PolyAdd p q) = true
        · simp only [hz, if_true]
          exact r3'
        · simp only [hz, if_false, singleZeroMono_canon hc, Bool.false_eq_true]
          constructor
          · rw [MonosOk_cons]
            refine ⟨⟨hps'.1.1, hps'.1.2.1, hc, by simpa using hz⟩, fun x hx => ?_, r3.1⟩
            simp only [Mono.exp_mk]
            rcases r3.2 x hx with ⟨y, hy, h⟩ | ⟨y, hy, h⟩
            · rw [← h]; exact hps'.2.1 y hy
            · rw [← h]; exact hqs'.2.1 y hy
          · intro x hx
            rcases List.mem_cons.1 hx with rfl | hx
            · exact Or.inl ⟨_, List.mem_cons_self _ _, rfl⟩
            · exact r3'.2 x hx

theorem PolyAdd_canon (B : Int) : ∀ n p q, p.size + q.size ≤ n → CanonB B p = true →
    CanonB B q = true → CanonB B (PolyAdd p q) = true := by
  intro n
  induction n with
  | zero =>
    intro p q h
    have := p.size_pos
    omega
  | succ n ih =>
    intro p q hsz hp hq
    cases p with
    | coeff a =>
      cases q with
      | coeff b =>
        rw [PolyAdd_coeff_coeff]
        split_ifs
        · exact hq
        · exact hp
        · rw [CanonB_coeff]; exact wrapLong_range _
      | sum qs =>
        rw [PolyAdd_coeff_sum]
        split_ifs with h
        · exact hq
        · rw [CanonB_coeff] at hp
          exact PolyAddCoeff_canon B a hp.1 hp.2 h _ hq
    | sum ps =>
      cases q with
      | coeff b =>
        rw [PolyAdd_sum_coeff]
        split_ifs with h
        · exact hp
        · rw [CanonB_coeff] at hq
          exact PolyAddCoeff_canon B b hq.1 hq.2 h _ hp
      | sum qs =>
        rw [PolyAdd_sum_sum]
        apply PolyAddFinish_canon
        rw [CanonB_sum] at hp hq
        refine (PolyAddMerge_ok B ps qs (fun x hx y hy => ?_) hp.1 hq.1).1
        have h1 := Mono.size_mem hx
        have h2 := Mono.size_mem hy
        simp only [Poly.size] at hsz
        exact ih x.p y.p (by omega) (hp.1.1 x hx).2.2.1 (hq.1.1 y hy).2.2.1

theorem PolyAdd_canonB {B : Int} {p q : Poly} (hp : CanonB B p = true) (hq : CanonB B q = true) :
    CanonB B (PolyAdd p q) = true :=
  PolyAdd_canon B _ p q (le_refl _) hp hq

/-! ## Negation keeps the canonical form -/

theorem PolyNegMonos_eq (arr : List Mono) :
    PolyNegMonos arr = arr.map (fun m => .mk (PolyNeg m.p) m.exp) := by
  induction arr with
  | nil => rfl
  | cons m ms ih => obtain ⟨p, e⟩ := m; simp [PolyNegMonos, ih]

theorem PolyNeg_isCoeff (p : Poly) : PolyIsCoeff (PolyNeg p) = PolyIsCoeff p := by
  cases p <;> simp [PolyNeg, PolyIsCoeff]

theorem wrapLong_neg_eq_zero {c : Int} (h1 : -2 ^ 63 ≤ c) (h2 : c < 2 ^ 63) :
    wrapLong (-c) = 0 ↔ c = 0 := by
  unfold wrapLong
  omega

theorem PolyNeg_isZero {B : Int} {p : Poly} (h : CanonB B p = true) :
    PolyIsZero (PolyNeg p) = PolyIsZero p := by
  cases p with
  | coeff c =>
    rw [CanonB_coeff] at h
    simp only [PolyNeg, PolyIsZero]
    have := wrapLong_neg_eq_zero h.1 h.2
    by_cases hc : c = 0
    · subst hc; simp [wrapLong]
    · have h' : ¬ wrapLong (-c) = 0 := fun h => hc (this.1 h)
      simp [hc, h']
  | sum arr => simp [PolyNeg, PolyIsZero]

theorem PolyNeg_canon (B : Int) : ∀ p, CanonB B p = true → CanonB B (PolyNeg p) = true := by
  intro p
  induction p using Poly.ind with
  | hc c =>
    intro _
    simp only [PolyNeg, CanonB_coeff]
    exact wrapLong_range _
  | hs arr ih =>
    intro h
    rw [CanonB_sum] at h
    obtain ⟨⟨h1, h2⟩, h3, h4⟩ := h
    simp only [PolyNeg, PolyNegMonos_eq]
    rw [CanonB_sum]
    refine ⟨⟨?_, ?_⟩, by simpa using h3, ?_⟩
    · intro m hm
      obtain ⟨x, hx, rfl⟩ := List.mem_map.1 hm
      obtain ⟨a, b, c, d⟩ := h1 x hx
      refine ⟨a, b, ih x hx c, ?_⟩
      simp only [Mono.p_mk]
      rw [PolyNeg_isZero c]; exact d
    · simpa [List.map_map, Function.comp] using h2
    · match arr, h4 with
      | [], _ => rfl
      | [m], h4 =>
        obtain ⟨p, e⟩ := m
        rw [collapsible_single] at h4
        simp only [List.map, Mono.p_mk, Mono.exp_mk]
        rw [collapsible_single, PolyNeg_isCoeff]; exact h4
      | _ :: _ :: _, _ => simp [collapsible_cons_cons]

/-! ## Sorting by exponent -/

theorem orderedInsert_congr {α : Type} (r s : α → α → Prop) [DecidableRel r] [DecidableRel s]
    (a : α) : ∀ l : List α, (∀ b ∈ l, r a b ↔ s a b) →
      List.orderedInsert r a l = List.orderedInsert s a l := by
  intro l
  induction l with
  | nil => intro _; rfl
  | cons b l ih =>
    intro h
    simp only [List.orderedInsert]
    have hb := h b (List.mem_cons_self _ _)
    by_cases hr : r a b
    · simp [hr, hb.1 hr]
    · have hs : ¬ s a b := fun hs => hr (hb.2 hs)
      simp [hr, hs, ih (fun c hc => h c (List.mem_cons_of_mem _ hc))]

theorem insertionSort_congr {α : Type} (r s : α → α → Prop) [DecidableRel r] [DecidableRel s] :
    ∀ l : List α, (∀ a ∈ l, ∀ b ∈ l, r a b ↔ s a b) →
      List.insertionSort r l = List.insertionSort s l := by
  intro l
  induction l with
  | nil => intro _; rfl
  | cons a l ih =>
    intro h
    simp only [List.insertionSort]
    rw [ih (fun x hx y hy => h x (List.mem_cons_of_mem _ hx) y (List.mem_cons_of_mem _ hy))]
    apply orderedInsert_congr
    intro b hb
    have hb' : b ∈ l := (List.perm_insertionSort s l).subset hb
    exact h a (List.mem_cons_self _ _) b (List.mem_cons_of_mem _ hb')

theorem MonoCmp_le_iff {a b : Mono} (ha1 : 0 ≤ a.exp) (ha2 : a.exp ≤ maxExp) (hb1 : 0 ≤ b.exp)
    (hb2 : b.exp ≤ maxExp) : MonoCmp a b ≤ 0 ↔ a.exp ≤ b.exp := by
  unfold MonoCmp wrapInt
  unfold maxExp at ha2 hb2
  omega

theorem expLe_total : IsTotal Mono (fun a b => a.exp ≤ b.exp) := ⟨fun _ _ => le_total _ _⟩

theorem expLe_trans : IsTrans Mono (fun a b => a.exp ≤ b.exp) :=
  ⟨fun _ _ _ h1 h2 => le_trans h1 h2⟩

theorem sort_eq {monos : List Mono} (h : ∀ m ∈ monos, 0 ≤ m.exp ∧ m.exp ≤ maxExp) :
    List.insertionSort (fun a b => MonoCmp a b ≤ 0) monos =
      List.insertionSort (fun a b => a.exp ≤ b.exp) monos :=
  insertionSort_congr _ _ monos
    (fun a ha b hb => MonoCmp_le_iff (h a ha).1 (h a ha).2 (h b hb).1 (h b hb).2)

theorem sort_perm {monos : List Mono} (h : ∀ m ∈ monos, 0 ≤ m.exp ∧ m.exp ≤ maxExp) :
    (List.insertionSort (fun a b => MonoCmp a b ≤ 0) monos).Perm monos := by
  rw [sort_eq h]; exact List.perm_insertionSort _ _

theorem sort_sorted {monos : List Mono} (h : ∀ m ∈ monos, 0 ≤ m.exp ∧ m.exp ≤ maxExp) :
    (List.insertionSort (fun a b => MonoCmp a b ≤ 0) monos).Pairwise
      (fun a b => a.exp ≤ b.exp) := by
  rw [sort_eq h]
  haveI := expLe_total
  haveI := expLe_trans
  exact List.sorted_insertionSort _ _

/-! ## The normaliser keeps the canonical form -/

theorem PolyAddMonosSorted_eq (l : List Mono) :
    PolyAddMonosSorted l = PolyAddFinish (mergedMonos l) := by
  cases l with
  | nil => rfl
  | cons first rest =>
    simp only [PolyAddMonosSorted, mergedMonos]
    generalize (mergeEqualExp first rest).filter (fun m => !PolyIsZero m.p) = arr
    match arr with
    | [] => rfl
    | [.mk (.coeff c) e] => simp only [PolyAddFinish]
    | [.mk (.sum l) e] => simp only [PolyAddFinish]
    | _ :: _ :: _ => simp only [PolyAddFinish]

theorem MonoOkB_iff (B : Int) (m : Mono) :
    MonoOkB B m = true ↔ 0 ≤ m.exp ∧ m.exp ≤ B ∧ CanonB B m.p = true := by
  simp [MonoOkB, and_assoc]

theorem mergeEqualExp_inv (B : Int) : ∀ rest cur,
    (∀ m ∈ cur :: rest, MonoOkB B m = true) →
    (cur :: rest).Pairwise (fun a b => a.exp ≤ b.exp) →
    (∀ m ∈ mergeEqualExp cur rest, MonoOkB B m = true) ∧
    (mergeEqualExp cur rest).map Mono.exp = (cur :: rest).map Mono.exp ∧
    (mergeEqualExp cur rest).Pairwise (fun a b => a.exp < b.exp ∨ PolyIsZero a.p = true) := by
  intro rest
  induction rest with
  | nil =>
    intro cur h _
    refine ⟨?_, ?_, ?_⟩
    · simpa [mergeEqualExp] using h
    · simp [mergeEqualExp]
    · simp [mergeEqualExp]
  | cons next rest ih =>
    intro cur h hs
    have hcur := (MonoOkB_iff B cur).1 (h cur (List.mem_cons_self _ _))
    have hnext := (MonoOkB_iff B next).1 (h next (List.mem_cons_of_mem _ (List.mem_cons_self _ _)))
    rw [List.pairwise_cons] at hs
    obtain ⟨hs1, hs2⟩ := hs
    simp only [mergeEqualExp]
    by_cases he : cur.exp = next.exp
    · simp only [he, beq_self_eq_true, if_true]
      have hm : ∀ m ∈ Mono.mk (PolyAdd next.p cur.p) next.exp :: rest, MonoOkB B m = true := by
        intro m hm
        rcases List.mem_cons.1 hm with rfl | hm
        · rw [MonoOkB_iff]
          exact ⟨hnext.1, hnext.2.1, PolyAdd_canonB hnext.2.2 hcur.2.2⟩
        · exact h m (List.mem_cons_of_mem _ (List.mem_cons_of_mem _ hm))
      have hs' : (Mono.mk (PolyAdd next.p cur.p) next.exp :: rest).Pairwise
          (fun a b => a.exp ≤ b.exp) := by
        rw [List.pairwise_cons] at hs2 ⊢
        exact hs2
      obtain ⟨r1, r2, r3⟩ := ih _ hm hs'
      refine ⟨?_, ?_, ?_⟩
      · intro m hm'
        rcases List.mem_cons.1 hm' with rfl | hm'
        · rw [MonoOkB_iff]
          exact ⟨hnext.1, hnext.2.1, CanonB_zero B⟩
        · exact r1 m hm'
      · simp [r2, he]
      · rw [List.pairwise_cons]
        refine ⟨fun b _ => Or.inr ?_, r3⟩
        simp [PolyIsZero, PolyZero, PolyFromCoeff]
    · have he' : (cur.exp == next.exp) = false := by simpa using he
      simp only [he', Bool.false_eq_true, if_false]
      obtain ⟨r1, r2, r3⟩ := ih next (fun m hm => h m (List.mem_cons_of_mem _ hm)) hs2
      refine ⟨?_, ?_, ?_⟩
      · intro m hm'
        rcases List.mem_cons.1 hm' with rfl | hm'
        · exact h _ (List.mem_cons_self _ _)
        · exact r1 m hm'
      · simp [r2]
      · rw [List.pairwise_cons]
        refine ⟨fun b hb => Or.inl ?_, r3⟩
        have hb' : b.exp ∈ (next :: rest).map Mono.exp := by
          rw [← r2]; exact List.mem_map_of_mem _ hb
        obtain ⟨y, hy, hy'⟩ := List.mem_map.1 hb'
        have h1 := hs1 next (List.mem_cons_self _ _)
        rw [← hy']
        rcases List.mem_cons.1 hy with rfl | hy
        · omega
        · have := (List.pairwise_cons.1 hs2).1 y hy
          omega

theorem mergedMonos_ok (B : Int) (l : List Mono) (h : ∀ m ∈ l, MonoOkB B m = true)
    (hs : l.Pairwise (fun a b => a.exp ≤ b.exp)) : MonosOk B (mergedMonos l) := by
  cases l with
  | nil => exact MonosOk_nil B
  | cons first rest =>
    obtain ⟨r1, _, r3⟩ := mergeEqualExp_inv B rest first h hs
    simp only [mergedMonos]
    constructor
    · intro m hm
      rw [List.mem_filter] at hm
      obtain ⟨a, b, c⟩ := (MonoOkB_iff B m).1 (r1 m hm.1)
      exact ⟨a, b, c, by simpa using hm.2⟩
    · rw [List.pairwise_map]
      refine (r3.filter _).imp_of_mem ?_
      intro a b ha _ hab
      rw [List.mem_filter] at ha
      rcases hab with hab | hab
      · exact hab
      · simp [hab] at ha

theorem PolyAddMonosSorted_canon (B : Int) (l : List Mono) (h : ∀ m ∈ l, MonoOkB B m = true)
    (hs : l.Pairwise (fun a b => a.exp ≤ b.exp)) : CanonB B (PolyAddMonosSorted l) = true := by
  rw [PolyAddMonosSorted_eq]
  exact PolyAddFinish_canon B _ (mergedMonos_ok B l h hs)

theorem PolyAddMonos_canon (B : Int) (hB : B ≤ maxExp) (monos : List Mono)
    (h : ∀ m ∈ monos, MonoOkB B m = true) : CanonB B (PolyAddMonos monos) = true := by
  have hr : ∀ m ∈ monos, 0 ≤ m.exp ∧ m.exp ≤ maxExp := by
    intro m hm
    obtain ⟨a, b, _⟩ := (MonoOkB_iff B m).1 (h m hm)
    exact ⟨a, le_trans b hB⟩
  unfold PolyAddMonos
  apply PolyAddMonosSorted_canon B _ _ (sort_sorted hr)
  intro m hm
  exact h m ((sort_perm hr).subset hm)

/-! ## Multiplication keeps the canonical form -/

theorem PolyMulScalarMonos_eq (arr : List Mono) (a : Int) :
    PolyMulScalarMonos arr a = arr.map (fun m => .mk (PolyMulScalar m.p a) m.exp) := by
  induction arr with
  | nil => rfl
  | cons m ms ih => obtain ⟨p, e⟩ := m; simp [PolyMulScalarMonos, ih]

theorem PolyMulScalar_canon (B : Int) (hB : B ≤ maxExp) (a : Int) :
    ∀ p, CanonB B p = true → CanonB B (PolyMulScalar p a) = true := by
  intro p
  induction p using Poly.ind with
  | hc c =>
    intro _
    simp only [PolyMulScalar]
    split_ifs
    · exact CanonB_zero B
    · exact CanonB_zero B
    · rw [PolyFromCoeff, CanonB_coeff]; exact wrapLong_range _
  | hs arr ih =>
    intro h
    simp only [PolyMulScalar]
    split_ifs
    · exact CanonB_zero B
    · rw [PolyMulScalarMonos_eq]
      apply PolyAddMonos_canon B hB
      intro m hm
      obtain ⟨x, hx, rfl⟩ := List.mem_map.1 hm
      rw [CanonB_sum] at h
      obtain ⟨a1, a2, a3, _⟩ := h.1.1 x hx
      rw [MonoOkB_iff]
      exact ⟨a1, a2, ih x hx a3⟩

theorem PolyPowerFuel_indep (q : Poly) : ∀ f1 f2 pow, pow < f1 → pow < f2 →
    PolyPowerFuel f1 q pow = PolyPowerFuel f2 q pow := by
  intro f1
  induction f1 with
  | zero => intro f2 pow h; omega
  | succ k ih =>
    intro f2 pow h1 h2
    cases f2 with
    | zero => omega
    | succ j =>
      simp only [PolyPowerFuel]
      by_cases hp1 : pow = 1
      · simp [hp1]
      · by_cases hp0 : pow = 0
        · simp [hp0]
        · have e1 := ih j (pow / 2) (by omega) (by omega)
          have e2 := ih j ((pow - 1) / 2) (by omega) (by omega)
          simp only [e1, e2]

theorem PolyPowerFuel_succ (f : Nat) (q : Poly) (pow : Nat) :
    PolyPowerFuel (f + 1) q pow =
      if pow = 1 then q
      else if pow = 0 then PolyFromCoeff 1
      else if pow % 2 = 0 then PolyMul (PolyPowerFuel f q (pow / 2)) (PolyPowerFuel f q (pow / 2))
      else PolyMul q (PolyMul (PolyPowerFuel f q ((pow - 1) / 2))
        (PolyPowerFuel f q ((pow - 1) / 2))) := by
  simp only [PolyPowerFuel, beq_iff_eq]

theorem PolyPower_zero (q : Poly) : PolyPower q 0 = PolyFromCoeff 1 := by
  simp [PolyPower, PolyPowerFuel]

theorem PolyPower_one (q : Poly) : PolyPower q 1 = q := by
  simp [PolyPower, PolyPowerFuel]

theorem PolyPower_even (q : Poly) (pow : Nat) (h2 : 2 ≤ pow) (he : pow % 2 = 0) :
    PolyPower q pow = PolyMul (PolyPower q (pow / 2)) (PolyPower q (pow / 2)) := by
  have h1 : ¬ pow = 1 := by omega
  have h0 : ¬ pow = 0 := by omega
  unfold PolyPower
  rw [PolyPowerFuel_succ]
  simp only [h1, h0, he, if_false, if_true]
  rw [PolyPowerFuel_indep q pow (pow / 2 + 1) (pow / 2) (by omega) (by omega)]

theorem PolyPower_odd (q : Poly) (pow : Nat) (h2 : 2 ≤ pow) (he : pow % 2 = 1) :
    PolyPower q pow =
      PolyMul q (PolyMul (PolyPower q ((pow - 1) / 2)) (PolyPower q ((pow - 1) / 2))) := by
  have h1 : ¬ pow = 1 := by omega
  have h0 : ¬ pow = 0 := by omega
  have he' : ¬ pow % 2 = 0 := by omega
  unfold PolyPower
  rw [PolyPowerFuel_succ]
  simp only [h1, h0, he', if_false]
  rw [PolyPowerFuel_indep q pow ((pow - 1) / 2 + 1) ((pow - 1) / 2) (by omega) (by omega)]

@[simp] theorem den_coeff (c : Int) (d : Nat) : den (.coeff c) d = C (c : Coef) := by
  simp [den]

@[simp] theorem den_sum (arr : List Mono) (d : Nat) : den (.sum arr) d = denMonos arr d := by
  simp [den]

@[simp] theorem denMonos_nil (d : Nat) : denMonos [] d = 0 := by
  simp [denMonos]

@[simp] theorem denMonos_cons (p : Poly) (e : Int) (ms : List Mono) (d : Nat) :
    denMonos (.mk p e :: ms) d = X d ^ e.toNat * den p (d + 1) + denMonos ms d := by
  simp [denMonos]

theorem denMonos_cons' (m : Mono) (ms : List Mono) (d : Nat) :
    denMonos (m :: ms) d = X d ^ m.exp.toNat * den m.p (d + 1) + denMonos ms d := by
  cases m; simp

@[simp] theorem den_zero (d : Nat) : den PolyZero d = 0 := by
  simp [PolyZero, PolyFromCoeff]

theorem den_of_isZero {p : Poly} (h : PolyIsZero p = true) (d : Nat) : den p d = 0 := by
  rw [(PolyIsZero_iff p).1 h]; exact den_zero d

theorem denMonos_append (l1 l2 : List Mono) (d : Nat) :
    denMonos (l1 ++ l2) d = denMonos l1 d + denMonos l2 d := by
  induction l1 with
  | nil => simp
  | cons m ms ih => rw [List.cons_append, denMonos_cons', denMonos_cons', ih, add_assoc]

theorem denMonos_perm {l1 l2 : List Mono} (h : l1.Perm l2) (d : Nat) :
    denMonos l1 d = denMonos l2 d := by
  induction h with
  | nil => rfl
  | cons x _ ih => rw [denMonos_cons', denMonos_cons', ih]
  | swap x y l => simp only [denMonos_cons']; ring
  | trans _ _ ih1 ih2 => rw [ih1, ih2]

theorem den_PolyAddCoeff (a : Int) : ∀ q d, den (PolyAddCoeff q a) d = den q d + C (a : Coef) := by
  intro q
  induction q using Poly.ind with
  | hc c =>
    intro d
    simp only [PolyAddCoeff, PolyFromCoeff, den_coeff, wrapLong_cast]
    push_cast
    rw [C.map_add, add_comm]
  | hs arr ih =>
    intro d
    cases arr with
    | nil => simp [PolyAddCoeff, PolyFromCoeff]
    | cons m ms =>
      obtain ⟨p, e⟩ := m
      have ihp := ih (.mk p e) (List.mem_cons_self _ _) (d + 1)
      simp only [Mono.p_mk] at ihp
      simp only [PolyAddCoeff]
      by_cases he : e = 0
      · subst he
        simp only [beq_self_eq_true, if_true]
        by_cases hz : PolyIsZero (PolyAddCoeff p a) = true
        · simp only [hz, if_true, den_sum, denMonos_cons]
          have := den_of_isZero hz (d + 1)
          rw [ihp] at this
          simp only [Int.toNat_zero, pow_zero, one_mul]
          rw [add_right_comm, this, zero_add]
        · simp only [hz, Bool.false_eq_true, if_false, den_sum, denMonos_cons, ihp]
          simp only [Int.toNat_zero, pow_zero, one_mul]
          ring
      · have he' : (e == 0) = false := by simpa using he
        simp only [he', Bool.false_eq_true, if_false, den_sum, denMonos_cons, PolyFromCoeff,
          den_coeff, Int.toNat_zero, pow_zero, one_mul]
        ring

theorem den_PolyAddFinish (arr : List Mono) (d : Nat) :
    den (PolyAddFinish arr) d = denMonos arr d := by
  match arr with
  | [] => simp [PolyAddFinish]
  | [.mk (.coeff c) e] =>
    simp only [PolyAddFinish]
    split_ifs with h
    · have : e = 0 := by simpa using h
      subst this
      simp [PolyFromCoeff]
    · simp
  | [.mk (.sum l) e] => simp [PolyAddFinish]
  | _ :: _ :: _ => simp [PolyAddFinish]

theorem singleZeroMono_den {p : Poly} (h : singleZeroMono p = true) (d : Nat) : den p d = 0 := by
  match p, h with
  | .sum [m], h =>
    obtain ⟨s, e⟩ := m
    simp only [singleZeroMono, Mono.p_mk] at h
    simp [den_of_isZero h]

theorem denMonos_merge (d : Nat) : ∀ ps qs,
    (∀ x ∈ ps, ∀ y ∈ qs, den (PolyAdd x.p y.p) (d + 1) = den x.p (d + 1) + den y.p (d + 1)) →
    denMonos (PolyAddMerge ps qs) d = denMonos ps d + denMonos qs d := by
  intro ps qs
  induction ps, qs using merge_induction with
  | h1 qs => intro _; rw [PolyAddMerge_nil_left]; simp
  | h2 mp ps => intro _; rw [PolyAddMerge_nil_right]; simp
  | h3 p e ps q f qs ih1 ih2 ih3 =>
    intro hadd
    have r1 := ih1 (fun x hx y hy => hadd x (List.mem_cons_of_mem _ hx) y hy)
    have r2 := ih2 (fun x hx y hy => hadd x hx y (List.mem_cons_of_mem _ hy))
    have r3 := ih3 (fun x hx y hy => hadd x (List.mem_cons_of_mem _ hx) y
      (List.mem_cons_of_mem _ hy))
    have hc := hadd (.mk p e) (List.mem_cons_self _ _) (.mk q f) (List.mem_cons_self _ _)
    simp only [Mono.p_mk] at hc
    rw [PolyAddMerge_cons]
    by_cases hef : e < f
    · simp only [hef, if_true, denMonos_cons, r1]; ring
    · simp only [hef, if_false]
      by_cases hfe : f < e
      · simp only [hfe, if_true, denMonos_cons, r2]; ring
      · simp only [hfe, if_false]
        have hfe' : f = e := by omega
        subst hfe'
        by_cases hz : PolyIsZero (PolyAdd p q) = true
        · simp only [hz, if_true, denMonos_cons, r3]
          have := den_of_isZero hz (d + 1)
          rw [hc] at this
          linear_combination (-(X d ^ f.toNat)) * this
        · simp only [hz, Bool.false_eq_true, if_false]
          by_cases hs : singleZeroMono (PolyAdd p q) = true
          · simp only [hs, if_true, denMonos_cons, r3]
            have := singleZeroMono_den hs (d + 1)
            rw [hc] at this
            linear_combination (-(X d ^ f.toNat)) * this
          · simp only [hs, Bool.false_eq_true, if_false, denMonos_cons, r3, hc]
            ring

theorem den_PolyAdd_aux : ∀ n p q, p.size + q.size ≤ n →
    ∀ d, den (PolyAdd p q) d = den p d + den q d := by
  intro n
  induction n with
  | zero =>
    intro p q h
    have := p.size_pos
    omega
  | succ n ih =>
    intro p q hsz d
    cases p with
    | coeff a =>
      cases q with
      | coeff b =>
        rw [PolyAdd_coeff_coeff]
        split_ifs with h1 h2
        · simp [h1]
        · simp [h2]
        · simp only [den_coeff, wrapLong_cast]; push_cast; rw [C.map_add]
      | sum qs =>
        rw [PolyAdd_coeff_sum]
        split_ifs with h
        · simp [h]
        · rw [den_PolyAddCoeff, add_comm]; simp
    | sum ps =>
      cases q with
      | coeff b =>
        rw [PolyAdd_sum_coeff]
        split_ifs with h
        · simp [h]
        · rw [den_PolyAddCoeff]; simp
      | sum qs =>
        rw [PolyAdd_sum_sum, den_PolyAddFinish, den_sum, den_sum]
        apply denMonos_merge
        intro x hx y hy
        have h1 := Mono.size_mem hx
        have h2 := Mono.size_mem hy
        simp only [Poly.size] at hsz
        exact ih x.p y.p (by omega) (d + 1)

theorem den_PolyAdd (p q : Poly) (d : Nat) : den (PolyAdd p q) d = den p d + den q d :=
  den_PolyAdd_aux _ p q (le_refl _) d

theorem den_PolyNeg : ∀ p d, den (PolyNeg p) d = - den p d := by
  intro p
  induction p using Poly.ind with
  | hc c =>
    intro d
    simp only [PolyNeg, den_coeff, wrapLong_cast]
    push_cast
    exact MvPolynomial.C_neg _ _
  | hs arr ih =>
    intro d
    simp only [PolyNeg, den_sum]
    induction arr with
    | nil => simp [PolyNegMonos]
    | cons m ms ihl =>
      obtain ⟨p, e⟩ := m
      simp only [PolyNegMonos, denMonos_cons]
      rw [ihl (fun x hx => ih x (List.mem_cons_of_mem _ hx))]
      have := ih (.mk p e) (List.mem_cons_self _ _) (d + 1)
      simp only [Mono.p_mk] at this
      rw [this]
      ring

/-! ## The normaliser and multiplication on the polynomials the values stand for -/

theorem denMonos_mergeEqualExp (d : Nat) : ∀ rest cur,
    denMonos (mergeEqualExp cur rest) d = denMonos (cur :: rest) d := by
  intro rest
  induction rest with
  | nil => intro cur; simp [mergeEqualExp]
  | cons next rest ih =>
    intro cur
    simp only [mergeEqualExp]
    by_cases he : cur.exp = next.exp
    · simp only [he, beq_self_eq_true, if_true]
      rw [denMonos_cons', ih, denMonos_cons', denMonos_cons', denMonos_cons']
      simp only [Mono.p_mk, Mono.exp_mk, den_zero, den_PolyAdd, he]
      ring
    · have he' : (cur.exp == next.exp) = false := by simpa using he
      simp only [he', Bool.false_eq_true, if_false]
      rw [denMonos_cons', ih, denMonos_cons' cur]

theorem denMonos_filter (d : Nat) (l : List Mono) :
    denMonos (l.filter (fun m => !PolyIsZero m.p)) d = denMonos l d := by
  induction l with
  | nil => rfl
  | cons m ms ih =>
    by_cases hz : PolyIsZero m.p = true
    · rw [List.filter_cons_of_neg (by simp [hz]), ih, denMonos_cons', den_of_isZero hz]
      simp
    · rw [List.filter_cons_of_pos (by simpa using hz), denMonos_cons', denMonos_cons', ih]

theorem denMonos_mergedMonos (d : Nat) (l : List Mono) :
    denMonos (mergedMonos l) d = denMonos l d := by
  cases l with
  | nil => rfl
  | cons first rest =>
    simp only [mergedMonos]
    rw [denMonos_filter, denMonos_mergeEqualExp]

theorem den_PolyAddMonosSorted (l : List Mono) (d : Nat) :
    den (PolyAddMonosSorted l) d = denMonos l d := by
  rw [PolyAddMonosSorted_eq, den_PolyAddFinish, denMonos_mergedMonos]

theorem den_PolyAddMonos (monos : List Mono) (d : Nat) :
    den (PolyAddMonos monos) d = denMonos monos d := by
  unfold PolyAddMonos
  rw [den_PolyAddMonosSorted]
  exact denMonos_perm (List.perm_insertionSort _ _) d

theorem den_PolyMulScalar (a : Int) : ∀ p d,
    den (PolyMulScalar p a) d = C (a : Coef) * den p d := by
  intro p
  induction p using Poly.ind with
  | hc c =>
    intro d
    simp only [PolyMulScalar]
    split_ifs with h1 h2
    · have : a = 0 := by simpa using h1
      simp [this]
    · have : c = 0 := by simpa using h2
      simp [this]
    · simp only [PolyFromCoeff, den_coeff, wrapLong_cast]
      push_cast
      rw [C.map_mul]
  | hs arr ih =>
    intro d
    simp only [PolyMulScalar]
    split_ifs with h1
    · have : a = 0 := by simpa using h1
      simp [this]
    · rw [den_PolyAddMonos, den_sum]
      clear h1
      induction arr with
      | nil => simp [PolyMulScalarMonos]
      | cons m ms ihl =>
        obtain ⟨p, e⟩ := m
        simp only [PolyMulScalarMonos, denMonos_cons]
        rw [ihl (fun x hx => ih x (List.mem_cons_of_mem _ hx))]
        have := ih (.mk p e) (List.mem_cons_self _ _) (d + 1)
        simp only [Mono.p_mk] at this
        rw [this]
        ring

theorem coeffAt_zero (v : List Nat) : coeffAt PolyZero v = 0 := by
  simp [PolyZero, PolyFromCoeff, coeffAt]

theorem coeffAt_range {B : Int} {p : Poly} (h : CanonB B p = true) (v : List Nat) :
    -2 ^ 63 ≤ coeffAt p v ∧ coeffAt p v < 2 ^ 63 := by
  cases p with
  | coeff c =>
    rw [CanonB_coeff] at h
    simp only [coeffAt]
    split_ifs
    · exact h
    · constructor <;> norm_num
  | sum arr =>
    simp only [coeffAt]
    exact wrapLong_range _

theorem coeffAtMonos_cons (m : Mono) (ms : List Mono) (v : List Nat) :
    coeffAtMonos (m :: ms) v =
      (if m.exp = ((v.headD 0 : Nat) : Int) then coeffAt m.p v.tail else 0) +
        coeffAtMonos ms v := by
  cases m; simp [coeffAtMonos]

theorem coeffAtMonos_none (ms : List Mono) (v : List Nat)
    (h : ∀ m ∈ ms, m.exp ≠ ((v.headD 0 : Nat) : Int)) : coeffAtMonos ms v = 0 := by
  induction ms with
  | nil => simp [coeffAtMonos]
  | cons m ms ih =>
    rw [coeffAtMonos_cons, ih (fun x hx => h x (List.mem_cons_of_mem _ hx)),
      if_neg (h m (List.mem_cons_self _ _))]
    rfl

theorem subAt_sum_cons (m : Mono) (ms : List Mono) (e : Int) :
    subAt (.sum (m :: ms)) e = if m.exp = e then m.p else subAt (.sum ms) e := by
  simp only [subAt, List.find?_cons]
  by_cases h : m.exp = e
  · simp [h]
  · have : (m.exp == e) = false := by simpa using h
    simp [this, h]

theorem subAt_sum_none (ms : List Mono) (e : Int) (h : ∀ m ∈ ms, m.exp ≠ e) :
    subAt (.sum ms) e = PolyZero := by
  induction ms with
  | nil => simp [subAt]
  | cons m ms ih =>
    rw [subAt_sum_cons, if_neg (h m (List.mem_cons_self _ _)),
      ih (fun x hx => h x (List.mem_cons_of_mem _ hx))]

theorem subAt_sum_mem {B : Int} {arr : List Mono} (h : MonosOk B arr) {m : Mono} (hm : m ∈ arr) :
    subAt (.sum arr) m.exp = m.p := by
  induction arr with
  | nil => cases hm
  | cons x xs ih =>
    rw [MonosOk_cons] at h
    rw [subAt_sum_cons]
    rcases List.mem_cons.1 hm with rfl | hm
    · simp
    · have := h.2.1 m hm
      rw [if_neg (by omega)]
      exact ih h.2.2 hm

/-- The sub-polynomial at an exponent is a sub-polynomial of a monomial or zero. -/
theorem subAt_sum_cases (arr : List Mono) (e : Int) :
    (∃ m ∈ arr, m.exp = e ∧ subAt (.sum arr) e = m.p) ∨
      ((∀ m ∈ arr, m.exp ≠ e) ∧ subAt (.sum arr) e = PolyZero) := by
  induction arr with
  | nil => right; simp [subAt]
  | cons x xs ih =>
    rw [subAt_sum_cons]
    by_cases h : x.exp = e
    · left; exact ⟨x, List.mem_cons_self _ _, h, by simp [h]⟩
    · rw [if_neg h]
      rcases ih with ⟨m, hm, h1, h2⟩ | ⟨h1, h2⟩
      · left; exact ⟨m, List.mem_cons_of_mem _ hm, h1, h2⟩
      · right
        refine ⟨fun m hm => ?_, h2⟩
        rcases List.mem_cons.1 hm with rfl | hm
        · exact h
        · exact h1 m hm

theorem coeffAtMonos_eq {B : Int} {arr : List Mono} (h : MonosOk B arr) (v : List Nat) :
    coeffAtMonos arr v = coeffAt (subAt (.sum arr) ((v.headD 0 : Nat) : Int)) v.tail := by
  induction arr with
  | nil => simp [coeffAtMonos, subAt, coeffAt_zero]
  | cons x xs ih =>
    rw [MonosOk_cons] at h
    rw [coeffAtMonos_cons, subAt_sum_cons]
    by_cases he : x.exp = ((v.headD 0 : Nat) : Int)
    · rw [if_pos he, if_pos he, coeffAtMonos_none, add_zero]
      intro m hm
      have := h.2.1 m hm
      omega
    · rw [if_neg he, if_neg he, zero_add, ih h.2.2]

theorem subAt_canon {B : Int} {p : Poly} (h : CanonB B p = true) (e : Int) :
    CanonB B (subAt p e) = true := by
  cases p with
  | coeff c =>
    simp only [subAt]
    split_ifs
    · exact h
    · exact CanonB_zero B
  | sum arr =>
    rw [CanonB_sum] at h
    rcases subAt_sum_cases arr e with ⟨m, hm, _, h2⟩ | ⟨_, h2⟩
    · rw [h2]; exact (h.1.1 m hm).2.2.1
    · rw [h2]; exact CanonB_zero B

/-- The coefficient at `v` is found below the sub-polynomial at the exponent `v[0]`. -/
theorem coeffAt_eq_subAt {B : Int} {p : Poly} (h : CanonB B p = true) (v : List Nat) :
    coeffAt p v = coeffAt (subAt p ((v.headD 0 : Nat) : Int)) v.tail := by
  cases p with
  | coeff c =>
    cases v with
    | nil => simp [subAt, coeffAt]
    | cons e t =>
      simp only [List.headD_cons, List.tail_cons, subAt, coeffAt, List.all_cons]
      by_cases he : e = 0
      · simp [he, coeffAt]
      · simp [he, coeffAt_zero]
  | sum arr =>
    have hc := h
    rw [CanonB_sum] at h
    simp only [coeffAt]
    rw [coeffAtMonos_eq h.1]
    exact wrapLong_of_range (coeffAt_range (subAt_canon hc _) _).1
      (coeffAt_range (subAt_canon hc _) _).2

theorem exists_coeffAt_ne_zero {B : Int} : ∀ p, CanonB B p = true → PolyIsZero p = false →
    ∃ v, coeffAt p v ≠ 0 := by
  intro p
  induction p using Poly.ind with
  | hc c =>
    intro _ hz
    refine ⟨[], ?_⟩
    simpa [coeffAt, PolyIsZero] using hz
  | hs arr ih =>
    intro h _
    have hc := h
    rw [CanonB_sum] at h
    obtain ⟨m, hm⟩ := List.exists_mem_of_ne_nil _ h.2.1
    obtain ⟨e0, _, hmc, hmz⟩ := h.1.1 m hm
    obtain ⟨t, ht⟩ := ih m hm hmc hmz
    refine ⟨m.exp.toNat :: t, ?_⟩
    rw [coeffAt_eq_subAt hc]
    simp only [List.headD_cons, List.tail_cons, Int.toNat_of_nonneg e0]
    rw [subAt_sum_mem h.1 hm]
    exact ht

theorem exists_coeffAt_nonconst {B : Int} : ∀ p, CanonB B p = true → PolyIsCoeff p = false →
    ∃ v, v.all (fun e => e == 0) = false ∧ coeffAt p v ≠ 0 := by
  intro p
  induction p using Poly.ind with
  | hc c => intro _ h; simp [PolyIsCoeff] at h
  | hs arr ih =>
    intro h _
    have hc := h
    rw [CanonB_sum] at h
    by_cases hex : ∃ m ∈ arr, m.exp ≠ 0
    · obtain ⟨m, hm, hne⟩ := hex
      obtain ⟨e0, _, hmc, hmz⟩ := h.1.1 m hm
      obtain ⟨t, ht⟩ := exists_coeffAt_ne_zero m.p hmc hmz
      refine ⟨m.exp.toNat :: t, ?_, ?_⟩
      · have : ¬ m.exp.toNat = 0 := by omega
        simp [this]
      · rw [coeffAt_eq_subAt hc]
        simp only [List.headD_cons, List.tail_cons, Int.toNat_of_nonneg e0]
        rw [subAt_sum_mem h.1 hm]
        exact ht
    · have hall : ∀ m ∈ arr, m.exp = 0 := by
        intro m hm
        by_contra hne
        exact hex ⟨m, hm, hne⟩
      match arr, h, hall, ih, hc with
      | [], h, _, _, _ => exact absurd rfl h.2.1
      | [m], h, hall, ih, hc =>
        obtain ⟨s, e⟩ := m
        have he : e = 0 := hall _ (List.mem_cons_self _ _)
        subst he
        have hcol := h.2.2
        rw [collapsible_single] at hcol
        have hs : PolyIsCoeff s = false := by simpa using hcol
        obtain ⟨_, _, hmc, _⟩ := h.1.1 _ (List.mem_cons_self _ _)
        obtain ⟨t, ht1, ht2⟩ := ih _ (List.mem_cons_self _ _) hmc hs
        refine ⟨0 :: t, by simpa using ht1, ?_⟩
        rw [coeffAt_eq_subAt hc]
        simp only [List.headD_cons, List.tail_cons]
        rw [subAt_sum_cons]
        simpa using ht2
      | m1 :: m2 :: _, h, hall, _, _ =>
        have h1 := hall m1 (List.mem_cons_self _ _)
        have h2 := hall m2 (List.mem_cons_of_mem _ (List.mem_cons_self _ _))
        have := (MonosOk_cons.1 h.1).2.1 m2 (List.mem_cons_self _ _)
        omega

/-! ## Structural equality -/

theorem PolyIsEqLoop_iff : ∀ ps : List Mono,
    (∀ m ∈ ps, ∀ q, PolyIsEq m.p q = true ↔ m.p = q) →
    ∀ qs, ps.length = qs.length → (PolyIsEqLoop ps qs = true ↔ ps = qs) := by
  intro ps
  induction ps with
  | nil =>
    intro _ qs hl
    cases qs with
    | nil => simp [PolyIsEqLoop]
    | cons _ _ => simp at hl
  | cons m ms ih =>
    intro h qs hl
    cases qs with
    | nil => simp at hl
    | cons n ns =>
      obtain ⟨p, e⟩ := m
      obtain ⟨q, f⟩ := n
      have hp := h (.mk p e) (List.mem_cons_self _ _) q
      simp only [Mono.p_mk] at hp
      have hl' : ms.length = ns.length := by simpa using hl
      have ih' := ih (fun x hx => h x (List.mem_cons_of_mem _ hx)) ns hl'
      simp only [PolyIsEqLoop]
      by_cases hef : e = f
      · subst hef
        by_cases hpq : p = q
        · subst hpq
          have : PolyIsEq p p = true := hp.2 rfl
          simp [this, ih']
        · have : PolyIsEq p q = false := by
            cases hb : PolyIsEq p q
            · rfl
            · exact absurd (hp.1 hb) hpq
          simp [this, hpq]
      · simp [hef]

theorem PolyIsEq_iff : ∀ p q, PolyIsEq p q = true ↔ p = q := by
  intro p
  induction p using Poly.ind with
  | hc a =>
    intro q
    cases q <;> simp [PolyIsEq]
  | hs ps ih =>
    intro q
    cases q with
    | coeff b => simp [PolyIsEq]
    | sum qs =>
      simp only [PolyIsEq]
      by_cases hl : ps.length = qs.length
      · have := PolyIsEqLoop_iff ps ih qs hl
        simp [hl, this]
      · have : ps ≠ qs := fun h => hl (by rw [h])
        simp [hl, this]

/-! ## Uniqueness of the canonical form -/

theorem monos_ext {B B' : Int} : ∀ ps qs : List Mono, MonosOk B ps → MonosOk B' qs →
    (∀ e, subAt (.sum ps) e = subAt (.sum qs) e) → ps = qs := by
  intro ps
  induction ps with
  | nil =>
    intro qs _ hq h
    cases qs with
    | nil => rfl
    | cons n ns =>
      have := h n.exp
      rw [subAt_sum_mem hq (List.mem_cons_self _ _)] at this
      have hz := (hq.1 n (List.mem_cons_self _ _)).2.2.2
      rw [← this] at hz
      simp [subAt, PolyIsZero, PolyZero, PolyFromCoeff] at hz
  | cons m ms ih =>
    intro qs hp hq h
    have hp' := MonosOk_cons.1 hp
    cases qs with
    | nil =>
      have := h m.exp
      rw [subAt_sum_mem hp (List.mem_cons_self _ _)] at this
      have hz := hp'.1.2.2.2
      rw [this] at hz
      simp [subAt, PolyIsZero, PolyZero, PolyFromCoeff] at hz
    | cons n ns =>
      have hq' := MonosOk_cons.1 hq
      have hmz := hp'.1.2.2.2
      have hnz := hq'.1.2.2.2
      have hexp : m.exp = n.exp := by
        rcases lt_trichotomy m.exp n.exp with hlt | heq | hgt
        · exfalso
          have := h m.exp
          rw [subAt_sum_mem hp (List.mem_cons_self _ _), subAt_sum_none] at this
          · rw [this] at hmz
            simp [PolyIsZero, PolyZero, PolyFromCoeff] at hmz
          · intro x hx
            rcases List.mem_cons.1 hx with rfl | hx
            · omega
            · have := hq'.2.1 x hx; omega
        · exact heq
        · exfalso
          have := h n.exp
          rw [subAt_sum_mem hq (List.mem_cons_self _ _), subAt_sum_none] at this
          · rw [← this] at hnz
            simp [PolyIsZero, PolyZero, PolyFromCoeff] at hnz
          · intro x hx
            rcases List.mem_cons.1 hx with rfl | hx
            · omega
            · have := hp'.2.1 x hx; omega
      have hsub : m.p = n.p := by
        have := h m.exp
        rw [subAt_sum_mem hp (List.mem_cons_self _ _), hexp,
          subAt_sum_mem hq (List.mem_cons_self _ _)] at this
        exact this
      have hmn : m = n := by
        rw [← Mono.eta m, ← Mono.eta n, hexp, hsub]
      subst hmn
      congr 1
      apply ih ns hp'.2.2 hq'.2.2
      intro e
      by_cases he : m.exp = e
      · rw [subAt_sum_none, subAt_sum_none]
        · intro x hx; have := hq'.2.1 x hx; omega
        · intro x hx; have := hp'.2.1 x hx; omega
      · have := h e
        rw [subAt_sum_cons, subAt_sum_cons, if_neg he, if_neg he] at this
        exact this

theorem subAt_neg {B : Int} {p : Poly} (h : CanonB B p = true) {e : Int} (he : e < 0) :
    subAt p e = PolyZero := by
  cases p with
  | coeff c =>
    have : ¬ e = 0 := by omega
    simp [subAt, this]
  | sum arr =>
    rw [CanonB_sum] at h
    apply subAt_sum_none
    intro m hm
    have := (h.1.1 m hm).1
    omega

theorem canon_unique {B : Int} : ∀ p, CanonB B p = true → ∀ (B' : Int) q, CanonB B' q = true →
    (∀ v, coeffAt p v = coeffAt q v) → p = q := by
  intro p
  induction p using Poly.ind with
  | hc a =>
    intro _ B' q hq h
    cases q with
    | coeff b =>
      have := h []
      simpa [coeffAt] using this
    | sum qs =>
      exfalso
      obtain ⟨v, hv1, hv2⟩ := exists_coeffAt_nonconst (.sum qs) hq rfl
      rw [← h v] at hv2
      simp [coeffAt, hv1] at hv2
  | hs ps ih =>
    intro hp B' q hq h
    cases q with
    | coeff b =>
      exfalso
      obtain ⟨v, hv1, hv2⟩ := exists_coeffAt_nonconst (.sum ps) hp rfl
      rw [h v] at hv2
      simp [coeffAt, hv1] at hv2
    | sum qs =>
      have hp' := (CanonB_sum B ps).1 hp
      have hq' := (CanonB_sum B' qs).1 hq
      congr 1
      apply monos_ext ps qs hp'.1 hq'.1
      intro e
      rcases Int.lt_or_le e 0 with hneg | hnn
      · rw [subAt_neg hp hneg, subAt_neg hq hneg]
      · have hcoef : ∀ t, coeffAt (subAt (.sum ps) e) t = coeffAt (subAt (.sum qs) e) t := by
          intro t
          have := h (e.toNat :: t)
          rw [coeffAt_eq_subAt hp, coeffAt_eq_subAt hq] at this
          simpa [Int.toNat_of_nonneg hnn] using this
        rcases subAt_sum_cases ps e with ⟨m, hm, _, h2⟩ | ⟨_, h2⟩
        · rw [h2]
          apply ih m hm (hp'.1.1 m hm).2.2.1 B' _ (subAt_canon hq e)
          intro t
          rw [← h2]; exact hcoef t
        · rw [h2]
          by_contra hne
          have hz : PolyIsZero (subAt (.sum qs) e) = false := by
            cases hb : PolyIsZero (subAt (.sum qs) e)
            · rfl
            · exact absurd ((PolyIsZero_iff _).1 hb).symm hne
          obtain ⟨t, ht⟩ := exists_coeffAt_ne_zero _ (subAt_canon hq e) hz
          rw [← hcoef t, h2, coeffAt_zero] at ht
          exact ht rfl

/-! ## Coefficients of the polynomial a value stands for -/

theorem monoVec_apply_lt : ∀ (v : List Nat) (d i : Nat), i < d → monoVec d v i = 0 := by
  intro v
  induction v with
  | nil => intro d i _; simp [monoVec]
  | cons e t ih =>
    intro d i h
    simp only [monoVec, Finsupp.add_apply]
    rw [ih (d + 1) i (by omega), Finsupp.single_apply, if_neg (by omega)]

theorem monoVec_eq (d : Nat) (v : List Nat) :
    monoVec d v = Finsupp.single d (v.headD 0) + monoVec (d + 1) v.tail := by
  cases v with
  | nil => simp [monoVec]
  | cons e t => simp [monoVec]

theorem monoVec_eq_zero_iff : ∀ (v : List Nat) (d : Nat),
    monoVec d v = 0 ↔ v.all (fun e => e == 0) = true := by
  intro v
  induction v with
  | nil => intro d; simp [monoVec]
  | cons e t ih =>
    intro d
    simp only [monoVec, List.all_cons, Bool.and_eq_true, beq_iff_eq, ← ih (d + 1)]
    constructor
    · intro h
      have h1 := DFunLike.congr_fun h d
      simp only [Finsupp.add_apply, Finsupp.single_eq_same, Finsupp.coe_zero, Pi.zero_apply,
        monoVec_apply_lt t (d + 1) d (by omega), add_zero] at h1
      subst h1
      simpa using h
    · rintro ⟨rfl, h⟩
      simp [h]

theorem coeff_den_low : ∀ p (d : Nat) (m : Nat →₀ Nat), (∃ i, i < d ∧ m i ≠ 0) →
    coeff m (den p d) = 0 := by
  intro p
  induction p using Poly.ind with
  | hc c =>
    intro d m ⟨i, _, hi⟩
    classical
    rw [den_coeff, coeff_C, if_neg]
    intro h
    rw [← h] at hi
    exact hi rfl
  | hs arr ih =>
    intro d m ⟨i, hid, hi⟩
    rw [den_sum]
    induction arr with
    | nil => simp
    | cons x xs ihl =>
      rw [denMonos_cons', coeff_add, ihl (fun y hy => ih y (List.mem_cons_of_mem _ hy)),
        add_zero, X_pow_eq_monomial, coeff_monomial_mul']
      split_ifs with hle
      · rw [ih x (List.mem_cons_self _ _) (d + 1) _ ⟨i, by omega, ?_⟩, mul_zero]
        rw [Finsupp.tsub_apply, Finsupp.single_apply, if_neg (by omega)]
        simpa using hi
      · rfl

theorem coeff_denMonos (d : Nat) (v : List Nat) : ∀ arr : List Mono,
    (∀ m ∈ arr, 0 ≤ m.exp ∧
      coeff (monoVec (d + 1) v.tail) (den m.p (d + 1)) = ((coeffAt m.p v.tail : Int) : Coef)) →
    coeff (monoVec d v) (denMonos arr d) = ((coeffAtMonos arr v : Int) : Coef) := by
  intro arr
  induction arr with
  | nil => intro _; simp [coeffAtMonos]
  | cons x xs ih =>
    intro h
    obtain ⟨hx0, hx⟩ := h x (List.mem_cons_self _ _)
    rw [denMonos_cons', coeff_add, ih (fun y hy => h y (List.mem_cons_of_mem _ hy)),
      coeffAtMonos_cons, Int.cast_add, X_pow_eq_monomial, coeff_monomial_mul', one_mul]
    congr 1
    rw [monoVec_eq d v]
    by_cases he : x.exp = ((v.headD 0 : Nat) : Int)
    · have hk : x.exp.toNat = v.headD 0 := by omega
      rw [if_pos he, hk, if_pos le_self_add, add_tsub_cancel_left, hx]
    · have hk : x.exp.toNat ≠ v.headD 0 := by omega
      rw [if_neg he, Int.cast_zero]
      split_ifs with hle
      · apply coeff_den_low
        refine ⟨d, by omega, ?_⟩
        have h1 := hle d
        simp only [Finsupp.single_eq_same, Finsupp.add_apply,
          monoVec_apply_lt v.tail (d + 1) d (by omega), add_zero] at h1
        simp only [Finsupp.tsub_apply, Finsupp.add_apply, Finsupp.single_eq_same,
          monoVec_apply_lt v.tail (d + 1) d (by omega), add_zero]
        omega
      · rfl

theorem coeff_den {B : Int} : ∀ p, CanonB B p = true → ∀ (d : Nat) (v : List Nat),
    coeff (monoVec d v) (den p d) = ((coeffAt p v : Int) : Coef) := by
  intro p
  induction p using Poly.ind with
  | hc c =>
    intro _ d v
    classical
    rw [den_coeff, coeff_C]
    simp only [coeffAt]
    by_cases hv : v.all (fun e => e == 0) = true
    · rw [if_pos ((monoVec_eq_zero_iff v d).2 hv).symm, if_pos hv]
    · rw [if_neg (fun h => hv ((monoVec_eq_zero_iff v d).1 h.symm)), if_neg hv, Int.cast_zero]
  | hs arr ih =>
    intro h d v
    rw [CanonB_sum] at h
    rw [den_sum]
    simp only [coeffAt]
    rw [wrapLong_cast]
    apply coeff_denMonos
    intro m hm
    obtain ⟨a, _, c, _⟩ := h.1.1 m hm
    exact ⟨a, ih m hm c (d + 1) v.tail⟩

/-- Two canonical values that stand for the same polynomial are the same value. -/
theorem den_inj {B B' : Int} {p q : Poly} (hp : CanonB B p = true) (hq : CanonB B' q = true)
    (d : Nat) (h : den p d = den q d) : p = q := by
  apply canon_unique p hp B' q hq
  intro v
  have h1 := coeff_den p hp d v
  have h2 := coeff_den q hq d v
  rw [h] at h1
  exact coef_cast_inj (coeffAt_range hp v).1 (coeffAt_range hp v).2 (coeffAt_range hq v).1
    (coeffAt_range hq v).2 (h1.symm.trans h2)

/-! ## The laws of the arithmetic engine -/

/-- C4: for canonical `p` and `q`, `PolyIsEq(p, q)` holds exactly when `p` and `q` have the
same coefficient at every exponent vector; two canonical values with the same coefficients
are the same value. -/
theorem PolyIsEq_iff_same_polynomial (p q : Poly) (hp : Canonical p = true)
    (hq : Canonical q = true) :
    (PolyIsEq p q = true ↔ ∀ v : List Nat, coeffAt p v = coeffAt q v) ∧
    ((∀ v : List Nat, coeffAt p v = coeffAt q v) → p = q) := by
  unfold Canonical at *
  have hu := canon_unique p hp _ q hq
  refine ⟨⟨fun h v => ?_, fun h => (PolyIsEq_iff p q).2 (hu h)⟩, hu⟩
  rw [(PolyIsEq_iff p q).1 h]

theorem PolyIsEq_iff_same_polynomial_witness :
    (PolyIsEq (.sum [.mk (.coeff 1) 0, .mk (.coeff 1) 1]) (.coeff 1) = true ↔
      ∀ v : List Nat, coeffAt (.sum [.mk (.coeff 1) 0, .mk (.coeff 1) 1]) v
        = coeffAt (.coeff 1) v) ∧
    ((∀ v : List Nat, coeffAt (.sum [.mk (.coeff 1) 0, .mk (.coeff 1) 1]) v
        = coeffAt (.coeff 1) v) → Poly.sum [.mk (.coeff 1) 0, .mk (.coeff 1) 1] = .coeff 1) :=
  PolyIsEq_iff_same_polynomial _ _ (by decide) (by decide)

/-- C5: for canonical `p` and `q`, `PolyAdd(p, q)` and `PolyAdd(q, p)` are structurally
equal. -/
theorem PolyAdd_comm (p q : Poly) (hp : Canonical p = true) (hq : Canonical q = true) :
    PolyIsEq (PolyAdd p q) (PolyAdd q p) = true := by
  unfold Canonical at *
  rw [PolyIsEq_iff]
  apply den_inj (PolyAdd_canonB hp hq) (PolyAdd_canonB hq hp) 0
  rw [den_PolyAdd, den_PolyAdd, add_comm]

theorem PolyAdd_comm_witness :
    PolyIsEq (PolyAdd (.sum [.mk (.coeff 1) 0, .mk (.coeff 1) 1]) (.coeff 5))
      (PolyAdd (.coeff 5) (.sum [.mk (.coeff 1) 0, .mk (.coeff 1) 1])) = true :=
  PolyAdd_comm _ _ (by decide) (by decide)

/-- C6: for canonical `p`, `q`, `r`, `PolyAdd(PolyAdd(p, q), r)` and
`PolyAdd(p, PolyAdd(q, r))` are structurally equal. -/
theorem PolyAdd_assoc (p q r : Poly) (hp : Canonical p = true) (hq : Canonical q = true)
    (hr : Canonical r = true) :
    PolyIsEq (PolyAdd (PolyAdd p q) r) (PolyAdd p (PolyAdd q r)) = true := by
  unfold Canonical at *
  rw [PolyIsEq_iff]
  apply den_inj (PolyAdd_canonB (PolyAdd_canonB hp hq) hr)
    (PolyAdd_canonB hp (PolyAdd_canonB hq hr)) 0
  simp only [den_PolyAdd, add_assoc]

theorem PolyAdd_assoc_witness :
    PolyIsEq
      (PolyAdd (PolyAdd (.sum [.mk (.coeff 1) 0, .mk (.coeff 1) 1]) (.coeff 5))
        (.sum [.mk (.coeff (-1)) 1]))
      (PolyAdd (.sum [.mk (.coeff 1) 0, .mk (.coeff 1) 1])
        (PolyAdd (.coeff 5) (.sum [.mk (.coeff (-1)) 1]))) = true :=
  PolyAdd_assoc _ _ _ (by decide) (by decide) (by decide)

/-- C7: for canonical `p`, `PolyAdd(p, PolyNeg(p))`, which is `PolySub(p, p)`, is the
zero polynomial, the coefficient 0. -/
theorem PolyAdd_neg_self (p : Poly) (hp : Canonical p = true) :
    PolyAdd p (PolyNeg p) = PolyZero ∧ PolySub p p = PolyZero := by
  unfold Canonical at *
  have h : PolyAdd p (PolyNeg p) = PolyZero := by
    apply den_inj (PolyAdd_canonB hp (PolyNeg_canon _ _ hp)) (CanonB_zero maxExp) 0
    rw [den_PolyAdd, den_PolyNeg, den_zero, add_neg_cancel]
  exact ⟨h, h⟩

theorem PolyAdd_neg_self_witness :
    PolyAdd (.sum [.mk (.coeff 1) 0, .mk (.coeff 1) 1])
        (PolyNeg (.sum [.mk (.coeff 1) 0, .mk (.coeff 1) 1])) = PolyZero ∧
      PolySub (.sum [.mk (.coeff 1) 0, .mk (.coeff 1) 1])
        (.sum [.mk (.coeff 1) 0, .mk (.coeff 1) 1]) = PolyZero :=
  PolyAdd_neg_self _ (by decide)

theorem foldl_PolyAdd_canon {B : Int} : ∀ (l : List Poly) (acc : Poly),
    CanonB B acc = true → (∀ x ∈ l, CanonB B x = true) →
    CanonB B (l.foldl PolyAdd acc) = true := by
  intro l
  induction l with
  | nil => intro acc h _; exact h
  | cons x xs ih =>
    intro acc h hl
    simp only [List.foldl_cons]
    exact ih _ (PolyAdd_canonB h (hl x (List.mem_cons_self _ _)))
      (fun y hy => hl y (List.mem_cons_of_mem _ hy))

theorem sumAt_canon {B : Int} {monos : List Mono} (h : ∀ m ∈ monos, MonoOkB B m = true)
    (e : Int) : CanonB B (sumAt monos e) = true := by
  unfold sumAt
  apply foldl_PolyAdd_canon _ _ (CanonB_zero B)
  intro x hx
  obtain ⟨m, hm, rfl⟩ := List.mem_map.1 hx
  exact ((MonoOkB_iff B m).1 (h m (List.mem_filter.1 hm).1)).2.2

theorem den_foldl_PolyAdd (d : Nat) : ∀ (l : List Poly) (acc : Poly),
    den (l.foldl PolyAdd acc) d = den acc d + (l.map (fun x => den x d)).sum := by
  intro l
  induction l with
  | nil => intro acc; simp
  | cons x xs ih =>
    intro acc
    simp only [List.foldl_cons, List.map_cons, List.sum_cons]
    rw [ih, den_PolyAdd, add_assoc]

theorem coeff_sumAt {B : Int} (n : Nat) (t : List Nat) : ∀ monos : List Mono,
    (∀ m ∈ monos, MonoOkB B m = true) →
    coeff (monoVec 1 t) (den (sumAt monos (n : Int)) 1) =
      ((coeffAtMonos monos (n :: t) : Int) : Coef) := by
  intro monos h
  unfold sumAt
  rw [den_foldl_PolyAdd, den_zero, zero_add]
  induction monos with
  | nil => simp [coeffAtMonos]
  | cons m ms ih =>
    have hm := (MonoOkB_iff B m).1 (h m (List.mem_cons_self _ _))
    have ih' := ih (fun x hx => h x (List.mem_cons_of_mem _ hx))
    rw [coeffAtMonos_cons]
    simp only [List.headD_cons, List.tail_cons]
    by_cases he : m.exp = (n : Int)
    · rw [List.filter_cons_of_pos (by simpa using he), List.map_cons, List.map_cons,
        List.sum_cons, coeff_add, ih', if_pos he, Int.cast_add, coeff_den m.p hm.2.2 1 t]
    · rw [List.filter_cons_of_neg (by simpa using he), ih', if_neg he, zero_add]

theorem subAt_PolyAddMonos (monos : List Mono) (h : ∀ m ∈ monos, MonoOkB maxExp m = true)
    (e : Int) : subAt (PolyAddMonos monos) e = sumAt monos e := by
  have hR := PolyAddMonos_canon maxExp (le_refl _) monos h
  rcases Int.lt_or_le e 0 with hneg | hnn
  · rw [subAt_neg hR hneg]
    unfold sumAt
    rw [List.filter_eq_nil_iff.2]
    · rfl
    · intro m hm
      have := ((MonoOkB_iff maxExp m).1 (h m hm)).1
      have : ¬ m.exp = e := by omega
      simpa using this
  · obtain ⟨n, rfl⟩ := Int.eq_ofNat_of_zero_le hnn
    apply canon_unique _ (subAt_canon hR _) maxExp _ (sumAt_canon h _)
    intro t
    apply coef_cast_inj (coeffAt_range (subAt_canon hR _) t).1
      (coeffAt_range (subAt_canon hR _) t).2 (coeffAt_range (sumAt_canon h _) t).1
      (coeffAt_range (sumAt_canon h _) t).2
    rw [← coeff_den _ (sumAt_canon h _) 1 t, coeff_sumAt n t monos h]
    have h1 := coeffAt_eq_subAt hR (n :: t)
    simp only [List.headD_cons, List.tail_cons] at h1
    rw [← h1, ← coeff_den _ hR 0 (n :: t), den_PolyAddMonos]
    apply coeff_denMonos
    intro m hm
    have hm' := (MonoOkB_iff maxExp m).1 (h m hm)
    exact ⟨hm'.1, coeff_den m.p hm'.2.2 1 _⟩

theorem PolyAddMonosSorted_eq_PolyAddMonos (monos sorted : List Mono)
    (h : ∀ m ∈ monos, MonoOkB maxExp m = true) (hperm : sorted.Perm monos)
    (hs : sorted.Pairwise (fun a b => a.exp ≤ b.exp)) :
    PolyAddMonosSorted sorted = PolyAddMonos monos := by
  apply den_inj (PolyAddMonosSorted_canon maxExp sorted
    (fun m hm => h m (hperm.subset hm)) hs) (PolyAddMonos_canon maxExp (le_refl _) monos h) 0
  rw [den_PolyAddMonosSorted, den_PolyAddMonos]
  exact denMonos_perm hperm 0

/-- C3: `PolyAddMonos` on monomials with exponents in `0..2^31-1` and canonical, possibly
zero, sub-polynomials, in any order and with repeated exponents: the result is canonical; its
sub-polynomial at every exponent `e` is the `PolyAdd`-sum of the input sub-polynomials of
exponent `e` (so exponents of zero sum are absent and exponents increase strictly); it is the
coefficient 0 when every sum is zero, also for the empty list; it is a bare coefficient when
only the exponent 0 remains, with a coefficient; and it does not depend on the order in which
the sort leaves monomials of equal exponent. -/
theorem PolyAddMonos_normalizes (monos : List Mono)
    (h : ∀ m ∈ monos, MonoOkB maxExp m = true) :
    Canonical (PolyAddMonos monos) = true ∧
    (∀ e : Int, subAt (PolyAddMonos monos) e = sumAt monos e) ∧
    (∀ arr : List Mono, PolyAddMonos monos = .sum arr →
      (arr.map Mono.exp).Pairwise (fun a b => a < b) ∧
      ∀ m ∈ arr, m.p = sumAt monos m.exp ∧ PolyIsZero m.p = false) ∧
    ((∀ e : Int, sumAt monos e = PolyZero) → PolyAddMonos monos = PolyZero) ∧
    PolyAddMonos [] = PolyZero ∧
    (∀ c : Int, sumAt monos 0 = .coeff c → (∀ e : Int, e ≠ 0 → sumAt monos e = PolyZero) →
      PolyAddMonos monos = .coeff c) ∧
    (∀ sorted : List Mono, sorted.Perm monos → sorted.Pairwise (fun a b => a.exp ≤ b.exp) →
      PolyAddMonosSorted sorted = PolyAddMonos monos) := by
  have hR := PolyAddMonos_canon maxExp (le_refl _) monos h
  have hsub := subAt_PolyAddMonos monos h
  have harr : ∀ arr : List Mono, PolyAddMonos monos = .sum arr →
      (arr.map Mono.exp).Pairwise (fun a b => a < b) ∧
      ∀ m ∈ arr, m.p = sumAt monos m.exp ∧ PolyIsZero m.p = false := by
    intro arr ha
    rw [ha, CanonB_sum] at hR
    refine ⟨hR.1.2, fun m hm => ⟨?_, (hR.1.1 m hm).2.2.2⟩⟩
    rw [← hsub, ha, subAt_sum_mem hR.1 hm]
  refine ⟨hR, hsub, harr, ?_, rfl, ?_, ?_⟩
  · intro hz
    cases hres : PolyAddMonos monos with
    | coeff c =>
      have := hsub 0
      rw [hres, hz 0] at this
      simpa [subAt] using this
    | sum arr =>
      exfalso
      rw [hres, CanonB_sum] at hR
      obtain ⟨m, hm⟩ := List.exists_mem_of_ne_nil _ hR.2.1
      obtain ⟨h1, h2⟩ := (harr arr hres).2 m hm
      rw [h1, hz] at h2
      simp [PolyIsZero, PolyZero, PolyFromCoeff] at h2
  · intro c hc hz
    cases hres : PolyAddMonos monos with
    | coeff c' =>
      have := hsub 0
      rw [hres, hc] at this
      simpa [subAt] using this
    | sum arr =>
      exfalso
      have hall : ∀ m ∈ arr, m.exp = 0 := by
        intro m hm
        by_contra hne
        obtain ⟨h1, h2⟩ := (harr arr hres).2 m hm
        rw [h1, hz _ hne] at h2
        simp [PolyIsZero, PolyZero, PolyFromCoeff] at h2
      rw [hres, CanonB_sum] at hR
      match arr, hR, hall, harr arr hres with
      | [], hR, _, _ => exact hR.2.1 rfl
      | [m], hR, hall, harr' =>
        obtain ⟨s, e⟩ := m
        have he : e = 0 := hall _ (List.mem_cons_self _ _)
        have hs := (harr'.2 _ (List.mem_cons_self _ _)).1
        simp only [Mono.p_mk, Mono.exp_mk] at hs
        rw [he, hc] at hs
        have := hR.2.2
        rw [collapsible_single, hs, he] at this
        simp [PolyIsCoeff] at this
      | m1 :: m2 :: _, hR, hall, _ =>
        have h1 := hall m1 (List.mem_cons_self _ _)
        have h2 := hall m2 (List.mem_cons_of_mem _ (List.mem_cons_self _ _))
        have := (MonosOk_cons.1 hR.1).2.1 m2 (List.mem_cons_self _ _)
        omega
  · intro sorted hperm hs
    exact PolyAddMonosSorted_eq_PolyAddMonos monos sorted h hperm hs

theorem PolyAddMonos_normalizes_witness :
    (∀ m ∈ [Mono.mk (.coeff 1) 2, .mk (.coeff 5) 0, .mk (.coeff (-1)) 2],
      MonoOkB maxExp m = true) ∧
    Canonical (PolyAddMonos [.mk (.coeff 1) 2, .mk (.coeff 5) 0, .mk (.coeff (-1)) 2]) = true ∧
    subAt (PolyAddMonos [.mk (.coeff 1) 2, .mk (.coeff 5) 0, .mk (.coeff (-1)) 2]) 2 =
      sumAt [.mk (.coeff 1) 2, .mk (.coeff 5) 0, .mk (.coeff (-1)) 2] 2 :=
  ⟨by decide,
    (PolyAddMonos_normalizes [.mk (.coeff 1) 2, .mk (.coeff 5) 0, .mk (.coeff (-1)) 2]
      (by decide)).1,
    (PolyAddMonos_normalizes [.mk (.coeff 1) 2, .mk (.coeff 5) 0, .mk (.coeff (-1)) 2]
      (by decide)).2.1 2⟩

/-! ## Printing and reading numbers -/

theorem digitChar_spec : ∀ d, d < 10 →
    (digitChar d).isDigit = true ∧ (digitChar d).toNat - 48 = d ∧ isSpaceC (digitChar d) = false
      ∧ digitChar d ≠ '-' ∧ digitChar d ≠ '+' ∧ digitChar d ≠ '(' := by
  decide

theorem natDigitsFuel_indep : ∀ f1 f2 n, n < f1 → n < f2 →
    natDigitsFuel f1 n = natDigitsFuel f2 n := by
  intro f1
  induction f1 with
  | zero => intro f2 n h; omega
  | succ k ih =>
    intro f2 n h1 h2
    cases f2 with
    | zero => omega
    | succ j =>
      simp only [natDigitsFuel]
      by_cases h : n < 10
      · simp [h]
      · simp only [h, if_false]
        rw [ih j (n / 10) (by omega) (by omega)]

theorem natDigits_lt {n : Nat} (h : n < 10) : natDigits n = [digitChar n] := by
  simp [natDigits, natDigitsFuel, h]

theorem natDigits_ge {n : Nat} (h : 10 ≤ n) :
    natDigits n = natDigits (n / 10) ++ [digitChar (n % 10)] := by
  have h' : ¬ n < 10 := by omega
  have hs : natDigitsFuel (n + 1) n =
      if n < 10 then [digitChar n] else natDigitsFuel n (n / 10) ++ [digitChar (n % 10)] := by
    simp only [natDigitsFuel]
  unfold natDigits
  rw [hs, if_neg h', natDigitsFuel_indep n (n / 10 + 1) (n / 10) (by omega) (by omega)]

theorem natDigits_all (n : Nat) : ∀ c ∈ natDigits n, c.isDigit = true := by
  induction n using Nat.strong_induction_on with
  | _ n ih =>
    by_cases h : n < 10
    · rw [natDigits_lt h]
      intro c hc
      rw [List.mem_singleton] at hc
      rw [hc]; exact (digitChar_spec n h).1
    · rw [natDigits_ge (by omega)]
      intro c hc
      rcases List.mem_append.1 hc with hc | hc
      · exact ih (n / 10) (by omega) c hc
      · rw [List.mem_singleton] at hc
        rw [hc]; exact (digitChar_spec (n % 10) (by omega)).1

theorem natDigits_ne_nil (n : Nat) : natDigits n ≠ [] := by
  by_cases h : n < 10
  · rw [natDigits_lt h]; simp
  · rw [natDigits_ge (by omega)]; simp

theorem parseDigits_append : ∀ (ds rest : List Char) (acc : Nat),
    (∀ c ∈ ds, c.isDigit = true) → (charAt rest 0).isDigit = false →
    parseDigits (ds ++ rest) acc =
      (ds.foldl (fun a c => a * 10 + (c.toNat - 48)) acc, rest) := by
  intro ds
  induction ds with
  | nil =>
    intro rest acc _ hr
    cases rest with
    | nil => rfl
    | cons c cs =>
      have : c.isDigit = false := by simpa [charAt] using hr
      simp [parseDigits, this]
  | cons d ds ih =>
    intro rest acc hd hr
    have := hd d (List.mem_cons_self _ _)
    simp only [List.cons_append, parseDigits, this, if_true, List.foldl_cons]
    exact ih rest _ (fun c hc => hd c (List.mem_cons_of_mem _ hc)) hr

theorem natDigits_value (n : Nat) :
    (natDigits n).foldl (fun a c => a * 10 + (c.toNat - 48)) 0 = n := by
  induction n using Nat.strong_induction_on with
  | _ n ih =>
    by_cases h : n < 10
    · rw [natDigits_lt h]
      simp [(digitChar_spec n h).2.1]
    · rw [natDigits_ge (by omega), List.foldl_append, ih (n / 10) (by omega)]
      simp only [List.foldl_cons, List.foldl_nil, (digitChar_spec (n % 10) (by omega)).2.1]
      omega

theorem natDigits_head (n : Nat) : ∃ c cs, natDigits n = c :: cs ∧ c.isDigit = true := by
  cases h : natDigits n with
  | nil => exact absurd h (natDigits_ne_nil n)
  | cons c cs =>
    refine ⟨c, cs, rfl, natDigits_all n c ?_⟩
    rw [h]; exact List.mem_cons_self _ _

theorem isDigit_props {c : Char} (h : c.isDigit = true) :
    isSpaceC c = false ∧ c ≠ '-' ∧ c ≠ '+' ∧ c ≠ '(' ∧ c ≠ ',' ∧ c ≠ NUL ∧ c ≠ ')' ∧
      c ≠ Char.ofNat 10 := by
  simp only [Char.isDigit, Bool.and_eq_true, decide_eq_true_eq] at h
  have h1 : 48 ≤ c.toNat := by
    have := h.1
    rw [ge_iff_le, UInt32.le_def] at this
    exact this
  have h2 : c.toNat ≤ 57 := by
    have := h.2
    rw [UInt32.le_def] at this
    exact this
  refine ⟨?_, ?_, ?_, ?_, ?_, ?_, ?_, ?_⟩
  · simp only [isSpaceC, Bool.or_eq_false_iff, Bool.and_eq_false_iff, decide_eq_false_iff_not]
    constructor
    · rw [beq_eq_false_iff_ne]; rintro rfl; simp at h1
    · right; omega
  all_goals (rintro rfl; revert h1 h2; decide)

/-- Reading back a printed integer of the range of `long` that is followed by no digit. -/
theorem strtol_printInt (x : Int) (h1 : -2 ^ 63 ≤ x) (h2 : x < 2 ^ 63) (rest : List Char)
    (hr : (charAt rest 0).isDigit = false) : strtol (printInt x ++ rest) = (x, rest, false) := by
  obtain ⟨c, cs, hcs, hc⟩ := natDigits_head (if x < 0 then (-x).toNat else x.toNat)
  obtain ⟨p1, p2, p3, _⟩ := isDigit_props hc
  have hall := natDigits_all (if x < 0 then (-x).toNat else x.toNat)
  have hval := natDigits_value (if x < 0 then (-x).toNat else x.toNat)
  unfold strtol printInt
  by_cases hx : x < 0
  · simp only [hx, if_true] at hcs hall hval ⊢
    have hd : List.dropWhile isSpaceC ('-' :: natDigits (-x).toNat ++ rest) =
        '-' :: (natDigits (-x).toNat ++ rest) := by
      rw [List.cons_append, List.dropWhile_cons_of_neg (by decide)]
    simp only [hd]
    have hc0 : charAt ('-' :: (natDigits (-x).toNat ++ rest)) 0 = '-' := rfl
    simp only [hc0, beq_self_eq_true, Bool.true_or, if_true, List.drop_succ_cons, List.drop_zero]
    have hc1 : charAt (natDigits (-x).toNat ++ rest) 0 = c := by rw [hcs]; rfl
    rw [hc1, hc, if_pos rfl, parseDigits_append _ _ _ hall hr, hval]
    have e1 : ((-x).toNat : Int) = -x := Int.toNat_of_nonneg (by omega)
    simp only [e1, neg_neg]
    rw [if_neg (by omega), if_neg (by omega)]
  · simp only [hx, if_false] at hcs hall hval ⊢
    have hd : List.dropWhile isSpaceC (natDigits x.toNat ++ rest) = natDigits x.toNat ++ rest := by
      rw [hcs, List.cons_append, List.dropWhile_cons_of_neg (by simp [p1])]
    simp only [hd]
    have hc1 : charAt (natDigits x.toNat ++ rest) 0 = c := by rw [hcs]; rfl
    have hneg : (c == '-') = false := by simpa using p2
    have hpos : (c == '+') = false := by simpa using p3
    simp only [hc1, hneg, hpos, Bool.or_self, Bool.false_eq_true, if_false, hc, if_true]
    rw [parseDigits_append _ _ _ hall hr, hval]
    have e1 : (x.toNat : Int) = x := Int.toNat_of_nonneg (by omega)
    simp only [e1]
    rw [if_neg (by omega), if_neg (by omega)]

/-! ## Reading back a printed polynomial -/

theorem isTerm_not_digit {rest : List Char} (h : isTerm rest = true) :
    (charAt rest 0).isDigit = false := by
  simp only [isTerm, Bool.or_eq_true, beq_iff_eq] at h
  rcases h with (h | h) | h <;> rw [h] <;> decide

theorem charAt_printInt (x : Int) (rest : List Char) :
    charAt (printInt x ++ rest) 0 = '-' ∨ (charAt (printInt x ++ rest) 0).isDigit = true := by
  unfold printInt
  split_ifs
  · left; rfl
  · right
    obtain ⟨c, cs, hcs, hc⟩ := natDigits_head x.toNat
    rw [hcs]; exact hc

theorem charAt_printInt_nonneg {x : Int} (hx : 0 ≤ x) (rest : List Char) :
    (charAt (printInt x ++ rest) 0).isDigit = true := by
  unfold printInt
  rw [if_neg (by omega)]
  obtain ⟨c, cs, hcs, hc⟩ := natDigits_head x.toNat
  rw [hcs]; exact hc

theorem IsCoeff_printInt (c : Int) (h1 : -2 ^ 63 ≤ c) (h2 : c < 2 ^ 63) (rest : List Char)
    (hr : isTerm rest = true) :
    IsCoeff (printInt c ++ rest) = true ∧
      WordToCoeff (printInt c ++ rest) = (.coeff c, rest) := by
  have hs := strtol_printInt c h1 h2 rest (isTerm_not_digit hr)
  constructor
  · simp only [IsCoeff, hs, Bool.not_false, Bool.true_and, Bool.and_eq_true]
    refine ⟨by simpa [isTerm] using hr, ?_⟩
    rcases charAt_printInt c rest with h | h <;> simp [h]
  · simp [WordToCoeff, hs, PolyFromCoeff]

theorem IsCoeff_paren (s : List Char) : IsCoeff ('(' :: s) = false := by
  have : charAt ('(' :: s) 0 = '(' := rfl
  simp only [IsCoeff, this]
  simp

theorem IsExp_printInt (e : Int) (h1 : 0 ≤ e) (h2 : e ≤ maxExp) (s : List Char) :
    strtol (printInt e ++ ')' :: s) = (e, ')' :: s, false) ∧
      IsExp (printInt e ++ ')' :: s) = true := by
  unfold maxExp at h2
  have hnd : (charAt (')' :: s) 0).isDigit = false := by
    have : charAt (')' :: s) 0 = ')' := rfl
    rw [this]; decide
  have hs := strtol_printInt e (by omega) (by omega) (')' :: s) hnd
  refine ⟨hs, ?_⟩
  have hc : charAt (')' :: s) 0 = ')' := rfl
  simp only [IsExp, hs, hc, Bool.not_false, Bool.true_and, Bool.and_eq_true,
    charAt_printInt_nonneg h1, beq_self_eq_true, Bool.true_or, and_true]
  simp only [Bool.not_eq_true', Bool.or_eq_false_iff, decide_eq_false_iff_not]
  constructor <;> omega

theorem PolyAddMonos_of_canon {arr : List Mono} (h : CanonB maxExp (.sum arr) = true) :
    PolyAddMonos arr = .sum arr := by
  have h' := (CanonB_sum _ _).1 h
  have hok : ∀ m ∈ arr, MonoOkB maxExp m = true := by
    intro m hm
    obtain ⟨a, b, c, _⟩ := h'.1.1 m hm
    exact (MonoOkB_iff _ _).2 ⟨a, b, c⟩
  apply den_inj (PolyAddMonos_canon maxExp (le_refl _) arr hok) h 0
  rw [den_PolyAddMonos, den_sum]

theorem charAt_PolyPrint {p : Poly} (hp : CanonB maxExp p = true) (rest : List Char) :
    charAt (PolyPrint p ++ rest) 0 = '(' ∨ charAt (PolyPrint p ++ rest) 0 = '-' ∨
      (charAt (PolyPrint p ++ rest) 0).isDigit = true := by
  cases p with
  | coeff c =>
    simp only [PolyPrint]
    exact Or.inr (charAt_printInt c rest)
  | sum arr =>
    rw [CanonB_sum] at hp
    cases arr with
    | nil => exact absurd rfl hp.2.1
    | cons m ms =>
      obtain ⟨s, e⟩ := m
      left
      simp [PolyPrint, PolyPrintMonos, charAt]

theorem PolyPrintMonos_cons (s : Poly) (e : Int) (ms : List Mono) (rest : List Char) :
    PolyPrintMonos (.mk s e :: ms) ++ rest =
      '(' :: (PolyPrint s ++ (',' :: (printInt e ++ (')' ::
        ((if ms.isEmpty then [] else '+' :: PolyPrintMonos ms) ++ rest))))) := by
  simp [PolyPrintMonos]

theorem parse_monos (fuel0 : Nat)
    (ihp : ∀ p, p.size ≤ fuel0 → CanonB maxExp p = true → ∀ rest, isTerm rest = true →
      ∀ fuel, p.size ≤ fuel → ParsePolyFuel fuel (PolyPrint p ++ rest) = some (p, rest)) :
    ∀ ms : List Mono, ms ≠ [] → (∀ m ∈ ms, MonoNZ maxExp m) → Mono.sizeList ms ≤ fuel0 + 1 →
    ∀ acc rest fuel, Mono.sizeList ms ≤ fuel → isTerm rest = true →
    ParseMonosFuel fuel (PolyPrintMonos ms ++ rest) acc = some (PolyAddMonos (acc ++ ms), rest) := by
  intro ms
  induction ms with
  | nil => intro h; exact absurd rfl h
  | cons m ms ih =>
    intro _ hm hsz0 acc rest fuel hfuel hr
    obtain ⟨s, e⟩ := m
    obtain ⟨e0, eB, hs, _⟩ := hm _ (List.mem_cons_self _ _)
    simp only [Mono.p_mk, Mono.exp_mk] at e0 eB hs
    simp only [Mono.sizeList] at hfuel hsz0
    cases fuel with
    | zero => omega
    | succ f =>
      rw [PolyPrintMonos_cons, ParseMonosFuel]
      simp only [List.drop_succ_cons, List.drop_zero]
      rw [ihp s (by omega) hs _ (by simp [isTerm, charAt]) f (by omega)]
      have hc0 : ∀ t : List Char, charAt (',' :: t) 0 = ',' := fun _ => rfl
      simp only [hc0, bne_self_eq_false, Bool.false_eq_true, if_false, List.drop_succ_cons,
        List.drop_zero]
      obtain ⟨hst, hie⟩ := IsExp_printInt e e0 eB
        ((if ms.isEmpty then [] else '+' :: PolyPrintMonos ms) ++ rest)
      simp only [hie, Bool.not_true, Bool.false_eq_true, if_false, hst]
      have hc1 : ∀ t : List Char, charAt (')' :: t) 0 = ')' := fun _ => rfl
      simp only [hc1, bne_self_eq_false, Bool.false_eq_true, if_false, List.drop_succ_cons,
        List.drop_zero]
      have hw : wrapInt e = e := by
        unfold maxExp at eB
        exact wrapInt_of_range (by omega) (by omega)
      rw [hw]
      cases ms with
      | nil =>
        simp only [List.isEmpty_nil, if_true, List.nil_append]
        have hr' := hr
        simp only [isTerm, Bool.or_eq_true, beq_iff_eq] at hr'
        have hplus : (charAt rest 0 == '+') = false := by
          rcases hr' with (h | h) | h <;> rw [h] <;> decide
        simp only [hplus, Bool.false_eq_true, if_false]
        have hterm : (charAt rest 0 == Char.ofNat 10 || charAt rest 0 == NUL
            || charAt rest 0 == ',') = true := by
          rcases hr' with (h | h) | h <;> rw [h] <;> decide
        rw [if_pos hterm]
      | cons m2 ms2 =>
        simp only [List.isEmpty_cons, Bool.false_eq_true, if_false, List.cons_append]
        have hc2 : ∀ t : List Char, charAt ('+' :: t) 0 = '+' := fun _ => rfl
        simp only [hc2, beq_self_eq_true, if_true, List.drop_succ_cons, List.drop_zero]
        have hs1 := s.size_pos
        rw [ih (by simp) (fun x hx => hm x (List.mem_cons_of_mem _ hx)) (by omega) _ rest f
          (by omega) hr]
        simp

theorem parse_print : ∀ n p, p.size ≤ n → CanonB maxExp p = true → ∀ rest,
    isTerm rest = true → ∀ fuel, p.size ≤ fuel →
    ParsePolyFuel fuel (PolyPrint p ++ rest) = some (p, rest) := by
  intro n
  induction n with
  | zero =>
    intro p h
    have := p.size_pos
    omega
  | succ n ih =>
    intro p hsz hp rest hr fuel hfuel
    cases fuel with
    | zero =>
      have := p.size_pos
      omega
    | succ f =>
      cases p with
      | coeff c =>
        rw [CanonB_coeff] at hp
        obtain ⟨h1, h2⟩ := IsCoeff_printInt c hp.1 hp.2 rest hr
        simp only [PolyPrint, ParsePolyFuel, h1, if_true, h2]
      | sum arr =>
        have hp' := (CanonB_sum _ _).1 hp
        simp only [Poly.size] at hsz hfuel
        obtain ⟨m, ms, rfl⟩ := List.exists_cons_of_ne_nil hp'.2.1
        obtain ⟨s, e⟩ := m
        have hsc : CanonB maxExp s = true := (hp'.1.1 _ (List.mem_cons_self _ _)).2.2.1
        have hloop := parse_monos n (fun p h => ih p h) (.mk s e :: ms) (by simp) hp'.1.1
          (by omega) [] rest f (by omega) hr
        simp only [PolyPrint]
        rw [ParsePolyFuel]
        rw [PolyPrintMonos_cons] at hloop ⊢
        rw [IsCoeff_paren]
        have hc0 : ∀ t : List Char, charAt ('(' :: t) 0 = '(' := fun _ => rfl
        have hc1 : ∀ t : List Char, charAt ('(' :: t) 1 = charAt t 0 := fun t => by
          cases t <;> rfl
        have h1 : (charAt (PolyPrint s ++ (',' :: (printInt e ++ (')' ::
            ((if ms.isEmpty then [] else '+' :: PolyPrintMonos ms) ++ rest))))) 0 == ',')
            = false := by
          rcases charAt_PolyPrint hsc (',' :: (printInt e ++ (')' ::
            ((if ms.isEmpty then [] else '+' :: PolyPrintMonos ms) ++ rest)))) with h | h | h
          · rw [h]; decide
          · rw [h]; decide
          · have := (isDigit_props h).2.2.2.2.1
            simpa using this
        simp only [hc0, hc1, h1, bne_self_eq_false, Bool.or_self, Bool.false_eq_true, if_false]
        rw [hloop, List.nil_append, PolyAddMonos_of_canon hp]

/-! ## The counters of the validator -/

theorem wrapInt_succ_cast (o : Nat) (h : o < 2147483647) :
    wrapInt ((o : Int) + 1) = ((o + 1 : Nat) : Int) := by
  rw [wrapInt_of_range (by omega) (by omega)]
  push_cast
  rfl

theorem ite_false_eq_true {A : Prop} [Decidable A] {x : Bool}
    (h : (if A then false else x) = true) : ¬ A ∧ x = true := by
  split_ifs at h with hA
  exact ⟨hA, h⟩

theorem wrapInt_succ_max : wrapInt ((2147483647 : Nat) + 1) = -2147483648 := by decide

theorem count_open_cons (ch : Char) (rest : List Char) :
    (ch :: rest).count '(' = rest.count '(' + (if ch = '(' then 1 else 0) := by
  rw [List.count_cons]; simp only [beq_iff_eq]

/-- While fewer than `2^31 - 1` opening parentheses are counted, no counter of `IsCorrect`
overflows: the loop of the source computes what the loop with unbounded counters computes. -/
theorem IsCorrectLoop_eq_unbounded : ∀ (w : List Char) (o c k : Nat), c ≤ o → k ≤ o →
    o + w.count '(' < 2147483647 →
    IsCorrectLoop w o c k = IsCorrectLoopUnbounded w o c k := by
  intro w
  induction w with
  | nil =>
    intro o c k _ _ _
    simp [IsCorrectLoop, IsCorrectLoopUnbounded]
  | cons ch rest ih =>
    intro o c k hc hk hb
    rw [count_open_cons] at hb
    by_cases hn : ch = NUL
    · subst hn
      simp [IsCorrectLoop, IsCorrectLoopUnbounded]
    have hnul : (ch == NUL) = false := by simpa using hn
    simp only [IsCorrectLoop, IsCorrectLoopUnbounded, hnul, Bool.false_eq_true, if_false]
    by_cases h1 : ch = '('
    · subst h1
      simp only [if_true] at hb
      have e1 : ('(' == ')') = false := by decide
      have e2 : ('(' == ',') = false := by decide
      have e3 : ('(' == '+') = false := by decide
      have e4 : ('(' == '-') = false := by decide
      have e5 : ('(' == Char.ofNat 10) = false := by decide
      have e6 : ('(' : Char).isDigit = false := by decide
      simp only [e1, e2, e3, e4, e5, e6, Bool.false_and, Bool.false_or, Bool.or_false,
        beq_self_eq_true, Bool.true_and, Bool.false_eq_true, if_false]
      generalize ((charAt rest 0).isDigit || charAt rest 0 == '-' || charAt rest 0 == '(') = B
      cases B
      · simp
      · simp only [if_true, wrapInt_succ_cast o (by omega)]
        rw [ih (o + 1) c k (by omega) (by omega) (by omega)]
        have g1 : ¬ (o + 1 < c) := by omega
        have g2 : ¬ ((o : Int) + 1 < c) := by omega
        simp [g1, g2]
    by_cases h2 : ch = ')'
    · subst h2
      have e1 : (')' == '(') = false := by decide
      have e2 : (')' == ',') = false := by decide
      have e3 : (')' == '+') = false := by decide
      have e4 : (')' == '-') = false := by decide
      have e5 : (')' == Char.ofNat 10) = false := by decide
      have e6 : (')' : Char).isDigit = false := by decide
      simp only [e1, e2, e3, e4, e5, e6, Bool.false_and, Bool.false_or, Bool.or_false,
        beq_self_eq_true, Bool.true_and, Bool.false_eq_true, if_false]
      generalize (charAt rest 0 == '+' || charAt rest 0 == Char.ofNat 10
        || charAt rest 0 == NUL || charAt rest 0 == ')' || charAt rest 0 == ',') = B
      cases B
      · simp
      · simp only [if_true, wrapInt_succ_cast c (by omega)]
        by_cases g : o < c + 1
        · have g2 : ((o : Int) < (c : Int) + 1) := by omega
          simp [g, g2]
        · have g2 : ¬ ((o : Int) < (c : Int) + 1) := by omega
          rw [ih o (c + 1) k (by omega) hk (by omega)]
          simp [g, g2]
    by_cases h3 : ch = ','
    · subst h3
      have e1 : (',' == '(') = false := by decide
      have e2 : (',' == ')') = false := by decide
      have e3 : (',' == '+') = false := by decide
      have e4 : (',' == '-') = false := by decide
      have e5 : (',' == Char.ofNat 10) = false := by decide
      have e6 : (',' : Char).isDigit = false := by decide
      simp only [e1, e2, e3, e4, e5, e6, Bool.false_and, Bool.false_or, Bool.or_false,
        beq_self_eq_true, Bool.true_and, Bool.false_eq_true, if_false]
      generalize ((charAt rest 0).isDigit || charAt rest 0 == '-' || charAt rest 0 == '+') = B
      cases B
      · simp
      · simp only [if_true, wrapInt_succ_cast k (by omega)]
        have g1 : ¬ (o < c) := by omega
        have g2 : ¬ ((o : Int) < c) := by omega
        by_cases g : k + 1 > o
        · have g3 : ((o : Int) < (k : Int) + 1) := by omega
          simp [g, g3]
        · have g3 : ¬ ((o : Int) < (k : Int) + 1) := by omega
          have g4 : ¬ (o < k + 1) := by omega
          rw [ih o c (k + 1) hc (by omega) (by omega)]
          simp [g4, g3, g1, g2]
    · have e1 : (ch == '(') = false := by simpa using h1
      have e2 : (ch == ')') = false := by simpa using h2
      have e3 : (ch == ',') = false := by simpa using h3
      simp only [if_neg h1, Nat.add_zero] at hb
      simp only [e1, e2, e3, Bool.false_and, Bool.false_eq_true, if_false, Bool.or_false]
      have g1 : ¬ (o < c) := by omega
      have g2 : ¬ ((o : Int) < c) := by omega
      rw [ih o c k hc hk hb]
      simp [g1, g2]

/-- A text without a terminator that the loop with unbounded counters accepts is accepted by
`IsCorrect` exactly when its opening parentheses do not carry the counter `open` past
`2^31 - 1`: at the next one `open` wraps to a negative value and `open < close` rejects. -/
theorem IsCorrectLoop_of_unbounded : ∀ (w : List Char) (o c k : Nat),
    (∀ x ∈ w, x ≠ NUL) → c ≤ o → k ≤ o → o ≤ 2147483647 →
    IsCorrectLoopUnbounded w o c k = true →
    IsCorrectLoop w o c k = decide (o + w.count '(' ≤ 2147483647) := by
  intro w
  induction w with
  | nil =>
    intro o c k _ _ _ ho h
    simp only [IsCorrectLoopUnbounded, beq_iff_eq] at h
    subst h
    simp [IsCorrectLoop, ho]
  | cons ch rest ih =>
    intro o c k h0 hc hk ho h
    have hn : ch ≠ NUL := h0 ch (List.mem_cons_self _ _)
    have h0r : ∀ x ∈ rest, x ≠ NUL := fun x hx => h0 x (List.mem_cons_of_mem _ hx)
    rw [count_open_cons]
    have hnul : (ch == NUL) = false := by simpa using hn
    simp only [IsCorrectLoopUnbounded, hnul, Bool.false_eq_true, if_false] at h
    simp only [IsCorrectLoop, hnul, Bool.false_eq_true, if_false]
    by_cases h1 : ch = '('
    · subst h1
      simp only [if_true]
      have e1 : ('(' == ')') = false := by decide
      have e2 : ('(' == ',') = false := by decide
      have e3 : ('(' == '+') = false := by decide
      have e4 : ('(' == '-') = false := by decide
      have e5 : ('(' == Char.ofNat 10) = false := by decide
      have e6 : ('(' : Char).isDigit = false := by decide
      simp only [e1, e2, e3, e4, e5, e6, Bool.false_and, Bool.false_or, Bool.or_false,
        beq_self_eq_true, Bool.true_and, Bool.false_eq_true, if_false] at h ⊢
      generalize ((charAt rest 0).isDigit || charAt rest 0 == '-' || charAt rest 0 == '(') = B
        at h ⊢
      obtain ⟨hA, hx⟩ := ite_false_eq_true h
      cases B
      · simp at hA
      · simp only [if_true] at hA hx ⊢
        by_cases hm : o = 2147483647
        · subst hm
          have g2 : ((-2147483648 : Int) < (c : Int)) := by omega
          rw [wrapInt_succ_max]
          simp [g2]
        · rw [wrapInt_succ_cast o (by omega),
            ih (o + 1) c k h0r (by omega) (by omega) (by omega) hx]
          have g2 : ¬ ((o : Int) + 1 < c) := by omega
          have g3 : (o + 1 + List.count '(' rest ≤ 2147483647)
              ↔ (o + (List.count '(' rest + 1) ≤ 2147483647) := by omega
          simp [g2, g3]
    by_cases h2 : ch = ')'
    · subst h2
      have e1 : (')' == '(') = false := by decide
      have e2 : (')' == ',') = false := by decide
      have e3 : (')' == '+') = false := by decide
      have e4 : (')' == '-') = false := by decide
      have e5 : (')' == Char.ofNat 10) = false := by decide
      have e6 : (')' : Char).isDigit = false := by decide
      simp only [e1, e2, e3, e4, e5, e6, Bool.false_and, Bool.false_or, Bool.or_false,
        beq_self_eq_true, Bool.true_and, Bool.false_eq_true, if_false, if_neg h1,
        Nat.add_zero] at h ⊢
      generalize (charAt rest 0 == '+' || charAt rest 0 == Char.ofNat 10
        || charAt rest 0 == NUL || charAt rest 0 == ')' || charAt rest 0 == ',') = B at h ⊢
      obtain ⟨hz, h'⟩ := ite_false_eq_true h
      obtain ⟨hA, hx⟩ := ite_false_eq_true h'
      cases B
      · simp at hA
      · simp only [if_true] at hA hx hz ⊢
        have g : ¬ o < c + 1 := by
          intro hlt; apply hA; simp [hlt]
        have hz' : (charAt rest 0 == '(') = false := by simpa using hz
        rw [wrapInt_succ_cast c (by omega), ih o (c + 1) k h0r (by omega) hk ho hx]
        have g2 : ¬ ((o : Int) < (c : Int) + 1) := by omega
        simp [g2, hz']
    by_cases h3 : ch = ','
    · subst h3
      have e1 : (',' == '(') = false := by decide
      have e2 : (',' == ')') = false := by decide
      have e3 : (',' == '+') = false := by decide
      have e4 : (',' == '-') = false := by decide
      have e5 : (',' == Char.ofNat 10) = false := by decide
      have e6 : (',' : Char).isDigit = false := by decide
      simp only [e1, e2, e3, e4, e5, e6, Bool.false_and, Bool.false_or, Bool.or_false,
        beq_self_eq_true, Bool.true_and, Bool.false_eq_true, if_false, if_neg h1,
        Nat.add_zero] at h ⊢
      generalize ((charAt rest 0).isDigit || charAt rest 0 == '-' || charAt rest 0 == '+') = B
        at h ⊢
      obtain ⟨hk1, h'⟩ := ite_false_eq_true h
      obtain ⟨hA, hx⟩ := ite_false_eq_true h'
      cases B
      · simp at hA
      · simp only [if_true] at hA hx hk1 ⊢
        have g : ¬ o < k + 1 := by
          intro hlt; apply hk1; simp [hlt]
        rw [wrapInt_succ_cast k (by omega), ih o c (k + 1) h0r hc (by omega) ho hx]
        have g2 : ¬ ((o : Int) < (k : Int) + 1) := by omega
        have g3 : ¬ ((o : Int) < (c : Int)) := by omega
        simp [g2, g3]
    · have e1 : (ch == '(') = false := by simpa using h1
      have e2 : (ch == ')') = false := by simpa using h2
      have e3 : (ch == ',') = false := by simpa using h3
      simp only [if_neg h1, Nat.add_zero]
      simp only [e1, e2, e3, Bool.false_and, Bool.false_eq_true, if_false, Bool.or_false]
        at h ⊢
      obtain ⟨hA, hx⟩ := ite_false_eq_true h
      have g3 : ¬ ((o : Int) < (c : Int)) := by omega
      rw [ih o c k h0r hc hk ho hx]
      rw [if_neg]
      intro hh
      apply hA
      have := hh
      simp only [g3, decide_False, Bool.or_false] at this
      simp [this]

/-! ## The validator accepts a printed polynomial -/

theorem IsCorrectLoopUnbounded_digit {c : Char} (hc : c.isDigit = true) (rest : List Char)
    (o cl k : Nat) (h : cl ≤ o) :
    IsCorrectLoopUnbounded (c :: rest) o cl k = IsCorrectLoopUnbounded rest o cl k := by
  obtain ⟨_, p2, p3, p4, p5, p6, p7, _⟩ := isDigit_props hc
  have e2 : (c == '-') = false := by simpa using p2
  have e3 : (c == '+') = false := by simpa using p3
  have e4 : (c == '(') = false := by simpa using p4
  have e5 : (c == ',') = false := by simpa using p5
  have e6 : (c == NUL) = false := by simpa using p6
  have e7 : (c == ')') = false := by simpa using p7
  simp [IsCorrectLoopUnbounded, hc, e2, e3, e4, e5, e6, e7, h]

theorem IsCorrectLoopUnbounded_digits : ∀ (ds rest : List Char) (o cl k : Nat),
    (∀ c ∈ ds, c.isDigit = true) → cl ≤ o →
    IsCorrectLoopUnbounded (ds ++ rest) o cl k = IsCorrectLoopUnbounded rest o cl k := by
  intro ds
  induction ds with
  | nil => intros; rfl
  | cons d ds ih =>
    intro rest o cl k hd h
    rw [List.cons_append, IsCorrectLoopUnbounded_digit (hd d (List.mem_cons_self _ _)) _ _ _ _ h]
    exact ih rest o cl k (fun c hc => hd c (List.mem_cons_of_mem _ hc)) h

theorem IsCorrectLoopUnbounded_minus (rest : List Char) (o cl k : Nat)
    (hz : (charAt rest 0).isDigit = true) (h : cl ≤ o) :
    IsCorrectLoopUnbounded ('-' :: rest) o cl k = IsCorrectLoopUnbounded rest o cl k := by
  simp [IsCorrectLoopUnbounded, NUL, hz, h]

theorem IsCorrectLoopUnbounded_open (rest : List Char) (o cl k : Nat)
    (hz : charAt rest 0 = '(' ∨ charAt rest 0 = '-' ∨ (charAt rest 0).isDigit = true)
    (h : cl ≤ o) :
    IsCorrectLoopUnbounded ('(' :: rest) o cl k = IsCorrectLoopUnbounded rest (o + 1) cl k := by
  have hb : ((charAt rest 0).isDigit || charAt rest 0 == '-' || charAt rest 0 == '(') = true := by
    rcases hz with h | h | h <;> simp [h]
  have h' : ¬ o + 1 < cl := by omega
  simp [IsCorrectLoopUnbounded, NUL, hb, h']

theorem IsCorrectLoopUnbounded_close (rest : List Char) (o cl k : Nat)
    (hz : charAt rest 0 = '+' ∨ isTerm rest = true) (h : cl + 1 ≤ o) :
    IsCorrectLoopUnbounded (')' :: rest) o cl k = IsCorrectLoopUnbounded rest o (cl + 1) k := by
  have hb : (charAt rest 0 == '+' || charAt rest 0 == Char.ofNat 10 || charAt rest 0 == NUL
      || charAt rest 0 == ')' || charAt rest 0 == ',') = true := by
    rcases hz with h | h
    · simp [h]
    · simp only [isTerm, Bool.or_eq_true, beq_iff_eq] at h
      rcases h with (h | h) | h <;> simp [h]
  have hp : (charAt rest 0 == '(') = false := by
    rcases hz with h | h
    · rw [h]; decide
    · simp only [isTerm, Bool.or_eq_true, beq_iff_eq] at h
      rcases h with (h | h) | h <;> rw [h] <;> decide
  have h' : ¬ o < cl + 1 := by omega
  have hnul : (')' == NUL) = false := by decide
  simp only [IsCorrectLoopUnbounded, hnul, Bool.false_eq_true, if_false]
  simp [hb, hp, h']

theorem IsCorrectLoopUnbounded_comma (rest : List Char) (o cl k : Nat)
    (hz : (charAt rest 0).isDigit = true) (h : cl ≤ o) (hk : k + 1 ≤ o) :
    IsCorrectLoopUnbounded (',' :: rest) o cl k = IsCorrectLoopUnbounded rest o cl (k + 1) := by
  have h' : ¬ o < cl := by omega
  have hk' : ¬ o < k + 1 := by omega
  have hnul : (',' == NUL) = false := by decide
  simp only [IsCorrectLoopUnbounded, hnul, Bool.false_eq_true, if_false]
  simp [hz, h', hk']

theorem IsCorrectLoopUnbounded_plus (rest : List Char) (o cl k : Nat) (hz : charAt rest 0 = '(')
    (h : cl ≤ o) : IsCorrectLoopUnbounded ('+' :: rest) o cl k = IsCorrectLoopUnbounded rest o cl k := by
  have h' : ¬ o < cl := by omega
  have hnul : ('+' == NUL) = false := by decide
  simp only [IsCorrectLoopUnbounded, hnul, Bool.false_eq_true, if_false]
  simp [hz, h']

theorem IsCorrectLoopUnbounded_newline (rest : List Char) (o cl k : Nat) (h : cl ≤ o) :
    IsCorrectLoopUnbounded (Char.ofNat 10 :: rest) o cl k = IsCorrectLoopUnbounded rest o cl k := by
  have h' : ¬ o < cl := by omega
  have hnul : (Char.ofNat 10 == NUL) = false := by decide
  simp only [IsCorrectLoopUnbounded, hnul, Bool.false_eq_true, if_false]
  simp [h']

theorem IsCorrectLoopUnbounded_printInt (x : Int) (rest : List Char) (o cl k : Nat) (h : cl ≤ o) :
    IsCorrectLoopUnbounded (printInt x ++ rest) o cl k = IsCorrectLoopUnbounded rest o cl k := by
  unfold printInt
  split_ifs
  · rw [List.cons_append, IsCorrectLoopUnbounded_minus _ _ _ _ _ h,
      IsCorrectLoopUnbounded_digits _ _ _ _ _ (natDigits_all _) h]
    obtain ⟨c, cs, hcs, hc⟩ := natDigits_head (-x).toNat
    rw [hcs]; exact hc
  · exact IsCorrectLoopUnbounded_digits _ _ _ _ _ (natDigits_all _) h

theorem charAt_PolyPrintMonos {ms : List Mono} (h : ms ≠ []) (rest : List Char) :
    charAt (PolyPrintMonos ms ++ rest) 0 = '(' := by
  cases ms with
  | nil => exact absurd rfl h
  | cons m ms => obtain ⟨s, e⟩ := m; rw [PolyPrintMonos_cons]; rfl

theorem IsCorrectLoopUnbounded_monos {n : Nat}
    (ihp : ∀ p, CanonB maxExp p = true → ∀ rest o cl k, cl ≤ o → k ≤ o → isTerm rest = true →
      p.size ≤ n → IsCorrectLoopUnbounded (PolyPrint p ++ rest) o cl k =
        IsCorrectLoopUnbounded rest (o + p.parens) (cl + p.parens) (k + p.parens)) :
    ∀ ms : List Mono, ms ≠ [] → (∀ m ∈ ms, MonoNZ maxExp m) → Mono.sizeList ms ≤ n + 1 →
    ∀ rest o cl k, cl ≤ o → k ≤ o → isTerm rest = true →
    IsCorrectLoopUnbounded (PolyPrintMonos ms ++ rest) o cl k =
      IsCorrectLoopUnbounded rest (o + Mono.parensList ms) (cl + Mono.parensList ms)
        (k + Mono.parensList ms) := by
  intro ms
  induction ms with
  | nil => intro h; exact absurd rfl h
  | cons m ms ih =>
    intro _ hm hsz rest o cl k hcl hk hr
    obtain ⟨s, e⟩ := m
    obtain ⟨e0, _, hs, _⟩ := hm _ (List.mem_cons_self _ _)
    simp only [Mono.p_mk, Mono.exp_mk] at e0 hs
    simp only [Mono.sizeList] at hsz
    have hs1 := s.size_pos
    rw [PolyPrintMonos_cons, IsCorrectLoopUnbounded_open _ _ _ _ (charAt_PolyPrint hs _) hcl,
      ihp s hs _ _ _ _ (by omega) (by omega) (by simp [isTerm, charAt]) (by omega),
      IsCorrectLoopUnbounded_comma _ _ _ _ (charAt_printInt_nonneg e0 _) (by omega) (by omega),
      IsCorrectLoopUnbounded_printInt _ _ _ _ _ (by omega)]
    simp only [Mono.parensList]
    cases ms with
    | nil =>
      simp only [List.isEmpty_nil, if_true, List.nil_append, Mono.parensList]
      rw [IsCorrectLoopUnbounded_close _ _ _ _ (Or.inr hr) (by omega)]
      congr 1 <;> omega
    | cons m2 ms2 =>
      simp only [List.isEmpty_cons, Bool.false_eq_true, if_false, List.cons_append]
      rw [IsCorrectLoopUnbounded_close ('+' :: (PolyPrintMonos (m2 :: ms2) ++ rest)) _ _ _
          (Or.inl rfl) (by omega),
        IsCorrectLoopUnbounded_plus _ _ _ _ (charAt_PolyPrintMonos (by simp) _) (by omega),
        ih (by simp) (fun x hx => hm x (List.mem_cons_of_mem _ hx)) (by omega) rest _ _ _
          (by omega) (by omega) hr]
      congr 1 <;> omega

theorem IsCorrectLoopUnbounded_print : ∀ n p, CanonB maxExp p = true → ∀ rest o cl k, cl ≤ o → k ≤ o →
    isTerm rest = true → p.size ≤ n →
    IsCorrectLoopUnbounded (PolyPrint p ++ rest) o cl k =
      IsCorrectLoopUnbounded rest (o + p.parens) (cl + p.parens) (k + p.parens) := by
  intro n
  induction n with
  | zero =>
    intro p _ rest o cl k _ _ _ h
    have := p.size_pos
    omega
  | succ n ih =>
    intro p hp rest o cl k hcl hk hr hsz
    cases p with
    | coeff c =>
      simp only [PolyPrint, Poly.parens, Nat.add_zero]
      exact IsCorrectLoopUnbounded_printInt c rest o cl k hcl
    | sum arr =>
      have hp' := (CanonB_sum _ _).1 hp
      simp only [Poly.size] at hsz
      simp only [PolyPrint, Poly.parens]
      exact IsCorrectLoopUnbounded_monos (ih) arr hp'.2.1 hp'.1.1 (by omega) rest o cl k hcl hk hr

theorem size_le_print : ∀ p : Poly, p.size ≤ 2 * (PolyPrint p).length + 1 := by
  intro p
  induction p using Poly.ind with
  | hc c => simp [Poly.size]
  | hs arr ih =>
    simp only [Poly.size, PolyPrint]
    have : Mono.sizeList arr ≤ 2 * (PolyPrintMonos arr).length := by
      induction arr with
      | nil => simp [Mono.sizeList]
      | cons m ms ihl =>
        obtain ⟨s, e⟩ := m
        have h1 := ih _ (List.mem_cons_self _ _)
        have h2 := ihl (fun x hx => ih x (List.mem_cons_of_mem _ hx))
        simp only [Mono.p_mk] at h1
        simp only [Mono.sizeList, PolyPrintMonos, List.length_append, List.length_cons]
        split_ifs
        · rename_i hms
          have : ms = [] := by simpa using hms
          subst this
          simp only [Mono.sizeList, List.length_nil] at h2 ⊢
          omega
        · simp only [List.length_cons]
          omega
    omega

theorem count_open_digits : ∀ ds : List Char, (∀ c ∈ ds, c.isDigit = true) →
    ds.count '(' = 0 := by
  intro ds h
  rw [List.count_eq_zero]
  intro hm
  have := h _ hm
  revert this
  decide

theorem printInt_count_open (x : Int) : (printInt x).count '(' = 0 := by
  unfold printInt
  split_ifs
  · rw [List.count_cons, count_open_digits _ (natDigits_all _)]
    rfl
  · exact count_open_digits _ (natDigits_all _)

theorem printInt_no_nul (x : Int) : ∀ c ∈ printInt x, c ≠ NUL := by
  intro c hc
  have hd : ∀ d ∈ natDigits (if x < 0 then (-x).toNat else x.toNat), d ≠ NUL :=
    fun d hd => (isDigit_props (natDigits_all _ d hd)).2.2.2.2.2.1
  unfold printInt at hc
  split_ifs at hc with hx
  · rw [if_pos hx] at hd
    rcases List.mem_cons.1 hc with h | h
    · rw [h]; decide
    · exact hd c h
  · rw [if_neg hx] at hd
    exact hd c hc

theorem PolyPrint_count_open : ∀ p : Poly, (PolyPrint p).count '(' = p.parens := by
  intro p
  induction p using Poly.ind with
  | hc c => simp only [PolyPrint, Poly.parens]; exact printInt_count_open c
  | hs arr ih =>
    simp only [PolyPrint, Poly.parens]
    induction arr with
    | nil => rfl
    | cons m ms ihl =>
      obtain ⟨s, e⟩ := m
      have h1 := ih _ (List.mem_cons_self _ _)
      have h2 := ihl (fun x hx => ih x (List.mem_cons_of_mem _ hx))
      simp only [Mono.p_mk] at h1
      have e1 : List.count '(' [')'] = 0 := by decide
      have e2 : List.count '(' [','] = 0 := by decide
      have e3 : List.count '(' ['('] = 1 := by decide
      have e4 : List.count '(' ['+'] = 0 := by decide
      have hc : ∀ (x : Char) (l : List Char), x :: l = [x] ++ l := fun _ _ => rfl
      simp only [PolyPrintMonos, Mono.parensList]
      rw [hc '(', hc ',', hc ')']
      simp only [List.count_append, e1, e2, e3, h1, printInt_count_open]
      split_ifs with hms
      · have : ms = [] := by simpa using hms
        subst this
        simp [Mono.parensList]
      · rw [hc '+', List.count_append, e4, h2]
        omega

theorem PolyPrint_no_nul : ∀ p : Poly, ∀ c ∈ PolyPrint p, c ≠ NUL := by
  intro p
  induction p using Poly.ind with
  | hc c => simp only [PolyPrint]; exact printInt_no_nul c
  | hs arr ih =>
    simp only [PolyPrint]
    induction arr with
    | nil => intro c hc; cases hc
    | cons m ms ihl =>
      obtain ⟨s, e⟩ := m
      have h1 := ih _ (List.mem_cons_self _ _)
      have h2 := ihl (fun x hx => ih x (List.mem_cons_of_mem _ hx))
      simp only [Mono.p_mk] at h1
      intro c hc
      simp only [PolyPrintMonos, List.mem_append, List.mem_cons] at hc
      rcases hc with (((hc | hc) | (hc | hc)) | (hc | hc))
      · rw [hc]; decide
      · exact h1 c hc
      · rw [hc]; decide
      · exact printInt_no_nul e c hc
      · rw [hc]; decide
      · split_ifs at hc with hms
        · cases hc
        · rcases List.mem_cons.1 hc with h | h
          · rw [h]; decide
          · exact h2 c h

/-- The text of a canonical polynomial, alone or followed by the end of line, passes
`IsCorrect` exactly when the polynomial has at most `2^31 - 1` monomials, counted at every
nesting level. -/
theorem IsCorrect_print (p : Poly) (hp : CanonB maxExp p = true) (rest : List Char)
    (hr : rest = [] ∨ rest = [Char.ofNat 10]) :
    IsCorrect (PolyPrint p ++ rest) = decide (p.parens ≤ 2147483647) := by
  have hu : IsCorrectLoopUnbounded (PolyPrint p ++ rest) 0 0 0 = true := by
    rw [IsCorrectLoopUnbounded_print _ p hp rest 0 0 0 (le_refl _) (le_refl _)
      (by rcases hr with h | h <;> rw [h] <;> decide) (le_refl _)]
    rcases hr with h | h
    · rw [h]; simp [IsCorrectLoopUnbounded]
    · rw [h, IsCorrectLoopUnbounded_newline _ _ _ _ (le_refl _)]
      simp [IsCorrectLoopUnbounded]
  have h0 : ∀ x ∈ PolyPrint p ++ rest, x ≠ NUL := by
    intro x hx
    rcases List.mem_append.1 hx with h | h
    · exact PolyPrint_no_nul p x h
    · rcases hr with h' | h'
      · rw [h'] at h; cases h
      · rw [h'] at h
        rw [List.mem_singleton.1 h]; decide
  have hcount : (PolyPrint p ++ rest).count '(' = p.parens := by
    rw [List.count_append, PolyPrint_count_open]
    rcases hr with h | h <;> rw [h] <;> rfl
  have := IsCorrectLoop_of_unbounded _ 0 0 0 h0 (le_refl _) (le_refl _) (by omega) hu
  rw [hcount, Nat.zero_add] at this
  exact this

/-- C1, as the code has it: for every canonical `p` that has fewer than `2^31` monomials,
counted at every nesting level, the text written by `PolyPrint(p)`, alone or followed by the
end of line, passes `IsCorrect`, `ParsePoly` succeeds on it having read the whole
polynomial, and the polynomial it returns is structurally equal to `p`. -/
theorem print_parse_roundtrip (p : Poly) (hp : Canonical p = true)
    (hsz : p.parens < 2147483648) :
    IsCorrect (PolyPrint p) = true ∧
    (∃ q, ParsePoly (PolyPrint p) = some (q, []) ∧ PolyIsEq q p = true) ∧
    IsCorrect (PolyPrint p ++ [Char.ofNat 10]) = true ∧
    (∃ q, ParsePoly (PolyPrint p ++ [Char.ofNat 10]) = some (q, [Char.ofNat 10]) ∧
      PolyIsEq q p = true) := by
  unfold Canonical at hp
  have hlen := size_le_print p
  refine ⟨?_, ⟨p, ?_, (PolyIsEq_iff p p).2 rfl⟩, ?_, ⟨p, ?_, (PolyIsEq_iff p p).2 rfl⟩⟩
  · have := IsCorrect_print p hp [] (Or.inl rfl)
    rw [List.append_nil] at this
    rw [this]
    exact decide_eq_true (by omega)
  · have := parse_print _ p (le_refl _) hp [] (by decide) (2 * (PolyPrint p).length + 2)
      (by omega)
    rw [List.append_nil] at this
    exact this
  · rw [IsCorrect_print p hp _ (Or.inr rfl)]
    exact decide_eq_true (by omega)
  · exact parse_print _ p (le_refl _) hp [Char.ofNat 10] (by decide) _
      (by simp only [List.length_append, List.length_cons, List.length_nil]; omega)

theorem print_parse_roundtrip_witness :
    Canonical (.sum [.mk (.coeff 1) 0, .mk (.sum [.mk (.coeff (-12)) 3]) 1]) = true ∧
    (Poly.sum [.mk (.coeff 1) 0, .mk (.sum [.mk (.coeff (-12)) 3]) 1]).parens < 2147483648 ∧
    IsCorrect (PolyPrint (.sum [.mk (.coeff 1) 0, .mk (.sum [.mk (.coeff (-12)) 3]) 1]))
      = true ∧
    ∃ q, ParsePoly (PolyPrint (.sum [.mk (.coeff 1) 0, .mk (.sum [.mk (.coeff (-12)) 3]) 1]))
        = some (q, []) ∧
      PolyIsEq q (.sum [.mk (.coeff 1) 0, .mk (.sum [.mk (.coeff (-12)) 3]) 1]) = true :=
  ⟨by decide, by decide,
    (print_parse_roundtrip (.sum [.mk (.coeff 1) 0, .mk (.sum [.mk (.coeff (-12)) 3]) 1])
      (by decide) (by decide)).1,
    (print_parse_roundtrip (.sum [.mk (.coeff 1) 0, .mk (.sum [.mk (.coeff (-12)) 3]) 1])
      (by decide) (by decide)).2.1⟩

/-! ## Composition with no substitution left -/

theorem PolyMul_zero_left (q : Poly) : PolyMul PolyZero q = PolyZero := by
  cases q <;> simp [PolyMul, PolyZero, PolyFromCoeff]

theorem PolyAdd_zero_left (q : Poly) : PolyAdd PolyZero q = q := by
  cases q with
  | coeff b => simp [PolyZero, PolyFromCoeff, PolyAdd_coeff_coeff]
  | sum qs => simp [PolyZero, PolyFromCoeff, PolyAdd_coeff_sum]

theorem PolyPower_of_zero : ∀ n : Nat,
    PolyPower PolyZero n = if n = 0 then PolyFromCoeff 1 else PolyZero := by
  intro n
  induction n using Nat.strong_induction_on with
  | _ n ih =>
    by_cases h0 : n = 0
    · subst h0; simp [PolyPower_zero]
    by_cases h1 : n = 1
    · subst h1; simp [PolyPower_one]
    rw [if_neg h0]
    by_cases he : n % 2 = 0
    · rw [PolyPower_even _ n (by omega) he, ih (n / 2) (by omega), if_neg (by omega)]
      exact PolyMul_zero_left _
    · rw [PolyPower_odd _ n (by omega) (by omega)]
      exact PolyMul_zero_left _

theorem constTermMonos_pos (ms : List Mono) (h : ∀ m ∈ ms, m.exp ≠ 0) :
    constTermMonos ms = 0 := by
  induction ms with
  | nil => rfl
  | cons m ms ih =>
    obtain ⟨p, e⟩ := m
    have he : (e == 0) = false := by simpa using h _ (List.mem_cons_self _ _)
    simp only [constTermMonos, he, Bool.false_eq_true, if_false]
    exact ih (fun x hx => h x (List.mem_cons_of_mem _ hx))

theorem constTerm_range {B : Int} : ∀ p, CanonB B p = true →
    -2 ^ 63 ≤ constTerm p ∧ constTerm p < 2 ^ 63 := by
  intro p
  induction p using Poly.ind with
  | hc c => intro h; simpa [constTerm, CanonB_coeff] using h
  | hs arr ih =>
    intro h
    rw [CanonB_sum] at h
    simp only [constTerm]
    have key : ∀ ms : List Mono, (∀ m ∈ ms, m ∈ arr) →
        -2 ^ 63 ≤ constTermMonos ms ∧ constTermMonos ms < 2 ^ 63 := by
      intro ms
      induction ms with
      | nil => intro _; simp [constTermMonos]
      | cons m ms ihl =>
        intro hsub
        obtain ⟨p, e⟩ := m
        simp only [constTermMonos]
        split_ifs
        · exact ih _ (hsub _ (List.mem_cons_self _ _))
            (h.1.1 _ (hsub _ (List.mem_cons_self _ _))).2.2.1
        · exact ihl (fun x hx => hsub x (List.mem_cons_of_mem _ hx))
    exact key arr (fun _ h => h)

theorem PolyComposeLoop_pos (q1 : List Poly) : ∀ (ms : List Mono) (res : Poly),
    (∀ m ∈ ms, 0 < m.exp ∧ m.exp ≤ maxExp) →
    PolyComposeLoop ms PolyZero 0 q1 res = res := by
  intro ms
  induction ms with
  | nil => intro res _; rfl
  | cons m ms ih =>
    intro res h
    obtain ⟨s, e⟩ := m
    obtain ⟨h1, h2⟩ := h _ (List.mem_cons_self _ _)
    simp only [Mono.exp_mk] at h1 h2
    unfold maxExp at h2
    have hpow : (e % 2 ^ 64).toNat ≠ 0 := by
      have : e % 2 ^ 64 = e := Int.emod_eq_of_lt (by omega) (by omega)
      rw [this]; omega
    simp only [PolyComposeLoop]
    rw [PolyPower_of_zero, if_neg hpow, PolyMul_zero_left, PolyAdd_zero_left]
    exact ih res (fun x hx => h x (List.mem_cons_of_mem _ hx))

theorem PolyCompose_exhausted : ∀ p, CanonB maxExp p = true → ∀ q : List Poly,
    PolyCompose p 0 q = .coeff (constTerm p) := by
  intro p
  induction p using Poly.ind with
  | hc c => intro _ q; rfl
  | hs arr ih =>
    intro h q
    have h' := (CanonB_sum _ _).1 h
    simp only [PolyCompose, beq_self_eq_true, if_true, constTerm]
    cases arr with
    | nil => exact absurd rfl h'.2.1
    | cons m ms =>
      obtain ⟨s, e⟩ := m
      have hm := MonosOk_cons.1 h'.1
      obtain ⟨⟨e0, eB, hs, _⟩, hlt, hms⟩ := hm
      simp only [Mono.p_mk, Mono.exp_mk] at e0 eB hs hlt
      have hrest : ∀ m ∈ ms, 0 < m.exp ∧ m.exp ≤ maxExp := by
        intro x hx
        have := hlt x hx
        exact ⟨by omega, (hms.1 x hx).2.1⟩
      simp only [PolyComposeLoop, constTermMonos]
      by_cases he : e = 0
      · subst he
        have hsub := ih _ (List.mem_cons_self _ _) hs q.tail
        simp only [Mono.p_mk] at hsub
        have hr := constTerm_range s hs
        have hstep : PolyAdd (PolyMul (PolyPower PolyZero (0 % 2 ^ 64 : Int).toNat)
            (PolyCompose s 0 q.tail)) PolyZero = .coeff (constTerm s) := by
          have hp0 : ((0 : Int) % 2 ^ 64).toNat = 0 := by norm_num
          rw [hp0, PolyPower_of_zero, if_pos rfl, hsub]
          by_cases hc : constTerm s = 0
          · rw [hc]
            simp [PolyMul, PolyFromCoeff, PolyZero, PolyAdd_coeff_coeff]
          · have hw : wrapLong (constTerm s) = constTerm s := wrapLong_of_range hr.1 hr.2
            simp [PolyMul, PolyFromCoeff, PolyZero, PolyAdd_coeff_coeff, hc, hw]
        rw [hstep, PolyComposeLoop_pos _ _ _ hrest]
        simp
      · have he' : (e == 0) = false := by simpa using he
        simp only [he', Bool.false_eq_true, if_false]
        unfold maxExp at eB
        have hpow : (e % 2 ^ 64).toNat ≠ 0 := by
          have : e % 2 ^ 64 = e := Int.emod_eq_of_lt (by omega) (by omega)
          rw [this]; omega
        rw [PolyPower_of_zero, if_neg hpow, PolyMul_zero_left, PolyAdd_zero_left,
          PolyComposeLoop_pos _ _ _ hrest, constTermMonos_pos]
        · rfl
        · intro x hx
          have := (hrest x hx).1
          omega

/-- C11: for canonical `p`, `PolyCompose(p, 0, q)`, whatever the array `q` holds, is the
coefficient that is the constant term of `p`: the leaf reached through the monomials of
exponent 0, or 0 when a level has none; and the composition of a coefficient is that
coefficient, for every `k` and every array. -/
theorem PolyCompose_no_substitution (p : Poly) (hp : Canonical p = true) :
    PolyCompose p 0 [] = .coeff (constTerm p) ∧
    PolyIsCoeff (PolyCompose p 0 []) = true ∧
    (∀ q : List Poly, PolyCompose p 0 q = .coeff (constTerm p)) ∧
    (∀ (c : Int) (k : Nat) (q : List Poly), PolyCompose (.coeff c) k q = .coeff c) := by
  unfold Canonical at hp
  have h := PolyCompose_exhausted p hp
  refine ⟨h [], ?_, h, fun c k q => rfl⟩
  rw [h []]; rfl

theorem PolyCompose_no_substitution_witness :
    PolyCompose (.sum [.mk (.sum [.mk (.coeff 7) 0, .mk (.coeff 1) 2]) 0, .mk (.coeff 3) 1]) 0 []
      = .coeff 7 :=
  (PolyCompose_no_substitution
    (.sum [.mk (.sum [.mk (.coeff 7) 0, .mk (.coeff 1) 2]) 0, .mk (.coeff 3) 1])
    (by decide)).1

/-! ## Degrees -/

theorem intMax_left (a b : Int) : a ≤ intMax a b := by
  unfold intMax; split_ifs <;> omega

theorem intMax_right (a b : Int) : b ≤ intMax a b := by
  unfold intMax; split_ifs <;> omega

theorem PolyDegByLoop_ge : ∀ (ms : List Mono) (idx : Nat) (deg : Int),
    deg ≤ PolyDegByLoop ms idx deg ∧ ∀ m ∈ ms, PolyDegBy m.p idx ≤ PolyDegByLoop ms idx deg := by
  intro ms
  induction ms with
  | nil => intro idx deg; simp [PolyDegByLoop]
  | cons m ms ih =>
    intro idx deg
    obtain ⟨p, e⟩ := m
    simp only [PolyDegByLoop]
    obtain ⟨h1, h2⟩ := ih idx (intMax deg (PolyDegBy p idx))
    refine ⟨le_trans (intMax_left _ _) h1, ?_⟩
    intro x hx
    rcases List.mem_cons.1 hx with rfl | hx
    · exact le_trans (intMax_right _ _) h1
    · exact h2 x hx

theorem PolyDegLoop_ge : ∀ (ms : List Mono) (deg : Int),
    deg ≤ PolyDegLoop ms deg ∧
      ∀ m ∈ ms, wrapInt (m.exp + PolyDeg m.p) ≤ PolyDegLoop ms deg := by
  intro ms
  induction ms with
  | nil => intro deg; simp [PolyDegLoop]
  | cons m ms ih =>
    intro deg
    obtain ⟨p, e⟩ := m
    simp only [PolyDegLoop]
    obtain ⟨h1, h2⟩ := ih (intMax deg (wrapInt (e + PolyDeg p)))
    refine ⟨le_trans (intMax_left _ _) h1, ?_⟩
    intro x hx
    rcases List.mem_cons.1 hx with rfl | hx
    · exact le_trans (intMax_right _ _) h1
    · exact h2 x hx

theorem PolyDegLoopInRange_mem : ∀ (ms : List Mono), PolyDegLoopInRange ms = true →
    ∀ m ∈ ms, PolyDegInRange m.p = true ∧ -2 ^ 31 ≤ m.exp + PolyDeg m.p ∧
      m.exp + PolyDeg m.p ≤ maxExp := by
  intro ms
  induction ms with
  | nil => intro _ m hm; cases hm
  | cons m ms ih =>
    obtain ⟨p, e⟩ := m
    intro h x hx
    simp only [PolyDegLoopInRange, Bool.and_eq_true, decide_eq_true_eq] at h
    rcases List.mem_cons.1 hx with rfl | hx
    · exact ⟨h.1.1.1, h.1.1.2, h.1.2⟩
    · exact ih h.2 x hx

theorem getLastD_mem (arr : List Mono) (d : Mono) (h : arr ≠ []) : arr.getLastD d ∈ arr := by
  cases arr with
  | nil => exact absurd rfl h
  | cons a as =>
    rw [List.getLastD_eq_getLast?, List.getLast?_eq_getLast _ h]
    exact List.getLast_mem h

theorem getLastD_max : ∀ (arr : List Mono) (d : Mono),
    (arr.map Mono.exp).Pairwise (fun a b => a < b) →
    ∀ m ∈ arr, m.exp ≤ (arr.getLastD d).exp := by
  intro arr
  induction arr with
  | nil => intro d _ m hm; cases hm
  | cons a as ih =>
    intro d hp m hm
    simp only [List.map_cons, List.pairwise_cons] at hp
    cases as with
    | nil =>
      simp only [List.mem_singleton] at hm
      subst hm
      simp
    | cons b bs =>
      have hlast : (a :: b :: bs).getLastD d = (b :: bs).getLastD d := by simp
      rw [hlast]
      rcases List.mem_cons.1 hm with rfl | hm
      · have h1 : m.exp < b.exp := hp.1 _ (by simp)
        have h2 := ih d hp.2 b (List.mem_cons_self _ _)
        omega
      · exact ih d hp.2 m hm

theorem PolyDegBy_nonneg : ∀ p, CanonB maxExp p = true → PolyIsZero p = false →
    ∀ i, 0 ≤ PolyDegBy p i := by
  intro p
  induction p using Poly.ind with
  | hc c =>
    intro _ hz i
    have : (c == 0) = false := by simpa [PolyIsZero] using hz
    simp [PolyDegBy, this]
  | hs arr ih =>
    intro h _ i
    obtain ⟨hok, hne, -⟩ := (CanonB_sum _ _).1 h
    simp only [PolyDegBy]
    split_ifs with hi
    · exact (hok.1 _ (getLastD_mem arr _ hne)).1
    · obtain ⟨m, hm⟩ := List.exists_mem_of_ne_nil arr hne
      have hm' := hok.1 m hm
      have := ih m hm hm'.2.2.1 hm'.2.2.2 (i - 1)
      exact le_trans this ((PolyDegByLoop_ge arr (i - 1) (-2)).2 m hm)

theorem PolyDeg_nonneg : ∀ p, CanonB maxExp p = true → PolyIsZero p = false →
    PolyDegInRange p = true → 0 ≤ PolyDeg p := by
  intro p
  induction p using Poly.ind with
  | hc c =>
    intro _ hz _
    have : (c == 0) = false := by simpa [PolyIsZero] using hz
    simp [PolyDeg, this]
  | hs arr ih =>
    intro h _ hr
    obtain ⟨hok, hne, -⟩ := (CanonB_sum _ _).1 h
    simp only [PolyDeg]
    simp only [PolyDegInRange] at hr
    obtain ⟨m, hm⟩ := List.exists_mem_of_ne_nil arr hne
    have hm' := hok.1 m hm
    obtain ⟨r1, r2, r3⟩ := PolyDegLoopInRange_mem arr hr m hm
    have h0 := ih m hm hm'.2.2.1 hm'.2.2.2 r1
    have he := hm'.1
    unfold maxExp at r3
    have hw : wrapInt (m.exp + PolyDeg m.p) = m.exp + PolyDeg m.p :=
      wrapInt_of_range (by omega) (by omega)
    have := (PolyDegLoop_ge arr (-2)).2 m hm
    rw [hw] at this
    omega

/-- C12, as the code has it: the degree of the zero polynomial is -1, by `PolyDeg` and by
`PolyDegBy` for every variable index; for every canonical non-zero `p`, `PolyDegBy(p, i)`
is at least 0 for every `i`, and `PolyDeg(p)` is at least 0 whenever the sums
`exp + PolyDeg(sub)` it computes stay within the range of `int`. -/
theorem degree_sentinel :
    PolyDeg PolyZero = -1 ∧ (∀ i, PolyDegBy PolyZero i = -1) ∧
    ∀ p, Canonical p = true → PolyIsZero p = false →
      (∀ i, 0 ≤ PolyDegBy p i) ∧ (PolyDegInRange p = true → 0 ≤ PolyDeg p) := by
  refine ⟨rfl, fun i => rfl, fun p hp hz => ?_⟩
  unfold Canonical at hp
  exact ⟨PolyDegBy_nonneg p hp hz, PolyDeg_nonneg p hp hz⟩

theorem degree_sentinel_witness :
    0 ≤ PolyDegBy (.sum [.mk (.sum [.mk (.coeff 1) 1]) 3]) 1 ∧
    0 ≤ PolyDeg (.sum [.mk (.sum [.mk (.coeff 1) 1]) 3]) :=
  ⟨(degree_sentinel.2.2 (.sum [.mk (.sum [.mk (.coeff 1) 1]) 3]) (by decide) (by decide)).1 1,
   (degree_sentinel.2.2 (.sum [.mk (.sum [.mk (.coeff 1) 1]) 3]) (by decide) (by decide)).2
     (by decide)⟩

/-- C12 as stated fails: the canonical non-zero polynomial `x_0^2147483647 * x_1`, which the
parser builds from the literal `((1,1),2147483647)`, has `PolyDeg` equal to -2, because the
sum `2147483647 + 1` is computed in `int`; and with one more variable,
`x_0 * x_1^2147483647 * x_2`, `PolyDeg` is exactly -1. -/
theorem degree_sentinel_counterexample :
    Canonical (.sum [.mk (.sum [.mk (.coeff 1) 1]) 2147483647]) = true ∧
    PolyIsZero (.sum [.mk (.sum [.mk (.coeff 1) 1]) 2147483647]) = false ∧
    PolyDeg (.sum [.mk (.sum [.mk (.coeff 1) 1]) 2147483647]) = -2 ∧
    ¬ (0 ≤ PolyDeg (.sum [.mk (.sum [.mk (.coeff 1) 1]) 2147483647])) ∧
    Canonical (.sum [.mk (.sum [.mk (.sum [.mk (.coeff 1) 1]) 2147483647]) 1]) = true ∧
    PolyIsZero (.sum [.mk (.sum [.mk (.sum [.mk (.coeff 1) 1]) 2147483647]) 1]) = false ∧
    PolyDeg (.sum [.mk (.sum [.mk (.sum [.mk (.coeff 1) 1]) 2147483647]) 1]) = -1 ∧
    (calcMain [textLine "((1,1),2147483647)", textLine "DEG"]).map Outcome.out
      = some ['-', '2', Char.ofNat 10] := by
  refine ⟨by decide, by decide, by decide, by decide, by decide, by decide, by decide, ?_⟩
  rfl

/-- C13, as the code has it: for a canonical polynomial that is not a coefficient,
`PolyDegBy(p, 0)` is the exponent of the last monomial, which is the maximum exponent over
the monomials of `p`; for a non-zero coefficient it is 0, and for the zero polynomial -1.
For the literal `(2,3)`, `DEG` prints 3, `DEG_BY 0` prints 3 and `DEG_BY 1` prints 0. -/
theorem PolyDegBy_outermost (arr : List Mono) (hp : Canonical (.sum arr) = true) :
    (∃ h : arr ≠ [], PolyDegBy (.sum arr) 0 = (arr.getLast h).exp) ∧
    (∃ m ∈ arr, m.exp = PolyDegBy (.sum arr) 0) ∧
    (∀ m ∈ arr, m.exp ≤ PolyDegBy (.sum arr) 0) ∧
    (∀ c : Int, c ≠ 0 → PolyDegBy (.coeff c) 0 = 0) ∧
    PolyDegBy (.coeff 0) 0 = -1 ∧
    (calcMain [textLine "(2,3)", textLine "DEG", textLine "DEG_BY 0", textLine "DEG_BY 1"]).map
      Outcome.out = some ['3', Char.ofNat 10, '3', Char.ofNat 10, '0', Char.ofNat 10] := by
  unfold Canonical at hp
  obtain ⟨hok, hne, -⟩ := (CanonB_sum _ _).1 hp
  have hd : PolyDegBy (.sum arr) 0 = (arr.getLastD (.mk PolyZero 0)).exp := by
    simp [PolyDegBy]
  refine ⟨⟨hne, ?_⟩, ⟨_, getLastD_mem arr _ hne, hd.symm⟩, ?_, ?_, rfl, rfl⟩
  · rw [hd, List.getLastD_eq_getLast?, List.getLast?_eq_getLast _ hne]; rfl
  · intro m hm
    rw [hd]
    exact getLastD_max arr _ hok.2 m hm
  · intro c hc
    have : (c == 0) = false := by simpa using hc
    simp [PolyDegBy, this]

theorem PolyDegBy_outermost_witness :
    PolyDegBy (.sum [.mk (.coeff 1) 0, .mk (.coeff 2) 3]) 0 = 3 :=
  (PolyDegBy_outermost [.mk (.coeff 1) 0, .mk (.coeff 2) 3] (by decide)).1.2

/-- C13 as stated fails for the coefficient 0: `PolyDegBy(0, 0)` is -1, not 0. -/
theorem PolyDegBy_outermost_counterexample :
    Canonical (.coeff 0) = true ∧ PolyIsCoeff (.coeff 0) = true ∧
    PolyDegBy (.coeff 0) 0 = -1 ∧ PolyDegBy (.coeff 0) 0 ≠ 0 := by
  refine ⟨by decide, by decide, by decide, by decide⟩

/-! ## The stack machine: errors -/

theorem Atomic_report (s : List Poly) (n : Nat) (what : String) (h : what ∈ errorNames) :
    Atomic s n (reportError s n what) := Or.inr ⟨what, h, rfl⟩

theorem Atomic_underflow (s : List Poly) (n : Nat) :
    Atomic s n (reportError s n "STACK UNDERFLOW") := Atomic_report s n _ (by decide)

theorem Atomic_IsCoeff (s : List Poly) (n : Nat) : Atomic s n (InstructionIsCoeff s n) := by
  cases s with
  | nil => exact Atomic_underflow _ _
  | cons p rest => exact Or.inl rfl

theorem Atomic_IsZero (s : List Poly) (n : Nat) : Atomic s n (InstructionIsZero s n) := by
  cases s with
  | nil => exact Atomic_underflow _ _
  | cons p rest => exact Or.inl rfl

theorem Atomic_Clone (s : List Poly) (n : Nat) : Atomic s n (InstructionClone s n) := by
  cases s with
  | nil => exact Atomic_underflow _ _
  | cons p rest => exact Or.inl rfl

theorem Atomic_Neg (s : List Poly) (n : Nat) : Atomic s n (InstructionNeg s n) := by
  cases s with
  | nil => exact Atomic_underflow _ _
  | cons p rest => exact Or.inl rfl

theorem Atomic_Deg (s : List Poly) (n : Nat) : Atomic s n (InstructionDeg s n) := by
  cases s with
  | nil => exact Atomic_underflow _ _
  | cons p rest => exact Or.inl rfl

theorem Atomic_Print (s : List Poly) (n : Nat) : Atomic s n (InstructionPrint s n) := by
  cases s with
  | nil => exact Atomic_underflow _ _
  | cons p rest => exact Or.inl rfl

theorem Atomic_Pop (s : List Poly) (n : Nat) : Atomic s n (InstructionPop s n) := by
  cases s with
  | nil => exact Atomic_underflow _ _
  | cons p rest => exact Or.inl rfl

theorem Atomic_Add (s : List Poly) (n : Nat) : Atomic s n (InstructionAdd s n) := by
  rcases s with _ | ⟨p, _ | ⟨q, rest⟩⟩
  · exact Atomic_underflow _ _
  · exact Atomic_underflow _ _
  · exact Or.inl rfl

theorem Atomic_Mul (s : List Poly) (n : Nat) : Atomic s n (InstructionMul s n) := by
  rcases s with _ | ⟨p, _ | ⟨q, rest⟩⟩
  · exact Atomic_underflow _ _
  · exact Atomic_underflow _ _
  · exact Or.inl rfl

theorem Atomic_Sub (s : List Poly) (n : Nat) : Atomic s n (InstructionSub s n) := by
  rcases s with _ | ⟨p, _ | ⟨q, rest⟩⟩
  · exact Atomic_underflow _ _
  · exact Atomic_underflow _ _
  · exact Or.inl rfl

theorem Atomic_IsEq (s : List Poly) (n : Nat) : Atomic s n (InstructionIsEq s n) := by
  rcases s with _ | ⟨p, _ | ⟨q, rest⟩⟩
  · exact Atomic_underflow _ _
  · exact Atomic_underflow _ _
  · exact Or.inl rfl

theorem Atomic_DegBy (s : List Poly) (n : Nat) (line : List Char) :
    Atomic s n (InstructionDegBy s n line) := by
  unfold InstructionDegBy
  simp only []
  split_ifs
  any_goals exact Atomic_report _ _ _ (by decide)
  cases s with
  | nil => exact Atomic_underflow _ _
  | cons p rest => exact Or.inl rfl

theorem Atomic_At (s : List Poly) (n : Nat) (line : List Char) :
    Atomic s n (InstructionAt s n line) := by
  unfold InstructionAt
  simp only []
  split_ifs
  any_goals exact Atomic_report _ _ _ (by decide)
  cases s with
  | nil => exact Atomic_underflow _ _
  | cons p rest => exact Or.inl rfl

theorem Atomic_Compose (s : List Poly) (n : Nat) (line : List Char) (o : Outcome)
    (h : InstructionCompose s n line = some o) : Atomic s n o := by
  unfold InstructionCompose at h
  simp only [] at h
  split_ifs at h
  any_goals (cases h; exact Atomic_report _ _ _ (by decide))
  cases s with
  | nil => cases h
  | cons p rest => cases h; exact Or.inl rfl

theorem Atomic_InterpretPoly (s : List Poly) (n : Nat) (line : List Char) :
    Atomic s n (InterpretPoly line n s) := by
  unfold InterpretPoly
  split_ifs
  · exact Atomic_report _ _ _ (by decide)
  · cases ParsePoly line with
    | none => exact Atomic_report _ _ _ (by decide)
    | some r => exact Or.inl rfl

theorem ite_some (P : Outcome → Prop) {c : Prop} [Decidable c] {a b : Option Outcome}
    (ha : ∀ o, a = some o → P o) (hb : ∀ o, b = some o → P o) :
    ∀ o, (if c then a else b) = some o → P o := by
  intro o h
  split_ifs at h
  · exact ha o h
  · exact hb o h

theorem some_atomic {s : List Poly} {n : Nat} {x : Outcome} (hx : Atomic s n x) :
    ∀ o, some x = some o → Atomic s n o := by
  intro o h; cases h; exact hx

theorem LineInterpreter_atomic (line : List Char) (n : Nat) (s : List Poly) :
    ∀ o, LineInterpreter line n s = some o → Atomic s n o := by
  unfold LineInterpreter
  repeat' apply ite_some (Atomic s n)
  all_goals first
    | (apply some_atomic
       first
        | exact Or.inl rfl
        | (refine Atomic_report _ _ _ ?_; decide)
        | exact Atomic_IsCoeff _ _
        | exact Atomic_IsZero _ _
        | exact Atomic_Clone _ _
        | exact Atomic_Add _ _
        | exact Atomic_Mul _ _
        | exact Atomic_Neg _ _
        | exact Atomic_Sub _ _
        | exact Atomic_IsEq _ _
        | exact Atomic_Deg _ _
        | exact Atomic_Print _ _
        | exact Atomic_Pop _ _
        | exact Atomic_DegBy _ _ _
        | exact Atomic_At _ _ _
        | exact Atomic_InterpretPoly _ _ _)
    | exact fun o h => Atomic_Compose _ _ _ _ h
    | (intro o h; cases s <;> cases h; exact Or.inl rfl)

/-- C18: errors are atomic. Whenever `LineInterpreter`, run on the stack `s` and any line,
reports an error, the error is one of the six `ERROR <line> <reason>` diagnostics, nothing
is printed, and the stack after the line is exactly `s`: the same polynomials in the same
order. -/
theorem errors_are_atomic (line : List Char) (n : Nat) (s : List Poly) (o : Outcome)
    (h : LineInterpreter line n s = some o) (he : o.err ≠ []) :
    o.stack = s ∧ o.stack.length = s.length ∧ o.out = [] ∧
    ∃ what ∈ errorNames, o.err = errorText n what := by
  rcases LineInterpreter_atomic line n s o h with h0 | ⟨what, hw, rfl⟩
  · exact absurd h0 he
  · exact ⟨rfl, rfl, rfl, what, hw, rfl⟩

theorem errors_are_atomic_witness :
    (InstructionAdd [.coeff 2] 2).stack = [.coeff 2] ∧
    (InstructionAdd [.coeff 2] 2).stack.length = [Poly.coeff 2].length ∧
    (InstructionAdd [.coeff 2] 2).out = [] ∧
    ∃ what ∈ errorNames, (InstructionAdd [.coeff 2] 2).err = errorText 2 what :=
  errors_are_atomic (textLine "ADD") 2 [.coeff 2] (InstructionAdd [.coeff 2] 2) rfl
    (by decide)

/-! ## The stack machine: operand counts -/

/-- C19: on every line number `n`, each of `ADD`, `MUL`, `SUB`, `IS_EQ` on a stack of fewer
than two polynomials, and each of `IS_COEFF`, `IS_ZERO`, `CLONE`, `NEG`, `DEG`, `PRINT`,
`POP` on the empty stack, with or without the final newline, reports exactly
`ERROR n STACK UNDERFLOW`, prints nothing and leaves the stack as it was; the input `2`,
`ADD` reports `ERROR 2 STACK UNDERFLOW` and keeps the 2 on the stack. -/
theorem stack_underflow_detected (n : Nat) (s : List Poly) (kw : String) (line : List Char)
    (hl : line = kw.toList ∨ line = textLine kw)
    (h : (kw ∈ ["ADD", "MUL", "SUB", "IS_EQ"] ∧ s.length < 2) ∨
      (kw ∈ ["IS_COEFF", "IS_ZERO", "CLONE", "NEG", "DEG", "PRINT", "POP"] ∧ s = [])) :
    LineInterpreter line n s = some (reportError s n "STACK UNDERFLOW") ∧
    (reportError s n "STACK UNDERFLOW").stack = s ∧
    (reportError s n "STACK UNDERFLOW").out = [] ∧
    (reportError s n "STACK UNDERFLOW").err =
      "ERROR ".toList ++ natDigits n ++ " STACK UNDERFLOW".toList ++ [Char.ofNat 10] ∧
    calcMain [textLine "2", textLine "ADD"] =
      some ⟨[.coeff 2], [], "ERROR 2 STACK UNDERFLOW".toList ++ [Char.ofNat 10]⟩ := by
  refine ⟨?_, rfl, rfl, ?_, rfl⟩
  · rcases h with ⟨hk, hs⟩ | ⟨hk, hs⟩
    · simp only [List.mem_cons, List.mem_singleton, List.not_mem_nil, or_false] at hk
      rcases s with _ | ⟨p, _ | ⟨q, rest⟩⟩
      · rcases hk with rfl | rfl | rfl | rfl <;> rcases hl with rfl | rfl <;> rfl
      · rcases hk with rfl | rfl | rfl | rfl <;> rcases hl with rfl | rfl <;> rfl
      · simp only [List.length_cons] at hs; omega
    · simp only [List.mem_cons, List.mem_singleton, List.not_mem_nil, or_false] at hk
      subst hs
      rcases hk with rfl | rfl | rfl | rfl | rfl | rfl | rfl <;> rcases hl with rfl | rfl <;> rfl
  · simp [reportError, errorText]

theorem stack_underflow_detected_witness :
    LineInterpreter (textLine "MUL") 7 [.coeff 5] =
      some (reportError [.coeff 5] 7 "STACK UNDERFLOW") :=
  (stack_underflow_detected 7 [.coeff 5] "MUL" (textLine "MUL") (Or.inr rfl)
    (Or.inl ⟨by decide, by decide⟩)).1

/-! ## Reading numbers -/

theorem digits_head {ds : List Char} (hne : ds ≠ []) (hall : ∀ c ∈ ds, c.isDigit = true) :
    ∃ c cs, ds = c :: cs ∧ c.isDigit = true := by
  cases ds with
  | nil => exact absurd rfl hne
  | cons c cs => exact ⟨c, cs, rfl, hall c (List.mem_cons_self _ _)⟩

theorem parseDigits_digits (ds rest : List Char) (hall : ∀ c ∈ ds, c.isDigit = true)
    (hr : (charAt rest 0).isDigit = false) :
    parseDigits (ds ++ rest) 0 = (digitsVal ds, rest) :=
  parseDigits_append ds rest 0 hall hr

theorem strtol_digits (ds rest : List Char) (hne : ds ≠ [])
    (hall : ∀ c ∈ ds, c.isDigit = true) (hr : (charAt rest 0).isDigit = false) :
    strtol (ds ++ rest) =
      if (digitsVal ds : Int) > 2 ^ 63 - 1 then (2 ^ 63 - 1, rest, true)
      else ((digitsVal ds : Int), rest, false) := by
  obtain ⟨c, cs, hcs, hc⟩ := digits_head hne hall
  obtain ⟨p1, p2, p3, _⟩ := isDigit_props hc
  unfold strtol
  have hd : List.dropWhile isSpaceC (ds ++ rest) = ds ++ rest := by
    rw [hcs, List.cons_append, List.dropWhile_cons_of_neg (by simp [p1])]
  have hc1 : charAt (ds ++ rest) 0 = c := by rw [hcs]; rfl
  have hneg : (c == '-') = false := by simpa using p2
  have hpos : (c == '+') = false := by simpa using p3
  simp only [hd, hc1, hneg, hpos, Bool.or_self, Bool.false_eq_true, if_false, hc, if_true]
  rw [parseDigits_digits _ _ hall hr]
  simp only []
  split_ifs with h1 h2
  · rfl
  · exfalso; have : (0 : Int) ≤ (digitsVal ds : Int) := Int.natCast_nonneg _; omega
  · rfl

theorem strtol_neg_digits (ds rest : List Char) (hne : ds ≠ [])
    (hall : ∀ c ∈ ds, c.isDigit = true) (hr : (charAt rest 0).isDigit = false) :
    strtol ('-' :: (ds ++ rest)) =
      if -(digitsVal ds : Int) < -2 ^ 63 then (-2 ^ 63, rest, true)
      else (-(digitsVal ds : Int), rest, false) := by
  obtain ⟨c, cs, hcs, hc⟩ := digits_head hne hall
  unfold strtol
  have hd : List.dropWhile isSpaceC ('-' :: (ds ++ rest)) = '-' :: (ds ++ rest) := by
    rw [List.dropWhile_cons_of_neg (by decide)]
  have hc0 : charAt ('-' :: (ds ++ rest)) 0 = '-' := rfl
  have hc1 : charAt (ds ++ rest) 0 = c := by rw [hcs]; rfl
  simp only [hd, hc0, beq_self_eq_true, Bool.true_or, if_true, List.drop_succ_cons,
    List.drop_zero, hc1, hc]
  rw [parseDigits_digits _ _ hall hr]
  simp only []
  have h0 : (0 : Int) ≤ (digitsVal ds : Int) := Int.natCast_nonneg _
  split_ifs <;> first | rfl | (exfalso; omega)

theorem strtoull_digits (ds rest : List Char) (hne : ds ≠ [])
    (hall : ∀ c ∈ ds, c.isDigit = true) (hr : (charAt rest 0).isDigit = false) :
    strtoull (ds ++ rest) =
      if digitsVal ds > 2 ^ 64 - 1 then (2 ^ 64 - 1, rest, true)
      else (digitsVal ds, rest, false) := by
  obtain ⟨c, cs, hcs, hc⟩ := digits_head hne hall
  obtain ⟨p1, p2, p3, _⟩ := isDigit_props hc
  unfold strtoull
  have hd : List.dropWhile isSpaceC (ds ++ rest) = ds ++ rest := by
    rw [hcs, List.cons_append, List.dropWhile_cons_of_neg (by simp [p1])]
  have hc1 : charAt (ds ++ rest) 0 = c := by rw [hcs]; rfl
  have hneg : (c == '-') = false := by simpa using p2
  have hpos : (c == '+') = false := by simpa using p3
  simp only [hd, hc1, hneg, hpos, Bool.or_self, Bool.false_eq_true, if_false, hc, if_true]
  rw [parseDigits_digits _ _ hall hr]

theorem digitsVal_natDigits (k : Nat) : digitsVal (natDigits k) = k := natDigits_value k

theorem strtoull_natDigits (k : Nat) (hk : k < 2 ^ 64) (rest : List Char)
    (hr : (charAt rest 0).isDigit = false) :
    strtoull (natDigits k ++ rest) = (k, rest, false) := by
  rw [strtoull_digits _ _ (natDigits_ne_nil k) (natDigits_all k) hr, digitsVal_natDigits,
    if_neg (by omega)]

theorem strtol_range (word : List Char) :
    -2 ^ 63 ≤ (strtol word).1 ∧ (strtol word).1 < 2 ^ 63 := by
  unfold strtol
  simp only []
  split_ifs <;> simp only [] <;> omega

/-! ## The stack machine: dispatch -/

theorem cstr_eq_self (s : List Char) (h : ∀ c ∈ s, c ≠ NUL) : cstr s = s := by
  unfold cstr
  rw [List.takeWhile_eq_self_iff]
  intro c hc
  simpa using h c hc

theorem charAt_mem (s : List Char) (i : Nat) (h : i < s.length) : charAt s i ∈ s := by
  unfold charAt
  rw [List.getD_eq_getElem _ _ h]
  exact List.getElem_mem _

theorem charAt_last (s : List Char) (a : Char) :
    charAt (s ++ [a]) ((s ++ [a]).length - 1) = a := by
  unfold charAt
  rw [List.length_append, List.length_singleton, Nat.add_sub_cancel,
    List.getD_append_right _ _ _ _ (le_refl _)]
  simp

theorem cstr_compose (rest : List Char) (h0 : ∀ c ∈ rest, c ≠ NUL) :
    cstr ('C' :: 'O' :: 'M' :: 'P' :: 'O' :: 'S' :: 'E' :: ' ' :: rest)
      = 'C' :: 'O' :: 'M' :: 'P' :: 'O' :: 'S' :: 'E' :: ' ' :: rest := by
  apply cstr_eq_self
  intro c hc
  simp only [List.mem_cons] at hc
  rcases hc with rfl | rfl | rfl | rfl | rfl | rfl | rfl | rfl | h
  any_goals decide
  exact h0 c h

theorem isKeyword_compose (rest : List Char) (h0 : ∀ c ∈ rest, c ≠ NUL) (kw : String)
    (hk : kw ∈ ["ZERO", "IS_COEFF", "IS_ZERO", "CLONE", "ADD", "MUL", "NEG", "SUB", "IS_EQ",
      "DEG", "PRINT", "POP"]) :
    isKeyword ('C' :: 'O' :: 'M' :: 'P' :: 'O' :: 'S' :: 'E' :: ' ' :: rest) kw = false := by
  unfold isKeyword strcmpEq
  rw [cstr_compose rest h0]
  simp only [List.mem_cons, List.mem_singleton, List.not_mem_nil, or_false] at hk
  rcases hk with rfl | rfl | rfl | rfl | rfl | rfl | rfl | rfl | rfl | rfl | rfl | rfl <;> rfl

theorem LineInterpreter_compose (rest : List Char) (h0 : ∀ c ∈ rest, c ≠ NUL) (n : Nat)
    (s : List Poly) :
    LineInterpreter ('C' :: 'O' :: 'M' :: 'P' :: 'O' :: 'S' :: 'E' :: ' ' :: rest) n s
      = InstructionCompose s n ('C' :: 'O' :: 'M' :: 'P' :: 'O' :: 'S' :: 'E' :: ' ' :: rest) := by
  have hA : (charAt ('C' :: 'O' :: 'M' :: 'P' :: 'O' :: 'S' :: 'E' :: ' ' :: rest) 0 == '#'
      || charAt ('C' :: 'O' :: 'M' :: 'P' :: 'O' :: 'S' :: 'E' :: ' ' :: rest) 0
        == Char.ofNat 10) = false := rfl
  have hB : ((cstr ('C' :: 'O' :: 'M' :: 'P' :: 'O' :: 'S' :: 'E' :: ' ' :: rest)).length
      != ('C' :: 'O' :: 'M' :: 'P' :: 'O' :: 'S' :: 'E' :: ' ' :: rest).length) = false := by
    rw [cstr_compose rest h0]; simp
  have hD : strncmpEq ('C' :: 'O' :: 'M' :: 'P' :: 'O' :: 'S' :: 'E' :: ' ' :: rest)
      "DEG_BY".toList 6 = false := by
    unfold strncmpEq; rw [cstr_compose rest h0]; rfl
  have hT : strncmpEq ('C' :: 'O' :: 'M' :: 'P' :: 'O' :: 'S' :: 'E' :: ' ' :: rest)
      "AT".toList 2 = false := by
    unfold strncmpEq; rw [cstr_compose rest h0]; rfl
  have hC : strncmpEq ('C' :: 'O' :: 'M' :: 'P' :: 'O' :: 'S' :: 'E' :: ' ' :: rest)
      "COMPOSE".toList 7 = true := by
    unfold strncmpEq; rw [cstr_compose rest h0]; rfl
  unfold LineInterpreter
  simp only [hA, hB, hD, hT, hC, isKeyword_compose rest h0 "ZERO" (by decide),
    isKeyword_compose rest h0 "IS_COEFF" (by decide),
    isKeyword_compose rest h0 "IS_ZERO" (by decide),
    isKeyword_compose rest h0 "CLONE" (by decide),
    isKeyword_compose rest h0 "ADD" (by decide),
    isKeyword_compose rest h0 "MUL" (by decide),
    isKeyword_compose rest h0 "NEG" (by decide),
    isKeyword_compose rest h0 "SUB" (by decide),
    isKeyword_compose rest h0 "IS_EQ" (by decide),
    isKeyword_compose rest h0 "DEG" (by decide),
    isKeyword_compose rest h0 "PRINT" (by decide),
    isKeyword_compose rest h0 "POP" (by decide), Bool.false_eq_true, if_false, if_true]

theorem badLineEnd_compose (ds tail : List Char)
    (hall : ∀ c ∈ ds, c.isDigit = true) (ht : tail = [] ∨ tail = [Char.ofNat 10]) :
    badLineEnd ('C' :: 'O' :: 'M' :: 'P' :: 'O' :: 'S' :: 'E' :: ' ' :: (ds ++ tail)) tail
      = false := by
  unfold badLineEnd
  rcases ht with rfl | rfl
  · have hlen : ('C' :: 'O' :: 'M' :: 'P' :: 'O' :: 'S' :: 'E' :: ' ' :: (ds ++ [])).length - 1
        < ('C' :: 'O' :: 'M' :: 'P' :: 'O' :: 'S' :: 'E' :: ' ' :: (ds ++ [])).length := by
      simp only [List.length_cons]; omega
    have hm := charAt_mem _ _ hlen
    have hnl : charAt ('C' :: 'O' :: 'M' :: 'P' :: 'O' :: 'S' :: 'E' :: ' ' :: (ds ++ []))
        (('C' :: 'O' :: 'M' :: 'P' :: 'O' :: 'S' :: 'E' :: ' ' :: (ds ++ [])).length - 1)
          ≠ Char.ofNat 10 := by
      generalize charAt ('C' :: 'O' :: 'M' :: 'P' :: 'O' :: 'S' :: 'E' :: ' ' :: (ds ++ []))
        (('C' :: 'O' :: 'M' :: 'P' :: 'O' :: 'S' :: 'E' :: ' ' :: (ds ++ [])).length - 1)
          = x at hm
      simp only [List.mem_cons, List.append_nil] at hm
      rcases hm with rfl | rfl | rfl | rfl | rfl | rfl | rfl | rfl | h
      any_goals decide
      exact (isDigit_props (hall x h)).2.2.2.2.2.2.2
    have hb : (charAt ('C' :: 'O' :: 'M' :: 'P' :: 'O' :: 'S' :: 'E' :: ' ' :: (ds ++ []))
        (('C' :: 'O' :: 'M' :: 'P' :: 'O' :: 'S' :: 'E' :: ' ' :: (ds ++ [])).length - 1)
          == Char.ofNat 10) = false := by simpa using hnl
    rw [hb]
    rfl
  · have e : 'C' :: 'O' :: 'M' :: 'P' :: 'O' :: 'S' :: 'E' :: ' ' :: (ds ++ [Char.ofNat 10])
        = ('C' :: 'O' :: 'M' :: 'P' :: 'O' :: 'S' :: 'E' :: ' ' :: ds) ++ [Char.ofNat 10] := rfl
    rw [e, charAt_last]
    rfl

theorem InstructionCompose_line (k : Nat) (hk : k < 2 ^ 64) (tail : List Char)
    (ht : tail = [] ∨ tail = [Char.ofNat 10]) (s : List Poly) (n : Nat) :
    InstructionCompose s n
        ('C' :: 'O' :: 'M' :: 'P' :: 'O' :: 'S' :: 'E' :: ' ' :: (natDigits k ++ tail)) =
      if (s.length + 2 ^ 64 - 1) % 2 ^ 64 < k then some (reportError s n "STACK UNDERFLOW")
      else
        match s with
        | [] => none
        | p :: rest =>
          some ⟨PolyCompose p k ((rest.take k).reverse) :: rest.drop k, [], []⟩ := by
  obtain ⟨c, cs, hcs, hc⟩ := natDigits_head k
  have hr : (charAt tail 0).isDigit = false := by rcases ht with rfl | rfl <;> rfl
  have h1 : ¬ ('C' :: 'O' :: 'M' :: 'P' :: 'O' :: 'S' :: 'E' :: ' ' :: (natDigits k ++ tail)).length
      < 9 := by
    rw [hcs]; simp only [List.length_cons, List.cons_append]; omega
  have h2 : isSpaceC (charAt
      ('C' :: 'O' :: 'M' :: 'P' :: 'O' :: 'S' :: 'E' :: ' ' :: (natDigits k ++ tail)) 7)
        = true := rfl
  have h3 : (charAt
      ('C' :: 'O' :: 'M' :: 'P' :: 'O' :: 'S' :: 'E' :: ' ' :: (natDigits k ++ tail)) 7 != ' ')
        = false := rfl
  have h4 : (charAt
      ('C' :: 'O' :: 'M' :: 'P' :: 'O' :: 'S' :: 'E' :: ' ' :: (natDigits k ++ tail)) 8).isDigit
        = true := by
    rw [hcs]; exact hc
  have h5 : List.drop 8
      ('C' :: 'O' :: 'M' :: 'P' :: 'O' :: 'S' :: 'E' :: ' ' :: (natDigits k ++ tail))
        = natDigits k ++ tail := rfl
  unfold InstructionCompose
  simp only [h1, h2, h3, h4, h5, strtoull_natDigits k hk tail hr,
    badLineEnd_compose _ tail (natDigits_all k) ht, if_false,
    Bool.not_true, Bool.false_eq_true, Bool.or_self]
  all_goals (split_ifs <;> first | rfl | (cases s <;> rfl))

theorem composeLine_no_nul (k : Nat) (tail : List Char)
    (ht : tail = [] ∨ tail = [Char.ofNat 10]) : ∀ c ∈ natDigits k ++ tail, c ≠ NUL := by
  intro c hc
  rcases List.mem_append.1 hc with h | h
  · exact (isDigit_props (natDigits_all k c h)).2.2.2.2.2.1
  · rcases ht with rfl | rfl
    · cases h
    · rw [List.mem_singleton] at h; rw [h]; decide

theorem LineInterpreter_composeLine (k : Nat) (hk : k < 2 ^ 64) (tail : List Char)
    (ht : tail = [] ∨ tail = [Char.ofNat 10]) (s : List Poly) (n : Nat) :
    LineInterpreter (composeLine k ++ tail) n s =
      if (s.length + 2 ^ 64 - 1) % 2 ^ 64 < k then some (reportError s n "STACK UNDERFLOW")
      else
        match s with
        | [] => none
        | p :: rest =>
          some ⟨PolyCompose p k ((rest.take k).reverse) :: rest.drop k, [], []⟩ := by
  have e : composeLine k ++ tail
      = 'C' :: 'O' :: 'M' :: 'P' :: 'O' :: 'S' :: 'E' :: ' ' :: (natDigits k ++ tail) := by
    unfold composeLine
    rw [List.append_assoc]
    rfl
  rw [e, LineInterpreter_compose _ (composeLine_no_nul k tail ht), InstructionCompose_line k hk tail ht]

/-- C20, evaluated on the code: for an argument `k` below `2^64` written in decimal, with or
without the final newline, `COMPOSE k` on the EMPTY stack reports nothing, because the
depth test `s->size - 1 < k` is computed in `size_t` and `0 - 1` is `2^64 - 1`; the handler
goes on to read the top of the empty stack. On a non-empty stack of fewer than `k + 1`
polynomials it reports `STACK UNDERFLOW` and leaves the stack as it was, and on a stack of
at least `k + 1` polynomials it reports no error. -/
theorem InstructionCompose_depth_test (k : Nat) (hk : k < 2 ^ 64) (tail : List Char)
    (ht : tail = [] ∨ tail = [Char.ofNat 10]) (s : List Poly) (hs : s.length < 2 ^ 64)
    (n : Nat) :
    (s = [] → LineInterpreter (composeLine k ++ tail) n s = none) ∧
    (s ≠ [] → s.length < k + 1 →
      LineInterpreter (composeLine k ++ tail) n s = some (reportError s n "STACK UNDERFLOW")) ∧
    (k + 1 ≤ s.length →
      ∃ o, LineInterpreter (composeLine k ++ tail) n s = some o ∧ o.err = []) := by
  rw [LineInterpreter_composeLine k hk tail ht]
  refine ⟨?_, ?_, ?_⟩
  · rintro rfl
    have : ¬ (([] : List Poly).length + 2 ^ 64 - 1) % 2 ^ 64 < k := by
      simp only [List.length_nil]; omega
    rw [if_neg this]
  · intro hne hlt
    cases s with
    | nil => exact absurd rfl hne
    | cons p rest =>
      simp only [List.length_cons] at hlt hs ⊢
      have : (rest.length + 1 + 2 ^ 64 - 1) % 2 ^ 64 < k := by omega
      rw [if_pos this]
  · intro hle
    cases s with
    | nil => simp at hle
    | cons p rest =>
      simp only [List.length_cons] at hle hs ⊢
      have : ¬ (rest.length + 1 + 2 ^ 64 - 1) % 2 ^ 64 < k := by omega
      rw [if_neg this]
      exact ⟨_, rfl, rfl⟩

theorem InstructionCompose_depth_test_witness :
    LineInterpreter (composeLine 1 ++ [Char.ofNat 10]) 3 [] = none :=
  (InstructionCompose_depth_test 1 (by decide) [Char.ofNat 10] (Or.inr rfl) [] (by decide) 3).1
    rfl

/-! ## The parser builds canonical values -/

theorem IsExp_range {word : List Char} (h : IsExp word = true) :
    0 ≤ (strtol word).1 ∧ (strtol word).1 ≤ maxExp := by
  simp only [IsExp, Bool.and_eq_true, Bool.not_eq_true', Bool.or_eq_false_iff,
    decide_eq_false_iff_not] at h
  unfold maxExp
  have := h.1.1.2
  omega

theorem ParseMonosFuel_none {fuel : Nat} {word : List Char} {monos : List Mono}
    (hp : ParsePolyFuel fuel (word.drop 1) = none) :
    ParseMonosFuel (fuel + 1) word monos = none := by
  simp only [ParseMonosFuel, hp]

theorem ParseMonosFuel_some {fuel : Nat} {word : List Char} {monos : List Mono} {p : Poly}
    {temp : List Char} (hp : ParsePolyFuel fuel (word.drop 1) = some (p, temp)) :
    ParseMonosFuel (fuel + 1) word monos =
      if charAt temp 0 != ',' then none
      else if !IsExp (temp.drop 1) then none
      else if charAt (strtol (temp.drop 1)).2.1 0 != ')' then none
      else if charAt ((strtol (temp.drop 1)).2.1.drop 1) 0 == '+' then
        ParseMonosFuel fuel (((strtol (temp.drop 1)).2.1.drop 1).drop 1)
          (monos ++ [.mk p (wrapInt (strtol (temp.drop 1)).1)])
      else if charAt ((strtol (temp.drop 1)).2.1.drop 1) 0 == Char.ofNat 10
          || charAt ((strtol (temp.drop 1)).2.1.drop 1) 0 == NUL
          || charAt ((strtol (temp.drop 1)).2.1.drop 1) 0 == ',' then
        some (PolyAddMonos (monos ++ [.mk p (wrapInt (strtol (temp.drop 1)).1)]),
          (strtol (temp.drop 1)).2.1.drop 1)
      else none := by
  simp only [ParseMonosFuel, hp]

theorem not_not_true {b : Bool} (h : ¬ (!b) = true) : b = true := by
  cases b
  · exact absurd rfl h
  · rfl

theorem MonoOkB_parsed {p : Poly} {word : List Char} (hpc : CanonB maxExp p = true)
    (he : IsExp word = true) :
    MonoOkB maxExp (.mk p (wrapInt (strtol word).1)) = true := by
  have hr := IsExp_range he
  have hr2 := hr.2
  unfold maxExp at hr2
  rw [MonoOkB_iff, Mono.exp_mk, Mono.p_mk, wrapInt_of_range (by omega) (by omega)]
  exact ⟨hr.1, hr.2, hpc⟩

theorem parse_canon : ∀ fuel : Nat,
    (∀ word q rest, ParsePolyFuel fuel word = some (q, rest) → CanonB maxExp q = true) ∧
    (∀ word monos q rest, (∀ m ∈ monos, MonoOkB maxExp m = true) →
      ParseMonosFuel fuel word monos = some (q, rest) → CanonB maxExp q = true) := by
  intro fuel
  induction fuel with
  | zero =>
    constructor
    · intro word q rest h; simp [ParsePolyFuel] at h
    · intro word monos q rest _ h; simp [ParseMonosFuel] at h
  | succ fuel ih =>
    constructor
    · intro word q rest h
      simp only [ParsePolyFuel] at h
      split_ifs at h with h1 h2
      · simp only [WordToCoeff, PolyFromCoeff, Option.some.injEq, Prod.mk.injEq] at h
        rw [← h.1, CanonB_coeff]
        exact strtol_range word
      · exact ih.2 word [] q rest (by simp) h
    · intro word monos q rest hm h
      cases hp : ParsePolyFuel fuel (word.drop 1) with
      | none => rw [ParseMonosFuel_none hp] at h; cases h
      | some r =>
        obtain ⟨p, temp⟩ := r
        have hpc := ih.1 _ _ _ hp
        rw [ParseMonosFuel_some hp] at h
        split_ifs at h with h1 h2 h3 h4 h5
        · refine ih.2 _ _ q rest ?_ h
          intro m hmem
          rcases List.mem_append.1 hmem with hmem | hmem
          · exact hm m hmem
          · rw [List.mem_singleton] at hmem
            rw [hmem]
            exact MonoOkB_parsed hpc (not_not_true h2)
        · simp only [Option.some.injEq, Prod.mk.injEq] at h
          rw [← h.1]
          apply PolyAddMonos_canon maxExp (le_refl _)
          intro m hmem
          rcases List.mem_append.1 hmem with hmem | hmem
          · exact hm m hmem
          · rw [List.mem_singleton] at hmem
            rw [hmem]
            exact MonoOkB_parsed hpc (not_not_true h2)

/-- C17: the polynomial that `ParsePoly` builds from a line is canonical, whatever the order
of the monomials written and whether exponents repeat; so when the interpreter pushes a
literal, the value pushed is canonical, and when it is a sum `PRINT` lists its monomials in
strictly ascending order of exponent. The input `(1,2)+(1,0)` prints exactly
`(1,0)+(1,2)`. -/
theorem parser_emits_canonical (line : List Char) (q : Poly) (rest : List Char)
    (h : ParsePoly line = some (q, rest)) :
    Canonical q = true ∧
    (∀ (n : Nat) (s : List Poly), IsCorrect line = true →
      InterpretPoly line n s = ⟨q :: s, [], []⟩) ∧
    (∀ arr, q = .sum arr → (arr.map Mono.exp).Pairwise (fun a b => a < b) ∧
      PolyPrint q = PolyPrintMonos arr) ∧
    calcMain [textLine "(1,2)+(1,0)", textLine "PRINT"] =
      some ⟨[.sum [.mk (.coeff 1) 0, .mk (.coeff 1) 2]],
        "(1,0)+(1,2)".toList ++ [Char.ofNat 10], []⟩ := by
  have hc : CanonB maxExp q = true := (parse_canon _).1 _ _ _ h
  refine ⟨hc, ?_, ?_, rfl⟩
  · intro n s hi
    simp [InterpretPoly, hi, h]
  · rintro arr rfl
    exact ⟨((CanonB_sum _ _).1 hc).1.2, by simp [PolyPrint]⟩

theorem parser_emits_canonical_witness :
    Canonical (.sum [.mk (.coeff 1) 0, .mk (.coeff 1) 2]) = true :=
  (parser_emits_canonical "(1,2)+(1,0)".toList (.sum [.mk (.coeff 1) 0, .mk (.coeff 1) 2]) []
    rfl).1

/-! ## Words of the grammar -/

theorem Lit.ind2 {P : Lit → Prop} {Q : List LitMono → Prop}
    (hnum : ∀ neg ds, P (.num neg ds)) (hmonos : ∀ ms, Q ms → P (.monos ms))
    (hnil : Q []) (hcons : ∀ p neg ex ms, P p → Q ms → Q (.mk p neg ex :: ms)) :
    (∀ l, P l) ∧ ∀ ms, Q ms := by
  have hl : ∀ l, P l := fun l =>
    @Lit.rec P (fun m => ∀ ms, Q ms → Q (m :: ms)) Q hnum (fun ms h => hmonos ms h)
      (fun p neg ex hp ms hq => hcons p neg ex ms hp hq) hnil (fun m ms h2 h3 => h2 ms h3) l
  refine ⟨hl, ?_⟩
  intro ms
  induction ms with
  | nil => exact hnil
  | cons m ms ih =>
    obtain ⟨p, neg, ex⟩ := m
    exact hcons _ _ _ _ (hl p) ih

theorem isDigits_iff (ds : List Char) :
    isDigits ds = true ↔ ds ≠ [] ∧ ∀ c ∈ ds, c.isDigit = true := by
  cases ds with
  | nil => simp [isDigits]
  | cons c cs => simp [isDigits]

theorem Lit.wf_num {b neg : Bool} {ds : List Char} (h : (Lit.num neg ds).wf b = true) :
    ds ≠ [] ∧ (∀ c ∈ ds, c.isDigit = true) ∧
      (if neg then digitsVal ds ≤ 2 ^ 63 else digitsVal ds ≤ 2 ^ 63 - 1) := by
  simp only [Lit.wf, Bool.and_eq_true, isDigits_iff] at h
  refine ⟨h.1.1, h.1.2, ?_⟩
  cases neg <;> simpa using h.2

theorem Lit.wf_monos {b : Bool} {ms : List LitMono} :
    (Lit.monos ms).wf b = true ↔ ms ≠ [] ∧ LitMono.wfList b ms = true := by
  cases ms <;> simp [Lit.wf]

theorem LitMono.wf_cons {b : Bool} {p : Lit} {neg : Bool} {ex : List Char}
    {ms : List LitMono} (h : LitMono.wfList b (.mk p neg ex :: ms) = true) :
    p.wf b = true ∧ ex ≠ [] ∧ (∀ c ∈ ex, c.isDigit = true) ∧ digitsVal ex ≤ 2 ^ 31 - 1 ∧
      (neg = true → b = true ∧ digitsVal ex = 0) ∧ LitMono.wfList b ms = true := by
  simp only [LitMono.wfList, Bool.and_eq_true, isDigits_iff, decide_eq_true_eq,
    Bool.or_eq_true, Bool.not_eq_true', beq_iff_eq] at h
  refine ⟨h.1.1.1.1, h.1.1.1.2.1, h.1.1.1.2.2, h.1.1.2, ?_, h.2⟩
  intro hn
  rcases h.1.2 with h' | h'
  · rw [hn] at h'; cases h'
  · exact h'

theorem LitMono.textList_cons (p : Lit) (neg : Bool) (ex : List Char) (ms : List LitMono)
    (rest : List Char) :
    LitMono.textList (.mk p neg ex :: ms) ++ rest =
      '(' :: (p.text ++ (',' :: ((if neg then ['-'] else []) ++ (ex ++ (')' ::
        ((if ms.isEmpty then [] else '+' :: LitMono.textList ms) ++ rest)))))) := by
  simp [LitMono.textList]

theorem Lit.text_head {b : Bool} {l : Lit} (h : l.wf b = true) (rest : List Char) :
    charAt (l.text ++ rest) 0 = '(' ∨ charAt (l.text ++ rest) 0 = '-' ∨
      (charAt (l.text ++ rest) 0).isDigit = true := by
  cases l with
  | num neg ds =>
    obtain ⟨hne, hall, _⟩ := Lit.wf_num h
    obtain ⟨c, cs, rfl, hc⟩ := digits_head hne hall
    cases neg
    · right; right; exact hc
    · right; left; rfl
  | monos ms =>
    obtain ⟨hne, _⟩ := Lit.wf_monos.1 h
    obtain ⟨m, ms, rfl⟩ := List.exists_cons_of_ne_nil hne
    obtain ⟨p, neg, ex⟩ := m
    left
    rw [Lit.text, LitMono.textList_cons]
    rfl

theorem IsCoeff_num {b neg : Bool} {ds : List Char} (h : (Lit.num neg ds).wf b = true)
    (rest : List Char) (hr : isTerm rest = true) :
    IsCoeff ((Lit.num neg ds).text ++ rest) = true ∧
      WordToCoeff ((Lit.num neg ds).text ++ rest) = ((Lit.num neg ds).value, rest) := by
  obtain ⟨hne, hall, hrange⟩ := Lit.wf_num h
  obtain ⟨c, cs, hcs, hc⟩ := digits_head hne hall
  have hnd := isTerm_not_digit hr
  have hend : (charAt rest 0 == ',' || charAt rest 0 == Char.ofNat 10 || charAt rest 0 == NUL)
      = true := hr
  cases neg with
  | false =>
    simp only [Bool.false_eq_true, if_false] at hrange
    have hs : strtol (ds ++ rest) = ((digitsVal ds : Int), rest, false) := by
      rw [strtol_digits ds rest hne hall hnd, if_neg (by omega)]
    have h0 : (charAt (ds ++ rest) 0).isDigit = true := by rw [hcs]; exact hc
    simp only [Lit.text, Lit.value, Bool.false_eq_true, if_false, List.nil_append, IsCoeff,
      WordToCoeff, hs, hend, h0, PolyFromCoeff, Bool.not_false, Bool.true_and, Bool.true_or,
      and_self]
  | true =>
    simp only [if_true] at hrange
    have hs : strtol ('-' :: (ds ++ rest)) = (-(digitsVal ds : Int), rest, false) := by
      rw [strtol_neg_digits ds rest hne hall hnd, if_neg (by omega)]
    have h0 : charAt ('-' :: (ds ++ rest)) 0 = '-' := rfl
    simp only [Lit.text, Lit.value, if_true, List.singleton_append, List.cons_append,
      List.nil_append, IsCoeff, WordToCoeff, hs, hend, h0, PolyFromCoeff, Bool.not_false,
      Bool.true_and, beq_self_eq_true, Bool.or_true, and_self]

theorem IsExp_written {neg : Bool} {ex : List Char} (hne : ex ≠ [])
    (hall : ∀ c ∈ ex, c.isDigit = true) (hle : digitsVal ex ≤ 2 ^ 31 - 1)
    (hneg : neg = true → digitsVal ex = 0) (s : List Char) :
    strtol ((if neg then ['-'] else []) ++ (ex ++ ')' :: s))
        = ((digitsVal ex : Int), ')' :: s, false) ∧
      IsExp ((if neg then ['-'] else []) ++ (ex ++ ')' :: s)) = true := by
  obtain ⟨c, cs, hcs, hc⟩ := digits_head hne hall
  have hnd : (charAt (')' :: s) 0).isDigit = false := by
    have : charAt (')' :: s) 0 = ')' := rfl
    rw [this]; decide
  have hcp : charAt (')' :: s) 0 = ')' := rfl
  have hs : strtol ((if neg then ['-'] else []) ++ (ex ++ ')' :: s))
      = ((digitsVal ex : Int), ')' :: s, false) := by
    cases neg with
    | false =>
      simp only [Bool.false_eq_true, if_false, List.nil_append]
      rw [strtol_digits ex _ hne hall hnd, if_neg (by omega)]
    | true =>
      simp only [if_true, List.singleton_append]
      rw [strtol_neg_digits ex _ hne hall hnd, if_neg (by omega), hneg rfl]
      rfl
  refine ⟨hs, ?_⟩
  have h0 : ((charAt ((if neg then ['-'] else []) ++ (ex ++ ')' :: s)) 0).isDigit
      || charAt ((if neg then ['-'] else []) ++ (ex ++ ')' :: s)) 0 == '-') = true := by
    cases neg with
    | false =>
      simp only [Bool.false_eq_true, if_false, List.nil_append]
      rw [hcs]
      have : charAt (c :: cs ++ ')' :: s) 0 = c := rfl
      rw [this, hc]; rfl
    | true => rfl
  have hrange : (!(decide ((digitsVal ex : Int) > 2147483647)
      || decide ((digitsVal ex : Int) < 0))) = true := by
    have : (0 : Int) ≤ (digitsVal ex : Int) := Int.natCast_nonneg _
    simp only [Bool.not_eq_true', Bool.or_eq_false_iff, decide_eq_false_iff_not]
    constructor <;> omega
  simp only [IsExp, hs, hcp, h0, hrange, Bool.not_false, Bool.true_and, beq_self_eq_true,
    Bool.true_or]

/-! ## Every word of the grammar is parsed -/

theorem isTerm_comma (t : List Char) : isTerm (',' :: t) = true := rfl

theorem isTerm_plus {rest : List Char} (hr : isTerm rest = true) :
    (charAt rest 0 == '+') = false := by
  simp only [isTerm, Bool.or_eq_true, beq_iff_eq] at hr
  rcases hr with (h | h) | h <;> rw [h] <;> decide

theorem parse_lit :
    (∀ l : Lit, l.wf true = true → ∀ rest fuel, l.size ≤ fuel → isTerm rest = true →
      ParsePolyFuel fuel (l.text ++ rest) = some (l.value, rest)) ∧
    (∀ ms : List LitMono, LitMono.wfList true ms = true → ms ≠ [] →
      ∀ monos rest fuel, LitMono.sizeList ms ≤ fuel → isTerm rest = true →
      ParseMonosFuel fuel (LitMono.textList ms ++ rest) monos
        = some (PolyAddMonos (monos ++ LitMono.valueList ms), rest)) := by
  apply Lit.ind2
  · intro neg ds hwf rest fuel hfuel hr
    cases fuel with
    | zero => simp only [Lit.size] at hfuel; omega
    | succ f =>
      obtain ⟨h1, h2⟩ := IsCoeff_num hwf rest hr
      simp only [ParsePolyFuel, h1, if_true, h2]
  · intro ms ih hwf rest fuel hfuel hr
    obtain ⟨hne, hwl⟩ := Lit.wf_monos.1 hwf
    cases fuel with
    | zero => simp only [Lit.size] at hfuel; omega
    | succ f =>
      simp only [Lit.size] at hfuel
      have hloop := ih hwl hne [] rest f (by omega) hr
      obtain ⟨m, ms, rfl⟩ := List.exists_cons_of_ne_nil hne
      obtain ⟨p, neg, ex⟩ := m
      have hpw := (LitMono.wf_cons hwl).1
      simp only [Lit.text, Lit.value]
      rw [ParsePolyFuel]
      rw [LitMono.textList_cons] at hloop ⊢
      rw [IsCoeff_paren]
      have hc0 : ∀ t : List Char, charAt ('(' :: t) 0 = '(' := fun _ => rfl
      have hc1 : ∀ t : List Char, charAt ('(' :: t) 1 = charAt t 0 := fun t => by
        cases t <;> rfl
      have h1 : ∀ t : List Char, (charAt (p.text ++ t) 0 == ',') = false := by
        intro t
        rcases Lit.text_head hpw t with h | h | h
        · rw [h]; decide
        · rw [h]; decide
        · have := (isDigit_props h).2.2.2.2.1
          simpa using this
      simp only [hc0, hc1, h1, bne_self_eq_false, Bool.or_self, Bool.false_eq_true, if_false]
      rw [hloop, List.nil_append]
  · intro _ h; exact absurd rfl h
  · intro p neg ex ms ihp ihms hwf _ monos rest fuel hfuel hr
    obtain ⟨hpw, hne, hall, hle, hneg, hwl⟩ := LitMono.wf_cons hwf
    simp only [LitMono.sizeList] at hfuel
    cases fuel with
    | zero => omega
    | succ f =>
      rw [LitMono.textList_cons]
      have hp := ihp hpw (',' :: ((if neg then ['-'] else []) ++ (ex ++ (')' ::
        ((if ms.isEmpty then [] else '+' :: LitMono.textList ms) ++ rest))))) f (by omega)
        (isTerm_comma _)
      have hd : List.drop 1 ('(' :: (p.text ++ (',' :: ((if neg then ['-'] else []) ++
          (ex ++ (')' :: ((if ms.isEmpty then [] else '+' :: LitMono.textList ms) ++ rest)))))))
          = p.text ++ (',' :: ((if neg then ['-'] else []) ++ (ex ++ (')' ::
            ((if ms.isEmpty then [] else '+' :: LitMono.textList ms) ++ rest))))) := rfl
      rw [← hd] at hp
      rw [ParseMonosFuel_some hp]
      obtain ⟨hst, hie⟩ := IsExp_written hne hall hle (fun h => (hneg h).2)
        ((if ms.isEmpty then [] else '+' :: LitMono.textList ms) ++ rest)
      have hc0 : ∀ t : List Char, charAt (',' :: t) 0 = ',' := fun _ => rfl
      have hc1 : ∀ t : List Char, charAt (')' :: t) 0 = ')' := fun _ => rfl
      simp only [hc0, hc1, bne_self_eq_false, Bool.false_eq_true, if_false,
        List.drop_succ_cons, List.drop_zero, hie, Bool.not_true, hst]
      have hw : wrapInt (digitsVal ex : Int) = (digitsVal ex : Int) := by
        have : (0 : Int) ≤ (digitsVal ex : Int) := Int.natCast_nonneg _
        exact wrapInt_of_range (by omega) (by omega)
      rw [hw]
      cases ms with
      | nil =>
        simp only [List.isEmpty_nil, if_true, List.nil_append]
        have hterm : (charAt rest 0 == Char.ofNat 10 || charAt rest 0 == NUL
            || charAt rest 0 == ',') = true := by
          have hr' := hr
          simp only [isTerm, Bool.or_eq_true, beq_iff_eq] at hr'
          rcases hr' with (h | h) | h <;> rw [h] <;> decide
        simp only [isTerm_plus hr, Bool.false_eq_true, if_false]
        rw [if_pos hterm]
        rfl
      | cons m2 ms2 =>
        simp only [List.isEmpty_cons, Bool.false_eq_true, if_false, List.cons_append]
        have hc2 : ∀ t : List Char, charAt ('+' :: t) 0 = '+' := fun _ => rfl
        simp only [hc2, beq_self_eq_true, if_true, List.drop_succ_cons, List.drop_zero]
        rw [ihms hwl (by simp) _ rest f (by omega) hr]
        simp [LitMono.valueList]

theorem IsCorrectLoopUnbounded_comma_minus (rest : List Char) (o cl k : Nat)
    (hz : charAt rest 0 = '-') (h : cl ≤ o) (hk : k + 1 ≤ o) :
    IsCorrectLoopUnbounded (',' :: rest) o cl k = IsCorrectLoopUnbounded rest o cl (k + 1) := by
  have h' : ¬ o < cl := by omega
  have hk' : ¬ o < k + 1 := by omega
  have hnul : (',' == NUL) = false := by decide
  simp only [IsCorrectLoopUnbounded, hnul, Bool.false_eq_true, if_false]
  simp [hz, h', hk']

theorem IsCorrectLoopUnbounded_written {neg : Bool} {ex : List Char} (hne : ex ≠ [])
    (hall : ∀ c ∈ ex, c.isDigit = true) (rest : List Char) (o cl k : Nat) (h : cl ≤ o)
    (hk : k + 1 ≤ o) :
    IsCorrectLoopUnbounded (',' :: ((if neg then ['-'] else []) ++ (ex ++ rest))) o cl k
      = IsCorrectLoopUnbounded rest o cl (k + 1) := by
  obtain ⟨c, cs, hcs, hc⟩ := digits_head hne hall
  have hd : (charAt (ex ++ rest) 0).isDigit = true := by rw [hcs]; exact hc
  cases neg with
  | false =>
    simp only [Bool.false_eq_true, if_false, List.nil_append]
    rw [IsCorrectLoopUnbounded_comma _ _ _ _ hd h hk, IsCorrectLoopUnbounded_digits _ _ _ _ _ hall h]
  | true =>
    simp only [if_true, List.singleton_append]
    rw [IsCorrectLoopUnbounded_comma_minus ('-' :: (ex ++ rest)) _ _ _ rfl h hk,
      IsCorrectLoopUnbounded_minus _ _ _ _ hd h,
      IsCorrectLoopUnbounded_digits _ _ _ _ _ hall h]

theorem correct_lit :
    (∀ l : Lit, l.wf true = true → ∀ rest o cl k, cl ≤ o → k ≤ o → isTerm rest = true →
      IsCorrectLoopUnbounded (l.text ++ rest) o cl k =
        IsCorrectLoopUnbounded rest (o + l.parens) (cl + l.parens) (k + l.parens)) ∧
    (∀ ms : List LitMono, LitMono.wfList true ms = true → ms ≠ [] →
      ∀ rest o cl k, cl ≤ o → k ≤ o → isTerm rest = true →
      IsCorrectLoopUnbounded (LitMono.textList ms ++ rest) o cl k =
        IsCorrectLoopUnbounded rest (o + LitMono.parensList ms) (cl + LitMono.parensList ms)
          (k + LitMono.parensList ms)) := by
  apply Lit.ind2
  · intro neg ds hwf rest o cl k h hk hr
    obtain ⟨hne, hall, _⟩ := Lit.wf_num hwf
    obtain ⟨c, cs, hcs, hc⟩ := digits_head hne hall
    have hd : (charAt (ds ++ rest) 0).isDigit = true := by rw [hcs]; exact hc
    cases neg with
    | false =>
      simp only [Lit.text, Lit.parens, Bool.false_eq_true, if_false, List.nil_append,
        Nat.add_zero]
      exact IsCorrectLoopUnbounded_digits _ _ _ _ _ hall h
    | true =>
      simp only [Lit.text, Lit.parens, if_true, List.singleton_append, List.cons_append,
        List.nil_append, Nat.add_zero]
      rw [IsCorrectLoopUnbounded_minus _ _ _ _ hd h, IsCorrectLoopUnbounded_digits _ _ _ _ _ hall h]
  · intro ms ih hwf rest o cl k h hk hr
    obtain ⟨hne, hwl⟩ := Lit.wf_monos.1 hwf
    simp only [Lit.text, Lit.parens]
    exact ih hwl hne rest o cl k h hk hr
  · intro _ h; exact absurd rfl h
  · intro p neg ex ms ihp ihms hwf _ rest o cl k h hk hr
    obtain ⟨hpw, hne, hall, hle, hneg, hwl⟩ := LitMono.wf_cons hwf
    rw [LitMono.textList_cons]
    rw [IsCorrectLoopUnbounded_open _ _ _ _ (by
      rcases Lit.text_head hpw (',' :: ((if neg then ['-'] else []) ++ (ex ++ (')' ::
        ((if ms.isEmpty then [] else '+' :: LitMono.textList ms) ++ rest))))) with h | h | h
      · exact Or.inl h
      · exact Or.inr (Or.inl h)
      · exact Or.inr (Or.inr h)) h]
    rw [ihp hpw _ _ _ _ (by omega) (by omega) (isTerm_comma _)]
    rw [IsCorrectLoopUnbounded_written hne hall _ _ _ _ (by omega) (by omega)]
    simp only [LitMono.parensList]
    cases ms with
    | nil =>
      simp only [List.isEmpty_nil, if_true, List.nil_append, LitMono.parensList, Nat.add_zero]
      rw [IsCorrectLoopUnbounded_close _ _ _ _ (Or.inr hr) (by omega)]
      congr 1 <;> omega
    | cons m2 ms2 =>
      simp only [List.isEmpty_cons, Bool.false_eq_true, if_false, List.cons_append]
      have hplus : charAt ('+' :: (LitMono.textList (m2 :: ms2) ++ rest)) 0 = '+' := rfl
      rw [IsCorrectLoopUnbounded_close _ _ _ _ (Or.inl hplus) (by omega)]
      have hopen : charAt (LitMono.textList (m2 :: ms2) ++ rest) 0 = '(' := by
        obtain ⟨p2, n2, e2⟩ := m2
        rw [LitMono.textList_cons]; rfl
      rw [IsCorrectLoopUnbounded_plus _ _ _ _ hopen (by omega)]
      rw [ihms hwl (by simp) rest _ _ _ (by omega) (by omega) hr]
      congr 1 <;> omega

theorem Lit.size_le_text :
    (∀ l : Lit, l.wf true = true → l.size ≤ 2 * l.text.length + 1) ∧
    (∀ ms : List LitMono, LitMono.wfList true ms = true →
      LitMono.sizeList ms ≤ 2 * (LitMono.textList ms).length) := by
  apply Lit.ind2
  · intro neg ds _; simp only [Lit.size]; omega
  · intro ms ih hwf
    obtain ⟨_, hwl⟩ := Lit.wf_monos.1 hwf
    have := ih hwl
    simp only [Lit.size, Lit.text]
    omega
  · intro _; simp [LitMono.sizeList]
  · intro p neg ex ms ihp ihms hwf
    obtain ⟨hpw, hne, hall, hle, hneg, hwl⟩ := LitMono.wf_cons hwf
    have h1 := ihp hpw
    have h2 := ihms hwl
    have h3 := LitMono.textList_cons p neg ex ms []
    simp only [List.append_nil] at h3
    rw [h3]
    simp only [LitMono.sizeList, List.length_cons, List.length_append]
    have : (if ms.isEmpty then [] else '+' :: LitMono.textList ms).length
        ≥ (LitMono.textList ms).length := by
      cases ms <;> simp [LitMono.textList]
    omega

/-! ## Lines that are tried as a polynomial -/

theorem beq_cons_ne (c k : Char) (rest ks : List Char) (h : c ≠ k) :
    ((c :: rest) == (k :: ks)) = false := by
  rw [beq_eq_false_iff_ne]
  intro he
  exact h (List.cons.inj he).1

theorem ne_of_not_alpha {c k : Char} (hc : c.isAlpha = false) (hk : k.isAlpha = true) :
    c ≠ k := by
  intro h; rw [h, hk] at hc; cases hc

theorem isKeyword_literal (c : Char) (rest : List Char) (h0 : ∀ x ∈ c :: rest, x ≠ NUL)
    (hc : c.isAlpha = false) (kw : String)
    (hk : kw ∈ ["ZERO", "IS_COEFF", "IS_ZERO", "CLONE", "ADD", "MUL", "NEG", "SUB", "IS_EQ",
      "DEG", "PRINT", "POP"]) :
    isKeyword (c :: rest) kw = false := by
  unfold isKeyword strcmpEq
  rw [cstr_eq_self _ h0]
  simp only [List.mem_cons, List.mem_singleton, List.not_mem_nil, or_false] at hk
  rcases hk with rfl | rfl | rfl | rfl | rfl | rfl | rfl | rfl | rfl | rfl | rfl | rfl <;>
    exact Bool.or_eq_false_iff.2
      ⟨beq_cons_ne _ _ _ _ (ne_of_not_alpha hc (by decide)),
       beq_cons_ne _ _ _ _ (ne_of_not_alpha hc (by decide))⟩

theorem LineInterpreter_literal (c : Char) (rest : List Char) (h0 : ∀ x ∈ c :: rest, x ≠ NUL)
    (h1 : c ≠ '#') (h2 : c ≠ Char.ofNat 10) (hc : c.isAlpha = false) (n : Nat)
    (s : List Poly) :
    LineInterpreter (c :: rest) n s = some (InterpretPoly (c :: rest) n s) := by
  have hA : (charAt (c :: rest) 0 == '#' || charAt (c :: rest) 0 == Char.ofNat 10) = false := by
    have : charAt (c :: rest) 0 = c := rfl
    rw [this]
    simp [h1, h2]
  have hB : ((cstr (c :: rest)).length != (c :: rest).length) = false := by
    rw [cstr_eq_self _ h0]; simp
  have hD : strncmpEq (c :: rest) "DEG_BY".toList 6 = false := by
    unfold strncmpEq; rw [cstr_eq_self _ h0]
    exact beq_cons_ne _ _ _ _ (ne_of_not_alpha hc (by decide))
  have hT : strncmpEq (c :: rest) "AT".toList 2 = false := by
    unfold strncmpEq; rw [cstr_eq_self _ h0]
    exact beq_cons_ne _ _ _ _ (ne_of_not_alpha hc (by decide))
  have hC : strncmpEq (c :: rest) "COMPOSE".toList 7 = false := by
    unfold strncmpEq; rw [cstr_eq_self _ h0]
    exact beq_cons_ne _ _ _ _ (ne_of_not_alpha hc (by decide))
  have hα : (charAt (c :: rest) 0).isAlpha = false := hc
  unfold LineInterpreter
  simp only [hA, hB, hD, hT, hC, hα, isKeyword_literal c rest h0 hc "ZERO" (by decide),
    isKeyword_literal c rest h0 hc "IS_COEFF" (by decide),
    isKeyword_literal c rest h0 hc "IS_ZERO" (by decide),
    isKeyword_literal c rest h0 hc "CLONE" (by decide),
    isKeyword_literal c rest h0 hc "ADD" (by decide),
    isKeyword_literal c rest h0 hc "MUL" (by decide),
    isKeyword_literal c rest h0 hc "NEG" (by decide),
    isKeyword_literal c rest h0 hc "SUB" (by decide),
    isKeyword_literal c rest h0 hc "IS_EQ" (by decide),
    isKeyword_literal c rest h0 hc "DEG" (by decide),
    isKeyword_literal c rest h0 hc "PRINT" (by decide),
    isKeyword_literal c rest h0 hc "POP" (by decide), Bool.false_eq_true, if_false]

theorem LineInterpreter_nul (line : List Char) (n : Nat) (s : List Poly)
    (h1 : charAt line 0 ≠ '#') (h2 : charAt line 0 ≠ Char.ofNat 10)
    (hc : (charAt line 0).isAlpha = false) (hn : (cstr line).length ≠ line.length) :
    LineInterpreter line n s = some (reportError s n "WRONG POLY") := by
  have hA : (charAt line 0 == '#' || charAt line 0 == Char.ofNat 10) = false := by
    simp [h1, h2]
  have hB : ((cstr line).length != line.length) = true := by simpa using hn
  unfold LineInterpreter
  simp only [hA, hB, hc, Bool.false_eq_true, if_false, if_true]

/-- The characters a word of the grammar is written with. -/
theorem Lit.text_chars :
    (∀ l : Lit, l.wf true = true → ∀ c ∈ l.text,
      c.isDigit = true ∨ c = '-' ∨ c = '(' ∨ c = ',' ∨ c = ')' ∨ c = '+') ∧
    (∀ ms : List LitMono, LitMono.wfList true ms = true → ∀ c ∈ LitMono.textList ms,
      c.isDigit = true ∨ c = '-' ∨ c = '(' ∨ c = ',' ∨ c = ')' ∨ c = '+') := by
  apply Lit.ind2
  · intro neg ds hwf c hc
    obtain ⟨_, hall, _⟩ := Lit.wf_num hwf
    simp only [Lit.text, List.mem_append] at hc
    rcases hc with hc | hc
    · cases neg
      · simp at hc
      · simp only [if_true, List.mem_singleton] at hc
        exact Or.inr (Or.inl hc)
    · exact Or.inl (hall c hc)
  · intro ms ih hwf c hc
    exact ih (Lit.wf_monos.1 hwf).2 c hc
  · intro _ c hc; simp [LitMono.textList] at hc
  · intro p neg ex ms ihp ihms hwf c hc
    obtain ⟨hpw, hne, hall, hle, hneg, hwl⟩ := LitMono.wf_cons hwf
    have h3 := LitMono.textList_cons p neg ex ms []
    simp only [List.append_nil] at h3
    rw [h3] at hc
    simp only [List.mem_cons, List.mem_append] at hc
    rcases hc with hc | hc | hc | hc | hc | hc | hc
    · exact Or.inr (Or.inr (Or.inl hc))
    · exact ihp hpw c hc
    · exact Or.inr (Or.inr (Or.inr (Or.inl hc)))
    · cases neg
      · simp at hc
      · simp only [if_true, List.mem_singleton] at hc
        exact Or.inr (Or.inl hc)
    · exact Or.inl (hall c hc)
    · exact Or.inr (Or.inr (Or.inr (Or.inr (Or.inl hc))))
    · cases ms with
      | nil => simp at hc
      | cons m2 ms2 =>
        simp only [List.isEmpty_cons, Bool.false_eq_true, if_false, List.mem_cons] at hc
        rcases hc with hc | hc
        · exact Or.inr (Or.inr (Or.inr (Or.inr (Or.inr hc))))
        · exact ihms hwl c hc

theorem literal_char_props {c : Char}
    (h : c.isDigit = true ∨ c = '-' ∨ c = '(' ∨ c = ',' ∨ c = ')' ∨ c = '+') :
    c ≠ NUL ∧ c ≠ Char.ofNat 10 ∧ c ≠ '#' ∧ c.isAlpha = false := by
  rcases h with h | h | h | h | h | h
  · have hp := isDigit_props h
    refine ⟨hp.2.2.2.2.2.1, hp.2.2.2.2.2.2.2, ?_, ?_⟩
    · intro he; rw [he] at h; revert h; decide
    · simp only [Char.isDigit, Bool.and_eq_true, decide_eq_true_eq] at h
      have a1 : 48 ≤ c.toNat := by
        have := h.1; rw [ge_iff_le, UInt32.le_def] at this; exact this
      have a2 : c.toNat ≤ 57 := by
        have := h.2; rw [UInt32.le_def] at this; exact this
      have b1 : ¬ (65 ≤ c.toNat) := by omega
      have b2 : ¬ (97 ≤ c.toNat) := by omega
      simp only [Char.isAlpha, Char.isUpper, Char.isLower, Bool.or_eq_false_iff,
        Bool.and_eq_false_iff, decide_eq_false_iff_not, ge_iff_le]
      constructor
      · left; intro hh; rw [UInt32.le_def] at hh; exact b1 hh
      · left; intro hh; rw [UInt32.le_def] at hh; exact b2 hh
  all_goals (rw [h]; decide)

theorem Lit.wf_mono :
    (∀ l : Lit, l.wf false = true → l.wf true = true) ∧
    (∀ ms : List LitMono, LitMono.wfList false ms = true → LitMono.wfList true ms = true) := by
  apply Lit.ind2
  · intro neg ds h
    simpa [Lit.wf] using h
  · intro ms ih h
    obtain ⟨hne, hwl⟩ := Lit.wf_monos.1 h
    exact Lit.wf_monos.2 ⟨hne, ih hwl⟩
  · intro _; rfl
  · intro p neg ex ms ihp ihms h
    simp only [LitMono.wfList, Bool.and_eq_true, Bool.or_eq_true, Bool.not_eq_true',
      Bool.false_and, Bool.false_eq_true, or_false, Bool.true_and] at h ⊢
    exact ⟨⟨⟨⟨ihp h.1.1.1.1, h.1.1.1.2⟩, h.1.1.2⟩, Or.inl h.1.2⟩, ihms h.2⟩

theorem IsCorrectLoopUnbounded_end (rest : List Char) (hr : rest = [] ∨ rest = [Char.ofNat 10])
    (o k : Nat) : IsCorrectLoopUnbounded rest o o k = true := by
  rcases hr with rfl | rfl
  · simp [IsCorrectLoopUnbounded]
  · rw [IsCorrectLoopUnbounded_newline _ _ _ _ (le_refl _)]
    simp [IsCorrectLoopUnbounded]

theorem isTerm_end (rest : List Char) (hr : rest = [] ∨ rest = [Char.ofNat 10]) :
    isTerm rest = true := by
  rcases hr with rfl | rfl <;> rfl

theorem Lit.count_open :
    (∀ l : Lit, l.wf true = true → l.text.count '(' = l.parens) ∧
    (∀ ms : List LitMono, LitMono.wfList true ms = true →
      (LitMono.textList ms).count '(' = LitMono.parensList ms) := by
  have hd : ∀ (neg : Bool) (ds : List Char), (∀ c ∈ ds, c.isDigit = true) →
      ((if neg then ['-'] else []) ++ ds).count '(' = 0 := by
    intro neg ds hall
    rw [List.count_append, count_open_digits ds hall]
    cases neg <;> rfl
  apply Lit.ind2
  · intro neg ds hwf
    obtain ⟨_, hall, _⟩ := Lit.wf_num hwf
    simp only [Lit.text, Lit.parens]
    exact hd neg ds hall
  · intro ms ih hwf
    simp only [Lit.text, Lit.parens]
    exact ih (Lit.wf_monos.1 hwf).2
  · intro _; rfl
  · intro p neg ex ms ihp ihms hwf
    obtain ⟨hpw, hne, hall, hle, hneg, hwl⟩ := LitMono.wf_cons hwf
    have h3 := LitMono.textList_cons p neg ex ms []
    simp only [List.append_nil] at h3
    rw [h3]
    have hc : ∀ (x : Char) (l : List Char), x :: l = [x] ++ l := fun _ _ => rfl
    have e1 : List.count '(' [')'] = 0 := by decide
    have e2 : List.count '(' [','] = 0 := by decide
    have e3 : List.count '(' ['('] = 1 := by decide
    have e4 : List.count '(' ['+'] = 0 := by decide
    rw [hc '(', hc ',', hc ')', ← List.append_assoc (if neg then ['-'] else []) ex]
    simp only [List.count_append, e1, e2, e3, ihp hpw, hd neg ex hall, LitMono.parensList]
    cases ms with
    | nil => simp [LitMono.parensList]
    | cons m2 ms2 =>
      simp only [List.isEmpty_cons, Bool.false_eq_true, if_false]
      rw [hc '+', List.count_append, e4, ihms hwl]
      omega

theorem Lit.text_no_nul {l : Lit} (hwf : l.wf true = true) (rest : List Char)
    (hr : rest = [] ∨ rest = [Char.ofNat 10]) : ∀ x ∈ l.text ++ rest, x ≠ NUL := by
  intro x hx
  rcases List.mem_append.1 hx with hx | hx
  · exact (literal_char_props (Lit.text_chars.1 l hwf x hx)).1
  · rcases hr with rfl | rfl
    · cases hx
    · rw [List.mem_singleton] at hx; rw [hx]; decide

/-- A word of the grammar, alone or followed by the end of line, passes `IsCorrect` exactly
when it has at most `2^31 - 1` pairs of parentheses. -/
theorem IsCorrect_lit (l : Lit) (hwf : l.wf true = true) (rest : List Char)
    (hr : rest = [] ∨ rest = [Char.ofNat 10]) :
    IsCorrect (l.text ++ rest) = decide (l.parens ≤ 2147483647) := by
  have hu : IsCorrectLoopUnbounded (l.text ++ rest) 0 0 0 = true := by
    rw [correct_lit.1 l hwf rest 0 0 0 (le_refl _) (le_refl _) (isTerm_end rest hr)]
    exact IsCorrectLoopUnbounded_end rest hr _ _
  have hcount : (l.text ++ rest).count '(' = l.parens := by
    rw [List.count_append, Lit.count_open.1 l hwf]
    rcases hr with h | h <;> rw [h] <;> rfl
  have := IsCorrectLoop_of_unbounded _ 0 0 0 (Lit.text_no_nul hwf rest hr) (le_refl _)
    (le_refl _) (by omega) hu
  rw [hcount, Nat.zero_add] at this
  exact this

theorem lit_line (l : Lit) (hwf : l.wf true = true) (rest : List Char)
    (hr : rest = [] ∨ rest = [Char.ofNat 10]) (n : Nat) (s : List Poly) :
    IsCorrect (l.text ++ rest) = decide (l.parens ≤ 2147483647) ∧
    ParsePoly (l.text ++ rest) = some (l.value, rest) ∧
    LineInterpreter (l.text ++ rest) n s = some (if l.parens ≤ 2147483647
      then ⟨l.value :: s, [], []⟩ else reportError s n "WRONG POLY") := by
  have ht := isTerm_end rest hr
  have h1 := IsCorrect_lit l hwf rest hr
  have h2 : ParsePoly (l.text ++ rest) = some (l.value, rest) := by
    unfold ParsePoly
    apply parse_lit.1 l hwf rest _ _ ht
    have := Lit.size_le_text.1 l hwf
    rw [List.length_append]
    omega
  refine ⟨h1, h2, ?_⟩
  have hchars := Lit.text_no_nul hwf rest hr
  have hhead := Lit.text_head hwf rest
  cases hline : l.text ++ rest with
  | nil =>
    rw [hline] at hhead
    exfalso
    rcases hhead with h | h | h <;> revert h <;> decide
  | cons c r =>
    rw [hline] at hhead hchars h1 h2
    have hc : charAt (c :: r) 0 = c := rfl
    rw [hc] at hhead
    have hp := literal_char_props (c := c) (by
      rcases hhead with h | h | h
      · exact Or.inr (Or.inr (Or.inl h))
      · exact Or.inr (Or.inl h)
      · exact Or.inl h)
    rw [LineInterpreter_literal c r hchars hp.2.2.1 hp.2.1 hp.2.2.2]
    by_cases hsz : l.parens ≤ 2147483647
    · rw [decide_eq_true hsz] at h1
      simp only [InterpretPoly, h1, h2, Bool.not_true, Bool.false_eq_true, if_false,
        if_pos hsz]
    · rw [decide_eq_false hsz] at h1
      simp only [InterpretPoly, h1, Bool.not_false, if_true, if_neg hsz]

/-- C15, as the code has it: parser completeness. Every word of the grammar of literals (a
coefficient in the signed 64-bit range, or any number of monomials joined by `+`, nested to
any depth, with exponents in `0..2^31-1`) that has fewer than `2^31` pairs of parentheses,
alone or followed by the final newline, passes `IsCorrect`, is parsed by `ParsePoly` up to
the end of the word into the polynomial the word denotes, and on every stack
`LineInterpreter` pushes that polynomial and reports nothing. -/
theorem parser_complete (l : Lit) (hwf : l.wf false = true) (hsz : l.parens < 2147483648)
    (line : List Char)
    (hl : line = l.text ∨ line = l.text ++ [Char.ofNat 10]) (n : Nat) (s : List Poly) :
    IsCorrect line = true ∧
    (∃ rest, ParsePoly line = some (l.value, rest) ∧ line = l.text ++ rest) ∧
    LineInterpreter line n s = some ⟨l.value :: s, [], []⟩ := by
  have hle : l.parens ≤ 2147483647 := by omega
  have hr : ∀ rest, line = l.text ++ rest → (rest = [] ∨ rest = [Char.ofNat 10]) →
      IsCorrect line = true ∧
      (∃ rest, ParsePoly line = some (l.value, rest) ∧ line = l.text ++ rest) ∧
      LineInterpreter line n s = some ⟨l.value :: s, [], []⟩ := by
    intro rest hline hrest
    obtain ⟨h1, h2, h3⟩ := lit_line l (Lit.wf_mono.1 l hwf) rest hrest n s
    rw [hline]
    rw [if_pos hle] at h3
    rw [decide_eq_true hle] at h1
    exact ⟨h1, ⟨rest, h2, rfl⟩, h3⟩
  rcases hl with h | h
  · exact hr [] (by rw [h, List.append_nil]) (Or.inl rfl)
  · exact hr [Char.ofNat 10] h (Or.inr rfl)

theorem parser_complete_witness :
    IsCorrect ("((1,0)+(-2,3),007)+(5,9)".toList ++ [Char.ofNat 10]) = true ∧
    (∃ rest, ParsePoly ("((1,0)+(-2,3),007)+(5,9)".toList ++ [Char.ofNat 10])
        = some ((Lit.monos [.mk (.monos [.mk (.num false ['1']) false ['0'],
            .mk (.num true ['2']) false ['3']]) false ['0', '0', '7'],
          .mk (.num false ['5']) false ['9']]).value, rest) ∧
      "((1,0)+(-2,3),007)+(5,9)".toList ++ [Char.ofNat 10]
        = (Lit.monos [.mk (.monos [.mk (.num false ['1']) false ['0'],
            .mk (.num true ['2']) false ['3']]) false ['0', '0', '7'],
          .mk (.num false ['5']) false ['9']]).text ++ rest) ∧
    LineInterpreter ("((1,0)+(-2,3),007)+(5,9)".toList ++ [Char.ofNat 10]) 1 []
      = some ⟨[(Lit.monos [.mk (.monos [.mk (.num false ['1']) false ['0'],
            .mk (.num true ['2']) false ['3']]) false ['0', '0', '7'],
          .mk (.num false ['5']) false ['9']]).value], [], []⟩ :=
  parser_complete (.monos [.mk (.monos [.mk (.num false ['1']) false ['0'],
      .mk (.num true ['2']) false ['3']]) false ['0', '0', '7'],
    .mk (.num false ['5']) false ['9']]) (by decide) (by decide) _ (Or.inr rfl) 1 []

/-! ## Words with `2^31` parentheses -/

theorem IsCorrectLoop_flat_block (r : List Char) (o c k : Int) (h0 : 0 ≤ c) (hc : c ≤ o)
    (hk0 : 0 ≤ k) (hk : k ≤ o) (ho : o < 2147483647)
    (hz : charAt r 0 = '+' ∨ isTerm r = true) :
    IsCorrectLoop ('(' :: '1' :: ',' :: '0' :: ')' :: r) o c k
      = IsCorrectLoop r (o + 1) (c + 1) (k + 1) := by
  have hwo : wrapInt (o + 1) = o + 1 := wrapInt_of_range (by omega) (by omega)
  have hwc : wrapInt (c + 1) = c + 1 := wrapInt_of_range (by omega) (by omega)
  have hwk : wrapInt (k + 1) = k + 1 := wrapInt_of_range (by omega) (by omega)
  have hb : (charAt r 0 == '+' || charAt r 0 == Char.ofNat 10 || charAt r 0 == NUL
      || charAt r 0 == ')' || charAt r 0 == ',') = true := by
    rcases hz with h | h
    · simp [h]
    · simp only [isTerm, Bool.or_eq_true, beq_iff_eq] at h
      rcases h with (h | h) | h <;> simp [h]
  have hp : (charAt r 0 == '(') = false := by
    rcases hz with h | h
    · rw [h]; decide
    · simp only [isTerm, Bool.or_eq_true, beq_iff_eq] at h
      rcases h with (h | h) | h <;> rw [h] <;> decide
  have g1 : ¬ (o + 1 < c) := by omega
  have g2 : ¬ (o + 1 < k + 1) := by omega
  have g3 : ¬ (o + 1 < c + 1) := by omega
  have s1 : ∀ t, IsCorrectLoop ('(' :: '1' :: t) o c k = IsCorrectLoop ('1' :: t) (o + 1) c k := by
    intro t
    have e : charAt ('1' :: t) 0 = '1' := rfl
    rw [IsCorrectLoop]
    simp [NUL, e, hwo, g1]
  have s2 : ∀ t, IsCorrectLoop ('1' :: t) (o + 1) c k = IsCorrectLoop t (o + 1) c k := by
    intro t
    rw [IsCorrectLoop]
    simp [NUL, g1]
  have s3 : ∀ t, IsCorrectLoop (',' :: '0' :: t) (o + 1) c k
      = IsCorrectLoop ('0' :: t) (o + 1) c (k + 1) := by
    intro t
    have e : charAt ('0' :: t) 0 = '0' := rfl
    rw [IsCorrectLoop]
    simp [NUL, e, hwk, g1, g2]
  have s4 : ∀ t, IsCorrectLoop ('0' :: t) (o + 1) c (k + 1)
      = IsCorrectLoop t (o + 1) c (k + 1) := by
    intro t
    rw [IsCorrectLoop]
    simp [NUL, g1]
  have s5 : IsCorrectLoop (')' :: r) (o + 1) c (k + 1)
      = IsCorrectLoop r (o + 1) (c + 1) (k + 1) := by
    have hnul : (')' == NUL) = false := by decide
    simp only [IsCorrectLoop, hnul, Bool.false_eq_true, if_false]
    simp [hb, hp, hwc, g3]
  rw [s1, s2, s3, s4, s5]

theorem charAt_head {w : List Char} {c : Char} (h : charAt w 0 = c) (hc : c ≠ NUL) :
    ∃ r, w = c :: r := by
  cases w with
  | nil => exact absurd h.symm hc
  | cons x r =>
    have : charAt (x :: r) 0 = x := rfl
    rw [this] at h
    exact ⟨r, by rw [h]⟩

theorem IsCorrectLoop_plus_step (t : List Char) (o c k : Int) (hz : charAt t 0 = '(')
    (h : c ≤ o) : IsCorrectLoop ('+' :: t) o c k = IsCorrectLoop t o c k := by
  have h' : ¬ o < c := by omega
  have hnul : ('+' == NUL) = false := by decide
  simp only [IsCorrectLoop, hnul, Bool.false_eq_true, if_false]
  simp [hz, h']

theorem flat_textList_succ (n : Nat) (rest : List Char) :
    LitMono.textList (List.replicate (n + 1) (.mk (.num false ['1']) false ['0'])) ++ rest
      = '(' :: '1' :: ',' :: '0' :: ')' :: (if n = 0 then rest else
          '+' :: (LitMono.textList (List.replicate n (.mk (.num false ['1']) false ['0']))
            ++ rest)) := by
  rw [List.replicate_succ, LitMono.textList_cons]
  cases n with
  | zero => rfl
  | succ m =>
    simp only [List.replicate_succ, List.isEmpty_cons, Bool.false_eq_true, if_false,
      Nat.succ_ne_zero, Lit.text, List.nil_append, List.cons_append, List.singleton_append]

theorem IsCorrectLoop_flat : ∀ (n : Nat) (rest : List Char) (o c k : Int), 0 ≤ c → c ≤ o →
    0 ≤ k → k ≤ o → o + ((n + 1 : Nat) : Int) ≤ 2147483647 → isTerm rest = true →
    IsCorrectLoop
        (LitMono.textList (List.replicate (n + 1) (.mk (.num false ['1']) false ['0'])) ++ rest)
        o c k
      = IsCorrectLoop rest (o + ((n + 1 : Nat) : Int)) (c + ((n + 1 : Nat) : Int))
          (k + ((n + 1 : Nat) : Int)) := by
  intro n
  induction n with
  | zero =>
    intro rest o c k h0 hc hk0 hk ho hr
    rw [flat_textList_succ, if_pos rfl,
      IsCorrectLoop_flat_block rest o c k h0 hc hk0 hk (by omega) (Or.inr hr)]
    simp
  | succ n ih =>
    intro rest o c k h0 hc hk0 hk ho hr
    push_cast at ho
    rw [flat_textList_succ, if_neg (Nat.succ_ne_zero n),
      IsCorrectLoop_flat_block ('+' :: _) o c k h0 hc hk0 hk (by omega) (Or.inl rfl),
      IsCorrectLoop_plus_step _ _ _ _ (by rw [flat_textList_succ]; rfl) (by omega),
      ih rest (o + 1) (c + 1) (k + 1) (by omega) (by omega) (by omega) (by omega)
        (by push_cast; omega) hr]
    congr 1 <;> (push_cast; omega)

theorem wrapInt_bounds (x : Int) : -2147483648 ≤ wrapInt x ∧ wrapInt x ≤ 2147483647 := by
  unfold wrapInt
  omega

theorem wrapInt_wrapInt_add (x y : Int) : wrapInt (wrapInt x + y) = wrapInt (x + y) := by
  unfold wrapInt
  omega

theorem IsCorrectLoop_closes : ∀ (n : Nat) (c k : Int), -2147483648 ≤ c → c ≤ 2147483647 →
    IsCorrectLoop (List.replicate n ')') 2147483647 c k
      = decide (wrapInt (c + (n : Int)) = 2147483647) := by
  intro n
  induction n with
  | zero =>
    intro c k h1 h2
    have : wrapInt (c + ((0 : Nat) : Int)) = c := by
      rw [Nat.cast_zero, Int.add_zero]
      exact wrapInt_of_range (by omega) (by omega)
    rw [this]
    simp only [List.replicate_zero, IsCorrectLoop]
    by_cases hc : c = 2147483647
    · subst hc; rfl
    · have : ¬ ((2147483647 : Int) = c) := fun h => hc h.symm
      simp [hc, this]
  | succ n ih =>
    intro c k h1 h2
    have hb : (charAt (List.replicate n ')') 0 == '+'
        || charAt (List.replicate n ')') 0 == Char.ofNat 10
        || charAt (List.replicate n ')') 0 == NUL
        || charAt (List.replicate n ')') 0 == ')'
        || charAt (List.replicate n ')') 0 == ',') = true := by
      cases n <;> rfl
    have hp : (charAt (List.replicate n ')') 0 == '(') = false := by
      cases n <;> rfl
    have hw := wrapInt_bounds (c + 1)
    have g : ¬ ((2147483647 : Int) < wrapInt (c + 1)) := by omega
    have hnul : (')' == NUL) = false := by decide
    have hstep : IsCorrectLoop (List.replicate (n + 1) ')') 2147483647 c k
        = IsCorrectLoop (List.replicate n ')') 2147483647 (wrapInt (c + 1)) k := by
      rw [List.replicate_succ]
      simp only [IsCorrectLoop, hnul, Bool.false_eq_true, if_false]
      simp [hb, hp, g]
    rw [hstep, ih _ k hw.1 hw.2, wrapInt_wrapInt_add]
    have : c + 1 + (n : Int) = c + ((n + 1 : Nat) : Int) := by push_cast; omega
    rw [this]

theorem IsCorrectLoop_comma_wraps (r : List Char) :
    IsCorrectLoop (',' :: '1' :: r) 2147483647 2147483647 2147483647
      = IsCorrectLoop r 2147483647 2147483647 (-2147483648) := by
  have hw : wrapInt 2147483648 = -2147483648 := by decide
  have e : charAt ('1' :: r) 0 = '1' := rfl
  have s1 : IsCorrectLoop (',' :: '1' :: r) 2147483647 2147483647 2147483647
      = IsCorrectLoop ('1' :: r) 2147483647 2147483647 (-2147483648) := by
    rw [IsCorrectLoop]
    simp [NUL, e, hw]
  have s2 : IsCorrectLoop ('1' :: r) 2147483647 2147483647 (-2147483648)
      = IsCorrectLoop r 2147483647 2147483647 (-2147483648) := by
    rw [IsCorrectLoop]
    simp [NUL]
  rw [s1, s2]

theorem flat_wfList (n : Nat) :
    LitMono.wfList false (List.replicate n (.mk (.num false ['1']) false ['0'])) = true := by
  induction n with
  | zero => rfl
  | succ n ih =>
    rw [List.replicate_succ]
    simp only [LitMono.wfList]
    rw [ih]
    decide

theorem flatWord_wf (n : Nat) (h : 0 < n) : (flatWord n).wf false = true := by
  unfold flatWord
  refine Lit.wf_monos.2 ⟨?_, flat_wfList n⟩
  intro he
  have := congrArg List.length he
  rw [List.length_replicate] at this
  simp only [List.length_nil] at this
  omega

theorem flatWord_parens (n : Nat) : (flatWord n).parens = n := by
  unfold flatWord
  simp only [Lit.parens]
  induction n with
  | zero => rfl
  | succ n ih =>
    rw [List.replicate_succ]
    simp only [LitMono.parensList, Lit.parens, ih]
    omega

/-- The counters of `IsCorrect` after the word `(1,0)+...+(1,0)` of `n` monomials, while
`n` is at most `2^31 - 1`. -/
theorem IsCorrectLoop_flatWord (n : Nat) (hn : 0 < n) (hM : n ≤ 2147483647)
    (rest : List Char) (hr : isTerm rest = true) :
    IsCorrectLoop ((flatWord n).text ++ rest) 0 0 0 = IsCorrectLoop rest n n n := by
  obtain ⟨m, rfl⟩ : ∃ m, n = m + 1 := ⟨n - 1, by omega⟩
  unfold flatWord
  simp only [Lit.text]
  rw [IsCorrectLoop_flat m rest 0 0 0 (le_refl _) (le_refl _) (le_refl _) (le_refl _)
    (by omega) hr]
  simp only [Int.zero_add]

theorem lit_rest_line (l : Lit) (hwf : l.wf true = true) (rest : List Char)
    (ht : isTerm rest = true) (h0 : ∀ x ∈ rest, x ≠ NUL) (n : Nat) (s : List Poly) :
    ParsePoly (l.text ++ rest) = some (l.value, rest) ∧
    LineInterpreter (l.text ++ rest) n s = some (InterpretPoly (l.text ++ rest) n s) := by
  have h2 : ParsePoly (l.text ++ rest) = some (l.value, rest) := by
    unfold ParsePoly
    apply parse_lit.1 l hwf rest _ _ ht
    have := Lit.size_le_text.1 l hwf
    rw [List.length_append]
    omega
  refine ⟨h2, ?_⟩
  have hchars : ∀ x ∈ l.text ++ rest, x ≠ NUL := by
    intro x hx
    rcases List.mem_append.1 hx with hx | hx
    · exact (literal_char_props (Lit.text_chars.1 l hwf x hx)).1
    · exact h0 x hx
  have hhead := Lit.text_head hwf rest
  cases hline : l.text ++ rest with
  | nil =>
    rw [hline] at hhead
    exfalso
    rcases hhead with h | h | h <;> revert h <;> decide
  | cons c r =>
    rw [hline] at hhead hchars
    have hc : charAt (c :: r) 0 = c := rfl
    rw [hc] at hhead
    have hp := literal_char_props (c := c) (by
      rcases hhead with h | h | h
      · exact Or.inr (Or.inr (Or.inl h))
      · exact Or.inr (Or.inl h)
      · exact Or.inl h)
    exact LineInterpreter_literal c r hchars hp.2.2.1 hp.2.1 hp.2.2.2 n s

theorem InterpretPoly_pushes {line : List Char} {q : Poly} {rest : List Char}
    (hc : IsCorrect line = true) (hp : ParsePoly line = some (q, rest)) (n : Nat)
    (s : List Poly) : InterpretPoly line n s = ⟨q :: s, [], []⟩ := by
  simp only [InterpretPoly, hc, hp, Bool.not_true, Bool.false_eq_true, if_false]

/-- The word of `2^31 - 1` monomials `(1,0)` followed by `,1`: the counter `coma` wraps at
the last comma, so `IsCorrect` accepts the line, `ParsePoly` reads the word and stops at
the comma, and the interpreter pushes the polynomial. -/
theorem flat_comma_line (n : Nat) (s : List Poly) :
    IsCorrect ((flatWord 2147483647).text ++ [',', '1']) = true ∧
    ParsePoly ((flatWord 2147483647).text ++ [',', '1'])
      = some ((flatWord 2147483647).value, [',', '1']) ∧
    LineInterpreter ((flatWord 2147483647).text ++ [',', '1']) n s
      = some ⟨(flatWord 2147483647).value :: s, [], []⟩ := by
  have hwf := Lit.wf_mono.1 _ (flatWord_wf 2147483647 (by decide))
  have hc : IsCorrect ((flatWord 2147483647).text ++ [',', '1']) = true := by
    unfold IsCorrect
    rw [IsCorrectLoop_flatWord 2147483647 (by decide) (by decide) [',', '1'] rfl]
    simp only [Nat.cast_ofNat]
    decide
  obtain ⟨hp, hl⟩ := lit_rest_line _ hwf [',', '1'] rfl (by decide) n s
  exact ⟨hc, hp, by rw [hl, InterpretPoly_pushes hc hp]⟩

/-- The word of `2^31 - 1` monomials `(1,0)` followed by `,1` and `2^32` closing
parentheses: `coma` wraps at the comma and `close` wraps around to the value of `open`, so
`IsCorrect` accepts the line. -/
theorem flat_closes_line (n : Nat) (s : List Poly) :
    IsCorrect ((flatWord 2147483647).text ++ (',' :: '1' :: List.replicate 4294967296 ')'))
      = true ∧
    LineInterpreter
        ((flatWord 2147483647).text ++ (',' :: '1' :: List.replicate 4294967296 ')')) n s
      = some ⟨(flatWord 2147483647).value :: s, [], []⟩ := by
  have hwf := Lit.wf_mono.1 _ (flatWord_wf 2147483647 (by decide))
  have hc : IsCorrect
      ((flatWord 2147483647).text ++ (',' :: '1' :: List.replicate 4294967296 ')'))
      = true := by
    unfold IsCorrect
    rw [IsCorrectLoop_flatWord 2147483647 (by decide) (by decide)
      (',' :: '1' :: List.replicate 4294967296 ')') rfl]
    simp only [Nat.cast_ofNat]
    rw [IsCorrectLoop_comma_wraps, IsCorrectLoop_closes _ _ _ (by decide) (by decide)]
    simp only [Nat.cast_ofNat]
    decide
  have h0 : ∀ x ∈ (',' :: '1' :: List.replicate 4294967296 ')'), x ≠ NUL := by
    intro x hx
    rcases List.mem_cons.1 hx with h | hx
    · rw [h]; decide
    rcases List.mem_cons.1 hx with h | hx
    · rw [h]; decide
    · rw [List.eq_of_mem_replicate hx]; decide
  obtain ⟨hp, hl⟩ := lit_rest_line _ hwf (',' :: '1' :: List.replicate 4294967296 ')') rfl
    h0 n s
  exact ⟨hc, by rw [hl, InterpretPoly_pushes hc hp]⟩

theorem flat_closes_unbalanced :
    Unbalanced ((flatWord 2147483647).text ++ (',' :: '1' :: List.replicate 4294967296 ')'))
    ∧ (∀ x ∈ (flatWord 2147483647).text ++ (',' :: '1' :: List.replicate 4294967296 ')'),
        x ≠ NUL)
    ∧ ((flatWord 2147483647).text ++ (',' :: '1' :: List.replicate 4294967296 ')')).count '('
        = 2147483647 := by
  have hwf := Lit.wf_mono.1 _ (flatWord_wf 2147483647 (by decide))
  have hc : ∀ (x : Char) (l : List Char), x :: l = [x] ++ l := fun _ _ => rfl
  have e1 : List.count '(' [','] = 0 := by decide
  have e2 : List.count '(' ['1'] = 0 := by decide
  have e3 : List.count ')' [','] = 0 := by decide
  have e4 : List.count ')' ['1'] = 0 := by decide
  have e5 : List.count '(' (List.replicate 4294967296 ')') = 0 := by
    rw [List.count_eq_zero]
    intro hm
    have := List.eq_of_mem_replicate hm
    revert this
    decide
  have hopen : ((flatWord 2147483647).text
      ++ (',' :: '1' :: List.replicate 4294967296 ')')).count '(' = 2147483647 := by
    rw [hc ',', hc '1']
    simp only [List.count_append, e1, e2, e5, Lit.count_open.1 _ hwf, flatWord_parens]
  refine ⟨Or.inl ?_, ?_, hopen⟩
  · rw [hopen, hc ',', hc '1']
    simp only [List.count_append, e3, e4, List.count_replicate_self]
    omega
  · intro x hx
    rcases List.mem_append.1 hx with hx | hx
    · exact (literal_char_props (Lit.text_chars.1 _ hwf x hx)).1
    rcases List.mem_cons.1 hx with h | hx
    · rw [h]; decide
    rcases List.mem_cons.1 hx with h | hx
    · rw [h]; decide
    · rw [List.eq_of_mem_replicate hx]; decide

theorem manyMonos_parens (n : Nat) : (manyMonos n).parens = n := by
  have h : ∀ l : List Nat,
      Mono.parensList (l.map (fun (i : Nat) => Mono.mk (.coeff 1) (i : Int))) = l.length := by
    intro l
    induction l with
    | nil => rfl
    | cons a l ih =>
      simp only [List.map_cons, Mono.parensList, Poly.parens, ih, List.length_cons]
      omega
  unfold manyMonos
  simp only [Poly.parens]
  rw [h, List.length_range]

theorem manyMonos_canonical (n : Nat) (h2 : 2 ≤ n) (hn : n ≤ 2147483648) :
    Canonical (manyMonos n) = true := by
  unfold Canonical manyMonos
  rw [CanonB_sum]
  refine ⟨⟨?_, ?_⟩, ?_, ?_⟩
  · intro m hm
    obtain ⟨i, hi, rfl⟩ := List.mem_map.1 hm
    have hi' : i < n := List.mem_range.1 hi
    have c1 : CanonB maxExp (.coeff 1) = true := by decide
    have c2 : PolyIsZero (.coeff 1) = false := by decide
    refine ⟨?_, ?_, by simpa only [Mono.p_mk] using c1, by simpa only [Mono.p_mk] using c2⟩
    · simp only [Mono.exp_mk]
      omega
    · simp only [Mono.exp_mk, maxExp]
      omega
  · rw [List.map_map]
    refine (List.pairwise_map).2 ?_
    refine List.Pairwise.imp ?_ (List.pairwise_lt_range n)
    intro a b hab
    simp only [Function.comp, Mono.exp_mk]
    omega
  · intro he
    have := congrArg List.length he
    rw [List.length_map, List.length_range] at this
    simp only [List.length_nil] at this
    omega
  · obtain ⟨m, rfl⟩ : ∃ m, n = m + 2 := ⟨n - 2, by omega⟩
    rw [List.range_succ_eq_map, List.range_succ_eq_map]
    simp only [List.map_cons]
    exact collapsible_cons_cons _ _ _

theorem charAt_print_manyMonos (n : Nat) (h : 0 < n) (rest : List Char) :
    charAt (PolyPrint (manyMonos n) ++ rest) 0 = '(' := by
  have hne : (List.range n).map (fun (i : Nat) => Mono.mk (.coeff 1) (i : Int)) ≠ [] := by
    intro he
    have := congrArg List.length he
    rw [List.length_map, List.length_range] at this
    simp only [List.length_nil] at this
    omega
  unfold manyMonos
  simp only [PolyPrint]
  exact charAt_PolyPrintMonos hne _

/-- C1 as stated fails for a canonical polynomial with `2^31` monomials: the polynomial
`1 + x + ... + x^(2^31-1)` is canonical, and in the text `(1,0)+(1,1)+...+(1,2147483647)`
that `PolyPrint` writes for it the last opening parenthesis makes the `int` counter `open`
of `IsCorrect` wrap to a negative value, so `IsCorrect` returns false and the interpreter
reports `WRONG POLY` for the printed line, with or without its newline. -/
theorem print_parse_roundtrip_counterexample :
    Canonical (manyMonos 2147483648) = true ∧
    (manyMonos 2147483648).parens = 2147483648 ∧
    IsCorrect (PolyPrint (manyMonos 2147483648)) = false ∧
    IsCorrect (PolyPrint (manyMonos 2147483648) ++ [Char.ofNat 10]) = false ∧
    LineInterpreter (PolyPrint (manyMonos 2147483648) ++ [Char.ofNat 10]) 1 []
      = some (reportError [] 1 "WRONG POLY") := by
  have hcan := manyMonos_canonical 2147483648 (by decide) (le_refl _)
  have hpar := manyMonos_parens 2147483648
  have h1 := IsCorrect_print _ hcan [] (Or.inl rfl)
  have h2 := IsCorrect_print _ hcan [Char.ofNat 10] (Or.inr rfl)
  rw [hpar] at h1 h2
  rw [List.append_nil] at h1
  have hd : decide (2147483648 ≤ 2147483647) = false := by decide
  rw [hd] at h1 h2
  refine ⟨hcan, hpar, h1, h2, ?_⟩
  have h0 : ∀ x ∈ PolyPrint (manyMonos 2147483648) ++ [Char.ofNat 10], x ≠ NUL := by
    intro x hx
    rcases List.mem_append.1 hx with h | h
    · exact PolyPrint_no_nul _ x h
    · rw [List.mem_singleton.1 h]; decide
  have hhead := charAt_print_manyMonos 2147483648 (by decide) [Char.ofNat 10]
  obtain ⟨r, hr⟩ := charAt_head hhead (by decide)
  rw [hr] at h0 h2 ⊢
  rw [LineInterpreter_literal '(' r h0 (by decide) (by decide) (by decide)]
  simp only [InterpretPoly, h2, Bool.not_false, if_true]

/-- C15 as stated fails for a word with `2^31` pairs of parentheses: `(1,0)+(1,0)+...+(1,0)`
with `2^31` monomials is a word of the grammar of the specification, but its last opening
parenthesis makes the `int` counter `open` of `IsCorrect` wrap to a negative value, so
`IsCorrect` returns false and the interpreter reports `WRONG POLY`, with or without the
final newline. -/
theorem parser_complete_counterexample :
    (flatWord 2147483648).wf false = true ∧
    (flatWord 2147483648).parens = 2147483648 ∧
    IsCorrect (flatWord 2147483648).text = false ∧
    LineInterpreter (flatWord 2147483648).text 1 [] = some (reportError [] 1 "WRONG POLY") ∧
    IsCorrect ((flatWord 2147483648).text ++ [Char.ofNat 10]) = false ∧
    LineInterpreter ((flatWord 2147483648).text ++ [Char.ofNat 10]) 1 []
      = some (reportError [] 1 "WRONG POLY") := by
  have hwf := flatWord_wf 2147483648 (by decide)
  have hpar := flatWord_parens 2147483648
  have hd : decide (2147483648 ≤ 2147483647) = false := by decide
  have hn : ¬ (2147483648 ≤ 2147483647) := by decide
  obtain ⟨a1, _, a3⟩ := lit_line _ (Lit.wf_mono.1 _ hwf) [] (Or.inl rfl) 1 []
  obtain ⟨b1, _, b3⟩ := lit_line _ (Lit.wf_mono.1 _ hwf) [Char.ofNat 10] (Or.inr rfl) 1 []
  rw [hpar] at a1 a3 b1 b3
  rw [List.append_nil] at a1 a3
  rw [hd] at a1 b1
  rw [if_neg hn] at a3 b3
  exact ⟨hwf, hpar, a1, a3, b1, b3⟩

/-! ## Unbalanced parentheses -/

theorem IsCorrectLoopUnbounded_step (ch : Char) (rest : List Char) (o c k : Nat) (hn : ch ≠ NUL)
    (h : IsCorrectLoopUnbounded (ch :: rest) o c k = true) :
    ∃ k1, IsCorrectLoopUnbounded rest (o + (if ch = '(' then 1 else 0))
        (c + (if ch = ')' then 1 else 0)) k1 = true ∧
      c + (if ch = ')' then 1 else 0) ≤ o + (if ch = '(' then 1 else 0) := by
  have hnul : (ch == NUL) = false := by simpa using hn
  simp only [IsCorrectLoopUnbounded, hnul, Bool.false_eq_true, if_false] at h
  by_cases h1 : ch = '('
  · subst h1
    simp only [if_true]
    have e1 : ('(' == ')') = false := by decide
    have e2 : ('(' == ',') = false := by decide
    have e3 : ('(' == '+') = false := by decide
    have e4 : ('(' == '-') = false := by decide
    have e5 : ('(' == Char.ofNat 10) = false := by decide
    have e6 : ('(' : Char).isDigit = false := by decide
    have e7 : ¬ ('(' : Char) = ')' := by decide
    simp only [e1, e2, e3, e4, e5, e6, e7, Bool.false_and, Bool.false_or, Bool.or_false,
      beq_self_eq_true, Bool.true_and, Bool.false_eq_true, if_false] at h ⊢
    generalize ((charAt rest 0).isDigit || charAt rest 0 == '-' || charAt rest 0 == '(') = B
      at h
    obtain ⟨hA, hx⟩ := ite_false_eq_true h
    cases B
    · simp at hA
    · simp only [if_true] at hA hx
      have : ¬ o + 1 < c := by
        intro hlt; apply hA; simp [hlt]
      exact ⟨k, hx, by omega⟩
  · by_cases h2 : ch = ')'
    · subst h2
      simp only [if_true, if_neg h1]
      have e1 : (')' == '(') = false := by decide
      have e2 : (')' == ',') = false := by decide
      have e3 : (')' == '+') = false := by decide
      have e4 : (')' == '-') = false := by decide
      have e5 : (')' == Char.ofNat 10) = false := by decide
      have e6 : (')' : Char).isDigit = false := by decide
      simp only [e1, e2, e3, e4, e5, e6, Bool.false_and, Bool.false_or, Bool.or_false,
        beq_self_eq_true, Bool.true_and, Bool.false_eq_true, if_false] at h ⊢
      generalize (charAt rest 0 == '+' || charAt rest 0 == Char.ofNat 10
        || charAt rest 0 == NUL || charAt rest 0 == ')' || charAt rest 0 == ',') = B at h
      obtain ⟨_, h'⟩ := ite_false_eq_true h
      obtain ⟨hA, hx⟩ := ite_false_eq_true h'
      cases B
      · simp at hA
      · simp only [if_true] at hA hx
        have : ¬ o < c + 1 := by
          intro hlt; apply hA; simp [hlt]
        exact ⟨k, hx, by omega⟩
    · simp only [if_neg h1, if_neg h2, Nat.add_zero]
      have e1 : (ch == '(') = false := by simpa using h1
      have e2 : (ch == ')') = false := by simpa using h2
      simp only [e1, e2, Bool.false_and, Bool.false_eq_true, if_false, Bool.or_false] at h
      obtain ⟨_, h'⟩ := ite_false_eq_true h
      obtain ⟨hA, hx⟩ := ite_false_eq_true h'
      have : ¬ o < c := by
        intro hlt; apply hA; simp [hlt]
      exact ⟨_, hx, by omega⟩

theorem IsCorrectLoopUnbounded_balanced : ∀ (line : List Char) (o c k : Nat),
    (∀ x ∈ line, x ≠ NUL) → IsCorrectLoopUnbounded line o c k = true → c ≤ o →
    o + line.count '(' = c + line.count ')' ∧
      ∀ i, c + (line.take i).count ')' ≤ o + (line.take i).count '(' := by
  intro line
  induction line with
  | nil =>
    intro o c k _ h hle
    simp only [IsCorrectLoopUnbounded, beq_iff_eq] at h
    simp [h]
  | cons ch rest ih =>
    intro o c k h0 h hle
    obtain ⟨k1, hk1, hle1⟩ := IsCorrectLoopUnbounded_step ch rest o c k (h0 ch (List.mem_cons_self _ _)) h
    obtain ⟨a, b⟩ := ih _ _ k1 (fun x hx => h0 x (List.mem_cons_of_mem _ hx)) hk1 hle1
    have e1 : (ch :: rest).count '(' = rest.count '(' + (if ch = '(' then 1 else 0) := by
      rw [List.count_cons]; simp only [beq_iff_eq]
    have e2 : (ch :: rest).count ')' = rest.count ')' + (if ch = ')' then 1 else 0) := by
      rw [List.count_cons]; simp only [beq_iff_eq]
    constructor
    · rw [e1, e2]; omega
    · intro i
      cases i with
      | zero => simpa using hle
      | succ i =>
        have := b i
        rw [List.take_succ_cons, List.count_cons, List.count_cons]
        simp only [beq_iff_eq]
        omega

theorem IsCorrect_eq_unbounded (line : List Char) (hsz : line.count '(' < 2147483647) :
    IsCorrect line = IsCorrectLoopUnbounded line 0 0 0 := by
  unfold IsCorrect
  exact IsCorrectLoop_eq_unbounded line 0 0 0 (le_refl _) (le_refl _) (by omega)

theorem IsCorrect_unbalanced (line : List Char) (h0 : ∀ x ∈ line, x ≠ NUL)
    (hu : Unbalanced line) (hsz : line.count '(' < 2147483647) : IsCorrect line = false := by
  cases hc : IsCorrect line with
  | false => rfl
  | true =>
    exfalso
    rw [IsCorrect_eq_unbounded line hsz] at hc
    obtain ⟨a, b⟩ := IsCorrectLoopUnbounded_balanced line 0 0 0 h0 hc (le_refl _)
    rcases hu with hu | ⟨i, hi⟩
    · omega
    · have := b i
      omega

/-- C16, as the code has it: when the parentheses of a line with fewer than `2^31 - 1`
opening parentheses are unbalanced (the numbers of `(` and `)` differ, or some prefix has
more `)` than `(`), `IsCorrect` returns false on a line without a terminator inside; and
for every such line that is tried as a polynomial (its first character is not `#`, not a
newline and not a letter) the interpreter reports exactly `ERROR <line> WRONG POLY`, prints
nothing and leaves the stack as it was. The line `(1,2))` on line 5 reports
`ERROR 5 WRONG POLY`. -/
theorem unbalanced_rejected (line : List Char) (hu : Unbalanced line)
    (hsz : line.count '(' < 2147483647) (n : Nat) (s : List Poly) :
    ((∀ x ∈ line, x ≠ NUL) → IsCorrect line = false) ∧
    (charAt line 0 ≠ '#' → charAt line 0 ≠ Char.ofNat 10 → (charAt line 0).isAlpha = false →
      LineInterpreter line n s = some (reportError s n "WRONG POLY")) ∧
    LineInterpreter (textLine "(1,2))") 5 s
      = some ⟨s, [], "ERROR 5 WRONG POLY".toList ++ [Char.ofNat 10]⟩ := by
  refine ⟨fun h0 => IsCorrect_unbalanced line h0 hu hsz, ?_, ?_⟩
  · intro h1 h2 hc
    by_cases hn : (cstr line).length = line.length
    · have h0 : ∀ x ∈ line, x ≠ NUL := by
        have he : cstr line = line := by
          unfold cstr at hn ⊢
          exact List.IsPrefix.eq_of_length (List.takeWhile_prefix _) hn
        intro x hx
        rw [← he] at hx
        unfold cstr at hx
        simpa using (List.mem_takeWhile_imp hx)
      cases hline : line with
      | nil =>
        exfalso
        rw [hline] at hu
        rcases hu with hu | ⟨i, hi⟩
        · exact hu rfl
        · simp at hi
      | cons c r =>
        rw [hline] at h0 h1 h2 hc hu hsz
        rw [LineInterpreter_literal c r h0 h1 h2 hc]
        simp only [InterpretPoly, IsCorrect_unbalanced _ h0 hu hsz, Bool.not_false, if_true]
    · exact LineInterpreter_nul line n s h1 h2 hc hn
  · rfl

theorem unbalanced_rejected_witness :
    Unbalanced ['(', '1', ',', '2', ')', ')'] ∧
    List.count '(' ['(', '1', ',', '2', ')', ')'] < 2147483647 ∧
    IsCorrect ['(', '1', ',', '2', ')', ')'] = false :=
  ⟨Or.inl (by decide), by decide,
    (unbalanced_rejected ['(', '1', ',', '2', ')', ')'] (Or.inl (by decide)) (by decide)
      5 []).1 (by decide)⟩

/-- C16 as stated fails for lines that are not tried as a polynomial: the unbalanced line
`ZERO(` reports `WRONG COMMAND`, not `WRONG POLY`, and the unbalanced comment `#(` reports
nothing. It also fails for `IsCorrect` on a line with a terminator inside: `IsCorrect` reads
the unbalanced line `1`, NUL, `)` up to the terminator and returns true (the interpreter
still reports `WRONG POLY`). And it fails for a line with `2^31 - 1` opening parentheses:
on `(1,0)+...+(1,0)` with `2^31 - 1` monomials, followed by `,1` and `2^32` closing
parentheses, the `int` counter `coma` wraps at the last comma and `close` wraps around to
the value of `open`, so `IsCorrect` returns true and the interpreter pushes a polynomial. -/
theorem unbalanced_rejected_counterexample :
    Unbalanced (textLine "ZERO(") ∧
    LineInterpreter (textLine "ZERO(") 1 []
      = some ⟨[], [], "ERROR 1 WRONG COMMAND".toList ++ [Char.ofNat 10]⟩ ∧
    ((LineInterpreter (textLine "ZERO(") 1 []).map Outcome.err
      == some (errorText 1 "WRONG POLY")) = false ∧
    Unbalanced (textLine "#(") ∧
    LineInterpreter (textLine "#(") 1 [] = some ⟨[], [], []⟩ ∧
    Unbalanced ['1', NUL, ')'] ∧ IsCorrect ['1', NUL, ')'] = true ∧
    LineInterpreter ['1', NUL, ')'] 1 [] = some (reportError [] 1 "WRONG POLY") ∧
    Unbalanced ((flatWord 2147483647).text ++ (',' :: '1' :: List.replicate 4294967296 ')')) ∧
    (∀ x ∈ (flatWord 2147483647).text ++ (',' :: '1' :: List.replicate 4294967296 ')'),
      x ≠ NUL) ∧
    ((flatWord 2147483647).text ++ (',' :: '1' :: List.replicate 4294967296 ')')).count '('
      = 2147483647 ∧
    IsCorrect ((flatWord 2147483647).text ++ (',' :: '1' :: List.replicate 4294967296 ')'))
      = true ∧
    LineInterpreter
        ((flatWord 2147483647).text ++ (',' :: '1' :: List.replicate 4294967296 ')')) 1 []
      = some ⟨[(flatWord 2147483647).value], [], []⟩ := by
  refine ⟨Or.inl (by decide), rfl, by decide, Or.inl (by decide), rfl, Or.inl (by decide),
    by decide, rfl, ?_, ?_, ?_, ?_, ?_⟩
  · exact flat_closes_unbalanced.1
  · exact flat_closes_unbalanced.2.1
  · exact flat_closes_unbalanced.2.2
  · exact (flat_closes_line 1 []).1
  · exact (flat_closes_line 1 []).2

/-! ## What the parser accepts -/

theorem dropWhile_digit_head (w : List Char) :
    (charAt (w.dropWhile Char.isDigit) 0).isDigit = false := by
  induction w with
  | nil => decide
  | cons c cs ih =>
    by_cases hc : c.isDigit = true
    · rw [List.dropWhile_cons_of_pos hc]; exact ih
    · rw [List.dropWhile_cons_of_neg hc]
      have : charAt (c :: cs) 0 = c := rfl
      rw [this]; simpa using hc

theorem digits_split (w : List Char) (h : (charAt w 0).isDigit = true) :
    ∃ ds rest, w = ds ++ rest ∧ ds ≠ [] ∧ (∀ c ∈ ds, c.isDigit = true) ∧
      (charAt rest 0).isDigit = false := by
  refine ⟨w.takeWhile Char.isDigit, w.dropWhile Char.isDigit,
    (List.takeWhile_append_dropWhile _ _).symm, ?_, ?_, dropWhile_digit_head w⟩
  · cases w with
    | nil => revert h; decide
    | cons c cs =>
      have hc : c.isDigit = true := h
      rw [List.takeWhile_cons_of_pos hc]
      simp
  · intro c hc
    exact List.mem_takeWhile_imp hc

theorem charAt_cons {w : List Char} {c : Char} (h : charAt w 0 = c) (hc : c ≠ NUL) :
    ∃ r, w = c :: r := by
  cases w with
  | nil => exact absurd h.symm hc
  | cons x r =>
    have : charAt (x :: r) 0 = x := rfl
    rw [this] at h
    exact ⟨r, by rw [h]⟩

theorem strtol_minus_nodigit (w : List Char) (h : (charAt w 0).isDigit = false) :
    strtol ('-' :: w) = (0, '-' :: w, false) := by
  unfold strtol
  have hd : List.dropWhile isSpaceC ('-' :: w) = '-' :: w := by
    rw [List.dropWhile_cons_of_neg (by decide)]
  have hc0 : charAt ('-' :: w) 0 = '-' := rfl
  simp only [hd, hc0, beq_self_eq_true, Bool.true_or, if_true, List.drop_succ_cons,
    List.drop_zero, h, Bool.false_eq_true, if_false]

/-- The shape of a word that starts with a digit or a `-`, as `strtol` reads it. -/
theorem number_shape (word : List Char)
    (hf : ((charAt word 0).isDigit || charAt word 0 == '-') = true) :
    (∃ (neg : Bool) (ds rest : List Char), word = (if neg then ['-'] else []) ++ (ds ++ rest) ∧ ds ≠ [] ∧
        (∀ c ∈ ds, c.isDigit = true) ∧ (charAt rest 0).isDigit = false ∧
        strtol word = (if neg then
            (if -(digitsVal ds : Int) < -2 ^ 63 then ((-2 ^ 63 : Int), rest, true)
              else (-(digitsVal ds : Int), rest, false))
          else (if (digitsVal ds : Int) > 2 ^ 63 - 1 then ((2 ^ 63 - 1 : Int), rest, true)
              else ((digitsVal ds : Int), rest, false)))) ∨
      (charAt (strtol word).2.1 0 = '-') := by
  simp only [Bool.or_eq_true, beq_iff_eq] at hf
  rcases hf with hf | hf
  · obtain ⟨ds, rest, hw, hne, hall, hr⟩ := digits_split word hf
    left
    refine ⟨false, ds, rest, by simpa using hw, hne, hall, hr, ?_⟩
    rw [hw, strtol_digits ds rest hne hall hr]
    rfl
  · obtain ⟨w, rfl⟩ := charAt_cons hf (by decide)
    by_cases hd : (charAt w 0).isDigit = true
    · obtain ⟨ds, rest, hw, hne, hall, hr⟩ := digits_split w hd
      left
      refine ⟨true, ds, rest, by simp [hw], hne, hall, hr, ?_⟩
      rw [hw, strtol_neg_digits ds rest hne hall hr]
      rfl
    · right
      rw [strtol_minus_nodigit w (by simpa using hd)]
      rfl

theorem IsCoeff_inv {word : List Char} (h : IsCoeff word = true) :
    ∃ neg ds rest, word = (Lit.num neg ds).text ++ rest ∧ (Lit.num neg ds).wf true = true ∧
      WordToCoeff word = ((Lit.num neg ds).value, rest) ∧ isTerm rest = true := by
  simp only [IsCoeff, Bool.and_eq_true, Bool.not_eq_true'] at h
  obtain ⟨⟨herr, hend⟩, hfirst⟩ := h
  rcases number_shape word hfirst with ⟨neg, ds, rest, hw, hne, hall, hr, hs⟩ | hbad
  · have hv0 : (0 : Int) ≤ (digitsVal ds : Int) := Int.natCast_nonneg _
    cases neg with
    | false =>
      simp only [Bool.false_eq_true, if_false] at hs hw
      by_cases hov : (digitsVal ds : Int) > 2 ^ 63 - 1
      · rw [hs, if_pos hov] at herr; cases herr
      · rw [if_neg hov] at hs
        refine ⟨false, ds, rest, by simpa [Lit.text] using hw, ?_, ?_, ?_⟩
        · simp only [Lit.wf, Bool.and_eq_true, isDigits_iff, Bool.false_eq_true, if_false,
            decide_eq_true_eq]
          exact ⟨⟨hne, hall⟩, by omega⟩
        · simp [WordToCoeff, hs, Lit.value, PolyFromCoeff]
        · rw [hs] at hend; exact hend
    | true =>
      simp only [if_true] at hs hw
      by_cases hov : -(digitsVal ds : Int) < -2 ^ 63
      · rw [hs, if_pos hov] at herr; cases herr
      · rw [if_neg hov] at hs
        refine ⟨true, ds, rest, by simpa [Lit.text] using hw, ?_, ?_, ?_⟩
        · simp only [Lit.wf, Bool.and_eq_true, isDigits_iff, if_true, decide_eq_true_eq]
          exact ⟨⟨hne, hall⟩, by omega⟩
        · simp [WordToCoeff, hs, Lit.value, PolyFromCoeff]
        · rw [hs] at hend; exact hend
  · rw [hbad] at hend
    exact absurd hend (by decide)

theorem IsExp_inv {word : List Char} (h : IsExp word = true) :
    ∃ (neg : Bool) (ds rest : List Char),
      word = (if neg then ['-'] else []) ++ (ds ++ rest) ∧ ds ≠ [] ∧
      (∀ c ∈ ds, c.isDigit = true) ∧ digitsVal ds ≤ 2 ^ 31 - 1 ∧
      (neg = true → digitsVal ds = 0) ∧ strtol word = ((digitsVal ds : Int), rest, false) := by
  simp only [IsExp, Bool.and_eq_true, Bool.not_eq_true', Bool.or_eq_false_iff,
    decide_eq_false_iff_not] at h
  obtain ⟨⟨⟨herr, hr1, hr2⟩, hend⟩, hfirst⟩ := h
  rcases number_shape word hfirst with ⟨neg, ds, rest, hw, hne, hall, hr, hs⟩ | hbad
  · have hv0 : (0 : Int) ≤ (digitsVal ds : Int) := Int.natCast_nonneg _
    cases neg with
    | false =>
      simp only [Bool.false_eq_true, if_false] at hs
      by_cases hov : (digitsVal ds : Int) > 2 ^ 63 - 1
      · rw [hs, if_pos hov] at herr; cases herr
      · rw [if_neg hov] at hs
        rw [hs] at hr1 hr2
        simp only at hr1 hr2
        exact ⟨false, ds, rest, hw, hne, hall, by omega, fun hh => (by cases hh), hs⟩
    | true =>
      simp only [if_true] at hs
      by_cases hov : -(digitsVal ds : Int) < -2 ^ 63
      · rw [hs, if_pos hov] at herr; cases herr
      · rw [if_neg hov] at hs
        rw [hs] at hr1 hr2
        simp only at hr1 hr2
        have hz : digitsVal ds = 0 := by omega
        refine ⟨true, ds, rest, hw, hne, hall, by omega, fun _ => hz, ?_⟩
        rw [hs, hz]; rfl
  · rw [hbad] at hend
    exact absurd hend (by decide)

theorem plusThenOpen_suffix : ∀ a b : List Char,
    plusThenOpen (a ++ b) = true → plusThenOpen b = true := by
  intro a
  induction a with
  | nil => intro b h; exact h
  | cons c cs ih =>
    intro b h
    simp only [List.cons_append, plusThenOpen, Bool.and_eq_true] at h
    exact ih b h.2

theorem plusThenOpen_tail {c : Char} {w : List Char} (h : plusThenOpen (c :: w) = true) :
    plusThenOpen w = true := plusThenOpen_suffix [c] w h

theorem plusThenOpen_plus {w : List Char} (h : plusThenOpen ('+' :: w) = true) :
    charAt w 0 = '(' := by
  simp only [plusThenOpen, Bool.and_eq_true, Bool.or_eq_true, bne_iff_ne, ne_eq,
    not_true_eq_false, false_or, beq_iff_eq] at h
  exact h.1

theorem LitMono.wf_cons_of {p : Lit} {neg : Bool} {ex : List Char} {ms : List LitMono}
    (hp : p.wf true = true) (hne : ex ≠ []) (hall : ∀ c ∈ ex, c.isDigit = true)
    (hle : digitsVal ex ≤ 2 ^ 31 - 1) (hneg : neg = true → digitsVal ex = 0)
    (hms : LitMono.wfList true ms = true) :
    LitMono.wfList true (.mk p neg ex :: ms) = true := by
  simp only [LitMono.wfList, Bool.and_eq_true, isDigits_iff, decide_eq_true_eq,
    Bool.or_eq_true, Bool.not_eq_true', beq_iff_eq, Bool.true_and]
  refine ⟨⟨⟨⟨hp, hne, hall⟩, hle⟩, ?_⟩, hms⟩
  cases neg
  · exact Or.inl rfl
  · exact Or.inr (hneg rfl)

/-! ## Parser soundness -/

theorem IsCorrectLoopUnbounded_plus_inv (rest : List Char) (o c k : Nat)
    (h : IsCorrectLoopUnbounded ('+' :: rest) o c k = true) : charAt rest 0 = '(' := by
  have hnul : ('+' == NUL) = false := by decide
  have e1 : ('+' == '(') = false := by decide
  have e2 : ('+' == ')') = false := by decide
  simp only [IsCorrectLoopUnbounded, hnul, Bool.false_eq_true, if_false, e1, e2, Bool.false_and,
    Bool.or_false] at h
  obtain ⟨_, h'⟩ := ite_false_eq_true h
  obtain ⟨hA, _⟩ := ite_false_eq_true h'
  by_contra hz
  apply hA
  have e3 : ('+' == Char.ofNat 10) = false := by decide
  have e4 : ('+' : Char).isDigit = false := by decide
  have e5 : ('+' == '-') = false := by decide
  have e6 : ('+' == ',') = false := by decide
  have e7 : (charAt rest 0 == '(') = false := by simpa using hz
  simp only [e3, e4, e5, e6, e7, Bool.false_and, Bool.or_false, Bool.and_false,
    Bool.not_false, Bool.true_or, beq_self_eq_true, Bool.true_and, Bool.or_self]

theorem IsCorrectLoopUnbounded_plusThenOpen : ∀ (w : List Char) (o c k : Nat),
    (∀ x ∈ w, x ≠ NUL) → IsCorrectLoopUnbounded w o c k = true → plusThenOpen w = true := by
  intro w
  induction w with
  | nil => intro _ _ _ _ _; rfl
  | cons ch rest ih =>
    intro o c k h0 h
    obtain ⟨k1, hk1, _⟩ := IsCorrectLoopUnbounded_step ch rest o c k (h0 ch (List.mem_cons_self _ _)) h
    have hrest := ih _ _ k1 (fun x hx => h0 x (List.mem_cons_of_mem _ hx)) hk1
    simp only [plusThenOpen, Bool.and_eq_true, Bool.or_eq_true, bne_iff_ne, ne_eq, beq_iff_eq]
    refine ⟨?_, hrest⟩
    by_cases hp : ch = '+'
    · subst hp
      exact Or.inr (IsCorrectLoopUnbounded_plus_inv rest o c k h)
    · exact Or.inl hp

theorem IsCorrectLoopUnbounded_comma_reject (r : List Char) (o c : Nat) :
    IsCorrectLoopUnbounded (',' :: r) o c o = false := by
  cases h : IsCorrectLoopUnbounded (',' :: r) o c o with
  | false => rfl
  | true =>
    exfalso
    have hnul : (',' == NUL) = false := by decide
    have e1 : (',' == '(') = false := by decide
    have e2 : (',' == ')') = false := by decide
    have e3 : (',' == Char.ofNat 10) = false := by decide
    have e4 : (',' : Char).isDigit = false := by decide
    have e5 : (',' == '-') = false := by decide
    have e6 : (',' == '+') = false := by decide
    simp only [IsCorrectLoopUnbounded, hnul, Bool.false_eq_true, if_false, e1, e2, e3, e4, e5, e6,
      Bool.false_and, Bool.or_false, Bool.false_or, beq_self_eq_true, Bool.true_and] at h
    generalize ((charAt r 0).isDigit || charAt r 0 == '-' || charAt r 0 == '+') = B at h
    obtain ⟨h1, h'⟩ := ite_false_eq_true h
    obtain ⟨hA, _⟩ := ite_false_eq_true h'
    cases B
    · apply hA; simp
    · apply h1; simp

theorem parse_inv : ∀ fuel : Nat,
    (∀ word q rest, plusThenOpen word = true → ParsePolyFuel fuel word = some (q, rest) →
      ∃ l : Lit, l.wf true = true ∧ word = l.text ++ rest ∧ q = l.value ∧
        isTerm rest = true) ∧
    (∀ word monos q rest, plusThenOpen word = true →
      ParseMonosFuel fuel ('(' :: word) monos = some (q, rest) →
      ∃ ms : List LitMono, ms ≠ [] ∧ LitMono.wfList true ms = true ∧
        '(' :: word = LitMono.textList ms ++ rest ∧
        q = PolyAddMonos (monos ++ LitMono.valueList ms) ∧ isTerm rest = true) := by
  intro fuel
  induction fuel with
  | zero =>
    constructor
    · intro word q rest _ h; simp [ParsePolyFuel] at h
    · intro word monos q rest _ h; simp [ParseMonosFuel] at h
  | succ f ih =>
    constructor
    · intro word q rest hpo h
      simp only [ParsePolyFuel] at h
      split_ifs at h with h1 h2
      · obtain ⟨neg, ds, r, hw, hwf, hwc, ht⟩ := IsCoeff_inv h1
        rw [hwc] at h
        simp only [Option.some.injEq, Prod.mk.injEq] at h
        obtain ⟨hq, hr⟩ := h
        subst hq; subst hr
        exact ⟨.num neg ds, hwf, hw, rfl, ht⟩
      · have h0 : charAt word 0 = '(' := by
          by_contra hne
          apply h2
          simp [hne]
        obtain ⟨w, rfl⟩ := charAt_cons h0 (by decide)
        obtain ⟨ms, hne, hwl, htext, hq, ht⟩ := ih.2 w [] q rest (plusThenOpen_tail hpo) h
        exact ⟨.monos ms, Lit.wf_monos.2 ⟨hne, hwl⟩, htext, by simpa [Lit.value] using hq, ht⟩
    · intro word monos q rest hpo h
      cases hp : ParsePolyFuel f word with
      | none =>
        have hp' : ParsePolyFuel f (List.drop 1 ('(' :: word)) = none := hp
        rw [ParseMonosFuel_none hp'] at h
        cases h
      | some r =>
        obtain ⟨p, temp⟩ := r
        have hp' : ParsePolyFuel f (List.drop 1 ('(' :: word)) = some (p, temp) := hp
        rw [ParseMonosFuel_some hp'] at h
        obtain ⟨lp, hlw, hword, hpv, _⟩ := ih.1 word p temp hpo hp
        by_cases c1 : charAt temp 0 = ','
        swap
        · rw [if_pos (by simpa using c1)] at h; cases h
        obtain ⟨t1, rfl⟩ := charAt_cons c1 (by decide)
        have hc0 : charAt (',' :: t1) 0 = ',' := rfl
        simp only [hc0, bne_self_eq_false, Bool.false_eq_true, if_false, List.drop_succ_cons,
          List.drop_zero] at h
        cases he : IsExp t1 with
        | false => simp only [he, Bool.not_false, if_true] at h; cases h
        | true =>
          simp only [he, Bool.not_true, Bool.false_eq_true, if_false] at h
          obtain ⟨neg, ds, r1, ht1, hne, hall, hle, hneg, hs⟩ := IsExp_inv he
          rw [hs] at h
          simp only [] at h
          by_cases c3 : charAt r1 0 = ')'
          swap
          · rw [if_pos (by simpa using c3)] at h; cases h
          obtain ⟨r2, rfl⟩ := charAt_cons c3 (by decide)
          have hc1 : charAt (')' :: r2) 0 = ')' := rfl
          simp only [hc1, bne_self_eq_false, Bool.false_eq_true, if_false,
            List.drop_succ_cons, List.drop_zero] at h
          have hw : wrapInt (digitsVal ds : Int) = (digitsVal ds : Int) := by
            have : (0 : Int) ≤ (digitsVal ds : Int) := Int.natCast_nonneg _
            exact wrapInt_of_range (by omega) (by omega)
          rw [hw] at h
          have hpo1 : plusThenOpen (',' :: t1) = true :=
            plusThenOpen_suffix lp.text _ (hword ▸ hpo)
          have hpo2 : plusThenOpen t1 = true := plusThenOpen_tail hpo1
          have hpo3 : plusThenOpen (ds ++ ')' :: r2) = true :=
            plusThenOpen_suffix (if neg then ['-'] else []) _ (ht1 ▸ hpo2)
          have hpo4 : plusThenOpen r2 = true :=
            plusThenOpen_tail (plusThenOpen_suffix ds _ hpo3)
          have hwordtext : ∀ tail : List Char, r2 = tail →
              '(' :: word = '(' :: (lp.text ++ (',' :: ((if neg then ['-'] else []) ++
                (ds ++ (')' :: tail))))) := by
            intro tail htail
            rw [hword, ht1, htail]
          by_cases c4 : charAt r2 0 = '+'
          · obtain ⟨r3, rfl⟩ := charAt_cons c4 (by decide)
            have hc2 : charAt ('+' :: r3) 0 = '+' := rfl
            simp only [hc2, beq_self_eq_true, if_true, List.drop_succ_cons, List.drop_zero]
              at h
            obtain ⟨r4, rfl⟩ := charAt_cons (plusThenOpen_plus hpo4) (by decide)
            obtain ⟨ms, hmne, hwl, htext, hq, ht⟩ :=
              ih.2 r4 _ q rest (plusThenOpen_tail (plusThenOpen_tail hpo4)) h
            refine ⟨.mk lp neg ds :: ms, by simp, LitMono.wf_cons_of hlw hne hall hle hneg hwl,
              ?_, ?_, ht⟩
            · rw [LitMono.textList_cons]
              apply hwordtext
              obtain ⟨m, ms, rfl⟩ := List.exists_cons_of_ne_nil hmne
              simp only [List.isEmpty_cons, Bool.false_eq_true, if_false, List.cons_append]
              rw [htext]
            · rw [hq, hpv]
              simp [LitMono.valueList]
          · have hc4 : (charAt r2 0 == '+') = false := by simpa using c4
            simp only [hc4, Bool.false_eq_true, if_false] at h
            split_ifs at h with c5
            simp only [Option.some.injEq, Prod.mk.injEq] at h
            obtain ⟨hq, hr⟩ := h
            subst hr
            refine ⟨[.mk lp neg ds], by simp, LitMono.wf_cons_of hlw hne hall hle hneg rfl,
              ?_, ?_, ?_⟩
            · rw [LitMono.textList_cons]
              apply hwordtext
              simp
            · rw [← hq, hpv]
              simp [LitMono.valueList]
            · simp only [isTerm]
              simp only [Bool.or_eq_true, beq_iff_eq] at c5 ⊢
              rcases c5 with (c5 | c5) | c5
              · exact Or.inl (Or.inr c5)
              · exact Or.inr c5
              · exact Or.inl (Or.inl c5)

/-! ## Accepted lines are words of the grammar -/

theorem commaThenDigit_cons {c : Char} (x : List Char) (hc : c ≠ ',') :
    commaThenDigit (c :: x) = commaThenDigit x := by
  have : (c != ',') = true := by simpa using hc
  simp only [commaThenDigit, this, Bool.true_or, Bool.true_and]

theorem commaThenDigit_comma (x : List Char) :
    commaThenDigit (',' :: x) = ((charAt x 0).isDigit && commaThenDigit x) := by
  simp only [commaThenDigit, bne_self_eq_false, Bool.false_or]

theorem commaThenDigit_digits : ∀ (ds rest : List Char), (∀ c ∈ ds, c.isDigit = true) →
    commaThenDigit (ds ++ rest) = commaThenDigit rest := by
  intro ds
  induction ds with
  | nil => intro rest _; rfl
  | cons d ds ih =>
    intro rest h
    rw [List.cons_append,
      commaThenDigit_cons _ (isDigit_props (h d (List.mem_cons_self _ _))).2.2.2.2.1]
    exact ih rest (fun c hc => h c (List.mem_cons_of_mem _ hc))

theorem commaThenDigit_lit :
    (∀ l : Lit, l.wf true = true → ∀ rest,
      commaThenDigit (l.text ++ rest) = (l.wf false && commaThenDigit rest)) ∧
    (∀ ms : List LitMono, LitMono.wfList true ms = true → ∀ rest,
      commaThenDigit (LitMono.textList ms ++ rest)
        = (LitMono.wfList false ms && commaThenDigit rest)) := by
  apply Lit.ind2
  · intro neg ds hwf rest
    obtain ⟨_, hall, _⟩ := Lit.wf_num hwf
    have hf : (Lit.num neg ds).wf false = true := by simpa [Lit.wf] using hwf
    rw [hf, Bool.true_and]
    cases neg with
    | false =>
      simp only [Lit.text, Bool.false_eq_true, if_false, List.nil_append]
      exact commaThenDigit_digits ds rest hall
    | true =>
      simp only [Lit.text, if_true, List.singleton_append, List.cons_append]
      rw [commaThenDigit_cons _ (by decide)]
      exact commaThenDigit_digits ds rest hall
  · intro ms ih hwf rest
    obtain ⟨hne, hwl⟩ := Lit.wf_monos.1 hwf
    obtain ⟨m, ms, rfl⟩ := List.exists_cons_of_ne_nil hne
    simp only [Lit.text, Lit.wf, List.isEmpty_cons, Bool.not_false, Bool.true_and]
    exact ih hwl rest
  · intro _ rest; rfl
  · intro p neg ex ms ihp ihms hwf rest
    obtain ⟨hpw, hne, hall, hle, hneg, hwl⟩ := LitMono.wf_cons hwf
    obtain ⟨c, cs, hcs, hc⟩ := digits_head hne hall
    rw [LitMono.textList_cons, commaThenDigit_cons _ (by decide), ihp hpw,
      commaThenDigit_comma]
    have htail : commaThenDigit (')' :: ((if ms.isEmpty then [] else
        '+' :: LitMono.textList ms) ++ rest))
        = (LitMono.wfList false ms && commaThenDigit rest) := by
      rw [commaThenDigit_cons _ (by decide)]
      cases ms with
      | nil => rfl
      | cons m2 ms2 =>
        simp only [List.isEmpty_cons, Bool.false_eq_true, if_false, List.cons_append]
        rw [commaThenDigit_cons _ (by decide)]
        exact ihms hwl rest
    have hd : isDigits ex = true := (isDigits_iff ex).2 ⟨hne, hall⟩
    have hle' : decide (digitsVal ex ≤ 2 ^ 31 - 1) = true := by simpa using hle
    cases neg with
    | false =>
      simp only [Bool.false_eq_true, if_false, List.nil_append]
      rw [commaThenDigit_digits ex _ hall, htail]
      have h0 : (charAt (ex ++ ')' :: ((if ms.isEmpty then [] else
          '+' :: LitMono.textList ms) ++ rest)) 0).isDigit = true := by
        rw [hcs]; exact hc
      simp only [h0, LitMono.wfList, hd, hle', Bool.not_false, Bool.true_or, Bool.true_and,
        Bool.and_true, Bool.and_assoc]
    | true =>
      simp only [if_true, List.singleton_append]
      have h0 : (charAt ('-' :: (ex ++ ')' :: ((if ms.isEmpty then [] else
          '+' :: LitMono.textList ms) ++ rest))) 0).isDigit = false := rfl
      simp only [h0, LitMono.wfList, Bool.false_and, Bool.and_false, Bool.not_true,
        Bool.false_or]

theorem charAt_append_cons (a : List Char) (x : Char) (r : List Char) :
    charAt (a ++ x :: r) a.length = x := by
  unfold charAt
  rw [List.getD_append_right _ _ _ _ (le_refl _)]
  simp

theorem NewlineOnlyLast_of_no_newline (line : List Char)
    (h : ∀ x ∈ line, x ≠ Char.ofNat 10) : NewlineOnlyLast line := by
  intro i hi
  unfold charAt
  rw [List.getD_eq_getElem _ _ (by omega)]
  exact h _ (List.getElem_mem _)

theorem flat_comma_chars :
    (∀ x ∈ (flatWord 2147483647).text ++ [',', '1'], x ≠ NUL) ∧
    NewlineOnlyLast ((flatWord 2147483647).text ++ [',', '1']) ∧
    ((flatWord 2147483647).text ++ [',', '1']).count '(' = 2147483647 := by
  have hwf := Lit.wf_mono.1 _ (flatWord_wf 2147483647 (by decide))
  have hch : ∀ x ∈ (flatWord 2147483647).text ++ [',', '1'],
      x ≠ NUL ∧ x ≠ Char.ofNat 10 := by
    intro x hx
    rcases List.mem_append.1 hx with hx | hx
    · have := literal_char_props (Lit.text_chars.1 _ hwf x hx)
      exact ⟨this.1, this.2.1⟩
    rcases List.mem_cons.1 hx with h | hx
    · rw [h]; decide
    · rw [List.mem_singleton.1 hx]; decide
  refine ⟨fun x hx => (hch x hx).1,
    NewlineOnlyLast_of_no_newline _ (fun x hx => (hch x hx).2), ?_⟩
  have e : List.count '(' [',', '1'] = 0 := by decide
  rw [List.count_append, e, Lit.count_open.1 _ hwf, flatWord_parens]

theorem flat_comma_not_word :
    ¬ IsLooseWordLine ((flatWord 2147483647).text ++ [',', '1']) := by
  have hwf := Lit.wf_mono.1 _ (flatWord_wf 2147483647 (by decide))
  have hrej : IsCorrectLoopUnbounded ((flatWord 2147483647).text ++ [',', '1']) 0 0 0
      = false := by
    rw [correct_lit.1 _ hwf [',', '1'] 0 0 0 (le_refl _) (le_refl _) rfl]
    exact IsCorrectLoopUnbounded_comma_reject _ _ _
  rintro ⟨l, hl, h | h⟩
  · have hacc := correct_lit.1 l hl [] 0 0 0 (le_refl _) (le_refl _) rfl
    rw [List.append_nil, ← h, hrej] at hacc
    rw [IsCorrectLoopUnbounded_end [] (Or.inl rfl)] at hacc
    cases hacc
  · have := congrArg List.reverse h
    rw [List.reverse_append, List.reverse_append] at this
    have h2 := (List.cons.inj this).1
    revert h2
    decide

/-- C14, as the code has it: parser soundness. Every line with fewer than `2^31 - 1` opening
parentheses, without a terminator inside, with its newline (if any) at the end, that passes
`IsCorrect` and that `ParsePoly` parses, is, up to that final newline, a word of the grammar
`Polynomial := Coefficient | MonomialList` in which an exponent of value 0 may also be
written with a leading `-`: every coefficient lies in the signed 64-bit range, every
exponent is a digit string of value in `0..2^31-1`, the whole line is consumed, and the
polynomial built is the one the word denotes. When no comma of the line is followed by `-`,
the line is a word of the grammar of the specification. -/
theorem parser_sound (line : List Char) (h0 : ∀ x ∈ line, x ≠ NUL)
    (hnl : NewlineOnlyLast line) (hsz : line.count '(' < 2147483647) (q : Poly)
    (rest : List Char)
    (hc : IsCorrect line = true) (hp : ParsePoly line = some (q, rest)) :
    ∃ l : Lit, l.wf true = true ∧ line = l.text ++ rest ∧
      (rest = [] ∨ rest = [Char.ofNat 10]) ∧ q = l.value ∧
      IsLooseWordLine line ∧
      (commaThenDigit line = true → l.wf false = true ∧ IsWordLine line) := by
  have hu : IsCorrectLoopUnbounded line 0 0 0 = true := by
    rw [← IsCorrect_eq_unbounded line hsz]
    exact hc
  have hpo := IsCorrectLoopUnbounded_plusThenOpen line 0 0 0 h0 hu
  obtain ⟨l, hwf, hline, hq, ht⟩ := (parse_inv _).1 line q rest hpo hp
  have hrest : rest = [] ∨ rest = [Char.ofNat 10] := by
    cases rest with
    | nil => exact Or.inl rfl
    | cons x r =>
      right
      have hx : charAt (x :: r) 0 = x := rfl
      simp only [isTerm, hx, Bool.or_eq_true, beq_iff_eq] at ht
      rcases ht with (hx1 | hx1) | hx1
      · exfalso
        subst hx1
        have hcl := correct_lit.1 l hwf (',' :: r) 0 0 0 (le_refl _) (le_refl _) rfl
        rw [hline, hcl, IsCorrectLoopUnbounded_comma_reject] at hu
        cases hu
      · subst hx1
        cases r with
        | nil => rfl
        | cons y r2 =>
          exfalso
          apply hnl l.text.length
          · rw [hline]; simp
          · rw [hline]; exact charAt_append_cons _ _ _
      · exfalso
        apply h0 x _ hx1
        rw [hline]; simp
  have hor : line = l.text ∨ line = l.text ++ [Char.ofNat 10] := by
    rcases hrest with h | h
    · left; rw [hline, h, List.append_nil]
    · right; rw [hline, h]
  refine ⟨l, hwf, hline, hrest, hq, ⟨l, hwf, hor⟩, ?_⟩
  intro hcd
  rw [hline, commaThenDigit_lit.1 l hwf rest, Bool.and_eq_true] at hcd
  exact ⟨hcd.1, ⟨l, hcd.1, hor⟩⟩

theorem parser_sound_witness :
    ∃ l : Lit, l.wf true = true ∧ textLine "(1,2)+(-3,0)" = l.text ++ [Char.ofNat 10] ∧
      ([Char.ofNat 10] = [] ∨ [Char.ofNat 10] = [Char.ofNat 10]) ∧
      Poly.sum [.mk (.coeff (-3)) 0, .mk (.coeff 1) 2] = l.value ∧
      IsLooseWordLine (textLine "(1,2)+(-3,0)") ∧
      (commaThenDigit (textLine "(1,2)+(-3,0)") = true →
        l.wf false = true ∧ IsWordLine (textLine "(1,2)+(-3,0)")) :=
  parser_sound (textLine "(1,2)+(-3,0)") (by decide) (by
    intro i hi
    have : i < 12 := by
      have h12 : (textLine "(1,2)+(-3,0)").length = 13 := rfl
      omega
    interval_cases i <;> decide) (by decide) (.sum [.mk (.coeff (-3)) 0, .mk (.coeff 1) 2])
    [Char.ofNat 10] (by decide) rfl

/-- C14 as stated fails: the line `(1,-0)` passes `IsCorrect`, `ParsePoly` parses it to the
end, and the interpreter pushes the coefficient 1; but its exponent is written with a
leading `-`, so the line is not a word of the grammar of the specification, with or without
a final newline. It also fails for a line with `2^31 - 1` opening parentheses: on
`(1,0)+...+(1,0)` with `2^31 - 1` monomials followed by `,1` the `int` counter `coma` of
`IsCorrect` wraps at the last comma, so `IsCorrect` returns true, `ParsePoly` reads the
word and stops at that comma, and the interpreter pushes a polynomial; the line is no word
of the grammar, not even with `-0` allowed as an exponent. -/
theorem parser_sound_counterexample :
    IsCorrect "(1,-0)".toList = true ∧
    ParsePoly "(1,-0)".toList = some (.coeff 1, []) ∧
    LineInterpreter "(1,-0)".toList 1 [] = some ⟨[.coeff 1], [], []⟩ ∧
    LineInterpreter (textLine "(1,-0)") 1 [] = some ⟨[.coeff 1], [], []⟩ ∧
    ¬ IsWordLine "(1,-0)".toList ∧ ¬ IsWordLine (textLine "(1,-0)") ∧
    (∀ x ∈ (flatWord 2147483647).text ++ [',', '1'], x ≠ NUL) ∧
    NewlineOnlyLast ((flatWord 2147483647).text ++ [',', '1']) ∧
    ((flatWord 2147483647).text ++ [',', '1']).count '(' = 2147483647 ∧
    IsCorrect ((flatWord 2147483647).text ++ [',', '1']) = true ∧
    ParsePoly ((flatWord 2147483647).text ++ [',', '1'])
      = some ((flatWord 2147483647).value, [',', '1']) ∧
    LineInterpreter ((flatWord 2147483647).text ++ [',', '1']) 1 []
      = some ⟨[(flatWord 2147483647).value], [], []⟩ ∧
    ¬ IsLooseWordLine ((flatWord 2147483647).text ++ [',', '1']) := by
  refine ⟨by decide, rfl, rfl, rfl, ?_, ?_, flat_comma_chars.1, flat_comma_chars.2.1,
    flat_comma_chars.2.2, (flat_comma_line 1 []).1, (flat_comma_line 1 []).2.1,
    (flat_comma_line 1 []).2.2, flat_comma_not_word⟩
  · rintro ⟨l, hwf, hl⟩
    have hA := commaThenDigit_lit.1 l (Lit.wf_mono.1 l hwf)
    rw [hwf] at hA
    rcases hl with h | h
    · have := hA []
      rw [List.append_nil, ← h] at this
      revert this; decide
    · have := hA [Char.ofNat 10]
      rw [← h] at this
      revert this; decide
  · rintro ⟨l, hwf, hl⟩
    have hA := commaThenDigit_lit.1 l (Lit.wf_mono.1 l hwf)
    rw [hwf] at hA
    rcases hl with h | h
    · have := hA []
      rw [List.append_nil, ← h] at this
      revert this; decide
    · have := hA [Char.ofNat 10]
      have h2 : l.text = "(1,-0)".toList := by
        have := congrArg List.dropLast h
        simpa [textLine] using this.symm
      rw [h2] at this
      revert this; decide

/-! ## Addition by merging and addition by normalising -/

theorem monos_ok_of_canon {arr : List Mono} (h : CanonB maxExp (.sum arr) = true) :
    ∀ m ∈ arr, MonoOkB maxExp m = true := by
  have h' := (CanonB_sum _ _).1 h
  intro m hm
  obtain ⟨a, b, c, _⟩ := h'.1.1 m hm
  exact (MonoOkB_iff _ _).2 ⟨a, b, c⟩

/-- C26: for canonical sums `p` and `q`, the merge of `PolyAdd(p, q)` gives structurally the
value that `PolyAddMonos` builds from the monomials of `p` followed by the monomials of
`q`. -/
theorem PolyAdd_eq_PolyAddMonos (ps qs : List Mono) (hp : Canonical (.sum ps) = true)
    (hq : Canonical (.sum qs) = true) :
    PolyAdd (.sum ps) (.sum qs) = PolyAddMonos (ps ++ qs) ∧
    PolyIsEq (PolyAdd (.sum ps) (.sum qs)) (PolyAddMonos (ps ++ qs)) = true := by
  unfold Canonical at hp hq
  have hok : ∀ m ∈ ps ++ qs, MonoOkB maxExp m = true := by
    intro m hm
    rcases List.mem_append.1 hm with h | h
    · exact monos_ok_of_canon hp m h
    · exact monos_ok_of_canon hq m h
  have heq : PolyAdd (.sum ps) (.sum qs) = PolyAddMonos (ps ++ qs) := by
    apply den_inj (PolyAdd_canonB hp hq) (PolyAddMonos_canon maxExp (le_refl _) _ hok) 0
    rw [den_PolyAdd, den_PolyAddMonos, denMonos_append, den_sum, den_sum]
  exact ⟨heq, (PolyIsEq_iff _ _).2 heq⟩

theorem PolyAdd_eq_PolyAddMonos_witness :
    PolyAdd (.sum [.mk (.coeff 1) 0, .mk (.coeff 2) 3]) (.sum [.mk (.coeff (-2)) 3, .mk (.coeff 5) 4])
      = PolyAddMonos ([.mk (.coeff 1) 0, .mk (.coeff 2) 3] ++ [.mk (.coeff (-2)) 3, .mk (.coeff 5) 4]) :=
  (PolyAdd_eq_PolyAddMonos [.mk (.coeff 1) 0, .mk (.coeff 2) 3]
    [.mk (.coeff (-2)) 3, .mk (.coeff 5) 4] (by decide) (by decide)).1

/-! ## Negation -/

theorem PolyMul_neg_one : ∀ p, CanonB maxExp p = true →
    PolyMul p (PolyFromCoeff (-1)) = PolyNeg p := by
  intro p hp
  cases p with
  | coeff a =>
    by_cases ha : a = 0
    · subst ha; rfl
    · have h1 : (a == 0) = false := by simpa using ha
      have h2 : a * -1 = -a := by ring
      simp [PolyMul, PolyFromCoeff, PolyNeg, h1, h2]
  | sum ps =>
    have hm : PolyMul (.sum ps) (PolyFromCoeff (-1)) = PolyMulScalar (.sum ps) (-1) := by
      simp [PolyMul, PolyFromCoeff]
    rw [hm]
    apply den_inj (PolyMulScalar_canon maxExp (le_refl _) (-1) _ hp)
      (PolyNeg_canon maxExp _ hp) 0
    rw [den_PolyMulScalar, den_PolyNeg]
    simp

theorem PolyNeg_shape_leaves :
    ∀ p : Poly, (PolyNeg p).shape = p.shape ∧
      (PolyNeg p).leaves = p.leaves.map (fun c => wrapLong (-c)) := by
  intro p
  induction p using Poly.ind with
  | hc c => exact ⟨rfl, rfl⟩
  | hs arr ih =>
    have key : ∀ ms : List Mono, (∀ m ∈ ms, m ∈ arr) →
        Mono.shapeList (PolyNegMonos ms) = Mono.shapeList ms ∧
        Mono.leavesList (PolyNegMonos ms) = (Mono.leavesList ms).map (fun c => wrapLong (-c)) := by
      intro ms
      induction ms with
      | nil => intro _; exact ⟨rfl, rfl⟩
      | cons m ms ihl =>
        intro hsub
        obtain ⟨p, e⟩ := m
        obtain ⟨a1, a2⟩ := ih _ (hsub _ (List.mem_cons_self _ _))
        obtain ⟨b1, b2⟩ := ihl (fun x hx => hsub x (List.mem_cons_of_mem _ hx))
        simp only [Mono.p_mk] at a1 a2
        simp only [PolyNegMonos, Mono.shapeList, Mono.leavesList, a1, a2, b1, b2,
          List.map_append, and_self]
    obtain ⟨k1, k2⟩ := key arr (fun _ h => h)
    simp only [PolyNeg, Poly.shape, Poly.leaves, k1, k2, and_self]

/-- C28: for every canonical `p`, the product `PolyMul(p, Coefficient(-1))` that `NEG` puts
in place of the top `p` is structurally `PolyNeg(p)`: the tree and the exponents of `p`,
with every coefficient leaf `c` replaced by `-c` wrapped to 64 bits. -/
theorem NEG_is_PolyNeg (p : Poly) (hp : Canonical p = true) (rest : List Poly) (n : Nat) :
    PolyMul p (PolyFromCoeff (-1)) = PolyNeg p ∧
    PolyIsEq (PolyMul p (PolyFromCoeff (-1))) (PolyNeg p) = true ∧
    (PolyNeg p).shape = p.shape ∧
    (PolyNeg p).leaves = p.leaves.map (fun c => wrapLong (-c)) ∧
    LineInterpreter (textLine "NEG") n (p :: rest) = some ⟨PolyNeg p :: rest, [], []⟩ := by
  unfold Canonical at hp
  have h := PolyMul_neg_one p hp
  refine ⟨h, (PolyIsEq_iff _ _).2 h, (PolyNeg_shape_leaves p).1, (PolyNeg_shape_leaves p).2, ?_⟩
  rw [← h]
  rfl

theorem NEG_is_PolyNeg_witness :
    PolyMul (.sum [.mk (.coeff (-9223372036854775808)) 0, .mk (.sum [.mk (.coeff 3) 2]) 1])
        (PolyFromCoeff (-1))
      = PolyNeg (.sum [.mk (.coeff (-9223372036854775808)) 0, .mk (.sum [.mk (.coeff 3) 2]) 1]) :=
  (NEG_is_PolyNeg (.sum [.mk (.coeff (-9223372036854775808)) 0, .mk (.sum [.mk (.coeff 3) 2]) 1])
    (by decide) [] 1).1

/-! ## Evaluation: the integer power and the polynomial power -/

theorem PolyMul_coeff_coeff (a b : Int) :
    PolyMul (.coeff a) (.coeff b) = .coeff (wrapLong (a * b)) := by
  simp only [PolyMul, PolyZero, PolyFromCoeff]
  split_ifs with h
  · simp only [Bool.or_eq_true, beq_iff_eq] at h
    rcases h with h | h <;> subst h <;> simp [wrapLong]
  · rfl

theorem wrapLong_mul_wrap (a b : Int) :
    wrapLong (wrapLong a * wrapLong b) = wrapLong (a * b) := by
  rw [wrapLong_eq_iff]
  push_cast
  rw [wrapLong_cast, wrapLong_cast]

theorem PolyPower_coeff (x : Int) (h1 : -2 ^ 63 ≤ x) (h2 : x < 2 ^ 63) :
    ∀ n : Nat, PolyPower (.coeff x) n = .coeff (wrapLong (x ^ n)) := by
  intro n
  induction n using Nat.strong_induction_on with
  | _ n ih =>
    by_cases h0 : n = 0
    · subst h0; rw [PolyPower_zero]; rfl
    by_cases h1' : n = 1
    · subst h1'; rw [PolyPower_one, pow_one, wrapLong_of_range h1 h2]
    by_cases he : n % 2 = 0
    · rw [PolyPower_even _ n (by omega) he, ih (n / 2) (by omega), PolyMul_coeff_coeff,
        wrapLong_mul_wrap, ← pow_add]
      congr 3
      omega
    · rw [PolyPower_odd _ n (by omega) (by omega), ih ((n - 1) / 2) (by omega),
        PolyMul_coeff_coeff, PolyMul_coeff_coeff, wrapLong_mul_wrap]
      congr 1
      rw [wrapLong_eq_iff]
      push_cast
      rw [wrapLong_cast]
      push_cast
      rw [← pow_add, ← pow_succ']
      congr 1
      omega

theorem powerLoop_spec : ∀ (fuel : Nat) (acc a n : Int), 0 ≤ n → n.toNat ≤ fuel →
    -2 ^ 63 ≤ acc → acc < 2 ^ 63 →
    (-2 ^ 63 ≤ powerLoop fuel acc a n ∧ powerLoop fuel acc a n < 2 ^ 63) ∧
      ((powerLoop fuel acc a n : Int) : Coef) = (acc : Coef) * (a : Coef) ^ n.toNat := by
  intro fuel
  induction fuel with
  | zero =>
    intro acc a n hn hf h1 h2
    have : n = 0 := by omega
    subst this
    simp only [powerLoop]
    exact ⟨⟨h1, h2⟩, by simp⟩
  | succ fuel ih =>
    intro acc a n hn hf h1 h2
    simp only [powerLoop]
    by_cases hpos : n > 0
    · simp only [hpos, if_true]
      have hn2 : 0 ≤ n / 2 := by omega
      have hf2 : (n / 2).toNat ≤ fuel := by omega
      by_cases hodd : n % 2 = 1
      · have hb : (n % 2 == 1) = true := by simpa using hodd
        simp only [hb, if_true]
        obtain ⟨r, e⟩ := ih (wrapLong (acc * a)) (wrapLong (a * a)) (n / 2) hn2 hf2
          (wrapLong_range _).1 (wrapLong_range _).2
        refine ⟨r, ?_⟩
        rw [e, wrapLong_cast, wrapLong_cast]
        push_cast
        have hk : n.toNat = 2 * (n / 2).toNat + 1 := by omega
        rw [hk, pow_succ, pow_mul]
        ring
      · have hb : (n % 2 == 1) = false := by simpa using hodd
        simp only [hb, Bool.false_eq_true, if_false]
        obtain ⟨r, e⟩ := ih acc (wrapLong (a * a)) (n / 2) hn2 hf2 h1 h2
        refine ⟨r, ?_⟩
        rw [e, wrapLong_cast]
        push_cast
        have hk : n.toNat = 2 * (n / 2).toNat := by omega
        rw [hk, pow_mul]
        ring
    · simp only [hpos, if_false]
      have : n = 0 := by omega
      subst this
      exact ⟨⟨h1, h2⟩, by simp⟩

theorem power_eq (x n : Int) (hn : 0 ≤ n) : power x n = wrapLong (x ^ n.toNat) := by
  obtain ⟨r, e⟩ := powerLoop_spec n.toNat 1 x n hn (le_refl _) (by norm_num) (by norm_num)
  apply coef_cast_inj r.1 r.2 (wrapLong_range _).1 (wrapLong_range _).2
  show ((powerLoop n.toNat 1 x n : Int) : Coef) = ((wrapLong (x ^ n.toNat) : Int) : Coef)
  rw [e, wrapLong_cast]
  push_cast
  ring

theorem PolyMul_coeff_right (s : Poly) (c : Int) :
    PolyMul s (.coeff c) = PolyMulScalar s c := by
  cases s with
  | coeff a =>
    simp only [PolyMul, PolyMulScalar]
    by_cases hc : c = 0
    · subst hc; simp
    · by_cases ha : a = 0
      · subst ha; simp
      · have e1 : (c == 0) = false := by simpa using hc
        have e2 : (a == 0) = false := by simpa using ha
        simp [e1, e2, mul_comm]
  | sum ps =>
    simp only [PolyMul, PolyMulScalar]
    split_ifs <;> rfl

theorem foldl_congr_mem {α β : Type} (f g : β → α → β) (l : List α)
    (h : ∀ b, ∀ a ∈ l, f b a = g b a) : ∀ b, l.foldl f b = l.foldl g b := by
  induction l with
  | nil => intro b; rfl
  | cons a as ih =>
    intro b
    simp only [List.foldl_cons]
    rw [h b a (List.mem_cons_self _ _)]
    exact ih (fun b x hx => h b x (List.mem_cons_of_mem _ hx)) _

/-- C25: for every canonical polynomial `p` that is not a coefficient and every 64-bit
`x`, `PolyAt(p, x)`, computed with the integer `power` and `PolyMulScalar`, is structurally
the sum, accumulated with `PolyAdd`, over the monomials of `p` of
`PolyMul(sub_i, PolyPower(Coefficient(x), exp_i))`; the integer power is the power wrapped
to 64 bits; and `PolyAt` of a coefficient is that coefficient. -/
theorem PolyAt_refines_spec (arr : List Mono) (hp : Canonical (.sum arr) = true) (x : Int)
    (h1 : -2 ^ 63 ≤ x) (h2 : x < 2 ^ 63) :
    PolyAt (.sum arr) x = PolyAtSpec (.sum arr) x ∧
    PolyIsEq (PolyAt (.sum arr) x) (PolyAtSpec (.sum arr) x) = true ∧
    (∀ m ∈ arr, PolyPower (.coeff x) m.exp.toNat = .coeff (power x m.exp)) ∧
    (∀ c : Int, PolyAt (.coeff c) x = .coeff c ∧ PolyAtSpec (.coeff c) x = .coeff c) := by
  unfold Canonical at hp
  obtain ⟨hok, _, _⟩ := (CanonB_sum _ _).1 hp
  have hpow : ∀ m ∈ arr, PolyPower (.coeff x) m.exp.toNat = .coeff (power x m.exp) := by
    intro m hm
    rw [PolyPower_coeff x h1 h2, power_eq x m.exp (hok.1 m hm).1]
  have heq : PolyAt (.sum arr) x = PolyAtSpec (.sum arr) x := by
    simp only [PolyAt, PolyAtSpec]
    apply foldl_congr_mem
    intro b m hm
    rw [hpow m hm, PolyMul_coeff_right]
  exact ⟨heq, (PolyIsEq_iff _ _).2 heq, hpow, fun c => ⟨rfl, rfl⟩⟩

theorem PolyAt_refines_spec_witness :
    PolyAt (.sum [.mk (.coeff 3) 0, .mk (.sum [.mk (.coeff 1) 1]) 2, .mk (.coeff 5) 70]) (-7)
      = PolyAtSpec (.sum [.mk (.coeff 3) 0, .mk (.sum [.mk (.coeff 1) 1]) 2, .mk (.coeff 5) 70])
          (-7) :=
  (PolyAt_refines_spec [.mk (.coeff 3) 0, .mk (.sum [.mk (.coeff 1) 1]) 2, .mk (.coeff 5) 70]
    (by decide) (-7) (by norm_num) (by norm_num)).1

/-! ## Dispatch of the commands with an argument -/

theorem LineInterpreter_DEG_BY (arg : List Char) (n : Nat) (s : List Poly) :
    LineInterpreter ('D' :: 'E' :: 'G' :: '_' :: 'B' :: 'Y' :: arg) n s =
      if (cstr ('D' :: 'E' :: 'G' :: '_' :: 'B' :: 'Y' :: arg)).length
          != ('D' :: 'E' :: 'G' :: '_' :: 'B' :: 'Y' :: arg).length then
        (if isSpaceC (charAt arg 0) then some (reportError s n "DEG BY WRONG VARIABLE")
          else some (reportError s n "WRONG COMMAND"))
      else some (InstructionDegBy s n ('D' :: 'E' :: 'G' :: '_' :: 'B' :: 'Y' :: arg)) := by
  have hc : cstr ('D' :: 'E' :: 'G' :: '_' :: 'B' :: 'Y' :: arg)
      = 'D' :: 'E' :: 'G' :: '_' :: 'B' :: 'Y' :: cstr arg := rfl
  have hA : (charAt ('D' :: 'E' :: 'G' :: '_' :: 'B' :: 'Y' :: arg) 0 == '#'
      || charAt ('D' :: 'E' :: 'G' :: '_' :: 'B' :: 'Y' :: arg) 0 == Char.ofNat 10) = false := rfl
  have hα : (charAt ('D' :: 'E' :: 'G' :: '_' :: 'B' :: 'Y' :: arg) 0).isAlpha = true := rfl
  have h6 : charAt ('D' :: 'E' :: 'G' :: '_' :: 'B' :: 'Y' :: arg) 6 = charAt arg 0 := rfl
  have hT : strncmpEq ('D' :: 'E' :: 'G' :: '_' :: 'B' :: 'Y' :: arg) "AT".toList 2 = false := rfl
  have hD : strncmpEq ('D' :: 'E' :: 'G' :: '_' :: 'B' :: 'Y' :: arg) "DEG_BY".toList 6
      = true := by
    unfold strncmpEq; rw [hc]; rfl
  have hC : strncmpEq ('D' :: 'E' :: 'G' :: '_' :: 'B' :: 'Y' :: arg) "COMPOSE".toList 7
      = false := rfl
  have hk : ∀ kw ∈ ["ZERO", "IS_COEFF", "IS_ZERO", "CLONE", "ADD", "MUL", "NEG", "SUB", "IS_EQ",
      "DEG", "PRINT", "POP"], isKeyword ('D' :: 'E' :: 'G' :: '_' :: 'B' :: 'Y' :: arg) kw
        = false := by
    intro kw hkw
    unfold isKeyword strcmpEq
    rw [hc]
    simp only [List.mem_cons, List.mem_singleton, List.not_mem_nil, or_false] at hkw
    rcases hkw with rfl | rfl | rfl | rfl | rfl | rfl | rfl | rfl | rfl | rfl | rfl | rfl <;> rfl
  unfold LineInterpreter
  simp only [hA, hα, h6, hT, hD, hC, hk "ZERO" (by decide), hk "IS_COEFF" (by decide),
    hk "IS_ZERO" (by decide), hk "CLONE" (by decide), hk "ADD" (by decide),
    hk "MUL" (by decide), hk "NEG" (by decide), hk "SUB" (by decide), hk "IS_EQ" (by decide),
    hk "DEG" (by decide), hk "PRINT" (by decide), hk "POP" (by decide), Bool.false_eq_true,
    if_false, if_true, Bool.false_and, Bool.true_and]

theorem LineInterpreter_AT (arg : List Char) (n : Nat) (s : List Poly) :
    LineInterpreter ('A' :: 'T' :: arg) n s =
      if (cstr ('A' :: 'T' :: arg)).length != ('A' :: 'T' :: arg).length then
        (if isSpaceC (charAt arg 0) then some (reportError s n "AT WRONG VALUE")
          else some (reportError s n "WRONG COMMAND"))
      else some (InstructionAt s n ('A' :: 'T' :: arg)) := by
  have hc : cstr ('A' :: 'T' :: arg) = 'A' :: 'T' :: cstr arg := rfl
  have hA : (charAt ('A' :: 'T' :: arg) 0 == '#'
      || charAt ('A' :: 'T' :: arg) 0 == Char.ofNat 10) = false := rfl
  have hα : (charAt ('A' :: 'T' :: arg) 0).isAlpha = true := rfl
  have h2 : charAt ('A' :: 'T' :: arg) 2 = charAt arg 0 := rfl
  have hT : strncmpEq ('A' :: 'T' :: arg) "AT".toList 2 = true := by
    unfold strncmpEq; rw [hc]; rfl
  have hD : strncmpEq ('A' :: 'T' :: arg) "DEG_BY".toList 6 = false := by
    unfold strncmpEq; rw [hc]; rfl
  have hC : strncmpEq ('A' :: 'T' :: arg) "COMPOSE".toList 7 = false := by
    unfold strncmpEq; rw [hc]; rfl
  have hk : ∀ kw ∈ ["ZERO", "IS_COEFF", "IS_ZERO", "CLONE", "ADD", "MUL", "NEG", "SUB", "IS_EQ",
      "DEG", "PRINT", "POP"], isKeyword ('A' :: 'T' :: arg) kw = false := by
    intro kw hkw
    unfold isKeyword strcmpEq
    rw [hc]
    simp only [List.mem_cons, List.mem_singleton, List.not_mem_nil, or_false] at hkw
    rcases hkw with rfl | rfl | rfl | rfl | rfl | rfl | rfl | rfl | rfl | rfl | rfl | rfl <;> rfl
  unfold LineInterpreter
  simp only [hA, hα, h2, hT, hD, hC, hk "ZERO" (by decide), hk "IS_COEFF" (by decide),
    hk "IS_ZERO" (by decide), hk "CLONE" (by decide), hk "ADD" (by decide),
    hk "MUL" (by decide), hk "NEG" (by decide), hk "SUB" (by decide), hk "IS_EQ" (by decide),
    hk "DEG" (by decide), hk "PRINT" (by decide), hk "POP" (by decide), Bool.false_eq_true,
    if_false, if_true, Bool.false_and, Bool.true_and]

theorem LineInterpreter_COMPOSE (arg : List Char) (n : Nat) (s : List Poly) :
    LineInterpreter ('C' :: 'O' :: 'M' :: 'P' :: 'O' :: 'S' :: 'E' :: arg) n s =
      if (cstr ('C' :: 'O' :: 'M' :: 'P' :: 'O' :: 'S' :: 'E' :: arg)).length
          != ('C' :: 'O' :: 'M' :: 'P' :: 'O' :: 'S' :: 'E' :: arg).length then
        (if isSpaceC (charAt arg 0) then some (reportError s n "COMPOSE WRONG PARAMETER")
          else some (reportError s n "WRONG COMMAND"))
      else InstructionCompose s n ('C' :: 'O' :: 'M' :: 'P' :: 'O' :: 'S' :: 'E' :: arg) := by
  have hc : cstr ('C' :: 'O' :: 'M' :: 'P' :: 'O' :: 'S' :: 'E' :: arg)
      = 'C' :: 'O' :: 'M' :: 'P' :: 'O' :: 'S' :: 'E' :: cstr arg := rfl
  have hA : (charAt ('C' :: 'O' :: 'M' :: 'P' :: 'O' :: 'S' :: 'E' :: arg) 0 == '#'
      || charAt ('C' :: 'O' :: 'M' :: 'P' :: 'O' :: 'S' :: 'E' :: arg) 0 == Char.ofNat 10)
        = false := rfl
  have hα : (charAt ('C' :: 'O' :: 'M' :: 'P' :: 'O' :: 'S' :: 'E' :: arg) 0).isAlpha
      = true := rfl
  have h7 : charAt ('C' :: 'O' :: 'M' :: 'P' :: 'O' :: 'S' :: 'E' :: arg) 7 = charAt arg 0 := rfl
  have hT : strncmpEq ('C' :: 'O' :: 'M' :: 'P' :: 'O' :: 'S' :: 'E' :: arg) "AT".toList 2
      = false := rfl
  have hD : strncmpEq ('C' :: 'O' :: 'M' :: 'P' :: 'O' :: 'S' :: 'E' :: arg) "DEG_BY".toList 6
      = false := rfl
  have hC : strncmpEq ('C' :: 'O' :: 'M' :: 'P' :: 'O' :: 'S' :: 'E' :: arg) "COMPOSE".toList 7
      = true := by
    unfold strncmpEq; rw [hc]; rfl
  have hk : ∀ kw ∈ ["ZERO", "IS_COEFF", "IS_ZERO", "CLONE", "ADD", "MUL", "NEG", "SUB", "IS_EQ",
      "DEG", "PRINT", "POP"], isKeyword ('C' :: 'O' :: 'M' :: 'P' :: 'O' :: 'S' :: 'E' :: arg) kw
        = false := by
    intro kw hkw
    unfold isKeyword strcmpEq
    rw [hc]
    simp only [List.mem_cons, List.mem_singleton, List.not_mem_nil, or_false] at hkw
    rcases hkw with rfl | rfl | rfl | rfl | rfl | rfl | rfl | rfl | rfl | rfl | rfl | rfl <;> rfl
  unfold LineInterpreter
  simp only [hA, hα, h7, hT, hD, hC, hk "ZERO" (by decide), hk "IS_COEFF" (by decide),
    hk "IS_ZERO" (by decide), hk "CLONE" (by decide), hk "ADD" (by decide),
    hk "MUL" (by decide), hk "NEG" (by decide), hk "SUB" (by decide), hk "IS_EQ" (by decide),
    hk "DEG" (by decide), hk "PRINT" (by decide), hk "POP" (by decide), Bool.false_eq_true,
    if_false, if_true, Bool.false_and, Bool.true_and]

/-! ## Stack effects -/

/-- C24: on every stack whose top is `p` and whose next polynomial is `q`, `ADD` (with or
without the final newline) leaves `PolyAdd(p, q)` on top of the untouched rest, one
polynomial fewer, and reports nothing; pushing 1 and 2, then `ADD`, then `PRINT` prints
3. -/
theorem ADD_stack_effect (p q : Poly) (rest : List Poly) (n : Nat) :
    LineInterpreter "ADD".toList n (p :: q :: rest) = some ⟨PolyAdd p q :: rest, [], []⟩ ∧
    LineInterpreter (textLine "ADD") n (p :: q :: rest)
      = some ⟨PolyAdd p q :: rest, [], []⟩ ∧
    (PolyAdd p q :: rest).length + 1 = (p :: q :: rest).length ∧
    calcMain [textLine "1", textLine "2", textLine "ADD", textLine "PRINT"]
      = some ⟨[.coeff 3], ['3', Char.ofNat 10], []⟩ :=
  ⟨rfl, rfl, rfl, rfl⟩

/-- C30: on every stack whose top is `p` and whose next polynomial is `q`, `SUB` (with or
without the final newline) leaves `PolySub(p, q)`, which is `PolyAdd(p, PolyNeg(q))`, on
top of the untouched rest: the polynomial beneath the top is subtracted from the top, as
polynomials with coefficients modulo `2^64`; pushing 1 and 3, then `SUB`, then `PRINT`
prints 2. -/
theorem SUB_operand_order (p q : Poly) (rest : List Poly) (n : Nat) :
    LineInterpreter "SUB".toList n (p :: q :: rest) = some ⟨PolySub p q :: rest, [], []⟩ ∧
    LineInterpreter (textLine "SUB") n (p :: q :: rest)
      = some ⟨PolySub p q :: rest, [], []⟩ ∧
    PolySub p q = PolyAdd p (PolyNeg q) ∧
    (∀ d, den (PolySub p q) d = den p d - den q d) ∧
    calcMain [textLine "1", textLine "3", textLine "SUB", textLine "PRINT"]
      = some ⟨[.coeff 2], ['2', Char.ofNat 10], []⟩ := by
  refine ⟨rfl, rfl, rfl, ?_, rfl⟩
  intro d
  unfold PolySub
  rw [den_PolyAdd, den_PolyNeg, sub_eq_add_neg]

/-! ## Composition: the order of the operands -/

theorem PolyMulScalar_one : ∀ p, CanonB maxExp p = true → PolyMulScalar p 1 = p := by
  intro p hp
  apply den_inj (PolyMulScalar_canon maxExp (le_refl _) 1 p hp) hp 0
  rw [den_PolyMulScalar]
  simp

theorem PolyAdd_zero_right (p : Poly) (hp : CanonB maxExp p = true) : PolyAdd p PolyZero = p := by
  apply den_inj (PolyAdd_canonB hp (CanonB_zero _)) hp 0
  rw [den_PolyAdd, den_zero, add_zero]

theorem PolyMul_one_left (q : Poly) (hq : CanonB maxExp q = true) :
    PolyMul (.coeff 1) q = q := by
  cases q with
  | coeff b =>
    rw [PolyMul_coeff_coeff, one_mul]
    rw [CanonB_coeff] at hq
    rw [wrapLong_of_range hq.1 hq.2]
  | sum qs =>
    have : PolyMul (.coeff 1) (.sum qs) = PolyMulScalar (.sum qs) 1 := by
      simp [PolyMul]
    rw [this, PolyMulScalar_one _ hq]

theorem PolyCompose_var0 (q0 : Poly) (h0 : CanonB maxExp q0 = true) (k : Nat)
    (qs : List Poly) :
    PolyCompose (.sum [.mk (.coeff 1) 1]) (k + 1) (q0 :: qs) = q0 := by
  have hk : (k + 1 == 0) = false := by simp
  have hp : ((1 : Int) % 2 ^ 64).toNat = 1 := by norm_num
  simp only [PolyCompose, PolyComposeLoop, hk, Bool.false_eq_true, if_false, List.headD_cons,
    hp, PolyPower_one]
  rw [PolyMul_coeff_right, PolyMulScalar_one _ h0, PolyAdd_zero_right _ h0]

theorem PolyCompose_var1 (q0 q1 : Poly) (h1 : CanonB maxExp q1 = true) (k : Nat)
    (qs : List Poly) :
    PolyCompose (.sum [.mk (.sum [.mk (.coeff 1) 1]) 0]) (k + 2) (q0 :: q1 :: qs) = q1 := by
  have hk : (k + 2 == 0) = false := by simp
  have hp : ((0 : Int) % 2 ^ 64).toNat = 0 := by norm_num
  have hv := PolyCompose_var0 q1 h1 k qs
  have e : k + 2 - 1 = k + 1 := by omega
  simp only [PolyCompose, PolyComposeLoop, hk, Bool.false_eq_true, if_false, List.headD_cons,
    hp, PolyPower_zero, List.tail_cons, e] at hv ⊢
  rw [hv]
  have : PolyFromCoeff 1 = .coeff 1 := rfl
  rw [this, PolyMul_one_left _ h1, PolyAdd_zero_right _ h1]

/-- C21: on a stack that holds, from the bottom, `rest`, then `q0, ..., q(k-1)`, then `p` on
top, the line `COMPOSE k` (with or without the final newline) leaves
`PolyCompose(p, k, [q0, ..., q(k-1)])` on top of the untouched `rest` and reports nothing.
The entry 0 of the array, the deepest operand consumed, replaces variable 0, and the
entry 1 replaces variable 1: composing the polynomial `x_0` gives `q0`, composing `x_1`
gives `q1`. -/
theorem COMPOSE_stack_effect (p : Poly) (qs rest : List Poly) (n : Nat) (tail : List Char)
    (ht : tail = [] ∨ tail = [Char.ofNat 10])
    (hs : (p :: (qs.reverse ++ rest)).length < 2 ^ 64) :
    LineInterpreter (composeLine qs.length ++ tail) n (p :: (qs.reverse ++ rest))
      = some ⟨PolyCompose p qs.length qs :: rest, [], []⟩ ∧
    (∀ q0 k qs1, Canonical q0 = true →
      PolyCompose (.sum [.mk (.coeff 1) 1]) (k + 1) (q0 :: qs1) = q0) ∧
    (∀ q0 q1 k qs1, Canonical q1 = true →
      PolyCompose (.sum [.mk (.sum [.mk (.coeff 1) 1]) 0]) (k + 2) (q0 :: q1 :: qs1) = q1) := by
  refine ⟨?_, fun q0 k qs1 h => PolyCompose_var0 q0 h k qs1,
    fun q0 q1 k qs1 h => PolyCompose_var1 q0 q1 h k qs1⟩
  have hlen : (p :: (qs.reverse ++ rest)).length = qs.length + rest.length + 1 := by
    simp
  rw [hlen] at hs
  rw [LineInterpreter_composeLine qs.length (by omega) tail ht]
  have hnot : ¬ ((p :: (qs.reverse ++ rest)).length + 2 ^ 64 - 1) % 2 ^ 64 < qs.length := by
    rw [hlen]; omega
  rw [if_neg hnot]
  have h1 : List.take qs.length (qs.reverse ++ rest) = qs.reverse :=
    List.take_left' (List.length_reverse qs)
  have h2 : List.drop qs.length (qs.reverse ++ rest) = rest :=
    List.drop_left' (List.length_reverse qs)
  simp only [h1, h2, List.reverse_reverse]

theorem COMPOSE_stack_effect_witness :
    LineInterpreter (composeLine 2 ++ [Char.ofNat 10]) 4
        (.sum [.mk (.sum [.mk (.coeff 1) 1]) 1] :: ([Poly.coeff 5, Poly.coeff 7].reverse
          ++ [Poly.coeff 9]))
      = some ⟨PolyCompose (.sum [.mk (.sum [.mk (.coeff 1) 1]) 1]) 2 [.coeff 5, .coeff 7]
          :: [Poly.coeff 9], [], []⟩ :=
  (COMPOSE_stack_effect (.sum [.mk (.sum [.mk (.coeff 1) 1]) 1]) [.coeff 5, .coeff 7]
    [.coeff 9] 4 [Char.ofNat 10] (Or.inr rfl) (by decide)).1

/-! ## Queries -/

theorem InstructionDegBy_stack (s : List Poly) (n : Nat) (line : List Char) :
    (InstructionDegBy s n line).stack = s := by
  unfold InstructionDegBy
  simp only []
  split_ifs
  any_goals rfl
  cases s <;> rfl

/-- C29: the queries are read-only. On every stack `s`, each of `IS_COEFF`, `IS_ZERO`,
`IS_EQ`, `DEG`, `PRINT` (with or without the final newline) and every line that starts
with `DEG_BY`, whatever follows the keyword, gives an outcome whose stack is `s`, whether a
result is printed or an error is reported. -/
theorem queries_read_only (s : List Poly) (n : Nat) :
    (∀ kw ∈ ["IS_COEFF", "IS_ZERO", "IS_EQ", "DEG", "PRINT"], ∀ line : List Char,
      line = kw.toList ∨ line = textLine kw →
      ∃ o, LineInterpreter line n s = some o ∧ o.stack = s ∧ o.stack.length = s.length) ∧
    (∀ arg : List Char,
      ∃ o, LineInterpreter ("DEG_BY".toList ++ arg) n s = some o ∧ o.stack = s ∧
        o.stack.length = s.length) := by
  constructor
  · intro kw hk line hl
    simp only [List.mem_cons, List.mem_singleton, List.not_mem_nil, or_false] at hk
    rcases hk with rfl | rfl | rfl | rfl | rfl
    · refine ⟨InstructionIsCoeff s n, by rcases hl with rfl | rfl <;> rfl, ?_⟩
      cases s <;> exact ⟨rfl, rfl⟩
    · refine ⟨InstructionIsZero s n, by rcases hl with rfl | rfl <;> rfl, ?_⟩
      cases s <;> exact ⟨rfl, rfl⟩
    · refine ⟨InstructionIsEq s n, by rcases hl with rfl | rfl <;> rfl, ?_⟩
      rcases s with _ | ⟨p, _ | ⟨q, rest⟩⟩ <;> exact ⟨rfl, rfl⟩
    · refine ⟨InstructionDeg s n, by rcases hl with rfl | rfl <;> rfl, ?_⟩
      cases s <;> exact ⟨rfl, rfl⟩
    · refine ⟨InstructionPrint s n, by rcases hl with rfl | rfl <;> rfl, ?_⟩
      cases s <;> exact ⟨rfl, rfl⟩
  · intro arg
    have e : "DEG_BY".toList ++ arg = 'D' :: 'E' :: 'G' :: '_' :: 'B' :: 'Y' :: arg := rfl
    rw [e, LineInterpreter_DEG_BY]
    split_ifs
    · exact ⟨_, rfl, rfl, rfl⟩
    · exact ⟨_, rfl, rfl, rfl⟩
    · have := InstructionDegBy_stack s n ('D' :: 'E' :: 'G' :: '_' :: 'B' :: 'Y' :: arg)
      exact ⟨_, rfl, this, by rw [this]⟩

theorem queries_read_only_witness :
    ∃ o, LineInterpreter (textLine "IS_EQ") 3 [.coeff 1, .coeff 2] = some o ∧
      o.stack = [.coeff 1, .coeff 2] ∧ o.stack.length = [Poly.coeff 1, Poly.coeff 2].length :=
  (queries_read_only [.coeff 1, .coeff 2] 3).1 "IS_EQ" (by decide) (textLine "IS_EQ")
    (Or.inr rfl)

/-! ## The text of a numeric argument -/

theorem cstr_length_iff (l : List Char) :
    (cstr l).length = l.length ↔ ∀ c ∈ l, c ≠ NUL := by
  constructor
  · intro hn
    have he : cstr l = l := by
      unfold cstr at hn ⊢
      exact List.IsPrefix.eq_of_length (List.takeWhile_prefix _) hn
    intro x hx
    rw [← he] at hx
    unfold cstr at hx
    simpa using (List.mem_takeWhile_imp hx)
  · intro h
    rw [cstr_eq_self l h]

theorem takeWhile_digit_nil {arg : List Char} (h : (charAt arg 0).isDigit = false) :
    arg.takeWhile Char.isDigit = [] := by
  cases arg with
  | nil => rfl
  | cons c cs =>
    have hc : c.isDigit = false := h
    rw [List.takeWhile_cons_of_neg (by simp [hc])]

theorem digits_split_eq (arg : List Char) (h : (charAt arg 0).isDigit = true) :
    ∃ D R, arg = D ++ R ∧ arg.takeWhile Char.isDigit = D ∧ arg.dropWhile Char.isDigit = R ∧
      D ≠ [] ∧ (∀ c ∈ D, c.isDigit = true) ∧ (charAt R 0).isDigit = false := by
  refine ⟨arg.takeWhile Char.isDigit, arg.dropWhile Char.isDigit,
    (List.takeWhile_append_dropWhile _ _).symm, rfl, rfl, ?_, ?_, dropWhile_digit_head arg⟩
  · cases arg with
    | nil => revert h; decide
    | cons c cs =>
      have hc : c.isDigit = true := h
      rw [List.takeWhile_cons_of_pos hc]
      simp
  · intro c hc
    exact List.mem_takeWhile_imp hc

/-- The test of the end of the line, for a number that ends where `R` starts. -/
theorem badLineEnd_suffix (pre R : List Char) (hne : pre ≠ [])
    (hpre : ∀ c ∈ pre, c ≠ Char.ofNat 10) (h0 : ∀ c ∈ R, c ≠ NUL)
    (hnl : NewlineOnlyLast (pre ++ R)) :
    badLineEnd (pre ++ R) R = !(R == [] || R == [Char.ofNat 10]) := by
  unfold badLineEnd
  cases R with
  | nil =>
    rw [List.append_nil]
    have hlen : pre.length - 1 < pre.length := by
      have := List.length_pos.2 hne
      omega
    have hb : (charAt pre (pre.length - 1) == Char.ofNat 10) = false := by
      simpa using hpre _ (charAt_mem pre _ hlen)
    rw [hb]
    rfl
  | cons x r =>
    have hx0 : charAt (x :: r) 0 = x := rfl
    by_cases hx : x = Char.ofNat 10
    · subst hx
      have hr : r = [] := by
        cases r with
        | nil => rfl
        | cons y r2 =>
          exfalso
          apply hnl pre.length
          · simp
          · exact charAt_append_cons _ _ _
      subst hr
      have e : pre ++ [Char.ofNat 10] = pre ++ [Char.ofNat 10] := rfl
      rw [charAt_last]
      rfl
    · have hxn : x ≠ NUL := h0 x (List.mem_cons_self _ _)
      have h1 : (x != Char.ofNat 10) = true := by simpa using hx
      have h2 : (x != NUL) = true := by simpa using hxn
      have h3 : (x :: r == [Char.ofNat 10]) = false := by
        rw [beq_eq_false_iff_ne]
        intro he
        exact hx (List.cons.inj he).1
      have h4 : (x :: r == ([] : List Char)) = false := rfl
      rw [hx0, h1, h2, h3, h4]
      simp

theorem NewlineOnlyLast_assoc {a b c : List Char} (h : NewlineOnlyLast (a ++ (b ++ c))) :
    NewlineOnlyLast ((a ++ b) ++ c) := by
  rw [List.append_assoc]; exact h

theorem unsigned_validation (pre arg : List Char)
    (hpre : ∀ c ∈ pre, c ≠ Char.ofNat 10) (h0 : ∀ c ∈ arg, c ≠ NUL)
    (hnl : NewlineOnlyLast (pre ++ arg)) :
    (if arg = [] then none
      else if !(charAt arg 0).isDigit then none
      else if (strtoull arg).2.2 then none
      else if badLineEnd (pre ++ arg) (strtoull arg).2.1 then none
      else some (strtoull arg).1) = unsignedArg arg := by
  by_cases ha : arg = []
  · subst ha; rfl
  rw [if_neg ha]
  by_cases hd : (charAt arg 0).isDigit = true
  swap
  · have hd' : (charAt arg 0).isDigit = false := by simpa using hd
    unfold unsignedArg
    simp only [hd', takeWhile_digit_nil hd', Bool.not_false, if_true, List.isEmpty_nil,
      Bool.not_true, Bool.false_and, Bool.false_eq_true, if_false]
  obtain ⟨D, R, harg, hD, hR, hDne, hDall, hRh⟩ := digits_split_eq arg hd
  unfold unsignedArg
  simp only [hD, hR, hd, Bool.not_true, Bool.false_eq_true, if_false]
  subst harg
  have hDe : D.isEmpty = false := by
    cases D with
    | nil => exact absurd rfl hDne
    | cons _ _ => rfl
  rw [strtoull_digits D R hDne hDall hRh]
  by_cases hov : digitsVal D > 2 ^ 64 - 1
  · have hdec : decide (digitsVal D ≤ 2 ^ 64 - 1) = false := by
      simp only [decide_eq_false_iff_not]; omega
    simp only [hov, if_true, hDe, hdec, Bool.not_false, Bool.true_and, Bool.false_and,
      Bool.false_eq_true, if_false]
  · have hdec : decide (digitsVal D ≤ 2 ^ 64 - 1) = true := by
      simp only [decide_eq_true_eq]; omega
    have hbad := badLineEnd_suffix (pre ++ D) R (by simp [hDne])
      (by
        intro c hc
        rcases List.mem_append.1 hc with h | h
        · exact hpre c h
        · exact (isDigit_props (hDall c h)).2.2.2.2.2.2.2)
      (fun c hc => h0 c (List.mem_append_right _ hc)) (NewlineOnlyLast_assoc hnl)
    rw [List.append_assoc] at hbad
    simp only [hov, if_false, hDe, hdec, Bool.not_false, Bool.true_and, Bool.false_eq_true,
      hbad]
    cases (R == [] || R == [Char.ofNat 10]) <;> rfl

theorem unsignedArg_chars {arg : List Char} {k : Nat} (h : unsignedArg arg = some k) :
    ∀ c ∈ arg, c ≠ NUL := by
  unfold unsignedArg at h
  simp only [] at h
  split_ifs at h with hc
  simp only [Bool.and_eq_true, Bool.or_eq_true, beq_iff_eq] at hc
  intro c hcm
  rw [← List.takeWhile_append_dropWhile Char.isDigit arg] at hcm
  rcases List.mem_append.1 hcm with h1 | h1
  · exact (isDigit_props (List.mem_takeWhile_imp h1)).2.2.2.2.2.1
  · rcases hc.2 with h2 | h2
    · rw [h2] at h1; cases h1
    · rw [h2, List.mem_singleton] at h1; rw [h1]; decide

/-! ## The text of a signed argument -/

theorem signed_validation (pre arg : List Char)
    (hpre : ∀ c ∈ pre, c ≠ Char.ofNat 10) (h0 : ∀ c ∈ arg, c ≠ NUL)
    (hnl : NewlineOnlyLast (pre ++ arg)) :
    (if arg = [] then none
      else if !(charAt arg 0).isDigit && charAt arg 0 != '-' then none
      else if (strtol arg).2.2 then none
      else if badLineEnd (pre ++ arg) (strtol arg).2.1 then none
      else some (strtol arg).1) = signedArg arg := by
  by_cases ha : arg = []
  · subst ha; rfl
  rw [if_neg ha]
  by_cases hm : charAt arg 0 = '-'
  · -- a minus sign
    obtain ⟨body, rfl⟩ := charAt_cons hm (by decide)
    have hc0 : charAt ('-' :: body) 0 = '-' := rfl
    have hnd : (charAt ('-' :: body) 0).isDigit = false := rfl
    unfold signedArg
    simp only [hc0, hnd, beq_self_eq_true, if_true, List.drop_succ_cons, List.drop_zero,
      bne_self_eq_false, Bool.and_false, Bool.false_eq_true, if_false]
    by_cases hd : (charAt body 0).isDigit = true
    swap
    · have hd' : (charAt body 0).isDigit = false := by simpa using hd
      rw [strtol_minus_nodigit body hd']
      have hbad : badLineEnd (pre ++ '-' :: body) ('-' :: body) = true := by
        unfold badLineEnd
        rw [hc0]
        split_ifs <;> decide
      simp only [hbad, if_true, takeWhile_digit_nil hd', List.isEmpty_nil, Bool.not_true,
        Bool.false_and, Bool.false_eq_true, if_false]
    obtain ⟨D, R, harg, hD, hR, hDne, hDall, hRh⟩ := digits_split_eq body hd
    simp only [hD, hR]
    subst harg
    have hDe : D.isEmpty = false := by
      cases D with
      | nil => exact absurd rfl hDne
      | cons _ _ => rfl
    have hv0 : (0 : Int) ≤ (digitsVal D : Int) := Int.natCast_nonneg _
    rw [strtol_neg_digits D R hDne hDall hRh]
    have hdec2 : decide (-(digitsVal D : Int) ≤ 2 ^ 63 - 1) = true := by
      simp only [decide_eq_true_eq]; omega
    by_cases hov : -(digitsVal D : Int) < -2 ^ 63
    · have hdec : decide (-2 ^ 63 ≤ -(digitsVal D : Int)) = false := by
        simp only [decide_eq_false_iff_not]; omega
      simp only [hov, if_true, hDe, hdec, Bool.not_false, Bool.true_and, Bool.false_and,
        Bool.false_eq_true, if_false]
    · have hdec : decide (-2 ^ 63 ≤ -(digitsVal D : Int)) = true := by
        simp only [decide_eq_true_eq]; omega
      have hbad := badLineEnd_suffix (pre ++ '-' :: D) R (by simp)
        (by
          intro c hc
          rcases List.mem_append.1 hc with h | h
          · exact hpre c h
          · rcases List.mem_cons.1 h with h | h
            · rw [h]; decide
            · exact (isDigit_props (hDall c h)).2.2.2.2.2.2.2)
        (fun c hc => h0 c (List.mem_cons_of_mem _ (List.mem_append_right _ hc)))
        (by
          have : (pre ++ '-' :: D) ++ R = pre ++ '-' :: (D ++ R) := by simp
          rw [this]; exact hnl)
      have e : (pre ++ '-' :: D) ++ R = pre ++ '-' :: (D ++ R) := by simp
      rw [e] at hbad
      simp only [hov, if_false, hDe, hdec, hdec2, Bool.not_false, Bool.true_and,
        Bool.false_eq_true, hbad]
      cases (R == [] || R == [Char.ofNat 10]) <;> rfl
  · -- no sign
    have hm' : (charAt arg 0 == '-') = false := by simpa using hm
    have hm2 : (charAt arg 0 != '-') = true := by simpa using hm
    unfold signedArg
    simp only [hm', hm2, Bool.false_eq_true, if_false, Bool.and_true]
    by_cases hd : (charAt arg 0).isDigit = true
    swap
    · have hd' : (charAt arg 0).isDigit = false := by simpa using hd
      simp only [hd', takeWhile_digit_nil hd', Bool.not_false, if_true, List.isEmpty_nil,
        Bool.not_true, Bool.false_and, Bool.false_eq_true, if_false]
    obtain ⟨D, R, harg, hD, hR, hDne, hDall, hRh⟩ := digits_split_eq arg hd
    simp only [hD, hR, hd, Bool.not_true, Bool.false_eq_true, if_false]
    subst harg
    have hDe : D.isEmpty = false := by
      cases D with
      | nil => exact absurd rfl hDne
      | cons _ _ => rfl
    have hv0 : (0 : Int) ≤ (digitsVal D : Int) := Int.natCast_nonneg _
    rw [strtol_digits D R hDne hDall hRh]
    have hdec1 : decide (-2 ^ 63 ≤ (digitsVal D : Int)) = true := by
      simp only [decide_eq_true_eq]; omega
    by_cases hov : (digitsVal D : Int) > 2 ^ 63 - 1
    · have hdec : decide ((digitsVal D : Int) ≤ 2 ^ 63 - 1) = false := by
        simp only [decide_eq_false_iff_not]; omega
      simp only [hov, if_true, hDe, hdec, hdec1, Bool.not_false, Bool.true_and, Bool.false_and,
        Bool.false_eq_true, if_false]
    · have hdec : decide ((digitsVal D : Int) ≤ 2 ^ 63 - 1) = true := by
        simp only [decide_eq_true_eq]; omega
      have hbad := badLineEnd_suffix (pre ++ D) R (by simp [hDne])
        (by
          intro c hc
          rcases List.mem_append.1 hc with h | h
          · exact hpre c h
          · exact (isDigit_props (hDall c h)).2.2.2.2.2.2.2)
        (fun c hc => h0 c (List.mem_append_right _ hc)) (NewlineOnlyLast_assoc hnl)
      rw [List.append_assoc] at hbad
      simp only [hov, if_false, hDe, hdec, hdec1, Bool.not_false, Bool.true_and,
        Bool.false_eq_true, hbad]
      cases (R == [] || R == [Char.ofNat 10]) <;> rfl

theorem digits_tail_chars {body : List Char}
    (h : (body.dropWhile Char.isDigit == [] || body.dropWhile Char.isDigit == [Char.ofNat 10])
      = true) : ∀ c ∈ body, c ≠ NUL := by
  simp only [Bool.or_eq_true, beq_iff_eq] at h
  intro c hcm
  rw [← List.takeWhile_append_dropWhile Char.isDigit body] at hcm
  rcases List.mem_append.1 hcm with h1 | h1
  · exact (isDigit_props (List.mem_takeWhile_imp h1)).2.2.2.2.2.1
  · rcases h with h2 | h2
    · rw [h2] at h1; cases h1
    · rw [h2, List.mem_singleton] at h1; rw [h1]; decide

theorem signedArg_chars {arg : List Char} {x : Int} (h : signedArg arg = some x) :
    ∀ c ∈ arg, c ≠ NUL := by
  unfold signedArg at h
  by_cases hm : charAt arg 0 = '-'
  · obtain ⟨body, rfl⟩ := charAt_cons hm (by decide)
    have hc0 : (charAt ('-' :: body) 0 == '-') = true := rfl
    simp only [hc0, if_true, List.drop_succ_cons, List.drop_zero] at h
    split_ifs at h with hc
    simp only [Bool.and_eq_true] at hc
    intro c hcm
    rcases List.mem_cons.1 hcm with h1 | h1
    · rw [h1]; decide
    · exact digits_tail_chars hc.2 c h1
  · have hm' : (charAt arg 0 == '-') = false := by simpa using hm
    simp only [hm', Bool.false_eq_true, if_false] at h
    split_ifs at h with hc
    simp only [Bool.and_eq_true] at hc
    exact digits_tail_chars hc.2

/-! ## The handlers with an argument, on a line that has the space -/

theorem InstructionDegBy_space (arg : List Char) (s : List Poly) (n : Nat) :
    InstructionDegBy s n ('D' :: 'E' :: 'G' :: '_' :: 'B' :: 'Y' :: ' ' :: arg) =
      match (if arg = [] then none
        else if !(charAt arg 0).isDigit then none
        else if (strtoull arg).2.2 then none
        else if badLineEnd ('D' :: 'E' :: 'G' :: '_' :: 'B' :: 'Y' :: ' ' :: arg)
            (strtoull arg).2.1 then none
        else some (strtoull arg).1) with
      | some idx => DegByChecked s n idx
      | none => reportError s n "DEG BY WRONG VARIABLE" := by
  by_cases ha : arg = []
  · subst ha; rfl
  have hl : ¬ ('D' :: 'E' :: 'G' :: '_' :: 'B' :: 'Y' :: ' ' :: arg).length < 8 := by
    have := List.length_pos.2 ha
    simp only [List.length_cons]; omega
  have h6 : isSpaceC (charAt ('D' :: 'E' :: 'G' :: '_' :: 'B' :: 'Y' :: ' ' :: arg) 6)
      = true := rfl
  have h6' : (charAt ('D' :: 'E' :: 'G' :: '_' :: 'B' :: 'Y' :: ' ' :: arg) 6 != ' ')
      = false := rfl
  have h7 : charAt ('D' :: 'E' :: 'G' :: '_' :: 'B' :: 'Y' :: ' ' :: arg) 7 = charAt arg 0 := rfl
  have hd : List.drop 7 ('D' :: 'E' :: 'G' :: '_' :: 'B' :: 'Y' :: ' ' :: arg) = arg := rfl
  unfold InstructionDegBy DegByChecked
  simp only [hl, h6, h6', h7, hd, ha, if_false, Bool.not_true, Bool.false_eq_true,
    Bool.false_or]
  all_goals (split_ifs <;> first | rfl | (cases s <;> rfl))

theorem InstructionAt_space (arg : List Char) (s : List Poly) (n : Nat) :
    InstructionAt s n ('A' :: 'T' :: ' ' :: arg) =
      match (if arg = [] then none
        else if !(charAt arg 0).isDigit && charAt arg 0 != '-' then none
        else if (strtol arg).2.2 then none
        else if badLineEnd ('A' :: 'T' :: ' ' :: arg) (strtol arg).2.1 then none
        else some (strtol arg).1) with
      | some x => AtChecked s n x
      | none => reportError s n "AT WRONG VALUE" := by
  by_cases ha : arg = []
  · subst ha; rfl
  have hl : ¬ ('A' :: 'T' :: ' ' :: arg).length < 4 := by
    have := List.length_pos.2 ha
    simp only [List.length_cons]; omega
  have h2 : isSpaceC (charAt ('A' :: 'T' :: ' ' :: arg) 2) = true := rfl
  have h2' : (charAt ('A' :: 'T' :: ' ' :: arg) 2 != ' ') = false := rfl
  have h3 : charAt ('A' :: 'T' :: ' ' :: arg) 3 = charAt arg 0 := rfl
  have hd : List.drop 3 ('A' :: 'T' :: ' ' :: arg) = arg := rfl
  unfold InstructionAt AtChecked
  simp only [hl, h2, h2', h3, hd, ha, if_false, Bool.not_true, Bool.false_eq_true,
    Bool.false_or]
  all_goals (split_ifs <;> first | rfl | (cases s <;> rfl))

theorem InstructionCompose_space (arg : List Char) (s : List Poly) (n : Nat) :
    InstructionCompose s n ('C' :: 'O' :: 'M' :: 'P' :: 'O' :: 'S' :: 'E' :: ' ' :: arg) =
      match (if arg = [] then none
        else if !(charAt arg 0).isDigit then none
        else if (strtoull arg).2.2 then none
        else if badLineEnd ('C' :: 'O' :: 'M' :: 'P' :: 'O' :: 'S' :: 'E' :: ' ' :: arg)
            (strtoull arg).2.1 then none
        else some (strtoull arg).1) with
      | some k => ComposeChecked s n k
      | none => some (reportError s n "COMPOSE WRONG PARAMETER") := by
  by_cases ha : arg = []
  · subst ha; rfl
  have hl : ¬ ('C' :: 'O' :: 'M' :: 'P' :: 'O' :: 'S' :: 'E' :: ' ' :: arg).length < 9 := by
    have := List.length_pos.2 ha
    simp only [List.length_cons]; omega
  have h7 : isSpaceC (charAt ('C' :: 'O' :: 'M' :: 'P' :: 'O' :: 'S' :: 'E' :: ' ' :: arg) 7)
      = true := rfl
  have h7' : (charAt ('C' :: 'O' :: 'M' :: 'P' :: 'O' :: 'S' :: 'E' :: ' ' :: arg) 7 != ' ')
      = false := rfl
  have h8 : charAt ('C' :: 'O' :: 'M' :: 'P' :: 'O' :: 'S' :: 'E' :: ' ' :: arg) 8
      = charAt arg 0 := rfl
  have hd : List.drop 8 ('C' :: 'O' :: 'M' :: 'P' :: 'O' :: 'S' :: 'E' :: ' ' :: arg)
      = arg := rfl
  unfold InstructionCompose
  simp only [hl, h7, h7', h8, hd, ha, if_false, Bool.not_true, Bool.false_eq_true,
    Bool.false_or]
  by_cases c1 : (!(charAt arg 0).isDigit) = true
  · simp only [c1, if_true]
  simp only [c1, if_false, Bool.false_eq_true]
  by_cases c2 : (strtoull arg).2.2 = true
  · simp only [c2, if_true]
  simp only [c2, if_false, Bool.false_eq_true]
  by_cases c3 : badLineEnd ('C' :: 'O' :: 'M' :: 'P' :: 'O' :: 'S' :: 'E' :: ' ' :: arg)
      (strtoull arg).2.1 = true
  · simp only [c3, if_true]
  simp only [c3, if_false, Bool.false_eq_true]
  all_goals first | rfl | (unfold ComposeChecked; split_ifs <;> first | rfl | (cases s <;> rfl))

/-! ## The lines of the commands with an argument -/

theorem DEG_BY_line (arg : List Char) (n : Nat) (s : List Poly)
    (hnl : NewlineOnlyLast ("DEG_BY ".toList ++ arg)) :
    LineInterpreter ("DEG_BY ".toList ++ arg) n s =
      some (match unsignedArg arg with
        | some idx => DegByChecked s n idx
        | none => reportError s n "DEG BY WRONG VARIABLE") := by
  have e : "DEG_BY ".toList ++ arg = 'D' :: 'E' :: 'G' :: '_' :: 'B' :: 'Y' :: ' ' :: arg := rfl
  rw [e] at hnl ⊢
  rw [LineInterpreter_DEG_BY]
  by_cases h0 : ∀ c ∈ arg, c ≠ NUL
  · have hall : ∀ c ∈ 'D' :: 'E' :: 'G' :: '_' :: 'B' :: 'Y' :: ' ' :: arg, c ≠ NUL := by
      intro c hc
      simp only [List.mem_cons] at hc
      rcases hc with rfl | rfl | rfl | rfl | rfl | rfl | rfl | h
      any_goals decide
      exact h0 c h
    have hlen := (cstr_length_iff _).2 hall
    have hb : ((cstr ('D' :: 'E' :: 'G' :: '_' :: 'B' :: 'Y' :: ' ' :: arg)).length
        != ('D' :: 'E' :: 'G' :: '_' :: 'B' :: 'Y' :: ' ' :: arg).length) = false := by
      rw [hlen]; simp
    rw [hb]
    simp only [Bool.false_eq_true, if_false]
    rw [InstructionDegBy_space]
    have hv := unsigned_validation ['D', 'E', 'G', '_', 'B', 'Y', ' '] arg (by decide) h0 hnl
    simp only [List.cons_append, List.nil_append] at hv
    rw [hv]
  · have hlen : (cstr ('D' :: 'E' :: 'G' :: '_' :: 'B' :: 'Y' :: ' ' :: arg)).length
        ≠ ('D' :: 'E' :: 'G' :: '_' :: 'B' :: 'Y' :: ' ' :: arg).length := by
      intro h
      apply h0
      intro c hc
      exact (cstr_length_iff _).1 h c (by simp [hc])
    have hb : ((cstr ('D' :: 'E' :: 'G' :: '_' :: 'B' :: 'Y' :: ' ' :: arg)).length
        != ('D' :: 'E' :: 'G' :: '_' :: 'B' :: 'Y' :: ' ' :: arg).length) = true := by
      simpa using hlen
    have hsp : isSpaceC (charAt (' ' :: arg) 0) = true := rfl
    rw [hb, hsp]
    simp only [if_true]
    cases hu : unsignedArg arg with
    | none => rfl
    | some k => exact absurd (unsignedArg_chars hu) h0

theorem AT_line (arg : List Char) (n : Nat) (s : List Poly)
    (hnl : NewlineOnlyLast ("AT ".toList ++ arg)) :
    LineInterpreter ("AT ".toList ++ arg) n s =
      some (match signedArg arg with
        | some x => AtChecked s n x
        | none => reportError s n "AT WRONG VALUE") := by
  have e : "AT ".toList ++ arg = 'A' :: 'T' :: ' ' :: arg := rfl
  rw [e] at hnl ⊢
  rw [LineInterpreter_AT]
  by_cases h0 : ∀ c ∈ arg, c ≠ NUL
  · have hall : ∀ c ∈ 'A' :: 'T' :: ' ' :: arg, c ≠ NUL := by
      intro c hc
      simp only [List.mem_cons] at hc
      rcases hc with rfl | rfl | rfl | h
      any_goals decide
      exact h0 c h
    have hlen := (cstr_length_iff _).2 hall
    have hb : ((cstr ('A' :: 'T' :: ' ' :: arg)).length
        != ('A' :: 'T' :: ' ' :: arg).length) = false := by
      rw [hlen]; simp
    rw [hb]
    simp only [Bool.false_eq_true, if_false]
    rw [InstructionAt_space]
    have hv := signed_validation ['A', 'T', ' '] arg (by decide) h0 hnl
    simp only [List.cons_append, List.nil_append] at hv
    rw [hv]
  · have hlen : (cstr ('A' :: 'T' :: ' ' :: arg)).length
        ≠ ('A' :: 'T' :: ' ' :: arg).length := by
      intro h
      apply h0
      intro c hc
      exact (cstr_length_iff _).1 h c (by simp [hc])
    have hb : ((cstr ('A' :: 'T' :: ' ' :: arg)).length
        != ('A' :: 'T' :: ' ' :: arg).length) = true := by
      simpa using hlen
    have hsp : isSpaceC (charAt (' ' :: arg) 0) = true := rfl
    rw [hb, hsp]
    simp only [if_true]
    cases hu : signedArg arg with
    | none => rfl
    | some k => exact absurd (signedArg_chars hu) h0

theorem COMPOSE_line (arg : List Char) (n : Nat) (s : List Poly)
    (hnl : NewlineOnlyLast ("COMPOSE ".toList ++ arg)) :
    LineInterpreter ("COMPOSE ".toList ++ arg) n s =
      match unsignedArg arg with
      | some k => ComposeChecked s n k
      | none => some (reportError s n "COMPOSE WRONG PARAMETER") := by
  have e : "COMPOSE ".toList ++ arg
      = 'C' :: 'O' :: 'M' :: 'P' :: 'O' :: 'S' :: 'E' :: ' ' :: arg := rfl
  rw [e] at hnl ⊢
  rw [LineInterpreter_COMPOSE]
  by_cases h0 : ∀ c ∈ arg, c ≠ NUL
  · have hall : ∀ c ∈ 'C' :: 'O' :: 'M' :: 'P' :: 'O' :: 'S' :: 'E' :: ' ' :: arg, c ≠ NUL := by
      intro c hc
      simp only [List.mem_cons] at hc
      rcases hc with rfl | rfl | rfl | rfl | rfl | rfl | rfl | rfl | h
      any_goals decide
      exact h0 c h
    have hlen := (cstr_length_iff _).2 hall
    have hb : ((cstr ('C' :: 'O' :: 'M' :: 'P' :: 'O' :: 'S' :: 'E' :: ' ' :: arg)).length
        != ('C' :: 'O' :: 'M' :: 'P' :: 'O' :: 'S' :: 'E' :: ' ' :: arg).length) = false := by
      rw [hlen]; simp
    rw [hb]
    simp only [Bool.false_eq_true, if_false]
    rw [InstructionCompose_space]
    have hv := unsigned_validation ['C', 'O', 'M', 'P', 'O', 'S', 'E', ' '] arg (by decide)
      h0 hnl
    simp only [List.cons_append, List.nil_append] at hv
    rw [hv]
  · have hlen : (cstr ('C' :: 'O' :: 'M' :: 'P' :: 'O' :: 'S' :: 'E' :: ' ' :: arg)).length
        ≠ ('C' :: 'O' :: 'M' :: 'P' :: 'O' :: 'S' :: 'E' :: ' ' :: arg).length := by
      intro h
      apply h0
      intro c hc
      exact (cstr_length_iff _).1 h c (by simp [hc])
    have hb : ((cstr ('C' :: 'O' :: 'M' :: 'P' :: 'O' :: 'S' :: 'E' :: ' ' :: arg)).length
        != ('C' :: 'O' :: 'M' :: 'P' :: 'O' :: 'S' :: 'E' :: ' ' :: arg).length) = true := by
      simpa using hlen
    have hsp : isSpaceC (charAt (' ' :: arg) 0) = true := rfl
    rw [hb, hsp]
    simp only [if_true]
    cases hu : unsignedArg arg with
    | none => rfl
    | some k => exact absurd (unsignedArg_chars hu) h0

/-! ## Validation of the numeric argument -/

theorem errorText_ne_nil (n : Nat) (w : String) : errorText n w ≠ [] := by
  simp [errorText]

theorem errorText_inj {n : Nat} {a b : String} (h : errorText n a = errorText n b) :
    a.toList = b.toList := by
  unfold errorText at h
  exact List.append_cancel_left (List.append_cancel_right h)

theorem report_not_wrong_command (s : List Poly) (n : Nat) (w : String)
    (hw : (w.toList == "WRONG COMMAND".toList) = false) :
    (reportError s n w).err ≠ errorText n "WRONG COMMAND" := by
  intro h
  have := errorText_inj h
  rw [this] at hw
  simp at hw

theorem DegByChecked_not_wrong_command (s : List Poly) (n idx : Nat) :
    (DegByChecked s n idx).err ≠ errorText n "WRONG COMMAND" := by
  cases s with
  | nil => exact report_not_wrong_command _ _ _ (by decide)
  | cons p rest => exact fun h => errorText_ne_nil _ _ h.symm

theorem AtChecked_not_wrong_command (s : List Poly) (n : Nat) (x : Int) :
    (AtChecked s n x).err ≠ errorText n "WRONG COMMAND" := by
  cases s with
  | nil => exact report_not_wrong_command _ _ _ (by decide)
  | cons p rest => exact fun h => errorText_ne_nil _ _ h.symm

theorem ComposeChecked_not_wrong_command (s : List Poly) (n k : Nat) (o : Outcome)
    (h : ComposeChecked s n k = some o) : o.err ≠ errorText n "WRONG COMMAND" := by
  unfold ComposeChecked at h
  split_ifs at h
  · cases h; exact report_not_wrong_command _ _ _ (by decide)
  · cases s with
    | nil => cases h
    | cons p rest => cases h; exact fun h => errorText_ne_nil _ _ h.symm

/-- C22: on a line that starts with `DEG_BY `, `AT ` or `COMPOSE ` (the keyword and one
space) and has its newline, if any, at the end, the handler goes on to the test of the stack
exactly when the rest of the line is one or more digits (for `AT`, after an optional single
`-`) whose value fits 64 bits unsigned (signed for `AT`), followed by nothing but an
optional final newline, and then with that value; in every other case it reports
`DEG BY WRONG VARIABLE`, `AT WRONG VALUE` or `COMPOSE WRONG PARAMETER` respectively. No such
line reports `WRONG COMMAND`. -/
theorem argument_validation (arg : List Char) (n : Nat) (s : List Poly) :
    (NewlineOnlyLast ("DEG_BY ".toList ++ arg) →
      LineInterpreter ("DEG_BY ".toList ++ arg) n s =
        some (match unsignedArg arg with
          | some idx => DegByChecked s n idx
          | none => reportError s n "DEG BY WRONG VARIABLE") ∧
      ∀ o, LineInterpreter ("DEG_BY ".toList ++ arg) n s = some o →
        o.err ≠ errorText n "WRONG COMMAND") ∧
    (NewlineOnlyLast ("AT ".toList ++ arg) →
      LineInterpreter ("AT ".toList ++ arg) n s =
        some (match signedArg arg with
          | some x => AtChecked s n x
          | none => reportError s n "AT WRONG VALUE") ∧
      ∀ o, LineInterpreter ("AT ".toList ++ arg) n s = some o →
        o.err ≠ errorText n "WRONG COMMAND") ∧
    (NewlineOnlyLast ("COMPOSE ".toList ++ arg) →
      LineInterpreter ("COMPOSE ".toList ++ arg) n s =
        (match unsignedArg arg with
          | some k => ComposeChecked s n k
          | none => some (reportError s n "COMPOSE WRONG PARAMETER")) ∧
      ∀ o, LineInterpreter ("COMPOSE ".toList ++ arg) n s = some o →
        o.err ≠ errorText n "WRONG COMMAND") := by
  refine ⟨fun hnl => ?_, fun hnl => ?_, fun hnl => ?_⟩
  · have h := DEG_BY_line arg n s hnl
    refine ⟨h, ?_⟩
    intro o ho
    rw [h] at ho
    cases hu : unsignedArg arg with
    | none =>
      rw [hu] at ho; cases ho
      exact report_not_wrong_command _ _ _ (by decide)
    | some k =>
      rw [hu] at ho; cases ho
      exact DegByChecked_not_wrong_command _ _ _
  · have h := AT_line arg n s hnl
    refine ⟨h, ?_⟩
    intro o ho
    rw [h] at ho
    cases hu : signedArg arg with
    | none =>
      rw [hu] at ho; cases ho
      exact report_not_wrong_command _ _ _ (by decide)
    | some k =>
      rw [hu] at ho; cases ho
      exact AtChecked_not_wrong_command _ _ _
  · have h := COMPOSE_line arg n s hnl
    refine ⟨h, ?_⟩
    intro o ho
    rw [h] at ho
    cases hu : unsignedArg arg with
    | none =>
      rw [hu] at ho; cases ho
      exact report_not_wrong_command _ _ _ (by decide)
    | some k =>
      rw [hu] at ho
      exact ComposeChecked_not_wrong_command _ _ _ _ ho

theorem argument_validation_witness :
    LineInterpreter ("DEG_BY ".toList ++ ['0', '1', Char.ofNat 10]) 2 [.sum [.mk (.coeff 1) 4]] =
      some (match unsignedArg ['0', '1', Char.ofNat 10] with
        | some idx => DegByChecked [.sum [.mk (.coeff 1) 4]] 2 idx
        | none => reportError [.sum [.mk (.coeff 1) 4]] 2 "DEG BY WRONG VARIABLE") :=
  ((argument_validation ['0', '1', Char.ofNat 10] 2 [.sum [.mk (.coeff 1) 4]]).1 (by
    intro i hi
    have h10 : ("DEG_BY ".toList ++ ['0', '1', Char.ofNat 10]).length = 10 := rfl
    have : i < 9 := by omega
    interval_cases i <;> decide)).1

/-! ## The argument is validated before the stack is tested -/

theorem unsignedArg_le {arg : List Char} {k : Nat} (h : unsignedArg arg = some k) :
    k ≤ 2 ^ 64 - 1 := by
  unfold unsignedArg at h
  simp only [] at h
  split_ifs at h with hc
  simp only [Bool.and_eq_true, decide_eq_true_eq] at hc
  cases h
  exact hc.1.2

theorem DEG_BY_nospace (rest : List Char) (n : Nat) (s : List Poly)
    (h : charAt rest 0 ≠ ' ') :
    LineInterpreter ("DEG_BY".toList ++ rest) n s = some (reportError s n
      (if !isSpaceC (charAt rest 0)
          && (decide (2 ≤ rest.length) || (cstr rest).length != rest.length)
        then "WRONG COMMAND" else "DEG BY WRONG VARIABLE")) := by
  have e : "DEG_BY".toList ++ rest = 'D' :: 'E' :: 'G' :: '_' :: 'B' :: 'Y' :: rest := rfl
  have hc : cstr ('D' :: 'E' :: 'G' :: '_' :: 'B' :: 'Y' :: rest)
      = 'D' :: 'E' :: 'G' :: '_' :: 'B' :: 'Y' :: cstr rest := rfl
  have h6 : charAt ('D' :: 'E' :: 'G' :: '_' :: 'B' :: 'Y' :: rest) 6 = charAt rest 0 := rfl
  have hne : (charAt rest 0 != ' ') = true := by simpa using h
  rw [e, LineInterpreter_DEG_BY, hc]
  simp only [List.length_cons]
  by_cases hn : (cstr rest).length = rest.length
  · have g1 : ((cstr rest).length + 1 + 1 + 1 + 1 + 1 + 1
        != rest.length + 1 + 1 + 1 + 1 + 1 + 1) = false := by simp [hn]
    have g2 : ((cstr rest).length != rest.length) = false := by simp [hn]
    simp only [g1, g2, Bool.false_eq_true, if_false, InstructionDegBy, List.length_cons, h6,
      hne, Bool.true_or, if_true, Bool.or_false]
    by_cases hl : 2 ≤ rest.length
    · have g3 : ¬ (rest.length + 1 + 1 + 1 + 1 + 1 + 1 < 8) := by omega
      simp only [if_neg g3, decide_eq_true hl, Bool.and_true]
      cases isSpaceC (charAt rest 0) <;> rfl
    · have g3 : rest.length + 1 + 1 + 1 + 1 + 1 + 1 < 8 := by omega
      simp only [if_pos g3, decide_eq_false hl, Bool.and_false, Bool.false_eq_true, if_false]
  · have g1 : ((cstr rest).length + 1 + 1 + 1 + 1 + 1 + 1
        != rest.length + 1 + 1 + 1 + 1 + 1 + 1) = true := by simp [hn]
    have g2 : ((cstr rest).length != rest.length) = true := by simp [hn]
    simp only [g1, g2, Bool.or_true, Bool.and_true, if_true]
    cases isSpaceC (charAt rest 0) <;> rfl

theorem AT_nospace (rest : List Char) (n : Nat) (s : List Poly)
    (h : charAt rest 0 ≠ ' ') :
    LineInterpreter ("AT".toList ++ rest) n s = some (reportError s n
      (if !isSpaceC (charAt rest 0)
          && (decide (2 ≤ rest.length) || (cstr rest).length != rest.length)
        then "WRONG COMMAND" else "AT WRONG VALUE")) := by
  have e : "AT".toList ++ rest = 'A' :: 'T' :: rest := rfl
  have hc : cstr ('A' :: 'T' :: rest)
      = 'A' :: 'T' :: cstr rest := rfl
  have h6 : charAt ('A' :: 'T' :: rest) 2 = charAt rest 0 := rfl
  have hne : (charAt rest 0 != ' ') = true := by simpa using h
  rw [e, LineInterpreter_AT, hc]
  simp only [List.length_cons]
  by_cases hn : (cstr rest).length = rest.length
  · have g1 : ((cstr rest).length + 1 + 1
        != rest.length + 1 + 1) = false := by simp [hn]
    have g2 : ((cstr rest).length != rest.length) = false := by simp [hn]
    simp only [g1, g2, Bool.false_eq_true, if_false, InstructionAt, List.length_cons, h6,
      hne, Bool.true_or, if_true, Bool.or_false]
    by_cases hl : 2 ≤ rest.length
    · have g3 : ¬ (rest.length + 1 + 1 < 4) := by omega
      simp only [if_neg g3, decide_eq_true hl, Bool.and_true]
      cases isSpaceC (charAt rest 0) <;> rfl
    · have g3 : rest.length + 1 + 1 < 4 := by omega
      simp only [if_pos g3, decide_eq_false hl, Bool.and_false, Bool.false_eq_true, if_false]
  · have g1 : ((cstr rest).length + 1 + 1
        != rest.length + 1 + 1) = true := by simp [hn]
    have g2 : ((cstr rest).length != rest.length) = true := by simp [hn]
    simp only [g1, g2, Bool.or_true, Bool.and_true, if_true]
    cases isSpaceC (charAt rest 0) <;> rfl

theorem COMPOSE_nospace (rest : List Char) (n : Nat) (s : List Poly)
    (h : charAt rest 0 ≠ ' ') :
    LineInterpreter ("COMPOSE".toList ++ rest) n s = some (reportError s n
      (if !isSpaceC (charAt rest 0)
          && (decide (2 ≤ rest.length) || (cstr rest).length != rest.length)
        then "WRONG COMMAND" else "COMPOSE WRONG PARAMETER")) := by
  have e : "COMPOSE".toList ++ rest = 'C' :: 'O' :: 'M' :: 'P' :: 'O' :: 'S' :: 'E' :: rest := rfl
  have hc : cstr ('C' :: 'O' :: 'M' :: 'P' :: 'O' :: 'S' :: 'E' :: rest)
      = 'C' :: 'O' :: 'M' :: 'P' :: 'O' :: 'S' :: 'E' :: cstr rest := rfl
  have h6 : charAt ('C' :: 'O' :: 'M' :: 'P' :: 'O' :: 'S' :: 'E' :: rest) 7 = charAt rest 0 := rfl
  have hne : (charAt rest 0 != ' ') = true := by simpa using h
  rw [e, LineInterpreter_COMPOSE, hc]
  simp only [List.length_cons]
  by_cases hn : (cstr rest).length = rest.length
  · have g1 : ((cstr rest).length + 1 + 1 + 1 + 1 + 1 + 1 + 1
        != rest.length + 1 + 1 + 1 + 1 + 1 + 1 + 1) = false := by simp [hn]
    have g2 : ((cstr rest).length != rest.length) = false := by simp [hn]
    simp only [g1, g2, Bool.false_eq_true, if_false, InstructionCompose, List.length_cons, h6,
      hne, Bool.true_or, if_true, Bool.or_false]
    by_cases hl : 2 ≤ rest.length
    · have g3 : ¬ (rest.length + 1 + 1 + 1 + 1 + 1 + 1 + 1 < 9) := by omega
      simp only [if_neg g3, decide_eq_true hl, Bool.and_true]
      cases isSpaceC (charAt rest 0) <;> rfl
    · have g3 : rest.length + 1 + 1 + 1 + 1 + 1 + 1 + 1 < 9 := by omega
      simp only [if_pos g3, decide_eq_false hl, Bool.and_false, Bool.false_eq_true, if_false]
  · have g1 : ((cstr rest).length + 1 + 1 + 1 + 1 + 1 + 1 + 1
        != rest.length + 1 + 1 + 1 + 1 + 1 + 1 + 1) = true := by simp [hn]
    have g2 : ((cstr rest).length != rest.length) = true := by simp [hn]
    simp only [g1, g2, Bool.or_true, Bool.and_true, if_true]
    cases isSpaceC (charAt rest 0) <;> rfl

theorem report_ne_underflow (s : List Poly) (n : Nat) (b : Bool) (w : String)
    (hw : (w.toList == "STACK UNDERFLOW".toList) = false) :
    some (reportError s n (if b = true then "WRONG COMMAND" else w))
      ≠ some (reportError s n "STACK UNDERFLOW") := by
  intro h
  have h1 := congrArg Outcome.err (Option.some.inj h)
  have h2 := errorText_inj h1
  cases b
  · simp only [Bool.false_eq_true, if_false] at h2
    rw [h2] at hw
    simp at hw
  · simp only [if_true] at h2
    revert h2
    decide

theorem space_head {rest : List Char} (h : charAt rest 0 = ' ') : ∃ arg, rest = ' ' :: arg := by
  cases rest with
  | nil => exact absurd h (by decide)
  | cons x r =>
    have : charAt (x :: r) 0 = x := rfl
    rw [this] at h
    exact ⟨r, by rw [h]⟩

theorem malformed_if (rest : List Char) (w : String) (h : charAt rest 0 = ' ') :
    (if (!isSpaceC (charAt rest 0)
        && (decide (2 ≤ rest.length) || (cstr rest).length != rest.length)) = true
      then "WRONG COMMAND" else w) = w := by
  rw [h]
  rfl

/-- C27, as the code has it: the commands with a numeric argument validate the argument
before they test the stack. Take a line that starts with `DEG_BY`, `AT` or `COMPOSE` and has
its newline, if any, at the end. When the argument is well-formed (the keyword is followed by
one space and a number that `unsignedArg`, for `AT` `signedArg`, accepts), `STACK UNDERFLOW`
is reported by `DEG_BY` and `AT` on the empty stack and by `COMPOSE k` on a non-empty stack
of fewer than `k + 1` polynomials. In every other case, the argument being missing or
malformed, the line reports on every stack `DEG BY WRONG VARIABLE`, `AT WRONG VALUE` or
`COMPOSE WRONG PARAMETER` respectively, or `WRONG COMMAND` when the character after the
keyword is not white space and either is followed by another character or the line holds a
terminator; it never reports `STACK UNDERFLOW`. -/
theorem argument_checked_first (rest : List Char) (n : Nat) :
    (NewlineOnlyLast ("DEG_BY".toList ++ rest) →
      (∀ arg idx, rest = ' ' :: arg → unsignedArg arg = some idx →
        LineInterpreter ("DEG_BY".toList ++ rest) n []
          = some (reportError [] n "STACK UNDERFLOW")) ∧
      ((¬ ∃ arg idx, rest = ' ' :: arg ∧ unsignedArg arg = some idx) → ∀ s,
        LineInterpreter ("DEG_BY".toList ++ rest) n s = some (reportError s n
          (if !isSpaceC (charAt rest 0)
              && (decide (2 ≤ rest.length) || (cstr rest).length != rest.length)
            then "WRONG COMMAND" else "DEG BY WRONG VARIABLE")) ∧
        LineInterpreter ("DEG_BY".toList ++ rest) n s
          ≠ some (reportError s n "STACK UNDERFLOW"))) ∧
    (NewlineOnlyLast ("AT".toList ++ rest) →
      (∀ arg x, rest = ' ' :: arg → signedArg arg = some x →
        LineInterpreter ("AT".toList ++ rest) n []
          = some (reportError [] n "STACK UNDERFLOW")) ∧
      ((¬ ∃ arg x, rest = ' ' :: arg ∧ signedArg arg = some x) → ∀ s,
        LineInterpreter ("AT".toList ++ rest) n s = some (reportError s n
          (if !isSpaceC (charAt rest 0)
              && (decide (2 ≤ rest.length) || (cstr rest).length != rest.length)
            then "WRONG COMMAND" else "AT WRONG VALUE")) ∧
        LineInterpreter ("AT".toList ++ rest) n s
          ≠ some (reportError s n "STACK UNDERFLOW"))) ∧
    (NewlineOnlyLast ("COMPOSE".toList ++ rest) →
      (∀ arg k, rest = ' ' :: arg → unsignedArg arg = some k →
        ∀ s : List Poly, s ≠ [] → s.length < k + 1 →
        LineInterpreter ("COMPOSE".toList ++ rest) n s
          = some (reportError s n "STACK UNDERFLOW")) ∧
      ((¬ ∃ arg k, rest = ' ' :: arg ∧ unsignedArg arg = some k) → ∀ s,
        LineInterpreter ("COMPOSE".toList ++ rest) n s = some (reportError s n
          (if !isSpaceC (charAt rest 0)
              && (decide (2 ≤ rest.length) || (cstr rest).length != rest.length)
            then "WRONG COMMAND" else "COMPOSE WRONG PARAMETER")) ∧
        LineInterpreter ("COMPOSE".toList ++ rest) n s
          ≠ some (reportError s n "STACK UNDERFLOW"))) := by
  refine ⟨fun hnl => ⟨?_, ?_⟩, fun hnl => ⟨?_, ?_⟩, fun hnl => ⟨?_, ?_⟩⟩
  · intro arg idx hr hu
    subst hr
    have e : "DEG_BY".toList ++ ' ' :: arg = "DEG_BY ".toList ++ arg := rfl
    rw [e] at hnl ⊢
    rw [DEG_BY_line arg n [] hnl, hu]
    rfl
  · intro hno s
    have key : LineInterpreter ("DEG_BY".toList ++ rest) n s = some (reportError s n
        (if !isSpaceC (charAt rest 0)
            && (decide (2 ≤ rest.length) || (cstr rest).length != rest.length)
          then "WRONG COMMAND" else "DEG BY WRONG VARIABLE")) := by
      by_cases hsp : charAt rest 0 = ' '
      · obtain ⟨arg, rfl⟩ := space_head hsp
        have e : "DEG_BY".toList ++ ' ' :: arg = "DEG_BY ".toList ++ arg := rfl
        rw [e] at hnl ⊢
        rw [DEG_BY_line arg n s hnl, malformed_if _ _ hsp]
        cases hu : unsignedArg arg with
        | none => rfl
        | some k => exact absurd ⟨arg, k, rfl, hu⟩ hno
      · exact DEG_BY_nospace rest n s hsp
    refine ⟨key, ?_⟩
    rw [key]
    exact report_ne_underflow s n _ _ (by decide)
  · intro arg x hr hu
    subst hr
    have e : "AT".toList ++ ' ' :: arg = "AT ".toList ++ arg := rfl
    rw [e] at hnl ⊢
    rw [AT_line arg n [] hnl, hu]
    rfl
  · intro hno s
    have key : LineInterpreter ("AT".toList ++ rest) n s = some (reportError s n
        (if !isSpaceC (charAt rest 0)
            && (decide (2 ≤ rest.length) || (cstr rest).length != rest.length)
          then "WRONG COMMAND" else "AT WRONG VALUE")) := by
      by_cases hsp : charAt rest 0 = ' '
      · obtain ⟨arg, rfl⟩ := space_head hsp
        have e : "AT".toList ++ ' ' :: arg = "AT ".toList ++ arg := rfl
        rw [e] at hnl ⊢
        rw [AT_line arg n s hnl, malformed_if _ _ hsp]
        cases hu : signedArg arg with
        | none => rfl
        | some k => exact absurd ⟨arg, k, rfl, hu⟩ hno
      · exact AT_nospace rest n s hsp
    refine ⟨key, ?_⟩
    rw [key]
    exact report_ne_underflow s n _ _ (by decide)
  · intro arg k hr hu s hne hlt
    subst hr
    have e : "COMPOSE".toList ++ ' ' :: arg = "COMPOSE ".toList ++ arg := rfl
    rw [e] at hnl ⊢
    rw [COMPOSE_line arg n s hnl, hu]
    have hk := unsignedArg_le hu
    simp only [ComposeChecked]
    cases s with
    | nil => exact absurd rfl hne
    | cons p rest =>
      simp only [List.length_cons] at hlt ⊢
      have : (rest.length + 1 + 2 ^ 64 - 1) % 2 ^ 64 < k := by omega
      rw [if_pos this]
  · intro hno s
    have key : LineInterpreter ("COMPOSE".toList ++ rest) n s = some (reportError s n
        (if !isSpaceC (charAt rest 0)
            && (decide (2 ≤ rest.length) || (cstr rest).length != rest.length)
          then "WRONG COMMAND" else "COMPOSE WRONG PARAMETER")) := by
      by_cases hsp : charAt rest 0 = ' '
      · obtain ⟨arg, rfl⟩ := space_head hsp
        have e : "COMPOSE".toList ++ ' ' :: arg = "COMPOSE ".toList ++ arg := rfl
        rw [e] at hnl ⊢
        rw [COMPOSE_line arg n s hnl, malformed_if _ _ hsp]
        cases hu : unsignedArg arg with
        | none => rfl
        | some k => exact absurd ⟨arg, k, rfl, hu⟩ hno
      · exact COMPOSE_nospace rest n s hsp
    refine ⟨key, ?_⟩
    rw [key]
    exact report_ne_underflow s n _ _ (by decide)

theorem argument_checked_first_witness :
    LineInterpreter ("DEG_BY".toList ++ [' ', '7', Char.ofNat 10]) 3 []
      = some (reportError [] 3 "STACK UNDERFLOW") :=
  ((argument_checked_first [' ', '7', Char.ofNat 10] 3).1 (by
    intro i hi
    have h9 : ("DEG_BY".toList ++ [' ', '7', Char.ofNat 10]).length = 9 := rfl
    have : i < 8 := by omega
    interval_cases i <;> decide)).1 ['7', Char.ofNat 10] 7 rfl (by decide)

/-- C27 as stated fails: on the empty stack `DEG_BY x` and `DEG_BY` without an argument
report `DEG BY WRONG VARIABLE`, `AT x` reports `AT WRONG VALUE`, and `COMPOSE x` on a stack
of one polynomial reports `COMPOSE WRONG PARAMETER`; none of them reports
`STACK UNDERFLOW`. -/
theorem argument_checked_first_counterexample :
    LineInterpreter (textLine "DEG_BY x") 1 []
      = some (reportError [] 1 "DEG BY WRONG VARIABLE") ∧
    LineInterpreter (textLine "DEG_BY") 1 []
      = some (reportError [] 1 "DEG BY WRONG VARIABLE") ∧
    LineInterpreter (textLine "AT x") 1 [] = some (reportError [] 1 "AT WRONG VALUE") ∧
    LineInterpreter (textLine "COMPOSE x") 1 [.coeff 1]
      = some (reportError [.coeff 1] 1 "COMPOSE WRONG PARAMETER") ∧
    (errorText 1 "DEG BY WRONG VARIABLE" == errorText 1 "STACK UNDERFLOW") = false ∧
    (errorText 1 "AT WRONG VALUE" == errorText 1 "STACK UNDERFLOW") = false ∧
    (errorText 1 "COMPOSE WRONG PARAMETER" == errorText 1 "STACK UNDERFLOW") = false := by
  refine ⟨rfl, rfl, rfl, rfl, by decide, by decide, by decide⟩

/-! ## Lines that are no command -/

theorem accepted_is_word (line : List Char) (h0 : ∀ x ∈ line, x ≠ NUL)
    (hnl : NewlineOnlyLast line) (hsz : line.count '(' < 2147483647) (q : Poly)
    (rest : List Char)
    (hc : IsCorrect line = true) (hp : ParsePoly line = some (q, rest)) :
    ∃ l : Lit, l.wf true = true ∧ (line = l.text ∨ line = l.text ++ [Char.ofNat 10]) ∧
      q = l.value := by
  have hu : IsCorrectLoopUnbounded line 0 0 0 = true := by
    rw [← IsCorrect_eq_unbounded line hsz]
    exact hc
  have hpo := IsCorrectLoopUnbounded_plusThenOpen line 0 0 0 h0 hu
  obtain ⟨l, hwf, hline, hq, ht⟩ := (parse_inv _).1 line q rest hpo hp
  refine ⟨l, hwf, ?_, hq⟩
  cases rest with
  | nil => left; rw [hline, List.append_nil]
  | cons x r =>
    right
    have hx : charAt (x :: r) 0 = x := rfl
    simp only [isTerm, hx, Bool.or_eq_true, beq_iff_eq] at ht
    rcases ht with (hx1 | hx1) | hx1
    · exfalso
      subst hx1
      have hcl := correct_lit.1 l hwf (',' :: r) 0 0 0 (le_refl _) (le_refl _) rfl
      rw [hline, hcl, IsCorrectLoopUnbounded_comma_reject] at hu
      cases hu
    · subst hx1
      cases r with
      | nil => exact hline
      | cons y r2 =>
        exfalso
        apply hnl l.text.length
        · rw [hline]; simp
        · rw [hline]; exact charAt_append_cons _ _ _
    · exfalso
      apply h0 x _ hx1
      rw [hline]; simp

theorem InterpretPoly_push (line : List Char) (n : Nat) (s : List Poly) (q : Poly) :
    InterpretPoly line n s = ⟨q :: s, [], []⟩ ↔
      IsCorrect line = true ∧ ∃ rest, ParsePoly line = some (q, rest) := by
  unfold InterpretPoly
  cases hc : IsCorrect line with
  | false =>
    simp only [Bool.not_false, if_true, Bool.false_eq_true, false_and, iff_false]
    intro h
    have := congrArg Outcome.err h
    exact errorText_ne_nil _ _ this
  | true =>
    simp only [Bool.not_true, Bool.false_eq_true, if_false, true_and]
    cases hp : ParsePoly line with
    | none =>
      constructor
      · intro h
        have := congrArg Outcome.err h
        exact absurd this (errorText_ne_nil _ _)
      · rintro ⟨rest, h⟩; cases h
    | some r =>
      obtain ⟨p, rest⟩ := r
      simp only [Outcome.mk.injEq, List.cons.injEq, and_true, Option.some.injEq,
        Prod.mk.injEq]
      constructor
      · intro h; exact ⟨rest, h, rfl⟩
      · rintro ⟨_, h, _⟩; exact h

theorem InterpretPoly_cases (line : List Char) (n : Nat) (s : List Poly) :
    InterpretPoly line n s = reportError s n "WRONG POLY" ∨
      ∃ q, InterpretPoly line n s = ⟨q :: s, [], []⟩ := by
  unfold InterpretPoly
  split_ifs
  · exact Or.inl rfl
  · cases hp : ParsePoly line with
    | none => exact Or.inl rfl
    | some r => exact Or.inr ⟨r.1, rfl⟩

theorem literal_line (line : List Char) (n : Nat) (s : List Poly)
    (h1 : charAt line 0 ≠ '#') (h2 : charAt line 0 ≠ Char.ofNat 10)
    (hc : (charAt line 0).isAlpha = false) :
    LineInterpreter line n s =
      if (cstr line).length = line.length then some (InterpretPoly line n s)
      else some (reportError s n "WRONG POLY") := by
  by_cases hn : (cstr line).length = line.length
  · rw [if_pos hn]
    cases line with
    | nil => rfl
    | cons c r => exact LineInterpreter_literal c r ((cstr_length_iff _).1 hn) h1 h2 hc n s
  · rw [if_neg hn]
    exact LineInterpreter_nul line n s h1 h2 hc hn

theorem word_line_count {l : Lit} (hwf : l.wf true = true) {line : List Char}
    (hl : line = l.text ∨ line = l.text ++ [Char.ofNat 10]) : line.count '(' = l.parens := by
  rcases hl with h | h
  · rw [h, Lit.count_open.1 l hwf]
  · rw [h, List.count_append, Lit.count_open.1 l hwf]
    rfl

/-- C23, as the code has it: a line whose first character is not `#`, not a newline and not
a letter is tried as a polynomial. Either the polynomial is pushed and nothing is reported,
or the stack is kept and the error is exactly `ERROR <line> WRONG POLY`. It is pushed
exactly when the line has no terminator inside, passes `IsCorrect` and is parsed by
`ParsePoly`: every word of the grammar (an exponent 0 may be written `-0`) with at most
`2^31 - 1` opening parentheses, with or without the final newline, is pushed, and a pushed
line with fewer than `2^31 - 1` opening parentheses and its newline at the end is such a
word. -/
theorem literal_fallback (line : List Char) (n : Nat) (s : List Poly)
    (h1 : charAt line 0 ≠ '#') (h2 : charAt line 0 ≠ Char.ofNat 10)
    (hc : (charAt line 0).isAlpha = false) :
    (LineInterpreter line n s = some (reportError s n "WRONG POLY") ∨
      ∃ q, LineInterpreter line n s = some ⟨q :: s, [], []⟩) ∧
    (∀ q, LineInterpreter line n s = some ⟨q :: s, [], []⟩ ↔
      ((cstr line).length = line.length ∧ IsCorrect line = true ∧
        ∃ rest, ParsePoly line = some (q, rest))) ∧
    (IsLooseWordLine line → line.count '(' ≤ 2147483647 →
      ∃ q, LineInterpreter line n s = some ⟨q :: s, [], []⟩) ∧
    (NewlineOnlyLast line → line.count '(' < 2147483647 →
      (∃ q, LineInterpreter line n s = some ⟨q :: s, [], []⟩) → IsLooseWordLine line) := by
  have hL := literal_line line n s h1 h2 hc
  have hiff : ∀ q, LineInterpreter line n s = some ⟨q :: s, [], []⟩ ↔
      ((cstr line).length = line.length ∧ IsCorrect line = true ∧
        ∃ rest, ParsePoly line = some (q, rest)) := by
    intro q
    rw [hL]
    by_cases hn : (cstr line).length = line.length
    · rw [if_pos hn, Option.some.injEq, InterpretPoly_push]
      simp only [hn, true_and]
    · rw [if_neg hn]
      simp only [hn, false_and, iff_false, Option.some.injEq]
      intro h
      have := congrArg Outcome.err h
      exact errorText_ne_nil _ _ this
  refine ⟨?_, hiff, ?_, ?_⟩
  · rw [hL]
    by_cases hn : (cstr line).length = line.length
    · rw [if_pos hn]
      rcases InterpretPoly_cases line n s with h | ⟨q, h⟩
      · exact Or.inl (by rw [h])
      · exact Or.inr ⟨q, by rw [h]⟩
    · rw [if_neg hn]; exact Or.inl rfl
  · rintro ⟨l, hwf, hl⟩ hsz
    have hpar : l.parens ≤ 2147483647 := by
      rw [← word_line_count hwf hl]; exact hsz
    rcases hl with h | h
    · refine ⟨l.value, ?_⟩
      have := (lit_line l hwf [] (Or.inl rfl) n s).2.2
      rw [List.append_nil, if_pos hpar] at this
      rw [h]; exact this
    · refine ⟨l.value, ?_⟩
      have := (lit_line l hwf _ (Or.inr rfl) n s).2.2
      rw [if_pos hpar] at this
      rw [h]; exact this
  · rintro hnl hsz ⟨q, hq⟩
    obtain ⟨hn, hcor, rest, hp⟩ := (hiff q).1 hq
    obtain ⟨l, hwf, hor, _⟩ := accepted_is_word line ((cstr_length_iff _).1 hn) hnl hsz q rest
      hcor hp
    exact ⟨l, hwf, hor⟩

theorem literal_fallback_witness :
    LineInterpreter (textLine "(1,2") 4 [] = some (reportError [] 4 "WRONG POLY") ∨
      ∃ q, LineInterpreter (textLine "(1,2") 4 [] = some ⟨q :: [], [], []⟩ :=
  (literal_fallback (textLine "(1,2") 4 [] (by decide) (by decide) (by decide)).1

/-- C23 as stated fails for a line that starts with a letter: `FOO` is not blank, no comment
and none of the fifteen keywords, and the error reported is `WRONG COMMAND`, not
`WRONG POLY`. -/
theorem literal_fallback_counterexample :
    LineInterpreter (textLine "FOO") 1 []
      = some ⟨[], [], "ERROR 1 WRONG COMMAND".toList ++ [Char.ofNat 10]⟩ ∧
    (errorText 1 "WRONG COMMAND" == errorText 1 "WRONG POLY") = false ∧
    (charAt (textLine "FOO") 0 == '#' || charAt (textLine "FOO") 0 == Char.ofNat 10) = false ∧
    (["ZERO", "IS_COEFF", "IS_ZERO", "CLONE", "ADD", "MUL", "NEG", "SUB", "IS_EQ", "DEG",
      "PRINT", "POP", "DEG_BY", "AT", "COMPOSE"].any
        (fun kw => strncmpEq (textLine "FOO") kw.toList kw.length)) = false := by
  refine ⟨rfl, by decide, by decide, by decide⟩

end IPP
